import Mathlib

/-!
The codec cores of png2jpeg (DEFLATE decompressor, PNG decoder, baseline
JPEG encoder) as a shallow embedding, followed by the verified properties.

Bytes (`uint8_t`) are natural numbers below 256; every store into a byte is
written with an explicit `% 256`.  `uint32_t` arithmetic is written with an
explicit `% 2 ^ 32`.  C++ exceptions and undefined behaviour are values of
`Err` returned through `Except`.
-/

/-- Failure kinds of the C++ program: one constructor per `throw` site, plus
`undefinedBehaviour` for reads or writes outside a container and
`lengthError` for a `std::vector` constructed with an impossible size. -/
inductive Err where
  | unexpectedEnd
  | dataTooShort
  | invalidStoredBlock
  | invalidHuffmanCode
  | invalidBlockType
  | invalidSignature
  | interlaced
  | bitDepth
  | colorType
  | unknownFilter
  | outOfRange
  | lengthError
  | undefinedBehaviour
  | outOfFuel
  deriving DecidableEq, Repr

namespace PNGDecoder

/-- Embedding of `PNGDecoder::paethPredictor(int a, int b, int c)`; the result is cast to
`uint8_t`. -/
def paethPredictor (a b c : Int) : Nat :=
  let p := a + b - c
  let pa := (p - a).natAbs
  let pb := (p - b).natAbs
  let pc := (p - c).natAbs
  if pa ≤ pb ∧ pa ≤ pc then (a % 256).toNat
  else if pb ≤ pc then (b % 256).toNat
  else (c % 256).toNat

/-- The PNG reference predictor as the specification words it: with
`p = a + b - c`, the candidate with the smallest distance to `p`, the first
of `a`, `b`, `c` in case of a tie. -/
def paethReference (a b c : Int) : Int :=
  let p := a + b - c
  let best := min (|p - a|) (min (|p - b|) (|p - c|))
  if |p - a| = best then a
  else if |p - b| = best then b
  else c

end PNGDecoder

namespace JPEGEncoder

/-- Embedding of `JPEGEncoder::BitWriter`: the output vector it appends to, the 32-bit
accumulator and the count of buffered bits. -/
structure BitWriter where
  output : List Nat
  buffer : Nat
  bitCount : Nat
  deriving DecidableEq, Repr

/-- The constructor `BitWriter(out)`. -/
def BitWriter.new (out : List Nat) : BitWriter :=
  { output := out, buffer := 0, bitCount := 0 }

/-- The `while (bitCount >= 8)` loop of `writeBits`; the first argument
bounds the number of iterations. -/
def BitWriter.drain : Nat → BitWriter → BitWriter
  | 0, w => w
  | fuel + 1, w =>
    if w.bitCount ≥ 8 then
      let bitCount := w.bitCount - 8
      let byte := (w.buffer >>> bitCount) % 256
      let output := w.output ++ [byte]
      let output := if byte = 0xFF then output ++ [0x00] else output
      BitWriter.drain fuel { output := output, buffer := w.buffer, bitCount := bitCount }
    else w

/-- Embedding of `BitWriter::writeBits(uint16_t bits, int count)`. -/
def BitWriter.writeBits (w : BitWriter) (bits count : Nat) : BitWriter :=
  BitWriter.drain (w.bitCount + count)
    { output := w.output
      buffer := ((w.buffer <<< count) % 2 ^ 32) ||| (bits % 2 ^ 16)
      bitCount := w.bitCount + count }

/-- Embedding of `BitWriter::flush()`. -/
def BitWriter.flush (w : BitWriter) : BitWriter :=
  if w.bitCount > 0 then
    let buffer := (w.buffer <<< (8 - w.bitCount)) % 2 ^ 32
    let byte := buffer % 256
    let output := w.output ++ [byte]
    let output := if byte = 0xFF then output ++ [0x00] else output
    { output := output, buffer := buffer, bitCount := w.bitCount }
  else w

/-- The `while (absVal > 0)` loop of `getCategory`; `int` has 32 bits, so 32
iterations always suffice. -/
def categoryLoop : Nat → Nat → Nat → Nat
  | 0, _, cat => cat
  | fuel + 1, absVal, cat =>
    if absVal > 0 then categoryLoop fuel (absVal >>> 1) (cat + 1) else cat

/-- Embedding of `JPEGEncoder::getCategory(int value)`. -/
def getCategory (value : Int) : Nat :=
  if value = 0 then 0 else categoryLoop 32 value.natAbs 0

/-- Embedding of `JPEGEncoder::ZIGZAG`. -/
def ZIGZAG : List Nat :=
  [ 0,  1,  8, 16,  9,  2,  3, 10,
   17, 24, 32, 25, 18, 11,  4,  5,
   12, 19, 26, 33, 40, 48, 41, 34,
   27, 20, 13,  6,  7, 14, 21, 28,
   35, 42, 49, 56, 57, 50, 43, 36,
   29, 22, 15, 23, 30, 37, 44, 51,
   58, 59, 52, 45, 38, 31, 39, 46,
   53, 60, 61, 54, 47, 55, 62, 63]

/-- Embedding of `JPEGEncoder::luminanceQuantTable`. -/
def luminanceQuantTable : List Int :=
  [16, 11, 10, 16, 24, 40, 51, 61,
   12, 12, 14, 19, 26, 58, 60, 55,
   14, 13, 16, 24, 40, 57, 69, 56,
   14, 17, 22, 29, 51, 87, 80, 62,
   18, 22, 37, 56, 68, 109, 103, 77,
   24, 35, 55, 64, 81, 104, 113, 92,
   49, 64, 78, 87, 103, 121, 120, 101,
   72, 92, 95, 98, 112, 100, 103, 99]

/-- Embedding of `JPEGEncoder::chrominanceQuantTable`. -/
def chrominanceQuantTable : List Int :=
  [17, 18, 24, 47, 99, 99, 99, 99,
   18, 21, 26, 66, 99, 99, 99, 99,
   24, 26, 56, 99, 99, 99, 99, 99,
   47, 66, 99, 99, 99, 99, 99, 99,
   99, 99, 99, 99, 99, 99, 99, 99,
   99, 99, 99, 99, 99, 99, 99, 99,
   99, 99, 99, 99, 99, 99, 99, 99,
   99, 99, 99, 99, 99, 99, 99, 99]

/-- The `scale` computed at the top of `encode`; `/` on C++ `int` truncates
towards zero. -/
def qualityScale (quality : Int) : Int :=
  if quality < 50 then Int.tdiv 5000 quality else 200 - quality * 2

/-- One iteration of the table scaling loop of `encode`:
`std::max(1, std::min(255, (q * scale + 50) / 100))`. -/
def scaleEntry (q scale : Int) : Int :=
  max 1 (min 255 (Int.tdiv (q * scale + 50) 100))

/-- Embedding of `scaledLumQuant` as filled by the loop in `encode`. -/
def scaledLumQuant (quality : Int) : List Int :=
  luminanceQuantTable.map (fun q => scaleEntry q (qualityScale quality))

/-- Embedding of `scaledChromQuant` as filled by the loop in `encode`. -/
def scaledChromQuant (quality : Int) : List Int :=
  chrominanceQuantTable.map (fun q => scaleEntry q (qualityScale quality))

/-- The clamp of the specification: `x` limited to the interval `[lo, hi]`. -/
def clampSpec (x lo hi : Int) : Int :=
  if x < lo then lo else if hi < x then hi else x

/-- A sequence of `writeBits(bits, count)` calls, in order. -/
def BitWriter.writeAll (w : BitWriter) (calls : List (Nat × Nat)) : BitWriter :=
  calls.foldl (fun acc c => acc.writeBits c.1 c.2) w

/-- Byte stuffing as the specification states it: every byte `0xFF` of the
sequence is immediately followed by a byte `0x00`. -/
def Stuffed (l : List Nat) : Prop :=
  ∀ i, l[i]? = some 0xFF → l[i + 1]? = some 0x00

/-- The scale factor as the specification writes it, with the mathematical
(floor) division. -/
def scaleSpec (quality : Int) : Int :=
  if quality < 50 then 5000 / quality else 200 - 2 * quality

end JPEGEncoder

namespace Deflate

/-- Embedding of `Deflate::BitReader`: the byte vector it reads and the position
`(byte_pos, bit_pos)`. -/
structure BitReader where
  data : List Nat
  byte_pos : Nat
  bit_pos : Nat
  deriving DecidableEq, Repr

/-- The loop of `BitReader::readBits`: `n` iterations remain, `i` is the loop
counter and `result` the `uint32_t` accumulator. -/
def BitReader.readBitsLoop : Nat → Nat → Nat → BitReader → Except Err (Nat × BitReader)
  | 0, _, result, r => .ok (result, r)
  | n + 1, i, result, r =>
    if r.byte_pos ≥ r.data.length then .error Err.unexpectedEnd
    else
      let result := (result ||| ((((r.data.getD r.byte_pos 0) >>> r.bit_pos) &&& 1) <<< i)) % 2 ^ 32
      let bit_pos := r.bit_pos + 1
      if bit_pos = 8 then
        BitReader.readBitsLoop n (i + 1) result
          { data := r.data, byte_pos := r.byte_pos + 1, bit_pos := 0 }
      else
        BitReader.readBitsLoop n (i + 1) result
          { data := r.data, byte_pos := r.byte_pos, bit_pos := bit_pos }

/-- Embedding of `BitReader::readBits(int count)`. -/
def BitReader.readBits (r : BitReader) (count : Nat) : Except Err (Nat × BitReader) :=
  BitReader.readBitsLoop count 0 0 r

/-- Embedding of `BitReader::alignToByte()`. -/
def BitReader.alignToByte (r : BitReader) : BitReader :=
  if r.bit_pos ≠ 0 then { data := r.data, byte_pos := r.byte_pos + 1, bit_pos := 0 } else r

/-- Embedding of `Deflate::HuffmanTree`.  Code lengths are never negative in the program
(they come from unsigned bit reads and constant tables); `codes` holds `-1`
for an unused symbol. -/
structure HuffmanTree where
  codes : List Int
  lengths : List Nat
  maxBits : Nat
  deriving DecidableEq, Repr

/-- The constructor `HuffmanTree()`. -/
def HuffmanTree.empty : HuffmanTree :=
  { codes := [], lengths := [], maxBits := 0 }

/-- Embedding of `std::vector::resize(n, v)`. -/
def vectorResize {α : Type} (l : List α) (n : Nat) (v : α) : List α :=
  l.take n ++ List.replicate (n - l.length) v

/-- First loop of `build`: the largest code length. -/
def HuffmanTree.maxLength (codeLengths : List Nat) : Nat :=
  codeLengths.foldl (fun m len => if len > m then len else m) 0

/-- Second loop of `build`: `blCount[len]++` for every positive length. -/
def HuffmanTree.countLengths (codeLengths : List Nat) (maxBits : Nat) : List Nat :=
  codeLengths.foldl
    (fun bl len => if len > 0 then bl.set len (bl.getD len 0 + 1) else bl)
    (List.replicate (maxBits + 1) 0)

/-- Third loop of `build`, for `bits` running up to `maxBits`: `n` iterations
remain. -/
def HuffmanTree.nextCodeLoop (blCount : List Nat) :
    Nat → Nat → Nat → List Nat → List Nat
  | 0, _, _, nextCode => nextCode
  | n + 1, bits, code, nextCode =>
    let code := (code + blCount.getD (bits - 1) 0) <<< 1
    HuffmanTree.nextCodeLoop blCount n (bits + 1) code (nextCode.set bits code)

/-- Last loop of `build`: `codes[n] = nextCode[len]++` for every symbol with
a nonzero length. -/
def HuffmanTree.assignCodes :
    List Nat → Nat → List Int → List Nat → List Int × List Nat
  | [], _, codes, nextCode => (codes, nextCode)
  | len :: rest, n, codes, nextCode =>
    if len ≠ 0 then
      HuffmanTree.assignCodes rest (n + 1) (codes.set n (nextCode.getD len 0 : Int))
        (nextCode.set len (nextCode.getD len 0 + 1))
    else
      HuffmanTree.assignCodes rest (n + 1) codes nextCode

/-- Embedding of `HuffmanTree::build(codeLengths)`. -/
def HuffmanTree.build (t : HuffmanTree) (codeLengths : List Nat) : HuffmanTree :=
  let maxBits := HuffmanTree.maxLength codeLengths
  if maxBits = 0 then { codes := t.codes, lengths := t.lengths, maxBits := 0 }
  else
    let blCount := HuffmanTree.countLengths codeLengths maxBits
    let nextCode :=
      HuffmanTree.nextCodeLoop blCount maxBits 1 0 (List.replicate (maxBits + 1) 0)
    let codes := vectorResize t.codes codeLengths.length (-1)
    { codes := (HuffmanTree.assignCodes codeLengths 0 codes nextCode).1
      lengths := codeLengths
      maxBits := maxBits }

/-- The scan of `decode` that looks for the symbol of length `len` whose rank
among the symbols of that length is `target`; `i` is the symbol index and `j`
the rank counter. -/
def HuffmanTree.findSymbol (len : Nat) (target : Int) : List Nat → Nat → Int → Option Nat
  | [], _, _ => none
  | l :: rest, i, j =>
    if l = len then
      if j = target then some i
      else HuffmanTree.findSymbol len target rest (i + 1) (j + 1)
    else HuffmanTree.findSymbol len target rest (i + 1) j

/-- The `for (len = 1; len <= maxBits; len++)` loop of `decode`: `n`
iterations remain. -/
def HuffmanTree.decodeLoop (t : HuffmanTree) :
    Nat → Nat → Nat → Nat → BitReader → Except Err (Nat × BitReader)
  | 0, _, _, _, _ => .error Err.invalidHuffmanCode
  | n + 1, len, code, first, r =>
    match r.readBits 1 with
    | .error e => .error e
    | .ok (bit, r) =>
      let code := code ||| bit
      let count := t.lengths.count len
      let found :=
        if (code : Int) - (first : Int) < (count : Int) then
          HuffmanTree.findSymbol len ((code : Int) - (first : Int)) t.lengths 0 0
        else none
      match found with
      | some i => .ok (i, r)
      | none => HuffmanTree.decodeLoop t n (len + 1) (code <<< 1) ((first + count) <<< 1) r

/-- Embedding of `HuffmanTree::decode(reader)`. -/
def HuffmanTree.decode (t : HuffmanTree) (r : BitReader) : Except Err (Nat × BitReader) :=
  HuffmanTree.decodeLoop t t.maxBits 1 0 0 r

/-- Embedding of `Deflate::buildFixedTrees`. -/
def buildFixedTrees : HuffmanTree × HuffmanTree :=
  let litLenLengths :=
    List.replicate 144 8 ++ List.replicate 112 9 ++ List.replicate 24 7 ++ List.replicate 8 8
  (HuffmanTree.empty.build litLenLengths, HuffmanTree.empty.build (List.replicate 32 5))

/-- Table `lengthBase` of `decodeBlock`, one list per source line. -/
def lengthBase : List Nat :=
  [3, 4, 5, 6, 7, 8, 9, 10, 11, 13, 15, 17, 19, 23, 27, 31] ++
  [35, 43, 51, 59, 67, 83, 99, 115, 131, 163, 195, 227, 258]

/-- Table `lengthExtra` of `decodeBlock`, one list per source line. -/
def lengthExtra : List Nat :=
  [0, 0, 0, 0, 0, 0, 0, 0, 1, 1, 1, 1, 2, 2, 2, 2] ++
  [3, 3, 3, 3, 4, 4, 4, 4, 5, 5, 5, 5, 0]

/-- Table `distBase` of `decodeBlock`, one list per source line. -/
def distBase : List Nat :=
  [1, 2, 3, 4, 5, 7, 9, 13, 17, 25, 33, 49, 65, 97, 129, 193] ++
  [257, 385, 513, 769, 1025, 1537, 2049, 3073, 4097, 6145] ++
  [8193, 12289, 16385, 24577]

/-- Table `distExtra` of `decodeBlock`, one list per source line. -/
def distExtra : List Nat :=
  [0, 0, 0, 0, 1, 1, 2, 2, 3, 3, 4, 4, 5, 5, 6, 6] ++
  [7, 7, 8, 8, 9, 9, 10, 10, 11, 11, 12, 12, 13, 13]

/-- The back-reference copy loop of `decodeBlock`:
`output.push_back(output[start + i])` for `i < length`; a read outside the
vector is undefined behaviour. -/
def copyMatch (start : Nat) : Nat → Nat → List Nat → Except Err (List Nat)
  | 0, _, output => .ok output
  | n + 1, i, output =>
    match output[start + i]? with
    | none => .error Err.undefinedBehaviour
    | some b => copyMatch start n (i + 1) (output ++ [b])

/-- Embedding of `Deflate::decodeBlock`: the `while (true)` loop, bounded by `fuel`
iterations.  Indexing one of the four constant tables past its end, and a
distance larger than the output produced so far, are undefined behaviour. -/
def decodeBlock : Nat → BitReader → HuffmanTree → HuffmanTree → List Nat →
    Except Err (BitReader × List Nat)
  | 0, _, _, _, _ => .error Err.outOfFuel
  | fuel + 1, r, litLen, dist, output =>
    match litLen.decode r with
    | .error e => .error e
    | .ok (symbol, r) =>
      if symbol < 256 then decodeBlock fuel r litLen dist (output ++ [symbol % 256])
      else if symbol = 256 then .ok (r, output)
      else
        let symbol := symbol - 257
        match lengthBase[symbol]?, lengthExtra[symbol]? with
        | some lb, some le =>
          match r.readBits le with
          | .error e => .error e
          | .ok (extra, r) =>
            let length := lb + extra
            match dist.decode r with
            | .error e => .error e
            | .ok (distSymbol, r) =>
              match distBase[distSymbol]?, distExtra[distSymbol]? with
              | some db, some de =>
                match r.readBits de with
                | .error e => .error e
                | .ok (dextra, r) =>
                  let distance := db + dextra
                  if distance > output.length then .error Err.undefinedBehaviour
                  else
                    match copyMatch (output.length - distance) length 0 output with
                    | .error e => .error e
                    | .ok output => decodeBlock fuel r litLen dist output
              | _, _ => .error Err.undefinedBehaviour
        | _, _ => .error Err.undefinedBehaviour

/-- The copy loop of a stored block: `output.push_back(deflateData[byte_pos++])`
for `i < len`; a read past the end of the data is undefined behaviour. -/
def copyStored (data : List Nat) : Nat → Nat → List Nat → Except Err (Nat × List Nat)
  | 0, byte_pos, output => .ok (byte_pos, output)
  | n + 1, byte_pos, output =>
    match data[byte_pos]? with
    | none => .error Err.undefinedBehaviour
    | some b => copyStored data n (byte_pos + 1) (output ++ [b])

/-- Table `codeLengthOrder` of `decompress`. -/
def codeLengthOrder : List Nat :=
  [16, 17, 18, 0, 8, 7, 9, 6, 10, 5, 11, 4, 12, 3, 13, 2, 14, 1, 15]

/-- The loop of `decompress` that reads `hclen` three-bit code-length-code
lengths: `n` iterations remain, `i` is the loop counter. -/
def readCodeLengthLengths : Nat → Nat → BitReader → List Nat →
    Except Err (BitReader × List Nat)
  | 0, _, r, cll => .ok (r, cll)
  | n + 1, i, r, cll =>
    match r.readBits 3 with
    | .error e => .error e
    | .ok (v, r) =>
      match codeLengthOrder[i]? with
      | none => .error Err.undefinedBehaviour
      | some k => readCodeLengthLengths n (i + 1) r (cll.set k v)

/-- The `while (allLengths.size() < hlit + hdist)` loop of `decompress`,
bounded by `fuel` iterations; `allLengths.back()` on an empty vector is
undefined behaviour. -/
def readAllLengths (tree : HuffmanTree) (target : Nat) :
    Nat → BitReader → List Nat → Except Err (BitReader × List Nat)
  | 0, r, allLengths =>
    if allLengths.length < target then .error Err.outOfFuel else .ok (r, allLengths)
  | fuel + 1, r, allLengths =>
    if allLengths.length < target then
      match tree.decode r with
      | .error e => .error e
      | .ok (symbol, r) =>
        if symbol < 16 then readAllLengths tree target fuel r (allLengths ++ [symbol])
        else if symbol = 16 then
          match r.readBits 2 with
          | .error e => .error e
          | .ok (v, r) =>
            match allLengths.getLast? with
            | none => .error Err.undefinedBehaviour
            | some value =>
              readAllLengths tree target fuel r (allLengths ++ List.replicate (v + 3) value)
        else if symbol = 17 then
          match r.readBits 3 with
          | .error e => .error e
          | .ok (v, r) =>
            readAllLengths tree target fuel r (allLengths ++ List.replicate (v + 3) 0)
        else if symbol = 18 then
          match r.readBits 7 with
          | .error e => .error e
          | .ok (v, r) =>
            readAllLengths tree target fuel r (allLengths ++ List.replicate (v + 11) 0)
        else readAllLengths tree target fuel r allLengths
    else .ok (r, allLengths)

/-- The `while (!finalBlock)` loop of `decompress` over `deflateData`,
bounded by `fuel` iterations (the same bound is handed to the loops
inside a block). -/
def blockLoop (deflateData : List Nat) :
    Nat → BitReader → List Nat → Except Err (List Nat)
  | 0, _, _ => .error Err.outOfFuel
  | fuel + 1, r, output =>
    match r.readBits 1 with
    | .error e => .error e
    | .ok (bfinal, r) =>
      let finalBlock := bfinal ≠ 0
      match r.readBits 2 with
      | .error e => .error e
      | .ok (blockType, r) =>
        let next : Except Err (BitReader × List Nat) :=
          if blockType = 0 then
            let r := r.alignToByte
            if r.byte_pos + 4 > deflateData.length then .error Err.invalidStoredBlock
            else
              let len := (deflateData.getD r.byte_pos 0
                ||| (deflateData.getD (r.byte_pos + 1) 0 <<< 8)) % 2 ^ 16
              match copyStored deflateData len (r.byte_pos + 4) output with
              | .error e => .error e
              | .ok (byte_pos, output) =>
                .ok ({ data := r.data, byte_pos := byte_pos, bit_pos := r.bit_pos }, output)
          else if blockType = 1 then
            decodeBlock (fuel + 1) r buildFixedTrees.1 buildFixedTrees.2 output
          else if blockType = 2 then
            match r.readBits 5 with
            | .error e => .error e
            | .ok (vlit, r) =>
              let hlit := vlit + 257
              match r.readBits 5 with
              | .error e => .error e
              | .ok (vdist, r) =>
                let hdist := vdist + 1
                match r.readBits 4 with
                | .error e => .error e
                | .ok (vclen, r) =>
                  let hclen := vclen + 4
                  match readCodeLengthLengths hclen 0 r (List.replicate 19 0) with
                  | .error e => .error e
                  | .ok (r, codeLengthLengths) =>
                    let codeLengthTree := HuffmanTree.empty.build codeLengthLengths
                    match readAllLengths codeLengthTree (hlit + hdist)
                        (fuel + 1 + hlit + hdist) r [] with
                    | .error e => .error e
                    | .ok (r, allLengths) =>
                      let litLenLengths := allLengths.take hlit
                      let distLengths := allLengths.drop hlit
                      let litLen := HuffmanTree.empty.build litLenLengths
                      let dist := HuffmanTree.empty.build distLengths
                      decodeBlock (fuel + 1) r litLen dist output
          else .error Err.invalidBlockType
        match next with
        | .error e => .error e
        | .ok (r, output) =>
          if finalBlock then .ok output else blockLoop deflateData fuel r output

/-- Embedding of `Deflate::decompress(data)`.  Every iteration of the block loop reads at
least three bits and every iteration of the literal/length loop at least one,
so `8 * size + 1` iterations are never exhausted.  For 2 ≤ size < 6 the
iterator range `[begin + 2, end - 4)` is invalid: undefined behaviour. -/
def decompress (data : List Nat) : Except Err (List Nat) :=
  if data.length < 2 then .error Err.dataTooShort
  else if data.length < 6 then .error Err.undefinedBehaviour
  else
    let deflateData := (data.drop 2).take (data.length - 6)
    blockLoop deflateData (8 * deflateData.length + 1)
      { data := deflateData, byte_pos := 0, bit_pos := 0 } []

end Deflate

namespace Deflate

/-- A stored block as the specification describes it: a header byte, `LEN`
as two little-endian bytes, two `NLEN` bytes, and the raw chunk. -/
structure StoredBlock where
  hdr : Nat
  nlen0 : Nat
  nlen1 : Nat
  chunk : List Nat
  deriving DecidableEq, Repr

/-- The bytes of one stored block. -/
def StoredBlock.bytes (b : StoredBlock) : List Nat :=
  [b.hdr, b.chunk.length % 256, b.chunk.length / 256 % 256, b.nlen0, b.nlen1] ++ b.chunk

/-- A well-formed sequence of stored blocks: at least one block, every
header byte has `BTYPE = 00` (bits 1 and 2 clear), `BFINAL` (bit 0) is set on
the last block only, and every chunk has at most 65535 bytes. -/
def StoredBlock.WellFormed : List StoredBlock → Prop
  | [] => False
  | [b] => b.hdr % 2 = 1 ∧ (b.hdr / 2) % 4 = 0 ∧ b.chunk.length ≤ 65535
  | b :: c :: rest =>
    b.hdr % 2 = 0 ∧ (b.hdr / 2) % 4 = 0 ∧ b.chunk.length ≤ 65535 ∧
      StoredBlock.WellFormed (c :: rest)

/-- The payload of a sequence of stored blocks: the chunks, concatenated. -/
def StoredBlock.payload (blocks : List StoredBlock) : List Nat :=
  (blocks.map StoredBlock.chunk).flatten

/-- A zlib-wrapped stream of stored blocks: two header bytes, the blocks,
and the trailer. -/
def storedStream (h0 h1 : Nat) (blocks : List StoredBlock) (trailer : List Nat) : List Nat :=
  [h0, h1] ++ (blocks.map StoredBlock.bytes).flatten ++ trailer

end Deflate

namespace Deflate

/-- The canonical first code of each length for the length vector `L`:
`firstCode L 1 = 0` and `firstCode L (k + 1) = (firstCode L k + count k) * 2`
(lengths 0 are not counted). -/
def firstCode (L : List Nat) : Nat → Nat
  | 0 => 0
  | k + 1 => (firstCode L k + (if k = 0 then 0 else L.count k)) * 2

/-- The `n` low bits of `c`, most significant first. -/
def msbBits (c : Nat) : Nat → List Nat
  | 0 => []
  | n + 1 => (c / 2 ^ n % 2) :: msbBits c n

/-- The next `n` bits the reader delivers, one `readBits(1)` call each, and
the reader after them. -/
def BitReader.deliver : Nat → BitReader → Except Err (List Nat × BitReader)
  | 0, r => .ok ([], r)
  | n + 1, r =>
    match r.readBits 1 with
    | .error e => .error e
    | .ok (b, r) =>
      match BitReader.deliver n r with
      | .error e => .error e
      | .ok (bs, r) => .ok (b :: bs, r)

/-- The position of a reader, in bits from the start of its data. -/
def BitReader.bitOffset (r : BitReader) : Nat :=
  8 * r.byte_pos + r.bit_pos

/-- Completeness of a length vector as the specification states it: the sum
over the symbols with a nonzero length of `2 ^ (maxBits - L[i])` equals
`2 ^ maxBits`. -/
def Complete (L : List Nat) : Prop :=
  ((L.filter (fun l => 0 < l)).map (fun l => 2 ^ (HuffmanTree.maxLength L - l))).sum
    = 2 ^ HuffmanTree.maxLength L

end Deflate

namespace Deflate

/-- The part of the Kraft sum of `L` contributed by the lengths `1..k`, with
weights `2 ^ (M - l)`. -/
def kraftUpTo (L : List Nat) (M k : Nat) : Nat :=
  ((L.filter (fun l => 0 < l ∧ l ≤ k)).map (fun l => 2 ^ (M - l))).sum

end Deflate

/-- Embedding of `struct Pixel`. -/
structure Pixel where
  r : Nat
  g : Nat
  b : Nat
  deriving DecidableEq, Repr

/-- Embedding of `class Image`: `width_`, `height_` and the row-major `pixels_`. -/
structure Image where
  width_ : Nat
  height_ : Nat
  pixels_ : List Pixel
  deriving DecidableEq, Repr

namespace Image

/-- The constructor `Image(width, height)`: `pixels_(width * height)`, the
product taken in `uint32_t`. -/
def new (width height : Nat) : Image :=
  { width_ := width, height_ := height
    pixels_ := List.replicate ((width * height) % 2 ^ 32) ⟨0, 0, 0⟩ }

/-- Embedding of `Image::at(x, y)` as a read; the index `y * width_ + x` is computed in
`uint32_t`. -/
def «at» (img : Image) (x y : Nat) : Except Err Pixel :=
  if x ≥ img.width_ ∨ y ≥ img.height_ then .error Err.outOfRange
  else
    match img.pixels_[(y * img.width_ + x) % 2 ^ 32]? with
    | none => .error Err.undefinedBehaviour
    | some p => .ok p

/-- A store through the reference returned by `Image::at(x, y)`. -/
def setAt (img : Image) (x y : Nat) (p : Pixel) : Except Err Image :=
  if x ≥ img.width_ ∨ y ≥ img.height_ then .error Err.outOfRange
  else if (y * img.width_ + x) % 2 ^ 32 < img.pixels_.length then
    .ok { width_ := img.width_, height_ := img.height_
          pixels_ := img.pixels_.set ((y * img.width_ + x) % 2 ^ 32) p }
  else .error Err.undefinedBehaviour

end Image

namespace PNGDecoder

/-- Embedding of `PNGDecoder::readBigEndian32` on the four bytes it reads. -/
def readBigEndian32 (d0 d1 d2 d3 : Nat) : Nat :=
  ((d0 <<< 24) ||| (d1 <<< 16) ||| (d2 <<< 8) ||| d3) % 2 ^ 32

/-- The PNG signature checked by `verifySignature`. -/
def signature : List Nat := [137, 80, 78, 71, 13, 10, 26, 10]

/-- Embedding of `PNGDecoder::verifySignature`. -/
def verifySignature (data : List Nat) : Bool :=
  if data.length < 8 then false else decide (data.take 8 = signature)

/-- Embedding of `struct PNGHeader`. -/
structure PNGHeader where
  width : Nat
  height : Nat
  bitDepth : Nat
  colorType : Nat
  compression : Nat
  filter : Nat
  interlace : Nat
  deriving DecidableEq, Repr

/-- Embedding of `PNGDecoder::parseIHDR(data, offset)`; it reads 13 bytes without a
bounds check, so a shorter input is undefined behaviour. -/
def parseIHDR (data : List Nat) (offset : Nat) : Except Err PNGHeader :=
  if offset + 13 > data.length then .error Err.undefinedBehaviour
  else
    .ok { width := readBigEndian32 (data.getD offset 0) (data.getD (offset + 1) 0)
            (data.getD (offset + 2) 0) (data.getD (offset + 3) 0)
          height := readBigEndian32 (data.getD (offset + 4) 0) (data.getD (offset + 5) 0)
            (data.getD (offset + 6) 0) (data.getD (offset + 7) 0)
          bitDepth := data.getD (offset + 8) 0
          colorType := data.getD (offset + 9) 0
          compression := data.getD (offset + 10) 0
          filter := data.getD (offset + 11) 0
          interlace := data.getD (offset + 12) 0 }

/-- The chunk type `"IDAT"`. -/
def typeIDAT : List Nat := [73, 68, 65, 84]

/-- The chunk type `"IEND"`. -/
def typeIEND : List Nat := [73, 69, 78, 68]

/-- The `while (pos + 12 <= data.size())` loop of `extractIDATData`, bounded
by `fuel` iterations.  `12 + length` is computed in `uint32_t`; the range
inserted for an IDAT chunk is not checked against the end of the data
(undefined behaviour when it exceeds it). -/
def extractLoop (data : List Nat) : Nat → Nat → List Nat → Except Err (List Nat)
  | 0, _, _ => .error Err.outOfFuel
  | fuel + 1, pos, idatData =>
    if pos + 12 ≤ data.length then
      let length := readBigEndian32 (data.getD pos 0) (data.getD (pos + 1) 0)
        (data.getD (pos + 2) 0) (data.getD (pos + 3) 0)
      let type := (data.drop (pos + 4)).take 4
      if type = typeIDAT then
        if pos + 8 + length > data.length then .error Err.undefinedBehaviour
        else
          extractLoop data fuel (pos + (12 + length) % 2 ^ 32)
            (idatData ++ (data.drop (pos + 8)).take length)
      else if type = typeIEND then .ok idatData
      else extractLoop data fuel (pos + (12 + length) % 2 ^ 32) idatData
    else .ok idatData

/-- Embedding of `PNGDecoder::extractIDATData`.  Every iteration advances `pos` except
when a chunk other than IDAT and IEND declares the length `2 ^ 32 - 12`, in
which case the C++ loop never ends; `size + 1` iterations are otherwise
never exhausted. -/
def extractIDATData (data : List Nat) : Except Err (List Nat) :=
  extractLoop data (data.length + 1) 8 []

/-- The inner `for (x = 0; x < stride; x++)` loop of `unfilterScanlines` for
row `y`: `n` iterations remain.  Index arithmetic that involves the
`uint32_t` `y` is taken modulo `2 ^ 32`; an access outside a vector is
undefined behaviour. -/
def unfilterRow (rawData : List Nat) (stride bytesPerPixel y filterType : Nat) :
    Nat → Nat → Nat → List Nat → List Nat → Except Err (Nat × List Nat)
  | 0, _, srcPos, unfiltered, _ => .ok (srcPos, unfiltered)
  | n + 1, x, srcPos, unfiltered, prevRow =>
    match rawData[srcPos]? with
    | none => .error Err.undefinedBehaviour
    | some raw =>
      let aRead : Option Nat :=
        if x ≥ bytesPerPixel then unfiltered[(y * stride + x - bytesPerPixel) % 2 ^ 32]?
        else some 0
      let bRead : Option Nat := prevRow[x]?
      let cRead : Option Nat := if x ≥ bytesPerPixel then prevRow[x - bytesPerPixel]? else some 0
      match aRead, bRead, cRead with
      | some a, some b, some c =>
        let result : Except Err Nat :=
          match filterType with
          | 0 => .ok raw
          | 1 => .ok ((raw + a) % 256)
          | 2 => .ok ((raw + b) % 256)
          | 3 => .ok ((raw + (a + b) / 2) % 256)
          | 4 => .ok ((raw + paethPredictor a b c) % 256)
          | _ => .error Err.unknownFilter
        match result with
        | .error e => .error e
        | .ok result =>
          if (y * stride + x) % 2 ^ 32 < unfiltered.length then
            unfilterRow rawData stride bytesPerPixel y filterType n (x + 1) (srcPos + 1)
              (unfiltered.set ((y * stride + x) % 2 ^ 32) result) prevRow
          else .error Err.undefinedBehaviour
      | _, _, _ => .error Err.undefinedBehaviour

/-- The outer `for (y = 0; y < height; y++)` loop of `unfilterScanlines`:
`n` iterations remain.  The `std::copy` into `prevRow` takes the range
`[y * stride, (y + 1) * stride)` of `unfiltered`, both ends computed in
`uint32_t`. -/
def unfilterRows (rawData : List Nat) (stride bytesPerPixel : Nat) :
    Nat → Nat → Nat → List Nat → List Nat → Except Err (List Nat)
  | 0, _, _, unfiltered, _ => .ok unfiltered
  | n + 1, y, srcPos, unfiltered, prevRow =>
    match rawData[srcPos]? with
    | none => .error Err.undefinedBehaviour
    | some filterType =>
      match unfilterRow rawData stride bytesPerPixel y filterType stride 0 (srcPos + 1)
          unfiltered prevRow with
      | .error e => .error e
      | .ok (srcPos, unfiltered) =>
        let lo := (y * stride) % 2 ^ 32
        let hi := ((y + 1) * stride) % 2 ^ 32
        if lo ≤ hi ∧ hi ≤ unfiltered.length ∧ hi - lo ≤ prevRow.length then
          unfilterRows rawData stride bytesPerPixel n (y + 1) srcPos unfiltered
            ((unfiltered.drop lo).take (hi - lo) ++ prevRow.drop (hi - lo))
        else .error Err.undefinedBehaviour

/-- Embedding of `PNGDecoder::unfilterScanlines(rawData, width, height, bytesPerPixel)`;
the result is the new content of `rawData`.  `int stride = width *
bytesPerPixel` is the `uint32_t` product converted to `int`; when it is
negative the construction of `prevRow` throws `std::length_error`. -/
def unfilterScanlines (rawData : List Nat) (width height bytesPerPixel : Nat) :
    Except Err (List Nat) :=
  let stride := (width * bytesPerPixel) % 2 ^ 32
  if stride ≥ 2 ^ 31 then .error Err.lengthError
  else
    unfilterRows rawData stride bytesPerPixel height 0 0
      (List.replicate ((height * stride) % 2 ^ 32) 0) (List.replicate stride 0)

/-- The `switch (header.colorType)` inside the pixel loops of `decode`. -/
def projectPixel (rawData : List Nat) (colorType pos : Nat) (old : Pixel) :
    Except Err Pixel :=
  if colorType = 0 ∨ colorType = 4 then
    match rawData[pos]? with
    | some v => .ok ⟨v, v, v⟩
    | none => .error Err.undefinedBehaviour
  else if colorType = 2 ∨ colorType = 6 then
    match rawData[pos]?, rawData[pos + 1]?, rawData[pos + 2]? with
    | some r, some g, some b => .ok ⟨r, g, b⟩
    | _, _, _ => .error Err.undefinedBehaviour
  else .ok old

/-- The inner `for (x = 0; x < header.width; x++)` loop of `decode`. -/
def projectRow (rawData : List Nat) (colorType bytesPerPixel width y : Nat) :
    Nat → Nat → Image → Except Err Image
  | 0, _, image => .ok image
  | n + 1, x, image =>
    let pos := (((y * width + x) % 2 ^ 32) * bytesPerPixel) % 2 ^ 32
    match image.at x y with
    | .error e => .error e
    | .ok old =>
      match projectPixel rawData colorType pos old with
      | .error e => .error e
      | .ok p =>
        match image.setAt x y p with
        | .error e => .error e
        | .ok image => projectRow rawData colorType bytesPerPixel width y n (x + 1) image

/-- The outer `for (y = 0; y < header.height; y++)` loop of `decode`. -/
def projectRows (rawData : List Nat) (colorType bytesPerPixel width : Nat) :
    Nat → Nat → Image → Except Err Image
  | 0, _, image => .ok image
  | n + 1, y, image =>
    match projectRow rawData colorType bytesPerPixel width y width 0 image with
    | .error e => .error e
    | .ok image => projectRows rawData colorType bytesPerPixel width n (y + 1) image

/-- Embedding of `PNGDecoder::decode`, from the bytes of the file on. -/
def decode (data : List Nat) : Except Err Image :=
  if ¬ verifySignature data then .error Err.invalidSignature
  else
    match parseIHDR data 16 with
    | .error e => .error e
    | .ok header =>
      if header.interlace ≠ 0 then .error Err.interlaced
      else if header.bitDepth ≠ 8 then .error Err.bitDepth
      else
        let bpp : Except Err Nat :=
          if header.colorType = 0 then .ok 1
          else if header.colorType = 2 then .ok 3
          else if header.colorType = 4 then .ok 2
          else if header.colorType = 6 then .ok 4
          else .error Err.colorType
        match bpp with
        | .error e => .error e
        | .ok bytesPerPixel =>
          match extractIDATData data with
          | .error e => .error e
          | .ok compressedData =>
            match Deflate.decompress compressedData with
            | .error e => .error e
            | .ok rawData =>
              match unfilterScanlines rawData header.width header.height bytesPerPixel with
              | .error e => .error e
              | .ok rawData =>
                projectRows rawData header.colorType bytesPerPixel header.width
                  header.height 0 (Image.new header.width header.height)

/-- The predictor of the PNG forward filter for the byte at offset `x` of
row `y` of the original buffer, as the specification states it: from the
original left, up and up-left bytes, 0 when off-row or on row 0. -/
def predictorSpec (orig : List Nat) (stride bytesPerPixel filterType y x : Nat) : Int :=
  let left : Int :=
    if x ≥ bytesPerPixel then (orig.getD (y * stride + x - bytesPerPixel) 0 : Int) else 0
  let up : Int := if y > 0 then (orig.getD ((y - 1) * stride + x) 0 : Int) else 0
  let upLeft : Int :=
    if y > 0 ∧ x ≥ bytesPerPixel then
      (orig.getD ((y - 1) * stride + x - bytesPerPixel) 0 : Int)
    else 0
  match filterType with
  | 0 => 0
  | 1 => left
  | 2 => up
  | 3 => (left + up) / 2
  | _ => paethReference left up upLeft

/-- The forward-filtered byte: original minus predictor, modulo 256. -/
def filterByte (orig : List Nat) (stride bytesPerPixel filterType y x : Nat) : Nat :=
  (((orig.getD (y * stride + x) 0 : Int)
    - predictorSpec orig stride bytesPerPixel filterType y x) % 256).toNat

/-- The forward-filtered image: each row prefixed by its filter type. -/
def forwardFilter (orig : List Nat) (stride bytesPerPixel : Nat) (filters : List Nat) :
    List Nat :=
  ((List.range filters.length).map (fun y =>
    filters.getD y 0 ::
      (List.range stride).map (fun x =>
        filterByte orig stride bytesPerPixel (filters.getD y 0) y x))).flatten

end PNGDecoder

namespace PNGDecoder

/-- The four bytes of a 32-bit number, most significant first. -/
def be32 (n : Nat) : List Nat :=
  [n / 2 ^ 24 % 256, n / 2 ^ 16 % 256, n / 2 ^ 8 % 256, n % 256]

/-- A PNG chunk: big-endian length, type, data, CRC. -/
def chunk (type body crc : List Nat) : List Nat :=
  be32 body.length ++ type ++ body ++ crc

/-- The chunk type `"IHDR"`. -/
def typeIHDR : List Nat := [73, 72, 68, 82]

/-- The data of an IHDR chunk. -/
def ihdrBody (width height bitDepth colorType compression filter interlace : Nat) : List Nat :=
  be32 width ++ be32 height ++ [bitDepth, colorType, compression, filter, interlace]

/-- A sequence of IDAT chunks, each with its data and its CRC bytes. -/
def idatChunks (pieces : List (List Nat × List Nat)) : List Nat :=
  (pieces.map (fun p => chunk typeIDAT p.1 p.2)).flatten

/-- A PNG file: signature, IHDR, IDAT chunks, IEND. -/
def pngFile (ihdr ihdrCrc : List Nat) (pieces : List (List Nat × List Nat))
    (iendCrc : List Nat) : List Nat :=
  signature ++ chunk typeIHDR ihdr ihdrCrc ++ idatChunks pieces ++ chunk typeIEND [] iendCrc

/-- The scanlines of an unfiltered image: each row of `stride` bytes
prefixed by the filter byte 0. -/
def plainScanlines (src : List Nat) (stride height : Nat) : List Nat :=
  ((List.range height).map (fun y => 0 :: (src.drop (y * stride)).take stride)).flatten

/-- Bytes per pixel of the supported colour types. -/
def bytesPerPixelOf (colorType : Nat) : Nat :=
  if colorType = 0 then 1 else if colorType = 2 then 3 else if colorType = 4 then 2 else 4

/-- The pixel the specification expects from the source bytes starting at
`pos`: the first three bytes for colour types 2 and 6, the first byte
replicated for colour types 0 and 4. -/
def expectedPixel (src : List Nat) (colorType pos : Nat) : Pixel :=
  if colorType = 2 ∨ colorType = 6 then
    ⟨src.getD pos 0, src.getD (pos + 1) 0, src.getD (pos + 2) 0⟩
  else ⟨src.getD pos 0, src.getD pos 0, src.getD pos 0⟩

end PNGDecoder

namespace JPEGEncoder

/-- Embedding of `dcLuminanceBits`. -/
def dcLuminanceBits : List Nat := [0, 1, 5, 1, 1, 1, 1, 1, 1, 0, 0, 0, 0, 0, 0, 0]

/-- Embedding of `dcLuminanceValues`. -/
def dcLuminanceValues : List Nat := [0, 1, 2, 3, 4, 5, 6, 7, 8, 9, 10, 11]

/-- Embedding of `dcChrominanceBits`. -/
def dcChrominanceBits : List Nat := [0, 3, 1, 1, 1, 1, 1, 1, 1, 1, 1, 0, 0, 0, 0, 0]

/-- Embedding of `dcChrominanceValues`. -/
def dcChrominanceValues : List Nat := [0, 1, 2, 3, 4, 5, 6, 7, 8, 9, 10, 11]

/-- Embedding of `acLuminanceBits`. -/
def acLuminanceBits : List Nat := [0, 2, 1, 3, 3, 2, 4, 3, 5, 5, 4, 4, 0, 0, 1, 125]

/-- Embedding of `acLuminanceValues`. -/
def acLuminanceValues : List Nat :=
  [0x01, 0x02, 0x03, 0x00, 0x04, 0x11, 0x05, 0x12, 0x21, 0x31, 0x41, 0x06, 0x13, 0x51, 0x61, 0x07,
   0x22, 0x71, 0x14, 0x32, 0x81, 0x91, 0xa1, 0x08, 0x23, 0x42, 0xb1, 0xc1, 0x15, 0x52, 0xd1, 0xf0,
   0x24, 0x33, 0x62, 0x72, 0x82, 0x09, 0x0a, 0x16, 0x17, 0x18, 0x19, 0x1a, 0x25, 0x26, 0x27, 0x28,
   0x29, 0x2a, 0x34, 0x35, 0x36, 0x37, 0x38, 0x39, 0x3a, 0x43, 0x44, 0x45, 0x46, 0x47, 0x48, 0x49,
   0x4a, 0x53, 0x54, 0x55, 0x56, 0x57, 0x58, 0x59, 0x5a, 0x63, 0x64, 0x65, 0x66, 0x67, 0x68, 0x69,
   0x6a, 0x73, 0x74, 0x75, 0x76, 0x77, 0x78, 0x79, 0x7a, 0x83, 0x84, 0x85, 0x86, 0x87, 0x88, 0x89,
   0x8a, 0x92, 0x93, 0x94, 0x95, 0x96, 0x97, 0x98, 0x99, 0x9a, 0xa2, 0xa3, 0xa4, 0xa5, 0xa6, 0xa7,
   0xa8, 0xa9, 0xaa, 0xb2, 0xb3, 0xb4, 0xb5, 0xb6, 0xb7, 0xb8, 0xb9, 0xba, 0xc2, 0xc3, 0xc4, 0xc5,
   0xc6, 0xc7, 0xc8, 0xc9, 0xca, 0xd2, 0xd3, 0xd4, 0xd5, 0xd6, 0xd7, 0xd8, 0xd9, 0xda, 0xe1, 0xe2,
   0xe3, 0xe4, 0xe5, 0xe6, 0xe7, 0xe8, 0xe9, 0xea, 0xf1, 0xf2, 0xf3, 0xf4, 0xf5, 0xf6, 0xf7, 0xf8,
   0xf9, 0xfa]

/-- Embedding of `acChrominanceBits`. -/
def acChrominanceBits : List Nat := [0, 2, 1, 2, 4, 4, 3, 4, 7, 5, 4, 4, 0, 1, 2, 119]

/-- Embedding of `acChrominanceValues`. -/
def acChrominanceValues : List Nat :=
  [0x00, 0x01, 0x02, 0x03, 0x11, 0x04, 0x05, 0x21, 0x31, 0x06, 0x12, 0x41, 0x51, 0x07, 0x61, 0x71,
   0x13, 0x22, 0x32, 0x81, 0x08, 0x14, 0x42, 0x91, 0xa1, 0xb1, 0xc1, 0x09, 0x23, 0x33, 0x52, 0xf0,
   0x15, 0x62, 0x72, 0xd1, 0x0a, 0x16, 0x24, 0x34, 0xe1, 0x25, 0xf1, 0x17, 0x18, 0x19, 0x1a, 0x26,
   0x27, 0x28, 0x29, 0x2a, 0x35, 0x36, 0x37, 0x38, 0x39, 0x3a, 0x43, 0x44, 0x45, 0x46, 0x47, 0x48,
   0x49, 0x4a, 0x53, 0x54, 0x55, 0x56, 0x57, 0x58, 0x59, 0x5a, 0x63, 0x64, 0x65, 0x66, 0x67, 0x68,
   0x69, 0x6a, 0x73, 0x74, 0x75, 0x76, 0x77, 0x78, 0x79, 0x7a, 0x82, 0x83, 0x84, 0x85, 0x86, 0x87,
   0x88, 0x89, 0x8a, 0x92, 0x93, 0x94, 0x95, 0x96, 0x97, 0x98, 0x99, 0x9a, 0xa2, 0xa3, 0xa4, 0xa5,
   0xa6, 0xa7, 0xa8, 0xa9, 0xaa, 0xb2, 0xb3, 0xb4, 0xb5, 0xb6, 0xb7, 0xb8, 0xb9, 0xba, 0xc2, 0xc3,
   0xc4, 0xc5, 0xc6, 0xc7, 0xc8, 0xc9, 0xca, 0xd2, 0xd3, 0xd4, 0xd5, 0xd6, 0xd7, 0xd8, 0xd9, 0xda,
   0xe2, 0xe3, 0xe4, 0xe5, 0xe6, 0xe7, 0xe8, 0xe9, 0xea, 0xf2, 0xf3, 0xf4, 0xf5, 0xf6, 0xf7, 0xf8,
   0xf9, 0xfa]

/-- Embedding of `JPEGEncoder::writeMarker`. -/
def writeMarker (out : List Nat) (marker : Nat) : List Nat :=
  out ++ [0xFF, marker % 256]

/-- Embedding of `JPEGEncoder::writeAPP0`. -/
def writeAPP0 (out : List Nat) : List Nat :=
  writeMarker out 0xE0
    ++ [0x00, 0x10, 74, 70, 73, 70, 0x00, 0x01, 0x01, 0x00, 0x00, 0x01, 0x00, 0x01, 0x00, 0x00]

/-- Embedding of `JPEGEncoder::writeDQT`: the 64 table entries are pushed in the order
`table[0], …, table[63]`, each cast to `uint8_t`. -/
def writeDQT (out : List Nat) (table : List Int) (tableId : Int) : List Nat :=
  writeMarker out 0xDB ++ [0x00, 0x43, (tableId % 256).toNat]
    ++ (List.range 64).map (fun i => ((table.getD i 0) % 256).toNat)

/-- Embedding of `JPEGEncoder::writeSOF0`; `width` and `height` are `uint32_t`. -/
def writeSOF0 (out : List Nat) (width height : Nat) : List Nat :=
  writeMarker out 0xC0
    ++ [0x00, 0x11, 0x08,
        (height >>> 8) % 256, height % 256, (width >>> 8) % 256, width % 256,
        0x03, 0x01, 0x11, 0x00, 0x02, 0x11, 0x01, 0x03, 0x11, 0x01]

/-- Embedding of `JPEGEncoder::writeDHT`. -/
def writeDHT (out : List Nat) (bits values : List Nat) (tcth count : Nat) : List Nat :=
  writeMarker out 0xC4
    ++ [((19 + count) >>> 8) % 256, (19 + count) % 256, tcth % 256]
    ++ (List.range 16).map (fun i => bits.getD i 0)
    ++ (List.range count).map (fun i => values.getD i 0)

/-- Embedding of `JPEGEncoder::writeSOS`. -/
def writeSOS (out : List Nat) : List Nat :=
  writeMarker out 0xDA
    ++ [0x00, 0x0C, 0x03, 0x01, 0x00, 0x02, 0x11, 0x03, 0x11, 0x00, 0x3F, 0x00]

/-- The inner loop of `generateHuffmanCodes` for code length `i + 1`: `n`
iterations remain; the state is `(k, code, codes, sizes)` with `code` a
`uint16_t`. -/
def generateInner (values : List Nat) (i : Nat) :
    Nat → Nat × Nat × List Nat × List Nat → Nat × Nat × List Nat × List Nat
  | 0, s => s
  | n + 1, (k, code, codes, sizes) =>
    generateInner values i n
      (k + 1, (code + 1) % 2 ^ 16, codes.set (values.getD k 0) code,
        sizes.set (values.getD k 0) (i + 1))

/-- The outer loop of `generateHuffmanCodes`: `n` iterations remain. -/
def generateOuter (bits values : List Nat) :
    Nat → Nat → Nat × Nat × List Nat × List Nat → Nat × Nat × List Nat × List Nat
  | 0, _, s => s
  | n + 1, i, s =>
    match generateInner values i (bits.getD i 0) s with
    | (k, code, codes, sizes) =>
      generateOuter bits values n (i + 1) (k, (code <<< 1) % 2 ^ 16, codes, sizes)

/-- Embedding of `JPEGEncoder::generateHuffmanCodes` on zero-initialised 256-entry
arrays, as `encodeBlock` calls it; the result is `(codes, sizes)`. -/
def generateHuffmanCodes (bits values : List Nat) : List Nat × List Nat :=
  match generateOuter bits values 16 0 (0, 0, List.replicate 256 0, List.replicate 256 0) with
  | (_, _, codes, sizes) => (codes, sizes)

/-- The magnitude bits `encodeBlock` passes to `writeBits` for a value of
category `cat`: `val & ((1 << cat) - 1)` with `val = v - 1` for negative
`v`, converted to `uint16_t`. -/
def magnitudeBits (v : Int) (cat : Nat) : Nat :=
  (((if v < 0 then v - 1 else v) % 2 ^ cat).toNat) % 2 ^ 16

/-- The `while (zeroCount >= 16)` loop of `encodeBlock`, bounded by `fuel`
iterations. -/
def writeZRL (acCodes acSizes : List Nat) : Nat → BitWriter → Nat → BitWriter × Nat
  | 0, w, zeroCount => (w, zeroCount)
  | fuel + 1, w, zeroCount =>
    if zeroCount ≥ 16 then
      writeZRL acCodes acSizes fuel
        (w.writeBits (acCodes.getD 0xF0 0) (acSizes.getD 0xF0 0)) (zeroCount - 16)
    else (w, zeroCount)

/-- The `for (i = 1; i < 64; i++)` loop of `encodeBlock` over the remaining
coefficients. -/
def encodeAC (acCodes acSizes : List Nat) : List Int → BitWriter → Nat → BitWriter × Nat
  | [], w, zeroCount => (w, zeroCount)
  | v :: rest, w, zeroCount =>
    if v = 0 then encodeAC acCodes acSizes rest w (zeroCount + 1)
    else
      match writeZRL acCodes acSizes zeroCount w zeroCount with
      | (w, zeroCount) =>
        let acCat := getCategory v
        let symbol := (zeroCount <<< 4) ||| acCat
        let w := w.writeBits (acCodes.getD symbol 0) (acSizes.getD symbol 0)
        let w := w.writeBits (magnitudeBits v acCat) acCat
        encodeAC acCodes acSizes rest w 0

/-- Embedding of `JPEGEncoder::encodeBlock`; the result is the writer and the new
`prevDC`.  The block has 64 entries, the first being the DC coefficient. -/
def encodeBlock (writer : BitWriter) (block : List Int) (prevDC : Int)
    (dcBits dcValues acBits acValues : List Nat) : BitWriter × Int :=
  let dc := generateHuffmanCodes dcBits dcValues
  let ac := generateHuffmanCodes acBits acValues
  let dcDiff := block.getD 0 0 - prevDC
  let dcCat := getCategory dcDiff
  let w := writer.writeBits (dc.1.getD dcCat 0) (dc.2.getD dcCat 0)
  let w := if dcCat > 0 then w.writeBits (magnitudeBits dcDiff dcCat) dcCat else w
  match encodeAC ac.1 ac.2 ((block.drop 1).take 63) w 0 with
  | (w, zeroCount) =>
    let w := if zeroCount > 0 then w.writeBits (ac.1.getD 0x00 0) (ac.2.getD 0x00 0) else w
    (w, block.getD 0 0)

/-- The 64 `image.at(px, py)` reads of the block at `(blockX, blockY)`, in
the order of the extraction loops (`i = 8 * y + x`), with the edge clamping
of `encode` in `uint32_t` arithmetic: `n` reads remain. -/
def blockPixelsLoop (image : Image) (blockX blockY : Nat) :
    Nat → Nat → List Pixel → Except Err (List Pixel)
  | 0, _, acc => .ok acc
  | n + 1, i, acc =>
    match image.at (min ((blockX + i % 8) % 2 ^ 32) ((image.width_ + 2 ^ 32 - 1) % 2 ^ 32))
        (min ((blockY + i / 8) % 2 ^ 32) ((image.height_ + 2 ^ 32 - 1) % 2 ^ 32)) with
    | .error e => .error e
    | .ok p => blockPixelsLoop image blockX blockY n (i + 1) (acc ++ [p])

/-- The pixels of the block at `(blockX, blockY)`. -/
def blockPixels (image : Image) (blockX blockY : Nat) : Except Err (List Pixel) :=
  blockPixelsLoop image blockX blockY 64 0 []

/-- The result of the floating-point stage of `encode` for one block: the
quantised Y, Cb and Cr blocks. -/
structure QuantizedBlocks where
  y : List Int
  cb : List Int
  cr : List Int

/-- The writer and the three DC predictors carried through the block loops
of `encode`. -/
structure EncoderState where
  writer : BitWriter
  prevDCY : Int
  prevDCCb : Int
  prevDCCr : Int

/-- One iteration of the inner block loop of `encode`.  The floating-point
stage (colour transform, level shift, forward DCT, quantisation) is not
modelled: `floatStage` stands for it, as a function of the 64 pixels read and
of the two scaled tables. -/
def encodeMCU (floatStage : List Pixel → List Int → List Int → QuantizedBlocks)
    (image : Image) (lum chrom : List Int) (blockX blockY : Nat) (s : EncoderState) :
    Except Err EncoderState :=
  match blockPixels image blockX blockY with
  | .error e => .error e
  | .ok pixels =>
    let q := floatStage pixels lum chrom
    match encodeBlock s.writer q.y s.prevDCY dcLuminanceBits dcLuminanceValues
        acLuminanceBits acLuminanceValues with
    | (w, dcY) =>
      match encodeBlock w q.cb s.prevDCCb dcChrominanceBits dcChrominanceValues
          acChrominanceBits acChrominanceValues with
      | (w, dcCb) =>
        match encodeBlock w q.cr s.prevDCCr dcChrominanceBits dcChrominanceValues
            acChrominanceBits acChrominanceValues with
        | (w, dcCr) => .ok { writer := w, prevDCY := dcY, prevDCCb := dcCb, prevDCCr := dcCr }

/-- The inner loop `for (blockX = 0; blockX < paddedWidth; blockX += 8)`:
`n` iterations remain. -/
def encodeRowOfBlocks (floatStage : List Pixel → List Int → List Int → QuantizedBlocks)
    (image : Image) (lum chrom : List Int) (blockY : Nat) :
    Nat → Nat → EncoderState → Except Err EncoderState
  | 0, _, s => .ok s
  | n + 1, blockX, s =>
    match encodeMCU floatStage image lum chrom blockX blockY s with
    | .error e => .error e
    | .ok s => encodeRowOfBlocks floatStage image lum chrom blockY n (blockX + 8) s

/-- The outer loop `for (blockY = 0; blockY < paddedHeight; blockY += 8)`:
`n` iterations remain, each running `cols` blocks. -/
def encodeBlockRows (floatStage : List Pixel → List Int → List Int → QuantizedBlocks)
    (image : Image) (lum chrom : List Int) (cols : Nat) :
    Nat → Nat → EncoderState → Except Err EncoderState
  | 0, _, s => .ok s
  | n + 1, blockY, s =>
    match encodeRowOfBlocks floatStage image lum chrom blockY cols 0 s with
    | .error e => .error e
    | .ok s => encodeBlockRows floatStage image lum chrom cols n (blockY + 8) s

/-- The segments `encode` writes before the entropy-coded data. -/
def encodeHeader (width height : Nat) (quality : Int) : List Nat :=
  let output := writeMarker [] 0xD8
  let output := writeAPP0 output
  let output := writeDQT output (scaledLumQuant quality) 0
  let output := writeDQT output (scaledChromQuant quality) 1
  let output := writeSOF0 output width height
  let output := writeDHT output dcLuminanceBits dcLuminanceValues 0x00 12
  let output := writeDHT output acLuminanceBits acLuminanceValues 0x10 162
  let output := writeDHT output dcChrominanceBits dcChrominanceValues 0x01 12
  let output := writeDHT output acChrominanceBits acChrominanceValues 0x11 162
  writeSOS output

/-- Embedding of `JPEGEncoder::encode`, up to the byte vector that is written to the
file.  A zero `quality` divides by zero (undefined behaviour). -/
def encode (floatStage : List Pixel → List Int → List Int → QuantizedBlocks)
    (image : Image) (quality : Int) : Except Err (List Nat) :=
  if quality = 0 then .error Err.undefinedBehaviour
  else
    let lum := scaledLumQuant quality
    let chrom := scaledChromQuant quality
    let output := encodeHeader image.width_ image.height_ quality
    let paddedWidth := (((image.width_ + 7) % 2 ^ 32) / 8) * 8
    let paddedHeight := (((image.height_ + 7) % 2 ^ 32) / 8) * 8
    match encodeBlockRows floatStage image lum chrom (paddedWidth / 8) (paddedHeight / 8) 0
        { writer := BitWriter.new output, prevDCY := 0, prevDCCb := 0, prevDCCr := 0 } with
    | .error e => .error e
    | .ok s => .ok (writeMarker s.writer.flush.output 0xD9)

/-- A marker segment as the JPEG format defines it: `FF`, the marker byte,
the 2-byte big-endian length of everything after the marker, the payload. -/
def segment (marker : Nat) (payload : List Nat) : List Nat :=
  [0xFF, marker, (payload.length + 2) / 256, (payload.length + 2) % 256] ++ payload

/-- One marker segment at the head of `bytes`, read as the JPEG format
defines it: `FF`, the marker byte, a 2-byte big-endian length `L` that counts
itself, and `L - 2` payload bytes.  The result is the marker, the payload
and the bytes after the segment. -/
def parseSegment (bytes : List Nat) : Option (Nat × List Nat × List Nat) :=
  match bytes with
  | 0xFF :: m :: l1 :: l0 :: rest =>
    if 2 ≤ l1 * 256 + l0 ∧ l1 * 256 + l0 - 2 ≤ rest.length then
      some (m, rest.take (l1 * 256 + l0 - 2), rest.drop (l1 * 256 + l0 - 2))
    else none
  | _ => none

end JPEGEncoder

namespace Image

/-- Embedding of `Image::resize(width, height)`: `pixels_.resize(width *
height)` with the product taken in `uint32_t`. -/
def resize (img : Image) (width height : Nat) : Image :=
  { width_ := width, height_ := height
    pixels_ := Deflate.vectorResize img.pixels_ ((width * height) % 2 ^ 32) ⟨0, 0, 0⟩ }

end Image

namespace PNGDecoder

/-- The part of `decode` before the IDAT extraction: signature check,
`parseIHDR`, and the interlace, bit depth and colour type checks; the result
is the header and the bytes per pixel. -/
def headerCheck (data : List Nat) : Except Err (PNGHeader × Nat) :=
  if ¬ verifySignature data then .error Err.invalidSignature
  else
    match parseIHDR data 16 with
    | .error e => .error e
    | .ok header =>
      if header.interlace ≠ 0 then .error Err.interlaced
      else if header.bitDepth ≠ 8 then .error Err.bitDepth
      else if header.colorType = 0 then .ok (header, 1)
      else if header.colorType = 2 then .ok (header, 3)
      else if header.colorType = 4 then .ok (header, 2)
      else if header.colorType = 6 then .ok (header, 4)
      else .error Err.colorType

/-- The part of `decode` after the header checks: IDAT extraction,
decompression, unfiltering and projection. -/
def decodeBody (data : List Nat) (header : PNGHeader) (bytesPerPixel : Nat) :
    Except Err Image :=
  match extractIDATData data with
  | .error e => .error e
  | .ok compressedData =>
    match Deflate.decompress compressedData with
    | .error e => .error e
    | .ok rawData =>
      match unfilterScanlines rawData header.width header.height bytesPerPixel with
      | .error e => .error e
      | .ok rawData =>
        projectRows rawData header.colorType bytesPerPixel header.width
          header.height 0 (Image.new header.width header.height)

end PNGDecoder

namespace Deflate

/-- Stream bit `j` of `data` as the specification states it: bit `j mod 8`
of byte `j div 8`. -/
def streamBit (data : List Nat) (j : Nat) : Nat :=
  (data.getD (j / 8) 0 / 2 ^ (j % 8)) % 2

/-- The reader `n` bits further on in the same data. -/
def BitReader.advance (r : BitReader) (n : Nat) : BitReader :=
  { data := r.data, byte_pos := (r.bitOffset + n) / 8, bit_pos := (r.bitOffset + n) % 8 }

/-- A reader over `data` whose position lies inside the data or at its end. -/
def BitReader.Valid (data : List Nat) (r : BitReader) : Prop :=
  r.data = data ∧ r.bit_pos < 8 ∧ r.bitOffset ≤ 8 * data.length

/-- The body of one block in `decompress`, after the three header bits: the
`if (blockType == 0) ... else throw` chain of the block loop. -/
def blockBody (deflateData : List Nat) (fuel blockType : Nat) (r : BitReader)
    (output : List Nat) : Except Err (BitReader × List Nat) :=
  if blockType = 0 then
    let r := r.alignToByte
    if r.byte_pos + 4 > deflateData.length then .error Err.invalidStoredBlock
    else
      let len := (deflateData.getD r.byte_pos 0
        ||| (deflateData.getD (r.byte_pos + 1) 0 <<< 8)) % 2 ^ 16
      match copyStored deflateData len (r.byte_pos + 4) output with
      | .error e => .error e
      | .ok (byte_pos, output) =>
        .ok ({ data := r.data, byte_pos := byte_pos, bit_pos := r.bit_pos }, output)
  else if blockType = 1 then
    decodeBlock (fuel + 1) r buildFixedTrees.1 buildFixedTrees.2 output
  else if blockType = 2 then
    match r.readBits 5 with
    | .error e => .error e
    | .ok (vlit, r) =>
      let hlit := vlit + 257
      match r.readBits 5 with
      | .error e => .error e
      | .ok (vdist, r) =>
        let hdist := vdist + 1
        match r.readBits 4 with
        | .error e => .error e
        | .ok (vclen, r) =>
          let hclen := vclen + 4
          match readCodeLengthLengths hclen 0 r (List.replicate 19 0) with
          | .error e => .error e
          | .ok (r, codeLengthLengths) =>
            let codeLengthTree := HuffmanTree.empty.build codeLengthLengths
            match readAllLengths codeLengthTree (hlit + hdist)
                (fuel + 1 + hlit + hdist) r [] with
            | .error e => .error e
            | .ok (r, allLengths) =>
              let litLenLengths := allLengths.take hlit
              let distLengths := allLengths.drop hlit
              let litLen := HuffmanTree.empty.build litLenLengths
              let dist := HuffmanTree.empty.build distLengths
              decodeBlock (fuel + 1) r litLen dist output
  else .error Err.invalidBlockType

/-- One iteration of the block loop of `decompress`: the block header
(`BFINAL`, `BTYPE`) and the block body; the result is `finalBlock`, the
reader after the block and the output so far. -/
def blockStep (deflateData : List Nat) (fuel : Nat) (r : BitReader) (output : List Nat) :
    Except Err (Bool × BitReader × List Nat) :=
  match r.readBits 1 with
  | .error e => .error e
  | .ok (bfinal, r) =>
    match r.readBits 2 with
    | .error e => .error e
    | .ok (blockType, r) =>
      match blockBody deflateData fuel blockType r output with
      | .error e => .error e
      | .ok (r, output) => .ok (decide (bfinal ≠ 0), r, output)

/-- The state of the block loop of `decompress` after `k` complete blocks
with `BFINAL = 0`: the iterations left, the reader in front of the next block
header and the output so far; `none` when one of the `k` blocks fails or is a
final block. -/
def runBlocks (deflateData : List Nat) :
    Nat → Nat → BitReader → List Nat → Option (Nat × BitReader × List Nat)
  | 0, fuel, r, output => some (fuel, r, output)
  | _ + 1, 0, _, _ => none
  | k + 1, fuel + 1, r, output =>
    match blockStep deflateData fuel r output with
    | .ok (false, r, output) => runBlocks deflateData k fuel r output
    | _ => none

/-- The DEFLATE payload of a zlib-wrapped input: the bytes between the
two-byte header and the four-byte trailer. -/
def payload (data : List Nat) : List Nat :=
  (data.drop 2).take (data.length - 6)

end Deflate

namespace PNGDecoder

/-- A chunk of a PNG file as the specification describes it: its type, its
data and its CRC bytes; the length field is that of the data. -/
structure Chunk where
  type : List Nat
  body : List Nat
  crc : List Nat

/-- The bytes of a sequence of chunks in file order. -/
def chunkBytes (cs : List Chunk) : List Nat :=
  (cs.map (fun c => chunk c.type c.body c.crc)).flatten

/-- The concatenation, in file order, of the data of the chunks of type IDAT
that precede the first chunk of type IEND. -/
def idatPayload : List Chunk → List Nat
  | [] => []
  | c :: rest =>
    if c.type = typeIEND then []
    else if c.type = typeIDAT then c.body ++ idatPayload rest
    else idatPayload rest

end PNGDecoder

namespace Deflate

/-- The header of a dynamic-Huffman block in `decompress`, from `HLIT` to the
two vectors the trees are built from: the result is the reader behind the
header, `hlit`, `hdist`, `litLenLengths` and `distLengths`. -/
def dynamicHeader (fuel : Nat) (r : BitReader) :
    Except Err (BitReader × Nat × Nat × List Nat × List Nat) :=
  match r.readBits 5 with
  | .error e => .error e
  | .ok (vlit, r) =>
    let hlit := vlit + 257
    match r.readBits 5 with
    | .error e => .error e
    | .ok (vdist, r) =>
      let hdist := vdist + 1
      match r.readBits 4 with
      | .error e => .error e
      | .ok (vclen, r) =>
        let hclen := vclen + 4
        match readCodeLengthLengths hclen 0 r (List.replicate 19 0) with
        | .error e => .error e
        | .ok (r, codeLengthLengths) =>
          let codeLengthTree := HuffmanTree.empty.build codeLengthLengths
          match readAllLengths codeLengthTree (hlit + hdist)
              (fuel + 1 + hlit + hdist) r [] with
          | .error e => .error e
          | .ok (r, allLengths) =>
            .ok (r, hlit, hdist, allLengths.take hlit, allLengths.drop hlit)

end Deflate

namespace JPEGEncoder

/-- The low `n` bits of `v` as a bit string, most significant bit first. -/
def bitString (v : Nat) : Nat → List Bool
  | 0 => []
  | n + 1 => v.testBit n :: bitString v n

/-- The bits of a byte sequence: eight bits per byte, most significant bit
first. -/
def bytesBits (bs : List Nat) : List Bool :=
  (bs.map (fun b => bitString b 8)).flatten

/-- Removal of the stuffing, with the flag "the byte before was a 0xFF that
was kept": a byte 0x00 right after such a byte is dropped. -/
def destuffFrom : Bool → List Nat → List Nat
  | _, [] => []
  | afterFF, b :: rest =>
    if afterFF = true ∧ b = 0x00 then destuffFrom false rest
    else b :: destuffFrom (decide (b = 0xFF)) rest

/-- Removal of the stuffing: every byte 0x00 that follows a byte 0xFF is
dropped. -/
def destuff (bs : List Nat) : List Nat :=
  destuffFrom false bs

/-- Byte stuffing of a byte sequence: a byte 0x00 is inserted after every byte
0xFF. -/
def stuff (bs : List Nat) : List Nat :=
  (bs.map (fun b => if b = 0xFF then [0xFF, 0x00] else [b])).flatten

end JPEGEncoder

namespace JPEGEncoder

/-- The code length of the `k`-th value of a Huffman table as the
specification of the table format gives it: `bits[i]` values have length
`i + 1`, in order; `len` is the length of the first bucket of `bits`. -/
def bucketLength : List Nat → Nat → Nat → Nat
  | [], _, _ => 0
  | b :: rest, k, len => if k < b then len else bucketLength rest (k - b) (len + 1)

/-- Huffman decoding of the baseline JPEG procedure, from the table
`(bits, values)` alone: one bit is read per code length; `code` is the code
read so far, `first` the first code of the current length and `index` the
number of values with a shorter code.  The result is the value and the rest of
the stream. -/
def huffDecode : List Nat → List Nat → Nat → Nat → Nat → List Bool → Option (Nat × List Bool)
  | [], _, _, _, _, _ => none
  | _ :: _, _, _, _, _, [] => none
  | count :: counts, values, code, first, index, b :: rest =>
    let code := code + b.toNat
    if code < first + count then
      match values[index + (code - first)]? with
      | some v => some (v, rest)
      | none => none
    else huffDecode counts values (2 * code) (2 * (first + count)) (index + count) rest

/-- The procedure RECEIVE of the decoder: `n` bits of the stream, most
significant first, as a number. -/
def receive : Nat → List Bool → Option (Nat × List Bool)
  | 0, stream => some (0, stream)
  | _ + 1, [] => none
  | n + 1, b :: rest =>
    match receive n rest with
    | some (v, rest) => some (b.toNat * 2 ^ n + v, rest)
    | none => none

/-- The procedure EXTEND of the decoder: sign extension of `t` magnitude
bits. -/
def extend (v t : Nat) : Int :=
  if t = 0 then 0
  else if v < 2 ^ (t - 1) then (v : Int) - (2 ^ t - 1)
  else (v : Int)

/-- Decoding of the DC difference: the category, then its magnitude bits. -/
def decodeDC (dcBits dcValues : List Nat) (stream : List Bool) : Option (Int × List Bool) :=
  match huffDecode dcBits dcValues 0 0 0 stream with
  | none => none
  | some (cat, stream) =>
    match receive cat stream with
    | none => none
    | some (v, stream) => some (extend v cat, stream)

/-- Decoding of the AC coefficients: (run, size) symbols, with ZRL (run 15,
size 0: sixteen zeros) and EOB (run 0, size 0: zeros to the end), until 63
coefficients are filled; `acc` holds the coefficients decoded so far. -/
def decodeAC (acBits acValues : List Nat) :
    Nat → List Int → List Bool → Option (List Int × List Bool)
  | 0, _, _ => none
  | fuel + 1, acc, stream =>
    if acc.length = 63 then some (acc, stream)
    else if acc.length > 63 then none
    else
      match huffDecode acBits acValues 0 0 0 stream with
      | none => none
      | some (rs, stream) =>
        let run := rs / 16
        let size := rs % 16
        if size = 0 then
          if run = 15 then decodeAC acBits acValues fuel (acc ++ List.replicate 16 0) stream
          else some (acc ++ List.replicate (63 - acc.length) 0, stream)
        else
          match receive size stream with
          | none => none
          | some (v, stream) =>
            decodeAC acBits acValues fuel (acc ++ List.replicate run 0 ++ [extend v size]) stream

/-- The block decoding procedure of baseline JPEG with the tables
`(dcBits, dcValues)` and `(acBits, acValues)`: the DC difference, the 63 AC
coefficients and the rest of the stream. -/
def decodeBlockSpec (dcBits dcValues acBits acValues : List Nat) (stream : List Bool) :
    Option (Int × List Int × List Bool) :=
  match decodeDC dcBits dcValues stream with
  | none => none
  | some (diff, stream) =>
    match decodeAC acBits acValues 64 [] stream with
    | none => none
    | some (ac, stream) => some (diff, ac, stream)

/-- What `encodeBlock` hands to the writer: the Huffman code of a symbol, or
magnitude bits. -/
inductive Emit where
  | symbol (s : Nat)
  | bits (value count : Nat)
  deriving DecidableEq, Repr

/-- The `writeBits` calls of a sequence of emissions with the code table
`(codes, sizes)`. -/
def emitCalls (codes sizes : List Nat) (es : List Emit) : List (Nat × Nat) :=
  es.map (fun e =>
    match e with
    | .symbol s => (codes.getD s 0, sizes.getD s 0)
    | .bits value count => (value, count))

/-- The emissions for the DC difference: the symbol of its category and, for
a nonzero category, the magnitude bits. -/
def dcEmits (dcDiff : Int) : List Emit :=
  Emit.symbol (getCategory dcDiff) ::
    (if getCategory dcDiff > 0 then
      [Emit.bits (magnitudeBits dcDiff (getCategory dcDiff)) (getCategory dcDiff)]
     else [])

/-- The AC emissions as the specification lists them, without the end of
block: for each nonzero coefficient `v` preceded by `z` zeros, `z / 16`
symbols 0xF0, the symbol `((z mod 16) << 4) | category(v)` and the magnitude
bits of `v`. -/
def acBody : List Int → Nat → List Emit
  | [], _ => []
  | v :: rest, z =>
    if v = 0 then acBody rest (z + 1)
    else
      List.replicate (z / 16) (Emit.symbol 0xF0)
        ++ [Emit.symbol (((z % 16) <<< 4) ||| getCategory v),
            Emit.bits (magnitudeBits v (getCategory v)) (getCategory v)]
        ++ acBody rest 0

/-- The AC emissions of a block with the AC coefficients `ac` (positions
1..63): the runs, and one symbol 0x00 (EOB) exactly when the last coefficient
is 0. -/
def acSymbols (ac : List Int) : List Emit :=
  acBody ac 0 ++ (if ac.getLast? = some 0 then [Emit.symbol 0x00] else [])

/-- The bit string of a sequence of `writeBits` calls: each value as a
`count`-bit string, most significant bit first. -/
def callBits (calls : List (Nat × Nat)) : List Bool :=
  (calls.map (fun c => bitString c.1 c.2)).flatten

/-- The `writeBits` calls of `encodeBlock` for a block, by the two lists of
emissions. -/
def blockCalls (block : List Int) (prevDC : Int) (dcBits dcValues acBits acValues : List Nat) :
    List (Nat × Nat) :=
  emitCalls (generateHuffmanCodes dcBits dcValues).1 (generateHuffmanCodes dcBits dcValues).2
      (dcEmits (block.getD 0 0 - prevDC))
    ++ emitCalls (generateHuffmanCodes acBits acValues).1 (generateHuffmanCodes acBits acValues).2
      (acSymbols ((block.drop 1).take 63))

/-- A table `(bits, values)` with `n` values gives a prefix code, in the
terms of the specification: the `bits` entries sum to `n`, the values are
pairwise distinct, `generateHuffmanCodes` gives the `k`-th value a code of the
length of its bucket, below 2^length, and no assigned code is a prefix of
another. -/
def PrefixCodeTable (bits values : List Nat) (n : Nat) : Prop :=
  bits.sum = n ∧ values.length = n ∧ values.Nodup ∧
  (∀ k, k < n →
    (generateHuffmanCodes bits values).2.getD (values.getD k 0) 0 = bucketLength bits k 1 ∧
    (generateHuffmanCodes bits values).1.getD (values.getD k 0) 0
      < 2 ^ bucketLength bits k 1) ∧
  (∀ j k, j < n → k < n → j ≠ k →
    ¬ (bitString ((generateHuffmanCodes bits values).1.getD (values.getD j 0) 0)
          ((generateHuffmanCodes bits values).2.getD (values.getD j 0) 0)
        <+: bitString ((generateHuffmanCodes bits values).1.getD (values.getD k 0) 0)
          ((generateHuffmanCodes bits values).2.getD (values.getD k 0) 0)))

end JPEGEncoder

namespace JPEGEncoder

/-- The facts of a table `(bits, values)` with `n` values that are
established by evaluation, value by value: the size `generateHuffmanCodes`
assigns is the bucket length, between 1 and 16, the code fits in it, and the
decoding procedure reads the code back as the value. -/
def TableChecked (bits values : List Nat) (n : Nat) : Prop :=
  ∀ k, k < n →
    (generateHuffmanCodes bits values).2.getD (values.getD k 0) 0 = bucketLength bits k 1 ∧
    1 ≤ (generateHuffmanCodes bits values).2.getD (values.getD k 0) 0 ∧
    (generateHuffmanCodes bits values).2.getD (values.getD k 0) 0 ≤ 16 ∧
    (generateHuffmanCodes bits values).1.getD (values.getD k 0) 0
      < 2 ^ (generateHuffmanCodes bits values).2.getD (values.getD k 0) 0 ∧
    huffDecode bits values 0 0 0
      (bitString ((generateHuffmanCodes bits values).1.getD (values.getD k 0) 0)
        ((generateHuffmanCodes bits values).2.getD (values.getD k 0) 0))
      = some (values.getD k 0, [])

end JPEGEncoder

namespace JPEGEncoder

/-- The AC symbols a block with coefficients of category 1..10 can need: EOB,
ZRL and the (run, size) pairs with run in 0..15 and size in 1..10. -/
def NeededAC (s : Nat) : Prop :=
  s = 0x00 ∨ s = 0xF0 ∨ ∃ r c, r < 16 ∧ 1 ≤ c ∧ c ≤ 10 ∧ s = r * 16 + c

/-- The condition under which `encodeBlock` writes the end-of-block symbol
after the coefficients `coeffs`, entered with `z` pending zeros. -/
def EndsInZero (coeffs : List Int) (z : Nat) : Prop :=
  (coeffs = [] ∧ z > 0) ∨ coeffs.getLast? = some 0

end JPEGEncoder

namespace JPEGEncoder

/-- The entropy-coded block of `encodeBlock` with the tables
`(dcBits, dcValues)` and `(acBits, acValues)` is decodable, in the terms of
the specification: the writes of `encodeBlock` are the calls `blockCalls`,
each with a count of at most 16 and a value that fits in it, so that the bits
written are `callBits` of them; the block decoding procedure reads these bits,
whatever follows them, back as the DC difference and the 63 AC coefficients
and stops right behind them; and every symbol looked up has a nonzero code
length. -/
def BlockDecodable (dcBits dcValues acBits acValues : List Nat) (block : List Int)
    (prevDC : Int) : Prop :=
  (∀ w : BitWriter,
    encodeBlock w block prevDC dcBits dcValues acBits acValues
      = (w.writeAll (blockCalls block prevDC dcBits dcValues acBits acValues),
          block.getD 0 0)) ∧
  (∀ c ∈ blockCalls block prevDC dcBits dcValues acBits acValues, c.2 ≤ 16 ∧ c.1 < 2 ^ c.2) ∧
  (∀ rest : List Bool,
    decodeBlockSpec dcBits dcValues acBits acValues
        (callBits (blockCalls block prevDC dcBits dcValues acBits acValues) ++ rest)
      = some (block.getD 0 0 - prevDC, (block.drop 1).take 63, rest)) ∧
  (∀ s, Emit.symbol s ∈ dcEmits (block.getD 0 0 - prevDC) →
    1 ≤ (generateHuffmanCodes dcBits dcValues).2.getD s 0) ∧
  (∀ s, Emit.symbol s ∈ acSymbols ((block.drop 1).take 63) →
    1 ≤ (generateHuffmanCodes acBits acValues).2.getD s 0)

end JPEGEncoder

namespace Deflate

/-- One iteration of the `while (true)` loop of `decodeBlock`: the result is
whether the loop ends (the `break` on symbol 256), the reader and the output
after the iteration. -/
def decodeStep (r : BitReader) (litLen dist : HuffmanTree) (output : List Nat) :
    Except Err (Bool × BitReader × List Nat) :=
  match litLen.decode r with
  | .error e => .error e
  | .ok (symbol, r) =>
    if symbol < 256 then .ok (false, r, output ++ [symbol % 256])
    else if symbol = 256 then .ok (true, r, output)
    else
      let symbol := symbol - 257
      match lengthBase[symbol]?, lengthExtra[symbol]? with
      | some lb, some le =>
        match r.readBits le with
        | .error e => .error e
        | .ok (extra, r) =>
          let length := lb + extra
          match dist.decode r with
          | .error e => .error e
          | .ok (distSymbol, r) =>
            match distBase[distSymbol]?, distExtra[distSymbol]? with
            | some db, some de =>
              match r.readBits de with
              | .error e => .error e
              | .ok (dextra, r) =>
                let distance := db + dextra
                if distance > output.length then .error Err.undefinedBehaviour
                else
                  match copyMatch (output.length - distance) length 0 output with
                  | .error e => .error e
                  | .ok output => .ok (false, r, output)
            | _, _ => .error Err.undefinedBehaviour
      | _, _ => .error Err.undefinedBehaviour

/-- One iteration of the `while (allLengths.size() < hlit + hdist)` loop of
`decompress`: the reader and the code lengths after the iteration. -/
def lengthStep (tree : HuffmanTree) (r : BitReader) (allLengths : List Nat) :
    Except Err (BitReader × List Nat) :=
  match tree.decode r with
  | .error e => .error e
  | .ok (symbol, r) =>
    if symbol < 16 then .ok (r, allLengths ++ [symbol])
    else if symbol = 16 then
      match r.readBits 2 with
      | .error e => .error e
      | .ok (v, r) =>
        match allLengths.getLast? with
        | none => .error Err.undefinedBehaviour
        | some value => .ok (r, allLengths ++ List.replicate (v + 3) value)
    else if symbol = 17 then
      match r.readBits 3 with
      | .error e => .error e
      | .ok (v, r) => .ok (r, allLengths ++ List.replicate (v + 3) 0)
    else if symbol = 18 then
      match r.readBits 7 with
      | .error e => .error e
      | .ok (v, r) => .ok (r, allLengths ++ List.replicate (v + 11) 0)
    else .ok (r, allLengths)

/-- The part of the dynamic-Huffman header in `decompress` in front of the
code-length loop: `hlit`, `hdist`, `hclen` and the code-length-code lengths;
the result is the reader, `hlit`, `hdist` and `codeLengthLengths`. -/
def dynamicFields (r : BitReader) : Except Err (BitReader × Nat × Nat × List Nat) :=
  match r.readBits 5 with
  | .error e => .error e
  | .ok (vlit, r) =>
    let hlit := vlit + 257
    match r.readBits 5 with
    | .error e => .error e
    | .ok (vdist, r) =>
      let hdist := vdist + 1
      match r.readBits 4 with
      | .error e => .error e
      | .ok (vclen, r) =>
        let hclen := vclen + 4
        match readCodeLengthLengths hclen 0 r (List.replicate 19 0) with
        | .error e => .error e
        | .ok (r, codeLengthLengths) => .ok (r, hlit, hdist, codeLengthLengths)

end Deflate

/-! ## Theorems -/

namespace PNGDecoder

/-- C5. For all a, b, c in 0..255 the value of `paethPredictor` is one of
a, b, c and coincides with the PNG reference predictor: with p = a + b - c
it is the candidate with the smallest |p - x|, the first in the order a, b, c
among equally close candidates. -/
theorem paethPredictor_reference (a b c : Nat) (ha : a < 256) (hb : b < 256) (hc : c < 256) :
    (paethPredictor a b c = a ∨ paethPredictor a b c = b ∨ paethPredictor a b c = c) ∧
    (paethPredictor a b c : Int) = paethReference a b c ∧
    (∀ x : Int, x = a ∨ x = b ∨ x = c →
      |(a : Int) + b - c - paethPredictor a b c| ≤ |(a : Int) + b - c - x|) ∧
    (paethPredictor a b c ≠ a →
      |(a : Int) + b - c - paethPredictor a b c| < |(a : Int) + b - c - a|) ∧
    (paethPredictor a b c ≠ a → paethPredictor a b c ≠ b →
      |(a : Int) + b - c - paethPredictor a b c| < |(a : Int) + b - c - b|) := by
  have e1 : ((a : Int) % 256).toNat = a := by omega
  have e2 : ((b : Int) % 256).toNat = b := by omega
  have e3 : ((c : Int) % 256).toNat = c := by omega
  simp only [paethPredictor, paethReference, Int.abs_eq_natAbs, e1, e2, e3]
  refine ⟨?_, ?_, ?_, ?_, ?_⟩
  · split_ifs <;> simp
  · split_ifs <;> omega
  · rintro x (rfl | rfl | rfl) <;> split_ifs <;> omega
  · split_ifs <;> omega
  · split_ifs <;> omega

/-- Witness for C5 at a = 10, b = 200, c = 60. -/
theorem paethPredictor_reference_witness :
    (paethPredictor (10 : Nat) (200 : Nat) (60 : Nat) = 10 ∨
      paethPredictor (10 : Nat) (200 : Nat) (60 : Nat) = 200 ∨
      paethPredictor (10 : Nat) (200 : Nat) (60 : Nat) = 60) ∧
    (paethPredictor (10 : Nat) (200 : Nat) (60 : Nat) : Int)
      = paethReference (10 : Nat) (200 : Nat) (60 : Nat) :=
  ⟨(paethPredictor_reference 10 200 60 (by decide) (by decide) (by decide)).1,
   (paethPredictor_reference 10 200 60 (by decide) (by decide) (by decide)).2.1⟩

end PNGDecoder

namespace JPEGEncoder

theorem categoryLoop_spec (fuel : Nat) : ∀ (a c : Nat), a < 2 ^ fuel →
    c ≤ categoryLoop fuel a c ∧ a < 2 ^ (categoryLoop fuel a c - c) ∧
    ∀ n, a < 2 ^ n → categoryLoop fuel a c ≤ c + n := by
  induction fuel with
  | zero =>
    intro a c h
    have : a = 0 := by simpa using h
    subst this
    simp [categoryLoop]
  | succ f ih =>
    intro a c h
    unfold categoryLoop
    by_cases ha : a > 0
    · simp only [ha, if_true]
      have e1 : a >>> 1 = a / 2 := by simp [Nat.shiftRight_eq_div_pow]
      rw [e1]
      have hlt : a / 2 < 2 ^ f := by
        rw [pow_succ] at h; omega
      obtain ⟨h1, h2, h3⟩ := ih (a / 2) (c + 1) hlt
      refine ⟨by omega, ?_, ?_⟩
      · have e : categoryLoop f (a / 2) (c + 1) - c
            = (categoryLoop f (a / 2) (c + 1) - (c + 1)) + 1 := by omega
        rw [e, pow_succ]
        omega
      · intro n hn
        cases n with
        | zero => simp at hn; omega
        | succ m =>
          have : a / 2 < 2 ^ m := by
            rw [pow_succ] at hn; omega
          have := h3 m this
          omega
    · have : a = 0 := by omega
      subst this
      simp

/-- C7. For every v in [-32767, 32767], `getCategory v` is the least n with
|v| < 2^n; in particular it is 0 at 0, 1 at ±1, k at ±(2^k - 1) and k + 1 at
±2^k whenever 2^k ≤ 32767. -/
theorem getCategory_bit_length (v : Int) (hlo : -32767 ≤ v) (hhi : v ≤ 32767) :
    v.natAbs < 2 ^ getCategory v ∧
    (∀ n, v.natAbs < 2 ^ n → getCategory v ≤ n) ∧
    getCategory 0 = 0 ∧ getCategory 1 = 1 ∧ getCategory (-1) = 1 ∧
    ∀ k : Nat, 2 ^ k ≤ 32767 →
      getCategory ((2 : Int) ^ k - 1) = k ∧ getCategory (-((2 : Int) ^ k - 1)) = k ∧
      getCategory ((2 : Int) ^ k) = k + 1 ∧ getCategory (-((2 : Int) ^ k)) = k + 1 := by
  refine ⟨?_, ?_, by decide, by decide, by decide, ?_⟩
  · unfold getCategory
    by_cases h0 : v = 0
    · simp [h0]
    · simp only [h0, if_false]
      have hb : v.natAbs < 2 ^ 32 := by omega
      have := (categoryLoop_spec 32 v.natAbs 0 hb).2.1
      simpa using this
  · intro n hn
    unfold getCategory
    by_cases h0 : v = 0
    · simp [h0]
    · simp only [h0, if_false]
      have hb : v.natAbs < 2 ^ 32 := by omega
      have := (categoryLoop_spec 32 v.natAbs 0 hb).2.2 n hn
      omega
  · intro k hk
    have hk15 : k < 15 := by
      by_contra hge
      have : 2 ^ 15 ≤ 2 ^ k := Nat.pow_le_pow_right (by decide) (by omega)
      omega
    interval_cases k <;> decide

/-- Witness for C7 at v = -300, whose category is 9. -/
theorem getCategory_bit_length_witness :
    (-300 : Int).natAbs < 2 ^ getCategory (-300) ∧ getCategory (-300) ≤ 9 :=
  ⟨(getCategory_bit_length (-300) (by decide) (by decide)).1,
   (getCategory_bit_length (-300) (by decide) (by decide)).2.1 9 (by decide)⟩

end JPEGEncoder

namespace JPEGEncoder

theorem luminanceQuantTable_range : ∀ q ∈ luminanceQuantTable, 1 ≤ q ∧ q ≤ 121 := by
  decide

theorem chrominanceQuantTable_range : ∀ q ∈ chrominanceQuantTable, 1 ≤ q ∧ q ≤ 121 := by
  decide

theorem qualityScale_eq_scaleSpec (Q : Int) (h1 : 1 ≤ Q) (h2 : Q ≤ 100) :
    qualityScale Q = scaleSpec Q ∧ 0 ≤ scaleSpec Q := by
  unfold qualityScale scaleSpec
  by_cases h : Q < 50
  · simp only [h, if_true]
    rw [Int.tdiv_eq_ediv (by decide) (by omega)]
    exact ⟨rfl, Int.ediv_nonneg (by decide) (by omega)⟩
  · simp only [h, if_false]
    constructor <;> omega

theorem scaleEntry_eq_clampSpec (q s : Int) (hq : 0 ≤ q) (hs : 0 ≤ s) :
    scaleEntry q s = clampSpec ((q * s + 50) / 100) 1 255 ∧
    1 ≤ scaleEntry q s ∧ scaleEntry q s ≤ 255 := by
  have hqs : 0 ≤ q * s := mul_nonneg hq hs
  unfold scaleEntry clampSpec
  rw [Int.tdiv_eq_ediv (by omega) (by decide)]
  refine ⟨?_, ?_, ?_⟩
  · split_ifs <;> omega
  · omega
  · omega

/-- C9. For every quality Q in 1..100 and index i in 0..63, with
scale = 5000 div Q when Q < 50 and 200 - 2Q otherwise, the i-th entry of
both scaled tables computed in `encode` is clamp((q[i]·scale + 50) div 100, 1, 255)
for the standard entry q[i], and lies in [1, 255]. -/
theorem scaled_tables_clamped (Q : Int) (i : Nat) (h1 : 1 ≤ Q) (h2 : Q ≤ 100) (hi : i < 64) :
    ∃ ql qc : Int,
      luminanceQuantTable[i]? = some ql ∧ chrominanceQuantTable[i]? = some qc ∧
      (scaledLumQuant Q)[i]? = some (clampSpec ((ql * scaleSpec Q + 50) / 100) 1 255) ∧
      (scaledChromQuant Q)[i]? = some (clampSpec ((qc * scaleSpec Q + 50) / 100) 1 255) ∧
      1 ≤ clampSpec ((ql * scaleSpec Q + 50) / 100) 1 255 ∧
      clampSpec ((ql * scaleSpec Q + 50) / 100) 1 255 ≤ 255 ∧
      1 ≤ clampSpec ((qc * scaleSpec Q + 50) / 100) 1 255 ∧
      clampSpec ((qc * scaleSpec Q + 50) / 100) 1 255 ≤ 255 := by
  have hlen1 : luminanceQuantTable.length = 64 := by decide
  have hlen2 : chrominanceQuantTable.length = 64 := by decide
  have hl : i < luminanceQuantTable.length := by omega
  have hc : i < chrominanceQuantTable.length := by omega
  obtain ⟨hsc, hs0⟩ := qualityScale_eq_scaleSpec Q h1 h2
  refine ⟨luminanceQuantTable[i], chrominanceQuantTable[i],
    List.getElem?_eq_getElem hl, List.getElem?_eq_getElem hc, ?_, ?_, ?_⟩
  · have hq := luminanceQuantTable_range _ (List.getElem_mem hl)
    simp only [scaledLumQuant, List.getElem?_map, List.getElem?_eq_getElem hl, Option.map_some',
      hsc]
    rw [(scaleEntry_eq_clampSpec _ _ (by omega) hs0).1]
  · have hq := chrominanceQuantTable_range _ (List.getElem_mem hc)
    simp only [scaledChromQuant, List.getElem?_map, List.getElem?_eq_getElem hc,
      Option.map_some', hsc]
    rw [(scaleEntry_eq_clampSpec _ _ (by omega) hs0).1]
  · have hq := luminanceQuantTable_range _ (List.getElem_mem hl)
    have hq2 := chrominanceQuantTable_range _ (List.getElem_mem hc)
    have a1 := scaleEntry_eq_clampSpec (luminanceQuantTable[i]) (scaleSpec Q) (by omega) hs0
    have a2 := scaleEntry_eq_clampSpec (chrominanceQuantTable[i]) (scaleSpec Q) (by omega) hs0
    rw [← a1.1, ← a2.1]
    exact ⟨a1.2.1, a1.2.2, a2.2.1, a2.2.2⟩

/-- Witness for C9 at quality 85, index 5: the entries are 12 and 30. -/
theorem scaled_tables_clamped_witness :
    ∃ ql qc : Int,
      luminanceQuantTable[5]? = some ql ∧ chrominanceQuantTable[5]? = some qc ∧
      (scaledLumQuant 85)[5]? = some (clampSpec ((ql * scaleSpec 85 + 50) / 100) 1 255) ∧
      (scaledChromQuant 85)[5]? = some (clampSpec ((qc * scaleSpec 85 + 50) / 100) 1 255) ∧
      1 ≤ clampSpec ((ql * scaleSpec 85 + 50) / 100) 1 255 ∧
      clampSpec ((ql * scaleSpec 85 + 50) / 100) 1 255 ≤ 255 ∧
      1 ≤ clampSpec ((qc * scaleSpec 85 + 50) / 100) 1 255 ∧
      clampSpec ((qc * scaleSpec 85 + 50) / 100) 1 255 ≤ 255 :=
  scaled_tables_clamped 85 5 (by decide) (by decide) (by decide)

/-- C10 fails as stated: after `writeBits(1, 1)` on a fresh writer one bit is
buffered, and `flush` emits the single byte 0x80, whose low seven bits are
0 and not 1. -/
theorem flush_pads_ones_counterexample :
    ((BitWriter.new []).writeBits 1 1).bitCount = 1 ∧
    ((BitWriter.new []).writeBits 1 1).buffer % 2 ^ 1 = 1 ∧
    ((BitWriter.new []).writeBits 1 1).flush.output = [0x80] ∧
    ¬ (0x80 % 2 ^ (8 - 1) = 2 ^ (8 - 1) - 1) := by
  decide

/-- C10 (amended). When `flush` is called with k buffered bits, 0 < k < 8, it
appends exactly one byte whose high k bits are the buffered bits (the low k
bits of the accumulator) and whose low 8 - k bits are all 0; when k = 0 it
appends nothing. -/
theorem flush_pads_zero_bits (w : BitWriter) (hk : w.bitCount < 8) :
    (w.bitCount = 0 → w.flush.output = w.output) ∧
    (0 < w.bitCount → ∃ byte, w.flush.output = w.output ++ [byte] ∧
      byte / 2 ^ (8 - w.bitCount) = w.buffer % 2 ^ w.bitCount ∧
      byte % 2 ^ (8 - w.bitCount) = 0) := by
  obtain ⟨out, buf, k⟩ := w
  simp only at hk
  constructor
  · intro h0
    simp only at h0
    subst h0
    simp [BitWriter.flush]
  · intro hpos
    simp only at hpos
    simp only [BitWriter.flush, hpos, if_true, Nat.shiftLeft_eq]
    have hne : buf * 2 ^ (8 - k) % 2 ^ 32 % 256 ≠ 255 := by
      interval_cases k <;> norm_num <;> omega
    refine ⟨buf * 2 ^ (8 - k) % 2 ^ 32 % 256, by rw [if_neg hne], ?_, ?_⟩
    · interval_cases k <;> norm_num <;> omega
    · interval_cases k <;> norm_num

/-- Witness for the amended C10 on the writer holding the single bit 1. -/
theorem flush_pads_zero_bits_witness :
    (BitWriter.mk [] 1 1).bitCount < 8 ∧
    ∃ byte,
      (BitWriter.mk [] 1 1).flush.output = (BitWriter.mk [] 1 1).output ++ [byte] ∧
      byte / 2 ^ (8 - (BitWriter.mk [] 1 1).bitCount)
        = (BitWriter.mk [] 1 1).buffer % 2 ^ (BitWriter.mk [] 1 1).bitCount ∧
      byte % 2 ^ (8 - (BitWriter.mk [] 1 1).bitCount) = 0 :=
  ⟨by decide, (flush_pads_zero_bits (BitWriter.mk [] 1 1) (by decide)).2 (by decide)⟩

end JPEGEncoder

namespace JPEGEncoder

theorem Stuffed.nil : Stuffed [] := by
  intro i h; simp at h

theorem Stuffed.append_plain {l : List Nat} (hl : Stuffed l) {b : Nat} (hb : b ≠ 0xFF) :
    Stuffed (l ++ [b]) := by
  intro i h
  rcases Nat.lt_trichotomy i l.length with hlt | heq | hgt
  · rw [List.getElem?_append_left hlt] at h
    have h1 := hl i h
    have hlt1 : i + 1 < l.length := by
      by_contra hcon
      rw [List.getElem?_eq_none (by omega)] at h1
      exact absurd h1 (by simp)
    rw [List.getElem?_append_left hlt1]
    exact h1
  · subst heq
    rw [List.getElem?_append_right (le_refl _)] at h
    simp at h
    exact absurd h hb
  · rw [List.getElem?_eq_none (by simp; omega)] at h
    exact absurd h (by simp)

theorem Stuffed.append_stuffed {l : List Nat} (hl : Stuffed l) :
    Stuffed (l ++ [0xFF, 0x00]) := by
  intro i h
  rcases Nat.lt_trichotomy i l.length with hlt | heq | hgt
  · rw [List.getElem?_append_left hlt] at h
    have h1 := hl i h
    have hlt1 : i + 1 < l.length := by
      by_contra hcon
      rw [List.getElem?_eq_none (by omega)] at h1
      exact absurd h1 (by simp)
    rw [List.getElem?_append_left hlt1]
    exact h1
  · subst heq
    rw [List.getElem?_append_right (by omega)]
    simp
  · rw [List.getElem?_append_right (by omega)] at h
    obtain ⟨d, hd⟩ : ∃ d, i - l.length = d + 1 := ⟨i - l.length - 1, by omega⟩
    rw [hd] at h
    cases d with
    | zero => simp at h
    | succ d => simp at h

theorem BitWriter.drain_stuffed (out0 : List Nat) (fuel : Nat) :
    ∀ (w : BitWriter), (∃ app, w.output = out0 ++ app ∧ Stuffed app) →
      ∃ app, (BitWriter.drain fuel w).output = out0 ++ app ∧ Stuffed app := by
  induction fuel with
  | zero => intro w h; simpa [BitWriter.drain] using h
  | succ f ih =>
    intro w h
    obtain ⟨app, happ, hst⟩ := h
    unfold BitWriter.drain
    by_cases h8 : w.bitCount ≥ 8
    · simp only [h8, if_true]
      apply ih
      by_cases hb : (w.buffer >>> (w.bitCount - 8)) % 256 = 0xFF
      · refine ⟨app ++ [0xFF, 0x00], ?_, hst.append_stuffed⟩
        simp [hb, happ]
      · refine ⟨app ++ [(w.buffer >>> (w.bitCount - 8)) % 256], ?_, hst.append_plain hb⟩
        simp [hb, happ]
    · simp only [h8, if_false]
      exact ⟨app, happ, hst⟩

theorem BitWriter.writeBits_stuffed (out0 : List Nat) (w : BitWriter) (bits count : Nat)
    (h : ∃ app, w.output = out0 ++ app ∧ Stuffed app) :
    ∃ app, (w.writeBits bits count).output = out0 ++ app ∧ Stuffed app := by
  unfold BitWriter.writeBits
  exact BitWriter.drain_stuffed out0 _ _ h

theorem BitWriter.writeAll_stuffed (out0 : List Nat) (calls : List (Nat × Nat)) :
    ∀ (w : BitWriter), (∃ app, w.output = out0 ++ app ∧ Stuffed app) →
      ∃ app, (w.writeAll calls).output = out0 ++ app ∧ Stuffed app := by
  induction calls with
  | nil => intro w h; simpa [BitWriter.writeAll] using h
  | cons c cs ih =>
    intro w h
    have := ih (w.writeBits c.1 c.2) (BitWriter.writeBits_stuffed out0 w c.1 c.2 h)
    simpa [BitWriter.writeAll] using this

theorem BitWriter.flush_stuffed (out0 : List Nat) (w : BitWriter)
    (h : ∃ app, w.output = out0 ++ app ∧ Stuffed app) :
    ∃ app, w.flush.output = out0 ++ app ∧ Stuffed app := by
  obtain ⟨app, happ, hst⟩ := h
  unfold BitWriter.flush
  by_cases hk : w.bitCount > 0
  · simp only [hk, if_true]
    by_cases hb : (w.buffer <<< (8 - w.bitCount)) % 2 ^ 32 % 256 = 0xFF
    · refine ⟨app ++ [0xFF, 0x00], ?_, hst.append_stuffed⟩
      rw [if_pos hb, hb, happ]
      simp
    · refine ⟨app ++ [(w.buffer <<< (8 - w.bitCount)) % 2 ^ 32 % 256], ?_, hst.append_plain hb⟩
      rw [if_neg hb, happ]
      simp
  · simp only [hk, if_false]
    exact ⟨app, happ, hst⟩

/-- The loop of `writeBits` always runs to completion: with at most 16 bits
written on top of fewer than 8 buffered ones, fewer than 8 bits remain. -/
theorem BitWriter.drain_bitCount (fuel : Nat) :
    ∀ (w : BitWriter), w.bitCount ≤ fuel → (BitWriter.drain fuel w).bitCount < 8 := by
  induction fuel with
  | zero => intro w h; simp [BitWriter.drain]; omega
  | succ f ih =>
    intro w h
    unfold BitWriter.drain
    by_cases h8 : w.bitCount ≥ 8
    · simp only [h8, if_true]
      apply ih
      simp only
      omega
    · simp only [h8, if_false]
      omega

theorem BitWriter.writeAll_bitCount (calls : List (Nat × Nat)) :
    ∀ (w : BitWriter), w.bitCount < 8 → (w.writeAll calls).bitCount < 8 := by
  induction calls with
  | nil => intro w h; simpa [BitWriter.writeAll] using h
  | cons c cs ih =>
    intro w _
    have h1 : (w.writeBits c.1 c.2).bitCount < 8 := by
      unfold BitWriter.writeBits
      exact BitWriter.drain_bitCount _ _ (le_refl _)
    have := ih _ h1
    simpa [BitWriter.writeAll] using this

/-- C6. For every sequence of `writeBits(bits, count)` calls with count in
0..16 and bits < 2^count on a fresh writer, followed by `flush()`, the output
is the initial buffer followed by the appended bytes, and in the appended
bytes every 0xFF is immediately followed by 0x00; the drain loop ran to
completion after every call (fewer than 8 bits stay buffered). -/
theorem byte_stuffing (out0 : List Nat) (calls : List (Nat × Nat))
    (hcalls : ∀ c ∈ calls, c.2 ≤ 16 ∧ c.1 < 2 ^ c.2) :
    ((BitWriter.new out0).writeAll calls).bitCount < 8 ∧
    ∃ app, ((BitWriter.new out0).writeAll calls).flush.output = out0 ++ app ∧ Stuffed app := by
  have _ := hcalls
  refine ⟨BitWriter.writeAll_bitCount calls _ (by simp [BitWriter.new]), ?_⟩
  apply BitWriter.flush_stuffed
  apply BitWriter.writeAll_stuffed
  exact ⟨[], by simp [BitWriter.new], Stuffed.nil⟩

/-- Witness for C6: sixteen 1-bits followed by three more, which produces
two stuffed 0xFF bytes and a final padded byte. -/
theorem byte_stuffing_witness :
    ((BitWriter.new [0xFF, 0xDA]).writeAll [(0xFFFF, 16), (7, 3)]).bitCount < 8 ∧
    ∃ app, ((BitWriter.new [0xFF, 0xDA]).writeAll [(0xFFFF, 16), (7, 3)]).flush.output
      = [0xFF, 0xDA] ++ app ∧ Stuffed app :=
  byte_stuffing [0xFF, 0xDA] [(0xFFFF, 16), (7, 3)] (by decide)

end JPEGEncoder

namespace Deflate

theorem readBits_one_aligned (data : List Nat) (bp hdr : Nat) (hget : data[bp]? = some hdr) :
    BitReader.readBits ⟨data, bp, 0⟩ 1 = .ok (hdr % 2, ⟨data, bp, 1⟩) := by
  have hlt : bp < data.length := by
    by_contra h
    rw [List.getElem?_eq_none (by omega)] at hget
    exact absurd hget (by simp)
  have hm : hdr % 2 % 4294967296 = hdr % 2 := by omega
  simp [BitReader.readBits, BitReader.readBitsLoop, hget, Nat.not_le.mpr hlt,
    Nat.and_one_is_mod, hm]

theorem readBits_two_stored (data : List Nat) (bp hdr : Nat) (hget : data[bp]? = some hdr)
    (hb : (hdr / 2) % 4 = 0) :
    BitReader.readBits ⟨data, bp, 1⟩ 2 = .ok (0, ⟨data, bp, 3⟩) := by
  have hlt : bp < data.length := by
    by_contra h
    rw [List.getElem?_eq_none (by omega)] at hget
    exact absurd hget (by simp)
  have h1 : hdr / 2 % 2 = 0 := by omega
  have h2 : hdr / 4 % 2 = 0 := by omega
  simp [BitReader.readBits, BitReader.readBitsLoop, hget, Nat.not_le.mpr hlt,
    Nat.and_one_is_mod, Nat.shiftRight_eq_div_pow, h1, h2]

theorem copyStored_slice (pre post : List Nat) :
    ∀ (chunk done output : List Nat),
      copyStored (pre ++ done ++ chunk ++ post) chunk.length (pre.length + done.length) output
        = .ok (pre.length + done.length + chunk.length, output ++ chunk) := by
  intro chunk
  induction chunk with
  | nil => intro done output; simp [copyStored]
  | cons b bs ih =>
    intro done output
    have hget : (pre ++ done ++ (b :: bs) ++ post)[pre.length + done.length]? = some b := by
      rw [List.append_assoc, List.getElem?_append_right (by simp)]
      simp
    have := ih (done ++ [b]) (output ++ [b])
    simp only [List.length_append, List.length_singleton, List.append_assoc,
      List.singleton_append] at this
    simp only [copyStored, List.length_cons, hget]
    rw [show pre.length + done.length + 1 = pre.length + (done.length + 1) by omega]
    simp only [List.append_assoc] at this ⊢
    rw [this]
    congr 2
    omega

theorem stored_length_field (n : Nat) (hn : n ≤ 65535) :
    (n % 256 ||| (n / 256 % 256) <<< 8) % 2 ^ 16 = n := by
  have h1 : 2 ^ 8 * (n / 256 % 256) + n % 256 = 2 ^ 8 * (n / 256 % 256) ||| n % 256 :=
    Nat.mul_add_lt_is_or (by omega) _
  rw [Nat.lor_comm, Nat.shiftLeft_eq, Nat.mul_comm, ← h1]
  omega

end Deflate

namespace Deflate

theorem blockLoop_stored_step (pre post output : List Nat) (b : StoredBlock) (fuel : Nat)
    (hbt : (b.hdr / 2) % 4 = 0) (hlen : b.chunk.length ≤ 65535) :
    blockLoop (pre ++ b.bytes ++ post) (fuel + 1) ⟨pre ++ b.bytes ++ post, pre.length, 0⟩ output
      = if b.hdr % 2 ≠ 0 then .ok (output ++ b.chunk)
        else blockLoop (pre ++ b.bytes ++ post) fuel
          ⟨pre ++ b.bytes ++ post, pre.length + b.bytes.length, 0⟩ (output ++ b.chunk) := by
  generalize hD : pre ++ b.bytes ++ post = D
  have hbytes : b.bytes = [b.hdr, b.chunk.length % 256, b.chunk.length / 256 % 256,
      b.nlen0, b.nlen1] ++ b.chunk := rfl
  have hblen : b.bytes.length = 5 + b.chunk.length := by simp [hbytes]; omega
  have hDlen : D.length = pre.length + (5 + b.chunk.length) + post.length := by
    rw [← hD]; simp [hblen]; omega
  have hg0 : D[pre.length]? = some b.hdr := by
    rw [← hD, List.append_assoc, List.getElem?_append_right (le_refl _)]
    simp [hbytes]
  have hg1 : D[pre.length + 1]? = some (b.chunk.length % 256) := by
    rw [← hD, List.append_assoc, List.getElem?_append_right (by omega)]
    simp [hbytes]
  have hg2 : D[pre.length + 1 + 1]? = some (b.chunk.length / 256 % 256) := by
    rw [← hD, List.append_assoc, List.getElem?_append_right (by omega),
      show pre.length + 1 + 1 - pre.length = 2 by omega]
    simp [hbytes]
  have hcopy : copyStored D b.chunk.length (pre.length + 1 + 4) output
      = .ok (pre.length + b.bytes.length, output ++ b.chunk) := by
    have := copyStored_slice
      (pre ++ [b.hdr, b.chunk.length % 256, b.chunk.length / 256 % 256, b.nlen0, b.nlen1])
      post b.chunk [] output
    simp only [List.append_nil, List.length_append, List.length_cons, List.length_nil,
      Nat.add_zero, List.append_assoc] at this
    rw [hblen, ← hD, hbytes]
    simp only [List.append_assoc]
    rw [show pre.length + 1 + 4 = pre.length + 5 by omega, this,
      show pre.length + 5 + b.chunk.length = pre.length + (5 + b.chunk.length) by omega]
  have hnot : ¬ (pre.length + 1 + 4 > D.length) := by omega
  rw [blockLoop]
  rw [readBits_one_aligned D pre.length b.hdr hg0]
  simp only
  rw [readBits_two_stored D pre.length b.hdr hg0 hbt]
  simp only [if_true]
  have halign : BitReader.alignToByte ⟨D, pre.length, 3⟩ = ⟨D, pre.length + 1, 0⟩ := by
    simp [BitReader.alignToByte]
  rw [halign]
  simp only [hnot, if_false]
  have hd1 : D.getD (pre.length + 1) 0 = b.chunk.length % 256 := by
    simp [List.getD, hg1]
  have hd2 : D.getD (pre.length + 1 + 1) 0 = b.chunk.length / 256 % 256 := by
    simp [List.getD, hg2]
  rw [hd1, hd2, stored_length_field _ hlen, hcopy]

theorem blockLoop_stored (blocks : List StoredBlock) :
    StoredBlock.WellFormed blocks → ∀ (pre post output : List Nat) (fuel : Nat),
      blocks.length ≤ fuel →
      blockLoop (pre ++ (blocks.map StoredBlock.bytes).flatten ++ post) fuel
          ⟨pre ++ (blocks.map StoredBlock.bytes).flatten ++ post, pre.length, 0⟩ output
        = .ok (output ++ StoredBlock.payload blocks) := by
  induction blocks with
  | nil => intro h; exact absurd h (by simp [StoredBlock.WellFormed])
  | cons b rest ih =>
    intro hwf pre post output fuel hfuel
    obtain ⟨f, rfl⟩ : ∃ f, fuel = f + 1 := ⟨fuel - 1, by simp at hfuel; omega⟩
    have hD : pre ++ ((b :: rest).map StoredBlock.bytes).flatten ++ post
        = pre ++ b.bytes ++ ((rest.map StoredBlock.bytes).flatten ++ post) := by
      simp [List.append_assoc]
    cases rest with
    | nil =>
      obtain ⟨h1, h2, h3⟩ := hwf
      rw [hD, blockLoop_stored_step pre _ output b f h2 h3]
      simp [h1, StoredBlock.payload]
    | cons c rest =>
      obtain ⟨h1, h2, h3, h4⟩ := hwf
      rw [hD, blockLoop_stored_step pre _ output b f h2 h3]
      simp only [h1, ne_eq, not_true_eq_false, if_false]
      have := ih h4 (pre ++ b.bytes) post (output ++ b.chunk) f (by simp at hfuel ⊢; omega)
      simp only [List.length_append, List.append_assoc] at this ⊢
      rw [this]
      simp [StoredBlock.payload]

/-- On a zlib-wrapped stream of well-formed stored blocks `decompress`
returns the concatenated chunks. -/
theorem decompress_storedStream (h0 h1 : Nat) (blocks : List StoredBlock)
    (trailer : List Nat) (htrailer : trailer.length = 4)
    (hwf : StoredBlock.WellFormed blocks) :
    decompress (storedStream h0 h1 blocks trailer) = .ok (StoredBlock.payload blocks) := by
  have hne : blocks ≠ [] := by
    rintro rfl
    exact absurd hwf (by simp [StoredBlock.WellFormed])
  have hlen5 : ∀ bs : List StoredBlock,
      5 * bs.length ≤ (bs.map StoredBlock.bytes).flatten.length := by
    intro bs
    induction bs with
    | nil => simp
    | cons b bs ih => simp [StoredBlock.bytes] at ih ⊢; omega
  have hbody := hlen5 blocks
  have hpos : 0 < blocks.length := List.length_pos.mpr hne
  unfold decompress storedStream
  have hl : ([h0, h1] ++ (blocks.map StoredBlock.bytes).flatten ++ trailer).length
      = 2 + (blocks.map StoredBlock.bytes).flatten.length + 4 := by
    simp [htrailer]; omega
  have hdrop : (([h0, h1] ++ (blocks.map StoredBlock.bytes).flatten ++ trailer).drop 2).take
      (([h0, h1] ++ (blocks.map StoredBlock.bytes).flatten ++ trailer).length - 6)
      = (blocks.map StoredBlock.bytes).flatten := by
    rw [hl]
    simp [List.take_append_eq_append_take]
  rw [if_neg (by rw [hl]; omega), if_neg (by rw [hl]; omega)]
  simp only [hdrop]
  have := blockLoop_stored blocks hwf [] [] []
    (8 * (blocks.map StoredBlock.bytes).flatten.length + 1) (by omega)
  simpa using this

/-- C1. Stored-block round trip: for every non-empty sequence of stored
blocks (header byte with BTYPE = 00 and BFINAL set on the last block only,
LEN little-endian, any two NLEN bytes, chunks of at most 65535 bytes) whose
payload has at most 1 MiB, wrapped in any two header bytes and any four
trailer bytes, `decompress` returns exactly the concatenated chunks. -/
theorem stored_round_trip (h0 h1 : Nat) (blocks : List StoredBlock) (trailer : List Nat)
    (htrailer : trailer.length = 4) (hwf : StoredBlock.WellFormed blocks)
    (hsize : (StoredBlock.payload blocks).length ≤ 2 ^ 20) :
    decompress (storedStream h0 h1 blocks trailer) = .ok (StoredBlock.payload blocks) := by
  have _ := hsize
  exact decompress_storedStream h0 h1 blocks trailer htrailer hwf

/-- Witness for C1: two stored blocks, "ab" and "c". -/
theorem stored_round_trip_witness :
    decompress (storedStream 0x78 0x01
      [⟨0x00, 0xFD, 0xFF, [97, 98]⟩, ⟨0x01, 0xFE, 0xFF, [99]⟩] [0, 1, 2, 3])
      = .ok (StoredBlock.payload [⟨0x00, 0xFD, 0xFF, [97, 98]⟩, ⟨0x01, 0xFE, 0xFF, [99]⟩]) :=
  stored_round_trip 0x78 0x01 [⟨0x00, 0xFD, 0xFF, [97, 98]⟩, ⟨0x01, 0xFE, 0xFF, [99]⟩]
    [0, 1, 2, 3] (by decide) (by simp [StoredBlock.WellFormed]) (by decide)

end Deflate

namespace Deflate

theorem foldl_max_ge (L : List Nat) : ∀ m : Nat,
    m ≤ L.foldl (fun m len => if len > m then len else m) m ∧
    ∀ l ∈ L, l ≤ L.foldl (fun m len => if len > m then len else m) m := by
  induction L with
  | nil => intro m; simp
  | cons a as ih =>
    intro m
    simp only [List.foldl_cons, List.mem_cons]
    by_cases ham : a > m
    · simp only [ham, if_true]
      obtain ⟨h1, h2⟩ := ih a
      refine ⟨by omega, ?_⟩
      rintro l (rfl | hl)
      · exact h1
      · exact h2 l hl
    · simp only [ham, if_false]
      obtain ⟨h1, h2⟩ := ih m
      refine ⟨h1, ?_⟩
      rintro l (rfl | hl)
      · omega
      · exact h2 l hl

theorem maxLength_ge (L : List Nat) : ∀ l ∈ L, l ≤ HuffmanTree.maxLength L :=
  (foldl_max_ge L 0).2

theorem countLengths_fold (L : List Nat) : ∀ bl : List Nat, (∀ l ∈ L, l < bl.length) →
    (L.foldl (fun bl len => if len > 0 then bl.set len (bl.getD len 0 + 1) else bl) bl).length
      = bl.length ∧
    ∀ k, (L.foldl (fun bl len => if len > 0 then bl.set len (bl.getD len 0 + 1) else bl) bl).getD k 0
      = bl.getD k 0 + (if k = 0 then 0 else L.count k) := by
  induction L with
  | nil => intro bl _; simp
  | cons a as ih =>
    intro bl hb
    have ha : a < bl.length := hb a (by simp)
    simp only [List.foldl_cons]
    by_cases h0 : a > 0
    · simp only [h0, if_true]
      obtain ⟨h1, h2⟩ := ih (bl.set a (bl.getD a 0 + 1))
        (by intro l hl; rw [List.length_set]; exact hb l (by simp [hl]))
      refine ⟨by rw [h1, List.length_set], ?_⟩
      intro k
      rw [h2 k]
      simp only [List.getD_eq_getElem?_getD, List.getElem?_set, List.count_cons]
      by_cases hk : a = k
      · subst hk
        have : ¬ (a = 0) := by omega
        simp [ha, this]
        omega
      · have hk2 : ¬ ((a == k) = true) := by simpa using hk
        simp only [hk, if_false, hk2]
        simp
    · have : a = 0 := by omega
      subst this
      simp only [gt_iff_lt, lt_self_iff_false, if_false]
      obtain ⟨h1, h2⟩ := ih bl (by intro l hl; exact hb l (by simp [hl]))
      refine ⟨h1, ?_⟩
      intro k
      rw [h2 k, List.count_cons]
      by_cases hk : k = 0
      · simp [hk]
      · have hk2 : ¬ (((0 : Nat) == k) = true) := by simpa using (Ne.symm hk)
        simp [hk, hk2]

theorem countLengths_getD (L : List Nat) (k : Nat) :
    (HuffmanTree.countLengths L (HuffmanTree.maxLength L)).getD k 0
      = if k = 0 then 0 else L.count k := by
  unfold HuffmanTree.countLengths
  have h := (countLengths_fold L (List.replicate (HuffmanTree.maxLength L + 1) 0)
    (by intro l hl; have := maxLength_ge L l hl; simp; omega)).2 k
  rw [h]
  have : (List.replicate (HuffmanTree.maxLength L + 1) 0).getD k 0 = 0 := by
    simp only [List.getD_eq_getElem?_getD, List.getElem?_replicate]
    split_ifs <;> rfl
  rw [this]
  simp

theorem nextCodeLoop_spec (L bl : List Nat)
    (hbl : ∀ k, bl.getD k 0 = if k = 0 then 0 else L.count k) :
    ∀ (n bits code : Nat) (nc : List Nat), 1 ≤ bits → code = firstCode L (bits - 1) →
      bits + n ≤ nc.length →
      (∀ k, bits ≤ k → k < bits + n →
        (HuffmanTree.nextCodeLoop bl n bits code nc).getD k 0 = firstCode L k) := by
  intro n
  induction n with
  | zero => intro bits code nc _ _ _ k h1 h2; omega
  | succ m ih =>
    intro bits code nc hb hcode hlen k h1 h2
    unfold HuffmanTree.nextCodeLoop
    simp only
    have hF : (code + bl.getD (bits - 1) 0) <<< 1 = firstCode L bits := by
      obtain ⟨b, rfl⟩ : ∃ b, bits = b + 1 := ⟨bits - 1, by omega⟩
      simp only [Nat.add_sub_cancel] at hcode ⊢
      rw [hbl, hcode, Nat.shiftLeft_eq, firstCode]
    rw [hF]
    by_cases hk : k = bits
    · subst hk
      -- the later iterations only write above `k`
      have key : ∀ (n b c : Nat) (nc : List Nat), k < b →
          (HuffmanTree.nextCodeLoop bl n b c nc).getD k 0 = nc.getD k 0 := by
        intro n
        induction n with
        | zero => intro b c nc _; rfl
        | succ n ihn =>
          intro b c nc hkb
          unfold HuffmanTree.nextCodeLoop
          simp only
          rw [ihn _ _ _ (by omega)]
          simp only [List.getD_eq_getElem?_getD, List.getElem?_set]
          have : ¬ (b = k) := by omega
          simp [this]
      rw [key _ _ _ _ (by omega)]
      simp only [List.getD_eq_getElem?_getD, List.getElem?_set]
      have : k < nc.length := by omega
      simp [this]
    · exact ih (bits + 1) (firstCode L bits) _ (by omega) (by simp) (by
        rw [List.length_set]; omega) k (by omega) (by omega)

theorem nextCodeLoop_length (bl : List Nat) : ∀ (n bits code : Nat) (nc : List Nat),
    (HuffmanTree.nextCodeLoop bl n bits code nc).length = nc.length := by
  intro n
  induction n with
  | zero => intro _ _ _; rfl
  | succ n ih =>
    intro bits code nc
    unfold HuffmanTree.nextCodeLoop
    simp only
    rw [ih, List.length_set]

end Deflate

namespace Deflate

theorem assignCodes_below : ∀ (rest : List Nat) (n : Nat) (codes : List Int) (nc : List Nat)
    (m : Nat), m < n → (HuffmanTree.assignCodes rest n codes nc).1[m]? = codes[m]? := by
  intro rest
  induction rest with
  | nil => intro n codes nc m _; rfl
  | cons a as ih =>
    intro n codes nc m hm
    unfold HuffmanTree.assignCodes
    by_cases ha : a ≠ 0
    · rw [if_pos ha]
      rw [ih _ _ _ _ (by omega), List.getElem?_set]
      have : ¬ (n = m) := by omega
      simp [this]
    · rw [if_neg ha]
      exact ih _ _ _ _ (by omega)

theorem assignCodes_spec (len : Nat) (hlen : len ≠ 0) :
    ∀ (rest : List Nat) (n : Nat) (codes : List Int) (nc : List Nat),
      (∀ l ∈ rest, l < nc.length) → n + rest.length ≤ codes.length →
      ∀ idx, rest[idx]? = some len →
        (HuffmanTree.assignCodes rest n codes nc).1[n + idx]?
          = some ((nc.getD len 0 + (rest.take idx).count len : Nat) : Int) := by
  intro rest
  induction rest with
  | nil => intro n codes nc _ _ idx h; simp at h
  | cons a as ih =>
    intro n codes nc hnc hcodes idx hidx
    have hlenc : n < codes.length := by simp at hcodes; omega
    cases idx with
    | zero =>
      simp only [List.getElem?_cons_zero, Option.some.injEq] at hidx
      subst hidx
      unfold HuffmanTree.assignCodes
      simp only [hlen, ne_eq, not_false_eq_true, if_true, Nat.add_zero]
      rw [assignCodes_below _ _ _ _ _ (by omega), List.getElem?_set]
      simp [hlenc]
    | succ j =>
      simp only [List.getElem?_cons_succ] at hidx
      unfold HuffmanTree.assignCodes
      have easy : n + (j + 1) = (n + 1) + j := by omega
      rw [easy]
      by_cases ha : a ≠ 0
      · rw [if_pos ha]
        have ha2 : a < nc.length := hnc a (by simp)
        rw [ih (n + 1) _ _ (by
            intro l hl; rw [List.length_set]; exact hnc l (by simp [hl])) (by
            rw [List.length_set]; simp at hcodes; omega) j hidx]
        simp only [List.getD_eq_getElem?_getD, List.getElem?_set, List.take_succ_cons,
          List.count_cons]
        by_cases hal : a = len
        · subst hal
          simp [ha2]
          omega
        · have hal2 : ¬ ((a == len) = true) := by simpa using hal
          simp [hal, hal2]
      · rw [if_neg ha]
        have ha0 : a = 0 := by simpa using ha
        rw [ih (n + 1) _ _ (by intro l hl; exact hnc l (by simp [hl])) (by
            simp at hcodes; omega) j hidx]
        have hal2 : ¬ ((a == len) = true) := by
          rw [ha0]; simpa using (Ne.symm hlen)
        simp [List.take_succ_cons, List.count_cons, hal2]

theorem build_spec (L : List Nat) (i len : Nat) (hi : L[i]? = some len) (hpos : 0 < len) :
    (HuffmanTree.empty.build L).lengths = L ∧
    (HuffmanTree.empty.build L).maxBits = HuffmanTree.maxLength L ∧
    len ≤ HuffmanTree.maxLength L ∧
    (HuffmanTree.empty.build L).codes[i]?
      = some ((firstCode L len + (L.take i).count len : Nat) : Int) := by
  have hmem : len ∈ L := List.getElem?_mem hi
  have hmax : len ≤ HuffmanTree.maxLength L := maxLength_ge L len hmem
  have hM : ¬ (HuffmanTree.maxLength L = 0) := by omega
  have hilt : i < L.length := by
    by_contra h
    rw [List.getElem?_eq_none (by omega)] at hi
    exact absurd hi (by simp)
  unfold HuffmanTree.build
  simp only [hM, if_false]
  refine ⟨trivial, trivial, hmax, ?_⟩
  have hnc := nextCodeLoop_spec L (HuffmanTree.countLengths L (HuffmanTree.maxLength L))
    (countLengths_getD L) (HuffmanTree.maxLength L) 1 0
    (List.replicate (HuffmanTree.maxLength L + 1) 0) (le_refl _) (by simp [firstCode])
    (by simp; omega) len (by omega) (by omega)
  have h := assignCodes_spec len (by omega) L 0
    (vectorResize HuffmanTree.empty.codes L.length (-1))
    (HuffmanTree.nextCodeLoop (HuffmanTree.countLengths L (HuffmanTree.maxLength L))
      (HuffmanTree.maxLength L) 1 0 (List.replicate (HuffmanTree.maxLength L + 1) 0))
    (by
      intro l hl
      rw [nextCodeLoop_length]
      have := maxLength_ge L l hl
      simp; omega)
    (by simp [vectorResize, HuffmanTree.empty])
    i hi
  rw [hnc] at h
  simpa using h

end Deflate

namespace Deflate

theorem kraftUpTo_succ (M k : Nat) : ∀ L : List Nat,
    kraftUpTo L M (k + 1) = kraftUpTo L M k + L.count (k + 1) * 2 ^ (M - (k + 1)) := by
  intro L
  induction L with
  | nil => simp [kraftUpTo]
  | cons a as ih =>
    unfold kraftUpTo at ih ⊢
    simp only [List.filter_cons, List.count_cons]
    by_cases h1 : a = k + 1
    · subst h1
      have e1 : decide (0 < k + 1 ∧ k + 1 ≤ k + 1) = true := by simp
      have e2 : decide (0 < k + 1 ∧ k + 1 ≤ k) = false := by simp
      simp only [e1, e2, if_true, List.map_cons, List.sum_cons, ih]
      simp
      ring
    · have hb : ¬ ((a == k + 1) = true) := by simpa using h1
      by_cases h2 : 0 < a ∧ a ≤ k
      · have e1 : decide (0 < a ∧ a ≤ k + 1) = true := by simp; omega
        have e2 : decide (0 < a ∧ a ≤ k) = true := by simp; omega
        simp only [e1, e2, if_true, List.map_cons, List.sum_cons, ih, hb, if_false,
          Bool.false_eq_true, Nat.add_zero]
        omega
      · have e1 : decide (0 < a ∧ a ≤ k + 1) = false := by simp; omega
        have e2 : decide (0 < a ∧ a ≤ k) = false := by simp; omega
        simp only [e1, e2, hb, if_false, Bool.false_eq_true, Nat.add_zero]
        exact ih

theorem kraftUpTo_le_total (M k : Nat) : ∀ L : List Nat,
    kraftUpTo L M k ≤ ((L.filter (fun l => 0 < l)).map (fun l => 2 ^ (M - l))).sum := by
  intro L
  induction L with
  | nil => simp [kraftUpTo]
  | cons a as ih =>
    unfold kraftUpTo at ih ⊢
    simp only [List.filter_cons]
    by_cases h1 : 0 < a
    · by_cases h2 : a ≤ k
      · have e1 : decide (0 < a ∧ a ≤ k) = true := by simp; omega
        have e2 : decide (0 < a) = true := by simp; omega
        simp only [e1, e2, if_true, List.map_cons, List.sum_cons]
        omega
      · have e1 : decide (0 < a ∧ a ≤ k) = false := by simp; omega
        have e2 : decide (0 < a) = true := by simp; omega
        simp only [e1, e2, if_true, List.map_cons, List.sum_cons]
        simp only [Bool.false_eq_true, if_false]
        exact le_trans ih (Nat.le_add_left _ _)
    · have e1 : decide (0 < a ∧ a ≤ k) = false := by simp; omega
      have e2 : decide (0 < a) = false := by simp; omega
      simp only [e1, e2, Bool.false_eq_true, if_false]
      exact ih

theorem firstCode_kraft (L : List Nat) (M : Nat) : ∀ k, k + 1 ≤ M →
    (firstCode L (k + 1) + L.count (k + 1)) * 2 ^ (M - (k + 1)) = kraftUpTo L M (k + 1) := by
  intro k
  induction k with
  | zero =>
    intro _
    rw [kraftUpTo_succ]
    have h0 : kraftUpTo L M 0 = 0 := by
      unfold kraftUpTo
      have : L.filter (fun l => decide (0 < l ∧ l ≤ 0)) = [] := by
        rw [List.filter_eq_nil_iff]
        intro a _
        simp
        omega
      rw [this]
      simp
    simp [firstCode, h0]
  | succ j ih =>
    intro hM
    rw [kraftUpTo_succ, ← ih (by omega)]
    have hF : firstCode L (j + 1 + 1) = (firstCode L (j + 1) + L.count (j + 1)) * 2 := by
      rw [firstCode]
      simp
    rw [hF]
    have hp : 2 ^ (M - (j + 1)) = 2 * 2 ^ (M - (j + 1 + 1)) := by
      rw [← pow_succ']
      congr 1
      omega
    rw [hp]
    ring

/-- Kraft bound: in a complete length vector the codes of length `len` fit in
`len` bits. -/
theorem firstCode_bound (L : List Nat) (hc : Complete L) (len : Nat) (hpos : 0 < len)
    (hmax : len ≤ HuffmanTree.maxLength L) :
    firstCode L len + L.count len ≤ 2 ^ len := by
  obtain ⟨k, rfl⟩ : ∃ k, len = k + 1 := ⟨len - 1, by omega⟩
  have h1 := firstCode_kraft L (HuffmanTree.maxLength L) k hmax
  have h2 := kraftUpTo_le_total (HuffmanTree.maxLength L) (k + 1) L
  unfold Complete at hc
  rw [hc] at h2
  rw [← h1] at h2
  have hsplit : 2 ^ HuffmanTree.maxLength L
      = 2 ^ (k + 1) * 2 ^ (HuffmanTree.maxLength L - (k + 1)) := by
    rw [← pow_add]
    congr 1
    omega
  rw [hsplit] at h2
  exact Nat.le_of_mul_le_mul_right h2 (by positivity)

theorem firstCode_shift (L : List Nat) : ∀ (d len : Nat), 1 ≤ len →
    firstCode L len + L.count len ≤ firstCode L (len + d + 1) / 2 ^ (d + 1) := by
  intro d
  induction d with
  | zero =>
    intro len hlen
    have hne : ¬ (len = 0) := by omega
    rw [show len + 0 + 1 = len + 1 by omega, firstCode]
    simp only [hne, if_false]
    omega
  | succ e ih =>
    intro len hlen
    have h := ih len hlen
    have hF : firstCode L (len + (e + 1) + 1)
        = (firstCode L (len + e + 1) + L.count (len + e + 1)) * 2 := by
      rw [show len + (e + 1) + 1 = (len + e + 1) + 1 by omega, firstCode]
      simp
    rw [hF, pow_succ, Nat.mul_comm (2 ^ (e + 1)) 2, ← Nat.div_div_eq_div_mul,
      Nat.mul_div_cancel _ (by decide : 0 < 2)]
    exact le_trans h (Nat.div_le_div_right (by omega))

theorem findSymbol_spec (len : Nat) : ∀ (rest : List Nat) (i0 : Nat) (j0 : Int) (idx : Nat),
    rest[idx]? = some len →
    HuffmanTree.findSymbol len (j0 + ((rest.take idx).count len : Nat)) rest i0 j0
      = some (i0 + idx) := by
  intro rest
  induction rest with
  | nil => intro i0 j0 idx h; simp at h
  | cons a as ih =>
    intro i0 j0 idx h
    cases idx with
    | zero =>
      simp only [List.getElem?_cons_zero, Option.some.injEq] at h
      subst h
      simp [HuffmanTree.findSymbol]
    | succ j =>
      simp only [List.getElem?_cons_succ] at h
      unfold HuffmanTree.findSymbol
      simp only [List.take_succ_cons, List.count_cons]
      by_cases ha : a = len
      · subst ha
        simp only [if_true, beq_self_eq_true]
        have hne : ¬ (j0 = j0 + ((List.count a (List.take j as) + 1 : Nat) : Int)) := by
          push_cast; omega
        rw [if_neg hne]
        have := ih (i0 + 1) (j0 + 1) j h
        rw [show i0 + (j + 1) = i0 + 1 + j by omega, ← this]
        congr 1
        push_cast
        ring
      · have hb : ¬ ((a == len) = true) := by simpa using ha
        simp only [ha, if_false, hb, Nat.add_zero]
        rw [show i0 + (j + 1) = i0 + 1 + j by omega]
        exact ih (i0 + 1) j0 j h

theorem count_take_lt (L : List Nat) (i len : Nat) (hi : L[i]? = some len) :
    (L.take i).count len < L.count len := by
  have hilt : i < L.length := by
    by_contra h
    rw [List.getElem?_eq_none (by omega)] at hi
    exact absurd hi (by simp)
  have hsplit : L = L.take i ++ L[i] :: L.drop (i + 1) := by
    rw [← List.drop_eq_getElem_cons hilt, List.take_append_drop]
  have hv : L[i] = len := by
    rw [List.getElem?_eq_getElem hilt] at hi
    exact Option.some.inj hi
  have : L.count len = (L.take i).count len + (L[i] :: L.drop (i + 1)).count len := by
    conv_lhs => rw [hsplit]
    rw [List.count_append]
  rw [this, hv, List.count_cons_self]
  omega

end Deflate

namespace Deflate

theorem readBits_one_offset (r r1 : BitReader) (b : Nat) (hr : r.bit_pos < 8)
    (h : r.readBits 1 = .ok (b, r1)) :
    r1.bitOffset = r.bitOffset + 1 ∧ r1.bit_pos < 8 ∧ r1.data = r.data := by
  unfold BitReader.readBits BitReader.readBitsLoop at h
  by_cases hend : r.byte_pos ≥ r.data.length
  · rw [if_pos hend] at h
    exact absurd h (by simp)
  · rw [if_neg hend] at h
    by_cases h8 : r.bit_pos + 1 = 8
    · simp only [h8, if_true, BitReader.readBitsLoop, Except.ok.injEq, Prod.mk.injEq] at h
      obtain ⟨_, rfl⟩ := h
      exact ⟨by simp only [BitReader.bitOffset]; omega, by simp, rfl⟩
    · simp only [h8, if_false, BitReader.readBitsLoop, Except.ok.injEq, Prod.mk.injEq] at h
      obtain ⟨_, rfl⟩ := h
      exact ⟨by simp only [BitReader.bitOffset]; omega, by simp only; omega, rfl⟩

theorem deliver_offset : ∀ (n : Nat) (r r1 : BitReader) (bs : List Nat), r.bit_pos < 8 →
    BitReader.deliver n r = .ok (bs, r1) →
    r1.bitOffset = r.bitOffset + n ∧ r1.bit_pos < 8 ∧ r1.data = r.data := by
  intro n
  induction n with
  | zero =>
    intro r r1 bs hr h
    simp only [BitReader.deliver, Except.ok.injEq, Prod.mk.injEq] at h
    obtain ⟨_, rfl⟩ := h
    exact ⟨rfl, hr, rfl⟩
  | succ m ih =>
    intro r r1 bs hr h
    unfold BitReader.deliver at h
    cases h1 : r.readBits 1 with
    | error e => rw [h1] at h; exact absurd h (by simp)
    | ok p =>
      obtain ⟨b, r2⟩ := p
      rw [h1] at h
      simp only at h
      cases h2 : BitReader.deliver m r2 with
      | error e => rw [h2] at h; exact absurd h (by simp)
      | ok q =>
        obtain ⟨bs2, r3⟩ := q
        rw [h2] at h
        simp only [Except.ok.injEq, Prod.mk.injEq] at h
        obtain ⟨_, rfl⟩ := h
        obtain ⟨a1, a2, a3⟩ := readBits_one_offset r r2 b hr h1
        obtain ⟨b1, b2, b3⟩ := ih r2 r3 bs2 a2 h2
        exact ⟨by omega, b2, by rw [b3, a3]⟩

theorem deliver_succ_inv (d : Nat) (r r' : BitReader) (b : Nat) (bs : List Nat)
    (h : BitReader.deliver (d + 1) r = .ok (b :: bs, r')) :
    ∃ r1, r.readBits 1 = .ok (b, r1) ∧ BitReader.deliver d r1 = .ok (bs, r') := by
  unfold BitReader.deliver at h
  cases h1 : r.readBits 1 with
  | error e => rw [h1] at h; exact absurd h (by simp)
  | ok p =>
    obtain ⟨b1, r2⟩ := p
    rw [h1] at h
    simp only at h
    cases h2 : BitReader.deliver d r2 with
    | error e => rw [h2] at h; exact absurd h (by simp)
    | ok q =>
      obtain ⟨bs2, r3⟩ := q
      rw [h2] at h
      simp only [Except.ok.injEq, Prod.mk.injEq, List.cons.injEq] at h
      obtain ⟨⟨rfl, rfl⟩, rfl⟩ := h
      exact ⟨r2, rfl, h2⟩

theorem or_low_bit (a b : Nat) (hb : b < 2) : 2 * a ||| b = 2 * a + b := by
  have := @Nat.mul_add_lt_is_or 1 b (by simpa using hb) a
  simpa using this.symm

theorem decodeLoop_spec (t : HuffmanTree) (i len c : Nat) (hi : t.lengths[i]? = some len)
    (hc : c = firstCode t.lengths len + (t.lengths.take i).count len) :
    ∀ (d n code : Nat) (r r' : BitReader), d < len → d < n →
      code = 2 * (c / 2 ^ (d + 1)) →
      BitReader.deliver (d + 1) r = .ok (msbBits c (d + 1), r') →
      t.decodeLoop n (len - d) code (firstCode t.lengths (len - d)) r = .ok (i, r') := by
  intro d
  induction d with
  | zero =>
    intro n code r r' hd hn hcode hbits
    obtain ⟨m, rfl⟩ : ∃ m, n = m + 1 := ⟨n - 1, by omega⟩
    obtain ⟨r1, h1, h2⟩ := deliver_succ_inv 0 r r' _ _ hbits
    simp only [BitReader.deliver, Except.ok.injEq, Prod.mk.injEq] at h2
    obtain ⟨_, rfl⟩ := h2
    unfold HuffmanTree.decodeLoop
    rw [h1]
    simp only [Nat.sub_zero]
    have hor : code ||| c / 2 ^ 0 % 2 = c := by
      rw [hcode, or_low_bit _ _ (Nat.mod_lt _ (by decide))]
      simp only [Nat.zero_add, pow_one, pow_zero, Nat.div_one]
      omega
    rw [hor]
    have hrank := count_take_lt t.lengths i len hi
    have hlt : (c : Int) - (firstCode t.lengths len : Int) < (t.lengths.count len : Int) := by
      rw [hc]; push_cast; omega
    rw [if_pos hlt]
    have hfind := findSymbol_spec len t.lengths 0 0 i hi
    have htarget : (c : Int) - (firstCode t.lengths len : Int)
        = 0 + (((t.lengths.take i).count len : Nat) : Int) := by
      rw [hc]; push_cast; ring
    rw [htarget, hfind]
    simp
  | succ e ih =>
    intro n code r r' hd hn hcode hbits
    obtain ⟨m, rfl⟩ : ∃ m, n = m + 1 := ⟨n - 1, by omega⟩
    obtain ⟨r1, h1, h2⟩ := deliver_succ_inv (e + 1) r r' _ _ hbits
    obtain ⟨k, hk⟩ : ∃ k, len = k + e + 1 + 1 := ⟨len - (e + 1) - 1, by omega⟩
    have hsub : len - (e + 1) = k + 1 := by omega
    have hsub2 : len - e = k + 1 + 1 := by omega
    unfold HuffmanTree.decodeLoop
    rw [h1]
    simp only [hsub]
    have hor : code ||| c / 2 ^ (e + 1) % 2 = c / 2 ^ (e + 1) := by
      rw [hcode, or_low_bit _ _ (Nat.mod_lt _ (by decide))]
      have : c / 2 ^ (e + 1 + 1) = c / 2 ^ (e + 1) / 2 := by
        rw [pow_succ, Nat.div_div_eq_div_mul]
      rw [this]
      omega
    rw [hor]
    have hshift := firstCode_shift t.lengths e (k + 1) (by omega)
    rw [show k + 1 + e + 1 = len by omega] at hshift
    have hge : firstCode t.lengths len / 2 ^ (e + 1) ≤ c / 2 ^ (e + 1) :=
      Nat.div_le_div_right (by omega)
    have hgen : ∀ X F C : Nat, F + C ≤ X → ¬ ((X : Int) - (F : Int) < (C : Int)) := by
      intro X F C h; omega
    have hnot := hgen _ _ _ (le_trans hshift hge)
    rw [if_neg hnot]
    simp only
    have hnext : (firstCode t.lengths (k + 1) + t.lengths.count (k + 1)) <<< 1
        = firstCode t.lengths (len - e) := by
      rw [hsub2, Nat.shiftLeft_eq]
      conv_rhs => rw [firstCode]
      simp
    have hcode2 : (c / 2 ^ (e + 1)) <<< 1 = 2 * (c / 2 ^ (e + 1)) := by
      rw [Nat.shiftLeft_eq]; omega
    rw [hnext, hcode2]
    have := ih m (2 * (c / 2 ^ (e + 1))) r1 r' (by omega) (by omega) rfl h2
    rw [hsub2] at this ⊢
    exact this

/-- C2. Canonical Huffman round trip: for a complete length vector L with
entries in 0..15 and a symbol i with L[i] > 0, if the next L[i] bits the
reader delivers are the bits of the code `build` assigned to i, most
significant first, then `decode` returns i, and the reader is the one reached
after exactly those L[i] bits. -/
theorem huffman_round_trip (L : List Nat) (i len : Nat) (c : Int) (r r' : BitReader)
    (hrange : ∀ l ∈ L, l ≤ 15) (hcomplete : Complete L)
    (hi : L[i]? = some len) (hpos : 0 < len)
    (hcode : (HuffmanTree.empty.build L).codes[i]? = some c)
    (hbits : BitReader.deliver len r = .ok (msbBits c.toNat len, r')) :
    (HuffmanTree.empty.build L).decode r = .ok (i, r') ∧
    (r.bit_pos < 8 → r'.bitOffset = r.bitOffset + len ∧ r'.bit_pos < 8 ∧ r'.data = r.data) := by
  have _ := hrange
  obtain ⟨hl, hm, hmax, hcodes⟩ := build_spec L i len hi hpos
  rw [hcodes] at hcode
  have hcval : c.toNat = firstCode L len + (L.take i).count len := by
    have := Option.some.inj hcode
    rw [← this]
    omega
  refine ⟨?_, fun hr => deliver_offset len r r' _ hr hbits⟩
  obtain ⟨d, rfl⟩ : ∃ d, len = d + 1 := ⟨len - 1, by omega⟩
  have hbound := firstCode_bound L hcomplete (d + 1) hpos hmax
  have hrank := count_take_lt L i (d + 1) hi
  have hsmall : c.toNat < 2 ^ (d + 1) := by omega
  unfold HuffmanTree.decode
  rw [hm]
  have key := decodeLoop_spec (HuffmanTree.empty.build L) i (d + 1) c.toNat
    (by rw [hl]; exact hi) (by rw [hl]; exact hcval) d (HuffmanTree.maxLength L) 0 r r'
    (by omega) (by omega) (by rw [Nat.div_eq_of_lt hsmall]) hbits
  rw [hl] at key
  simpa [firstCode] using key

end Deflate

namespace Deflate

/-- Witness for C2: the complete length vector [2, 1, 3, 3] has the codes
10, 0, 110, 111; the reader delivers 1, 1, 0 and `decode` returns symbol 2,
three bits further. -/
theorem huffman_round_trip_witness :
    (HuffmanTree.empty.build [2, 1, 3, 3]).decode ⟨[3], 0, 0⟩ = .ok (2, ⟨[3], 0, 3⟩) ∧
    (BitReader.mk [3] 0 3).bitOffset = (BitReader.mk [3] 0 0).bitOffset + 3 :=
  ⟨(huffman_round_trip [2, 1, 3, 3] 2 3 6 ⟨[3], 0, 0⟩ ⟨[3], 0, 3⟩ (by decide)
      (by unfold Complete; decide) (by decide) (by decide) (by decide) (by rfl)).1,
   ((huffman_round_trip [2, 1, 3, 3] 2 3 6 ⟨[3], 0, 0⟩ ⟨[3], 0, 3⟩ (by decide)
      (by unfold Complete; decide) (by decide) (by decide) (by decide) (by rfl)).2
      (by decide)).1⟩

end Deflate

namespace PNGDecoder

theorem paethPredictor_eq_reference (a b c : Nat) (ha : a < 256) (hb : b < 256)
    (hc : c < 256) :
    (paethPredictor a b c : Int) = paethReference a b c ∧ paethPredictor a b c < 256 := by
  have e1 : ((a : Int) % 256).toNat = a := by omega
  have e2 : ((b : Int) % 256).toNat = b := by omega
  have e3 : ((c : Int) % 256).toNat = c := by omega
  simp only [paethPredictor, paethReference, Int.abs_eq_natAbs, e1, e2, e3]
  constructor
  · split_ifs <;> omega
  · split_ifs <;> omega

/-- Indexing into a concatenation of rows of equal length. -/
theorem flatten_getElem? {α : Type} (m : Nat) : ∀ (rows : List (List α)),
    (∀ r ∈ rows, r.length = m) → ∀ (y x : Nat), x < m →
    rows.flatten[y * m + x]? = (rows[y]?).bind (fun r => r[x]?) := by
  intro rows
  induction rows with
  | nil => intro _ y x _; simp
  | cons r rs ih =>
    intro hrows y x hx
    have hr : r.length = m := hrows r (by simp)
    cases y with
    | zero =>
      simp only [Nat.zero_mul, Nat.zero_add, List.flatten_cons, List.getElem?_cons_zero,
        Option.some_bind]
      rw [List.getElem?_append_left (by omega)]
    | succ k =>
      simp only [List.flatten_cons, List.getElem?_cons_succ]
      rw [List.getElem?_append_right (by rw [hr, Nat.succ_mul]; omega)]
      rw [show (k + 1) * m + x - r.length = k * m + x by rw [hr, Nat.succ_mul]; omega]
      exact ih (fun r' hr' => hrows r' (by simp [hr'])) k x hx

theorem forwardFilter_filterType (orig : List Nat) (stride bpp : Nat) (filters : List Nat)
    (y : Nat) (hy : y < filters.length) :
    (forwardFilter orig stride bpp filters)[y * (stride + 1)]? = some (filters.getD y 0) := by
  unfold forwardFilter
  have := flatten_getElem? (stride + 1)
    ((List.range filters.length).map (fun y =>
      filters.getD y 0 ::
        (List.range stride).map (fun x => filterByte orig stride bpp (filters.getD y 0) y x)))
    (by intro r hr; simp at hr; obtain ⟨a, _, rfl⟩ := hr; simp) y 0 (by omega)
  rw [Nat.add_zero] at this
  rw [this]
  simp [hy]

theorem forwardFilter_byte (orig : List Nat) (stride bpp : Nat) (filters : List Nat)
    (y x : Nat) (hy : y < filters.length) (hx : x < stride) :
    (forwardFilter orig stride bpp filters)[y * (stride + 1) + 1 + x]?
      = some (filterByte orig stride bpp (filters.getD y 0) y x) := by
  unfold forwardFilter
  have := flatten_getElem? (stride + 1)
    ((List.range filters.length).map (fun y =>
      filters.getD y 0 ::
        (List.range stride).map (fun x => filterByte orig stride bpp (filters.getD y 0) y x)))
    (by intro r hr; simp at hr; obtain ⟨a, _, rfl⟩ := hr; simp) y (x + 1) (by omega)
  rw [show y * (stride + 1) + 1 + x = y * (stride + 1) + (x + 1) by omega, this]
  simp [hy, hx]

/-- One byte of the unfilter computation undoes one byte of the forward
filter. -/
theorem unfilter_byte (ft o a b c : Nat) (hft : ft ≤ 4) (ho : o < 256) (ha : a < 256)
    (hb : b < 256) (hc : c < 256) :
    (match ft with
      | 0 => (Except.ok (((o : Int) - (match ft with
          | 0 => 0 | 1 => (a : Int) | 2 => (b : Int) | 3 => ((a : Int) + b) / 2
          | _ => paethReference a b c)) % 256).toNat : Except Err Nat)
      | 1 => .ok (((((o : Int) - (match ft with
          | 0 => 0 | 1 => (a : Int) | 2 => (b : Int) | 3 => ((a : Int) + b) / 2
          | _ => paethReference a b c)) % 256).toNat + a) % 256)
      | 2 => .ok (((((o : Int) - (match ft with
          | 0 => 0 | 1 => (a : Int) | 2 => (b : Int) | 3 => ((a : Int) + b) / 2
          | _ => paethReference a b c)) % 256).toNat + b) % 256)
      | 3 => .ok (((((o : Int) - (match ft with
          | 0 => 0 | 1 => (a : Int) | 2 => (b : Int) | 3 => ((a : Int) + b) / 2
          | _ => paethReference a b c)) % 256).toNat + (a + b) / 2) % 256)
      | 4 => .ok (((((o : Int) - (match ft with
          | 0 => 0 | 1 => (a : Int) | 2 => (b : Int) | 3 => ((a : Int) + b) / 2
          | _ => paethReference a b c)) % 256).toNat + paethPredictor a b c) % 256)
      | _ => .error Err.unknownFilter) = .ok o := by
  obtain ⟨hp1, hp2⟩ := paethPredictor_eq_reference a b c ha hb hc
  interval_cases ft
  · simp only [Except.ok.injEq]; omega
  · simp only [Except.ok.injEq]; omega
  · simp only [Except.ok.injEq]; omega
  · simp only [Except.ok.injEq]; omega
  · simp only [Except.ok.injEq]
    rw [← hp1]
    omega

end PNGDecoder

namespace PNGDecoder

theorem take_replicate_get (orig : List Nat) (p k idx : Nat) (h1 : idx < p)
    (h2 : p ≤ orig.length) :
    (orig.take p ++ List.replicate k 0)[idx]? = some (orig.getD idx 0) := by
  rw [List.getElem?_append_left (by rw [List.length_take]; omega)]
  rw [List.getElem?_take_of_lt h1, List.getD_eq_getElem?_getD,
    List.getElem?_eq_getElem (by omega)]
  rfl

theorem take_replicate_set (orig : List Nat) (p : Nat) (h : p < orig.length) :
    (orig.take p ++ List.replicate (orig.length - p) 0).set p (orig.getD p 0)
      = orig.take (p + 1) ++ List.replicate (orig.length - (p + 1)) 0 := by
  have hlen : (orig.take p).length = p := by rw [List.length_take]; omega
  obtain ⟨k, hk⟩ : ∃ k, orig.length - p = k + 1 := ⟨orig.length - p - 1, by omega⟩
  rw [hk, List.replicate_succ, List.set_append_right _ _ (by omega), hlen, Nat.sub_self,
    List.set_cons_zero, show orig.length - (p + 1) = k by omega, List.take_succ,
    List.append_assoc]
  congr 1
  rw [List.getD_eq_getElem?_getD, List.getElem?_eq_getElem h]
  rfl

theorem predictorSpec_eq (orig : List Nat) (stride bpp ft y x : Nat) :
    predictorSpec orig stride bpp ft y x
      = (match ft with
          | 0 => 0
          | 1 => ((if x ≥ bpp then orig.getD (y * stride + x - bpp) 0 else 0 : Nat) : Int)
          | 2 => ((if y > 0 then orig.getD ((y - 1) * stride + x) 0 else 0 : Nat) : Int)
          | 3 => (((if x ≥ bpp then orig.getD (y * stride + x - bpp) 0 else 0 : Nat) : Int)
              + ((if y > 0 then orig.getD ((y - 1) * stride + x) 0 else 0 : Nat) : Int)) / 2
          | _ => paethReference
              ((if x ≥ bpp then orig.getD (y * stride + x - bpp) 0 else 0 : Nat) : Int)
              ((if y > 0 then orig.getD ((y - 1) * stride + x) 0 else 0 : Nat) : Int)
              ((if y > 0 ∧ x ≥ bpp then orig.getD ((y - 1) * stride + x - bpp) 0 else 0 : Nat)
                : Int)) := by
  unfold predictorSpec
  simp only [Nat.cast_ite, Nat.cast_zero]

theorem getD_lt_of_bytes (orig : List Nat) (hbytes : ∀ v ∈ orig, v < 256) (i : Nat) :
    orig.getD i 0 < 256 := by
  rw [List.getD_eq_getElem?_getD]
  by_cases h : i < orig.length
  · rw [List.getElem?_eq_getElem h]
    exact hbytes _ (List.getElem_mem h)
  · rw [List.getElem?_eq_none (by omega)]
    simp

end PNGDecoder

namespace PNGDecoder

theorem unfilterRow_spec (orig filters : List Nat) (stride bpp y : Nat) (hbpp : 0 < bpp)
    (hy : y < filters.length) (hrow : y * stride + stride ≤ orig.length)
    (hsmall : orig.length < 2 ^ 32) (hbytes : ∀ v ∈ orig, v < 256)
    (hft : filters.getD y 0 ≤ 4) (prevRow : List Nat)
    (hprev : ∀ x < stride,
      prevRow[x]? = some (if y > 0 then orig.getD ((y - 1) * stride + x) 0 else 0)) :
    ∀ (n x : Nat), x + n = stride →
      unfilterRow (forwardFilter orig stride bpp filters) stride bpp y (filters.getD y 0) n x
          (y * (stride + 1) + 1 + x)
          (orig.take (y * stride + x) ++ List.replicate (orig.length - (y * stride + x)) 0)
          prevRow
        = .ok (y * (stride + 1) + 1 + stride,
            orig.take (y * stride + stride)
              ++ List.replicate (orig.length - (y * stride + stride)) 0) := by
  intro n
  induction n with
  | zero =>
    intro x hx
    have : x = stride := by omega
    subst this
    rfl
  | succ m ih =>
    intro x hx
    have hxs : x < stride := by omega
    have hp : y * stride + x < orig.length := by omega
    rw [unfilterRow, forwardFilter_byte orig stride bpp filters y x hy hxs]
    simp only
    have haRead : (if x ≥ bpp then
          (orig.take (y * stride + x)
            ++ List.replicate (orig.length - (y * stride + x)) 0)[
              (y * stride + x - bpp) % 2 ^ 32]?
        else some 0)
        = some (if x ≥ bpp then orig.getD (y * stride + x - bpp) 0 else 0) := by
      by_cases hxb : x ≥ bpp
      · rw [if_pos hxb, if_pos hxb, Nat.mod_eq_of_lt (by omega)]
        exact take_replicate_get orig _ _ _ (by omega) (by omega)
      · rw [if_neg hxb, if_neg hxb]
    have hcRead : (if x ≥ bpp then prevRow[x - bpp]? else some 0)
        = some (if y > 0 ∧ x ≥ bpp then orig.getD ((y - 1) * stride + x - bpp) 0 else 0) := by
      by_cases hxb : x ≥ bpp
      · rw [if_pos hxb, hprev (x - bpp) (by omega)]
        by_cases hy0 : y > 0
        · rw [if_pos hy0, if_pos ⟨hy0, hxb⟩]
          congr 2
          omega
        · rw [if_neg hy0, if_neg (by tauto)]
      · rw [if_neg hxb, if_neg (by tauto)]
    rw [haRead, hprev x hxs, hcRead]
    simp only
    have hfb : filterByte orig stride bpp (filters.getD y 0) y x
        = (((orig.getD (y * stride + x) 0 : Int)
            - (match filters.getD y 0 with
              | 0 => 0
              | 1 => ((if x ≥ bpp then orig.getD (y * stride + x - bpp) 0 else 0 : Nat) : Int)
              | 2 => ((if y > 0 then orig.getD ((y - 1) * stride + x) 0 else 0 : Nat) : Int)
              | 3 => (((if x ≥ bpp then orig.getD (y * stride + x - bpp) 0 else 0 : Nat) : Int)
                  + ((if y > 0 then orig.getD ((y - 1) * stride + x) 0 else 0 : Nat) : Int)) / 2
              | _ => paethReference
                  ((if x ≥ bpp then orig.getD (y * stride + x - bpp) 0 else 0 : Nat) : Int)
                  ((if y > 0 then orig.getD ((y - 1) * stride + x) 0 else 0 : Nat) : Int)
                  ((if y > 0 ∧ x ≥ bpp then orig.getD ((y - 1) * stride + x - bpp) 0 else 0
                    : Nat) : Int))) % 256).toNat := by
      rw [filterByte, predictorSpec_eq]
    rw [hfb]
    have hlt : ∀ (P : Prop) [Decidable P] (i : Nat), (if P then orig.getD i 0 else 0) < 256 := by
      intro P _ i
      split_ifs
      · exact getD_lt_of_bytes orig hbytes i
      · decide
    rw [unfilter_byte (filters.getD y 0) (orig.getD (y * stride + x) 0) _ _ _ hft
      (getD_lt_of_bytes orig hbytes _) (hlt _ _) (hlt _ _) (hlt _ _)]
    simp only
    have hidx : (y * stride + x) % 2 ^ 32 = y * stride + x := Nat.mod_eq_of_lt (by omega)
    have hlen : (orig.take (y * stride + x)
        ++ List.replicate (orig.length - (y * stride + x)) 0).length = orig.length := by
      rw [List.length_append, List.length_take, List.length_replicate]
      omega
    rw [hidx, hlen, if_pos hp, take_replicate_set orig _ hp]
    have := ih (x + 1) (by omega)
    rw [show y * (stride + 1) + 1 + (x + 1) = y * (stride + 1) + 1 + x + 1 by omega,
      show y * stride + (x + 1) = y * stride + x + 1 by omega] at this
    exact this

end PNGDecoder

namespace PNGDecoder

theorem unfilterRows_spec (orig filters : List Nat) (stride bpp : Nat) (hbpp : 0 < bpp)
    (hN : orig.length = filters.length * stride) (hsmall : orig.length < 2 ^ 32)
    (hstride : stride < 2 ^ 32)
    (hbytes : ∀ v ∈ orig, v < 256) (hfilters : ∀ f ∈ filters, f ≤ 4) :
    ∀ (n y : Nat) (prevRow : List Nat), y + n = filters.length → prevRow.length = stride →
      (∀ x < stride,
        prevRow[x]? = some (if y > 0 then orig.getD ((y - 1) * stride + x) 0 else 0)) →
      unfilterRows (forwardFilter orig stride bpp filters) stride bpp n y (y * (stride + 1))
          (orig.take (y * stride) ++ List.replicate (orig.length - y * stride) 0) prevRow
        = .ok orig := by
  intro n
  induction n with
  | zero =>
    intro y prevRow hy _ _
    have : y = filters.length := by omega
    subst this
    rw [unfilterRows, ← hN, List.take_length, Nat.sub_self]
    simp
  | succ m ih =>
    intro y prevRow hy hplen hprev
    have hylt : y < filters.length := by omega
    have hrow : y * stride + stride ≤ orig.length := by
      rw [hN]
      have : (y + 1) * stride ≤ filters.length * stride := Nat.mul_le_mul_right _ (by omega)
      rw [Nat.succ_mul] at this
      exact this
    have hft : filters.getD y 0 ≤ 4 := by
      rw [List.getD_eq_getElem?_getD, List.getElem?_eq_getElem hylt]
      exact hfilters _ (List.getElem_mem hylt)
    rw [unfilterRows, forwardFilter_filterType orig stride bpp filters y hylt]
    simp only
    have hrowspec := unfilterRow_spec orig filters stride bpp y hbpp hylt hrow hsmall hbytes hft
      prevRow hprev stride 0 (by omega)
    simp only [Nat.add_zero] at hrowspec
    rw [hrowspec]
    simp only
    have hlo : (y * stride) % 2 ^ 32 = y * stride := Nat.mod_eq_of_lt (by omega)
    have hhi : ((y + 1) * stride) % 2 ^ 32 = y * stride + stride := by
      rw [Nat.succ_mul]
      exact Nat.mod_eq_of_lt (by omega)
    have hlen : (orig.take (y * stride + stride)
        ++ List.replicate (orig.length - (y * stride + stride)) 0).length = orig.length := by
      rw [List.length_append, List.length_take, List.length_replicate]
      omega
    rw [hlo, hhi, hlen]
    rw [if_pos ⟨by omega, hrow, by omega⟩]
    have hsub : y * stride + stride - y * stride = stride := by omega
    rw [hsub]
    have hnext := ih (y + 1)
      ((orig.take (y * stride + stride)
          ++ List.replicate (orig.length - (y * stride + stride)) 0).drop (y * stride)
        |>.take stride |>.append (prevRow.drop stride))
      (by omega)
      (by
        show (List.take stride _ ++ List.drop stride prevRow).length = stride
        rw [List.length_append, List.length_take, List.length_drop, List.length_drop, hlen]
        omega)
      (by
        intro x hx
        show (List.take stride _ ++ List.drop stride prevRow)[x]? = _
        rw [List.getElem?_append_left (by
          rw [List.length_take, List.length_drop, hlen]; omega)]
        rw [List.getElem?_take_of_lt hx, List.getElem?_drop,
          take_replicate_get orig _ _ _ (by omega) hrow]
        simp)
    rw [show (y + 1) * (stride + 1) = y * (stride + 1) + 1 + stride by
        rw [Nat.succ_mul]; omega,
      show (y + 1) * stride = y * stride + stride by rw [Nat.succ_mul]] at hnext
    exact hnext

/-- C3 fails as stated: with height 0, width 2^29 and four bytes per pixel
the size condition holds (the product is 0) and the original buffer is
empty, but `int stride` is negative and building `prevRow` throws. -/
theorem filter_reversible_counterexample :
    0 * 2 ^ 29 * 4 < 2 ^ 31 ∧ ([] : List Nat).length = 0 * 2 ^ 29 * 4 ∧
    ([] : List Nat).length = 0 ∧
    unfilterScanlines (forwardFilter [] (2 ^ 29 * 4) 4 []) (2 ^ 29) 0 4
      = .error Err.lengthError ∧
    unfilterScanlines (forwardFilter [] (2 ^ 29 * 4) 4 []) (2 ^ 29) 0 4 ≠ .ok [] := by
  refine ⟨by decide, by decide, by decide, by rfl, ?_⟩
  have h : unfilterScanlines (forwardFilter [] (2 ^ 29 * 4) 4 []) (2 ^ 29) 0 4
      = .error Err.lengthError := by rfl
  rw [h]
  simp

/-- Unfiltering a forward-filtered buffer gives the buffer back, as long as
the stride fits in `int` and the buffer size in `uint32_t`. -/
theorem unfilterScanlines_forwardFilter (orig filters : List Nat) (width height bpp : Nat)
    (hbpp : 0 < bpp)
    (hstride : width * bpp < 2 ^ 31) (hsize : height * width * bpp < 2 ^ 32)
    (horig : orig.length = height * width * bpp) (hbytes : ∀ v ∈ orig, v < 256)
    (hflen : filters.length = height) (hfilters : ∀ f ∈ filters, f ≤ 4) :
    unfilterScanlines (forwardFilter orig (width * bpp) bpp filters) width height bpp
      = .ok orig := by
  have hN : orig.length = filters.length * (width * bpp) := by
    rw [horig, hflen, Nat.mul_assoc]
  have hs1 : (width * bpp) % 2 ^ 32 = width * bpp := Nat.mod_eq_of_lt (by omega)
  have hs2 : (height * (width * bpp)) % 2 ^ 32 = orig.length := by
    rw [horig, Nat.mul_assoc]
    exact Nat.mod_eq_of_lt (by rw [← Nat.mul_assoc]; omega)
  unfold unfilterScanlines
  simp only [hs1, hs2]
  rw [if_neg (by omega)]
  have := unfilterRows_spec orig filters (width * bpp) bpp hbpp hN (by omega) (by omega)
    hbytes hfilters height 0 (List.replicate (width * bpp) 0) (by omega) (by simp)
    (by
      intro x hx
      rw [List.getElem?_replicate, if_pos hx]
      simp)
  simpa using this

/-- C3 (amended). For every bytesPerPixel in {1,2,3,4}, every width and
height with width·bytesPerPixel and height·width·bytesPerPixel below 2^31,
every original buffer of height·width·bytesPerPixel bytes and every choice
of a filter type in 0..4 per row, forward filtering each row, prefixing it
with its filter byte and running `unfilterScanlines` reproduces the original
buffer exactly. -/
theorem filter_reversible (orig filters : List Nat) (width height bpp : Nat)
    (hbpp : bpp = 1 ∨ bpp = 2 ∨ bpp = 3 ∨ bpp = 4)
    (hstride : width * bpp < 2 ^ 31) (hsize : height * width * bpp < 2 ^ 31)
    (horig : orig.length = height * width * bpp) (hbytes : ∀ v ∈ orig, v < 256)
    (hflen : filters.length = height) (hfilters : ∀ f ∈ filters, f ≤ 4) :
    unfilterScanlines (forwardFilter orig (width * bpp) bpp filters) width height bpp
      = .ok orig :=
  unfilterScanlines_forwardFilter orig filters width height bpp (by omega) hstride
    (by omega) horig hbytes hflen hfilters

/-- Witness for the amended C3: a 2×5 image with three bytes per pixel and
the five filter types on consecutive rows. -/
theorem filter_reversible_witness :
    unfilterScanlines
      (forwardFilter [10, 20, 30, 40, 50, 60, 1, 2, 3, 250, 251, 252, 9, 8, 7, 6, 5, 4,
        100, 0, 255, 0, 255, 100, 3, 1, 4, 1, 5, 9] (2 * 3) 3 [0, 1, 2, 3, 4]) 2 5 3
      = .ok [10, 20, 30, 40, 50, 60, 1, 2, 3, 250, 251, 252, 9, 8, 7, 6, 5, 4,
        100, 0, 255, 0, 255, 100, 3, 1, 4, 1, 5, 9] :=
  filter_reversible _ [0, 1, 2, 3, 4] 2 5 3 (by decide) (by decide) (by decide) (by decide)
    (by decide) (by decide) (by decide)

end PNGDecoder

namespace PNGDecoder

theorem or_shift_add (a b i : Nat) (hb : b < 2 ^ i) : a <<< i ||| b = a * 2 ^ i + b := by
  rw [Nat.shiftLeft_eq, Nat.mul_comm a, ← Nat.mul_add_lt_is_or hb]

theorem readBigEndian32_be32 (n : Nat) (hn : n < 2 ^ 32) :
    readBigEndian32 (n / 2 ^ 24 % 256) (n / 2 ^ 16 % 256) (n / 2 ^ 8 % 256) (n % 256) = n := by
  unfold readBigEndian32
  have h1 : (n / 2 ^ 24 % 256) <<< 24 ||| (n / 2 ^ 16 % 256) <<< 16
      = (n / 2 ^ 24 % 256) * 2 ^ 24 + (n / 2 ^ 16 % 256) * 2 ^ 16 := by
    rw [Nat.shiftLeft_eq (n / 2 ^ 16 % 256)]
    exact or_shift_add _ _ 24 (by omega)
  have h2 : ((n / 2 ^ 24 % 256) * 2 ^ 24 + (n / 2 ^ 16 % 256) * 2 ^ 16)
        ||| (n / 2 ^ 8 % 256) <<< 8
      = (n / 2 ^ 24 % 256) * 2 ^ 24 + (n / 2 ^ 16 % 256) * 2 ^ 16
        + (n / 2 ^ 8 % 256) * 2 ^ 8 := by
    have e : (n / 2 ^ 24 % 256) * 2 ^ 24 + (n / 2 ^ 16 % 256) * 2 ^ 16
        = ((n / 2 ^ 24 % 256) * 2 ^ 8 + (n / 2 ^ 16 % 256)) <<< 16 := by
      rw [Nat.shiftLeft_eq]; ring
    rw [e, Nat.shiftLeft_eq (n / 2 ^ 8 % 256), or_shift_add _ _ 16 (by omega),
      Nat.shiftLeft_eq]
  have h3 : ((n / 2 ^ 24 % 256) * 2 ^ 24 + (n / 2 ^ 16 % 256) * 2 ^ 16
        + (n / 2 ^ 8 % 256) * 2 ^ 8) ||| n % 256
      = (n / 2 ^ 24 % 256) * 2 ^ 24 + (n / 2 ^ 16 % 256) * 2 ^ 16
        + (n / 2 ^ 8 % 256) * 2 ^ 8 + n % 256 := by
    have e : (n / 2 ^ 24 % 256) * 2 ^ 24 + (n / 2 ^ 16 % 256) * 2 ^ 16
        + (n / 2 ^ 8 % 256) * 2 ^ 8
        = ((n / 2 ^ 24 % 256) * 2 ^ 16 + (n / 2 ^ 16 % 256) * 2 ^ 8
          + (n / 2 ^ 8 % 256)) <<< 8 := by
      rw [Nat.shiftLeft_eq]; ring
    rw [e, or_shift_add _ _ 8 (by omega), Nat.shiftLeft_eq]
  rw [h1, h2, h3]
  omega

theorem append3_getD (pre l post : List Nat) (k : Nat) (hk : k < l.length) :
    (pre ++ l ++ post).getD (pre.length + k) 0 = l.getD k 0 := by
  rw [List.getD_eq_getElem?_getD, List.getD_eq_getElem?_getD, List.append_assoc,
    List.getElem?_append_right (by omega), Nat.add_sub_cancel_left,
    List.getElem?_append_left hk]

theorem append3_drop (pre l post : List Nat) (k : Nat) (hk : k ≤ l.length) :
    (pre ++ l ++ post).drop (pre.length + k) = l.drop k ++ post := by
  rw [List.append_assoc, List.drop_append_eq_append_drop]
  have h1 : List.drop (pre.length + k) pre = [] := List.drop_eq_nil_of_le (by omega)
  rw [h1, List.nil_append, Nat.add_sub_cancel_left, List.drop_append_of_le_length hk]

theorem chunk_fields (pre post type body crc : List Nat) (htype : type.length = 4)
    (hcrc : crc.length = 4) (hlen : body.length < 2 ^ 32) :
    (pre ++ chunk type body crc ++ post).length
      = pre.length + 12 + body.length + post.length ∧
    readBigEndian32 ((pre ++ chunk type body crc ++ post).getD pre.length 0)
        ((pre ++ chunk type body crc ++ post).getD (pre.length + 1) 0)
        ((pre ++ chunk type body crc ++ post).getD (pre.length + 2) 0)
        ((pre ++ chunk type body crc ++ post).getD (pre.length + 3) 0) = body.length ∧
    ((pre ++ chunk type body crc ++ post).drop (pre.length + 4)).take 4 = type ∧
    ((pre ++ chunk type body crc ++ post).drop (pre.length + 8)).take body.length = body := by
  have hclen : (chunk type body crc).length = 12 + body.length := by
    simp [chunk, be32, htype, hcrc]; omega
  refine ⟨?_, ?_, ?_, ?_⟩
  · simp only [List.length_append, hclen]; omega
  · have g0 := append3_getD pre (chunk type body crc) post 0 (by omega)
    rw [Nat.add_zero] at g0
    rw [g0, append3_getD pre _ post 1 (by omega), append3_getD pre _ post 2 (by omega),
      append3_getD pre _ post 3 (by omega)]
    have e0 : (chunk type body crc).getD 0 0 = body.length / 2 ^ 24 % 256 := rfl
    have e1 : (chunk type body crc).getD 1 0 = body.length / 2 ^ 16 % 256 := rfl
    have e2 : (chunk type body crc).getD 2 0 = body.length / 2 ^ 8 % 256 := rfl
    have e3 : (chunk type body crc).getD 3 0 = body.length % 256 := rfl
    rw [e0, e1, e2, e3]
    exact readBigEndian32_be32 _ hlen
  · rw [append3_drop pre _ post 4 (by omega)]
    have : (chunk type body crc).drop 4 = type ++ (body ++ crc) := by
      simp [chunk, be32]
    rw [this, List.append_assoc, List.take_append_of_le_length (by omega), ← htype,
      List.take_length]
  · rw [append3_drop pre _ post 8 (by omega)]
    have : (chunk type body crc).drop 8 = body ++ crc := by
      have h4 : (chunk type body crc).drop 4 = type ++ (body ++ crc) := by
        simp [chunk, be32]
      rw [show 8 = 4 + 4 by rfl, ← List.drop_drop, h4,
        List.drop_append_of_le_length (by omega), ← htype, List.drop_length, List.nil_append]
    rw [this, List.append_assoc, List.take_append_of_le_length (by omega), List.take_length]

end PNGDecoder

namespace PNGDecoder

theorem extractLoop_idat (pre post body crc acc : List Nat) (fuel : Nat)
    (hcrc : crc.length = 4) (hlen : body.length < 2 ^ 32 - 12) :
    extractLoop (pre ++ chunk typeIDAT body crc ++ post) (fuel + 1) pre.length acc
      = extractLoop (pre ++ chunk typeIDAT body crc ++ post) fuel
          (pre.length + (12 + body.length)) (acc ++ body) := by
  obtain ⟨h1, h2, h3, h4⟩ := chunk_fields pre post typeIDAT body crc rfl hcrc (by omega)
  rw [extractLoop, if_pos (by rw [h1]; omega)]
  simp only [h2, h3, h4, if_true]
  rw [if_neg (by rw [h1]; omega), Nat.mod_eq_of_lt (by omega)]

theorem extractLoop_skip (pre post type body crc acc : List Nat) (fuel : Nat)
    (htype : type.length = 4) (hcrc : crc.length = 4) (hlen : body.length < 2 ^ 32 - 12)
    (hne1 : type ≠ typeIDAT) (hne2 : type ≠ typeIEND) :
    extractLoop (pre ++ chunk type body crc ++ post) (fuel + 1) pre.length acc
      = extractLoop (pre ++ chunk type body crc ++ post) fuel
          (pre.length + (12 + body.length)) acc := by
  obtain ⟨h1, h2, h3, _⟩ := chunk_fields pre post type body crc htype hcrc (by omega)
  rw [extractLoop, if_pos (by rw [h1]; omega)]
  simp only [h2, h3]
  rw [if_neg hne1, if_neg hne2, Nat.mod_eq_of_lt (by omega)]

theorem extractLoop_iend (pre post body crc acc : List Nat) (fuel : Nat)
    (hcrc : crc.length = 4) (hlen : body.length < 2 ^ 32) :
    extractLoop (pre ++ chunk typeIEND body crc ++ post) (fuel + 1) pre.length acc
      = .ok acc := by
  obtain ⟨h1, h2, h3, _⟩ := chunk_fields pre post typeIEND body crc rfl hcrc hlen
  rw [extractLoop, if_pos (by rw [h1]; omega)]
  simp only [h2, h3]
  rw [if_neg (by decide)]
  simp

theorem chunk_length (type body crc : List Nat) (htype : type.length = 4)
    (hcrc : crc.length = 4) : (chunk type body crc).length = 12 + body.length := by
  simp [chunk, be32, htype, hcrc]; omega

theorem extractLoop_idatChunks (iendCrc : List Nat) (hiend : iendCrc.length = 4) :
    ∀ (pieces : List (List Nat × List Nat)) (pre post acc : List Nat) (fuel : Nat),
      (∀ p ∈ pieces, p.1.length < 2 ^ 32 - 12 ∧ p.2.length = 4) → pieces.length < fuel →
      extractLoop (pre ++ idatChunks pieces ++ chunk typeIEND [] iendCrc ++ post) fuel
          pre.length acc
        = .ok (acc ++ (pieces.map (fun p => p.1)).flatten) := by
  intro pieces
  induction pieces with
  | nil =>
    intro pre post acc fuel _ hfuel
    obtain ⟨f, rfl⟩ : ∃ f, fuel = f + 1 := ⟨fuel - 1, by simp at hfuel; omega⟩
    have := extractLoop_iend pre post [] iendCrc acc f hiend (by simp)
    simpa [idatChunks] using this
  | cons p ps ih =>
    intro pre post acc fuel hp hfuel
    obtain ⟨f, rfl⟩ : ∃ f, fuel = f + 1 := ⟨fuel - 1, by simp at hfuel; omega⟩
    obtain ⟨hp1, hp2⟩ := hp p (by simp)
    have hD : pre ++ idatChunks (p :: ps) ++ chunk typeIEND [] iendCrc ++ post
        = pre ++ chunk typeIDAT p.1 p.2
          ++ (idatChunks ps ++ chunk typeIEND [] iendCrc ++ post) := by
      simp [idatChunks, List.append_assoc]
    rw [hD, extractLoop_idat pre _ p.1 p.2 acc f hp2 hp1]
    have := ih (pre ++ chunk typeIDAT p.1 p.2) post (acc ++ p.1) f
      (fun q hq => hp q (by simp [hq])) (by simp at hfuel; omega)
    rw [List.length_append, chunk_length typeIDAT _ _ rfl hp2] at this
    simp only [List.append_assoc] at this ⊢
    rw [this]
    simp

end PNGDecoder

namespace PNGDecoder

theorem getElem?_eq_some_getD (l : List Nat) (i : Nat) (h : i < l.length) :
    l[i]? = some (l.getD i 0) := by
  rw [List.getD_eq_getElem?_getD, List.getElem?_eq_getElem h]
  rfl

theorem drop_take_eq_map_getD (src : List Nat) (off n : Nat) (h : off + n ≤ src.length) :
    (src.drop off).take n = (List.range n).map (fun x => src.getD (off + x) 0) := by
  apply List.ext_getElem?
  intro i
  by_cases hi : i < n
  · rw [List.getElem?_take_of_lt hi, List.getElem?_drop, List.getElem?_map,
      List.getElem?_range hi, getElem?_eq_some_getD src _ (by omega)]
    rfl
  · rw [List.getElem?_eq_none (by rw [List.length_take, List.length_drop]; omega),
      List.getElem?_eq_none (by rw [List.length_map, List.length_range]; omega)]

theorem plainScanlines_eq_forwardFilter (src : List Nat) (stride bpp height : Nat)
    (hlen : height * stride ≤ src.length) (hbytes : ∀ v ∈ src, v < 256) :
    plainScanlines src stride height
      = forwardFilter src stride bpp (List.replicate height 0) := by
  unfold plainScanlines forwardFilter
  rw [List.length_replicate]
  congr 1
  apply List.map_congr_left
  intro y hy
  have hy' : y < height := List.mem_range.mp hy
  have hrow : y * stride + stride ≤ src.length := by
    have : (y + 1) * stride ≤ height * stride := Nat.mul_le_mul_right _ (by omega)
    rw [Nat.succ_mul] at this
    omega
  have h0 : (List.replicate height 0).getD y 0 = 0 := by
    rw [List.getD_eq_getElem?_getD, List.getElem?_replicate]
    split_ifs
    · rfl
  rw [h0, drop_take_eq_map_getD src (y * stride) stride hrow]
  congr 1
  apply List.map_congr_left
  intro x _
  have hb := getD_lt_of_bytes src hbytes (y * stride + x)
  simp only [filterByte, predictorSpec]
  omega

theorem map_range_set {α : Type} (f : Nat → α) (d : α) (M k : Nat) (hk : k < M) :
    ((List.range k).map f ++ List.replicate (M - k) d).set k (f k)
      = (List.range (k + 1)).map f ++ List.replicate (M - (k + 1)) d := by
  obtain ⟨j, hj⟩ : ∃ j, M - k = j + 1 := ⟨M - k - 1, by omega⟩
  rw [hj, List.replicate_succ, List.set_append_right _ _ (by simp), List.length_map,
    List.length_range, Nat.sub_self, List.set_cons_zero, show M - (k + 1) = j by omega,
    List.range_succ, List.map_append, List.append_assoc]
  rfl

theorem projectPixel_spec (src : List Nat) (t bpp pos : Nat) (old : Pixel)
    (ht : t = 0 ∨ t = 2 ∨ t = 4 ∨ t = 6) (hbpp : bpp = bytesPerPixelOf t)
    (hpos : pos + bpp ≤ src.length) :
    projectPixel src t pos old = .ok (expectedPixel src t pos) := by
  unfold projectPixel expectedPixel
  rcases ht with rfl | rfl | rfl | rfl
  · have hb : bpp = 1 := by rw [hbpp]; rfl
    rw [if_pos (by decide), if_neg (by decide), getElem?_eq_some_getD src pos (by omega)]
  · have hb : bpp = 3 := by rw [hbpp]; rfl
    rw [if_neg (by decide), if_pos (by decide), if_pos (by decide),
      getElem?_eq_some_getD src pos (by omega), getElem?_eq_some_getD src (pos + 1) (by omega),
      getElem?_eq_some_getD src (pos + 2) (by omega)]
  · have hb : bpp = 2 := by rw [hbpp]; rfl
    rw [if_pos (by decide), if_neg (by decide), getElem?_eq_some_getD src pos (by omega)]
  · have hb : bpp = 4 := by rw [hbpp]; rfl
    rw [if_neg (by decide), if_pos (by decide), if_pos (by decide),
      getElem?_eq_some_getD src pos (by omega), getElem?_eq_some_getD src (pos + 1) (by omega),
      getElem?_eq_some_getD src (pos + 2) (by omega)]

end PNGDecoder

namespace PNGDecoder

theorem projectRow_spec (src : List Nat) (t bpp W H y : Nat)
    (ht : t = 0 ∨ t = 2 ∨ t = 4 ∨ t = 6) (hbpp : bpp = bytesPerPixelOf t)
    (hsrc : src.length = H * W * bpp) (hbound : H * W * bpp < 2 ^ 32) (hy : y < H) :
    ∀ (n x : Nat), x + n = W →
      projectRow src t bpp W y n x
          ⟨W, H, (List.range (y * W + x)).map (fun k => expectedPixel src t (k * bpp))
            ++ List.replicate (W * H - (y * W + x)) ⟨0, 0, 0⟩⟩
        = .ok ⟨W, H, (List.range (y * W + W)).map (fun k => expectedPixel src t (k * bpp))
            ++ List.replicate (W * H - (y * W + W)) ⟨0, 0, 0⟩⟩ := by
  have hb1 : 1 ≤ bpp := by
    rcases ht with rfl | rfl | rfl | rfl <;> rw [hbpp] <;> decide
  intro n
  induction n with
  | zero =>
    intro x hx
    have : x = W := by omega
    subst this
    rfl
  | succ m ih =>
    intro x hx
    have hxW : x < W := by omega
    have hrow : y * W + W ≤ H * W := by
      have : (y + 1) * W ≤ H * W := Nat.mul_le_mul_right _ (by omega)
      rw [Nat.succ_mul] at this
      exact this
    have hk : y * W + x < W * H := by rw [Nat.mul_comm W H]; omega
    have hkb : (y * W + x) * bpp + bpp ≤ H * W * bpp := by
      have : (y * W + x + 1) * bpp ≤ (H * W) * bpp := Nat.mul_le_mul_right _ (by omega)
      rw [Nat.succ_mul] at this
      exact this
    have hWH : W * H ≤ H * W * bpp := by
      rw [Nat.mul_comm W H]
      exact Nat.le_mul_of_pos_right _ (by omega)
    have hmod1 : (y * W + x) % 2 ^ 32 = y * W + x := Nat.mod_eq_of_lt (by omega)
    have hmod2 : ((y * W + x) * bpp) % 2 ^ 32 = (y * W + x) * bpp :=
      Nat.mod_eq_of_lt (by omega)
    have hlen : ((List.range (y * W + x)).map (fun k => expectedPixel src t (k * bpp))
        ++ List.replicate (W * H - (y * W + x)) (⟨0, 0, 0⟩ : Pixel)).length = W * H := by
      rw [List.length_append, List.length_map, List.length_range, List.length_replicate]
      omega
    have hget : ((List.range (y * W + x)).map (fun k => expectedPixel src t (k * bpp))
        ++ List.replicate (W * H - (y * W + x)) (⟨0, 0, 0⟩ : Pixel))[y * W + x]?
          = some ⟨0, 0, 0⟩ := by
      rw [List.getElem?_append_right (by simp), List.length_map, List.length_range,
        Nat.sub_self, List.getElem?_replicate, if_pos (by omega)]
    rw [projectRow]
    simp only [Image.at, Image.setAt, hmod1, hmod2, hget, hlen]
    rw [if_neg (by omega)]
    simp only
    rw [projectPixel_spec src t bpp _ _ ht hbpp (by omega)]
    simp only
    rw [if_neg (by omega), if_pos hk]
    simp only
    rw [map_range_set (fun k => expectedPixel src t (k * bpp)) ⟨0, 0, 0⟩ (W * H) _ hk]
    have := ih (x + 1) (by omega)
    rw [show y * W + (x + 1) = y * W + x + 1 by omega] at this
    exact this

theorem projectRows_spec (src : List Nat) (t bpp W H : Nat)
    (ht : t = 0 ∨ t = 2 ∨ t = 4 ∨ t = 6) (hbpp : bpp = bytesPerPixelOf t)
    (hsrc : src.length = H * W * bpp) (hbound : H * W * bpp < 2 ^ 32) :
    ∀ (n y : Nat), y + n = H →
      projectRows src t bpp W n y
          ⟨W, H, (List.range (y * W)).map (fun k => expectedPixel src t (k * bpp))
            ++ List.replicate (W * H - y * W) ⟨0, 0, 0⟩⟩
        = .ok ⟨W, H, (List.range (W * H)).map (fun k => expectedPixel src t (k * bpp))⟩ := by
  intro n
  induction n with
  | zero =>
    intro y hy
    have : y = H := by omega
    subst this
    rw [projectRows, Nat.mul_comm y W, Nat.sub_self]
    simp
  | succ m ih =>
    intro y hy
    have h := projectRow_spec src t bpp W H y ht hbpp hsrc hbound (by omega) W 0 (by omega)
    simp only [Nat.add_zero] at h
    rw [projectRows, h]
    simp only
    have := ih (y + 1) (by omega)
    rw [show (y + 1) * W = y * W + W by rw [Nat.succ_mul]] at this
    exact this

end PNGDecoder

namespace PNGDecoder

theorem idatChunks_length (pieces : List (List Nat × List Nat)) :
    pieces.length ≤ (idatChunks pieces).length := by
  induction pieces with
  | nil => simp [idatChunks]
  | cons p ps ih =>
    simp only [idatChunks, List.map_cons, List.flatten_cons, List.length_append,
      List.length_cons] at ih ⊢
    have : 4 ≤ (chunk typeIDAT p.1 p.2).length := by simp [chunk, be32]
    omega

theorem parseIHDR_pngFile (W H d t cm fm il : Nat) (ihdrCrc rest : List Nat)
    (hW : W < 2 ^ 32) (hH : H < 2 ^ 32) :
    parseIHDR (signature ++ chunk typeIHDR (ihdrBody W H d t cm fm il) ihdrCrc ++ rest) 16
      = .ok ⟨W, H, d, t, cm, fm, il⟩ := by
  have hsplit : signature ++ chunk typeIHDR (ihdrBody W H d t cm fm il) ihdrCrc ++ rest
      = (signature ++ be32 13 ++ typeIHDR) ++ ihdrBody W H d t cm fm il
        ++ (ihdrCrc ++ rest) := by
    have : (ihdrBody W H d t cm fm il).length = 13 := by simp [ihdrBody, be32]
    simp only [chunk, this, List.append_assoc]
  have hpre : (signature ++ be32 13 ++ typeIHDR).length = 16 := by
    simp [signature, be32, typeIHDR]
  have hbl : (ihdrBody W H d t cm fm il).length = 13 := by simp [ihdrBody, be32]
  have hg : ∀ k, k < 13 →
      ((signature ++ be32 13 ++ typeIHDR) ++ ihdrBody W H d t cm fm il
        ++ (ihdrCrc ++ rest)).getD (16 + k) 0 = (ihdrBody W H d t cm fm il).getD k 0 := by
    intro k hk
    have := append3_getD (signature ++ be32 13 ++ typeIHDR) (ihdrBody W H d t cm fm il)
      (ihdrCrc ++ rest) k (by omega)
    rw [hpre] at this
    exact this
  rw [hsplit, parseIHDR]
  rw [if_neg (by
    rw [List.length_append, List.length_append, hpre, hbl]; omega)]
  have g0 := hg 0 (by omega)
  rw [Nat.add_zero] at g0
  rw [g0, hg 1 (by omega), hg 2 (by omega), hg 3 (by omega), hg 4 (by omega),
    hg 5 (by omega), hg 6 (by omega), hg 7 (by omega), hg 8 (by omega), hg 9 (by omega),
    hg 10 (by omega), hg 11 (by omega), hg 12 (by omega)]
  have hw := readBigEndian32_be32 W hW
  have hh := readBigEndian32_be32 H hH
  have a0 : (ihdrBody W H d t cm fm il).getD 0 0 = W / 2 ^ 24 % 256 := rfl
  have a1 : (ihdrBody W H d t cm fm il).getD 1 0 = W / 2 ^ 16 % 256 := rfl
  have a2 : (ihdrBody W H d t cm fm il).getD 2 0 = W / 2 ^ 8 % 256 := rfl
  have a3 : (ihdrBody W H d t cm fm il).getD 3 0 = W % 256 := rfl
  have a4 : (ihdrBody W H d t cm fm il).getD 4 0 = H / 2 ^ 24 % 256 := rfl
  have a5 : (ihdrBody W H d t cm fm il).getD 5 0 = H / 2 ^ 16 % 256 := rfl
  have a6 : (ihdrBody W H d t cm fm il).getD 6 0 = H / 2 ^ 8 % 256 := rfl
  have a7 : (ihdrBody W H d t cm fm il).getD 7 0 = H % 256 := rfl
  have a8 : (ihdrBody W H d t cm fm il).getD 8 0 = d := rfl
  have a9 : (ihdrBody W H d t cm fm il).getD 9 0 = t := rfl
  have a10 : (ihdrBody W H d t cm fm il).getD 10 0 = cm := rfl
  have a11 : (ihdrBody W H d t cm fm il).getD 11 0 = fm := rfl
  have a12 : (ihdrBody W H d t cm fm il).getD 12 0 = il := rfl
  rw [a0, a1, a2, a3, a4, a5, a6, a7, a8, a9, a10, a11, a12, hw, hh]

theorem extractIDATData_pngFile (ihdr ihdrCrc iendCrc : List Nat)
    (pieces : List (List Nat × List Nat)) (hihdr : ihdr.length < 2 ^ 32 - 12)
    (hcrc1 : ihdrCrc.length = 4) (hcrc2 : iendCrc.length = 4)
    (hpieces : ∀ p ∈ pieces, p.1.length < 2 ^ 32 - 12 ∧ p.2.length = 4) :
    extractIDATData (pngFile ihdr ihdrCrc pieces iendCrc)
      = .ok (pieces.map (fun p => p.1)).flatten := by
  unfold extractIDATData pngFile
  have hsig : signature.length = 8 := rfl
  have hD : signature ++ chunk typeIHDR ihdr ihdrCrc ++ idatChunks pieces
        ++ chunk typeIEND [] iendCrc
      = signature ++ chunk typeIHDR ihdr ihdrCrc
        ++ (idatChunks pieces ++ chunk typeIEND [] iendCrc) := by
    simp only [List.append_assoc]
  have hlenD : (signature ++ chunk typeIHDR ihdr ihdrCrc ++ idatChunks pieces
        ++ chunk typeIEND [] iendCrc).length
      = 8 + (12 + ihdr.length) + (idatChunks pieces).length + 12 := by
    simp only [List.length_append, hsig, chunk_length typeIHDR ihdr ihdrCrc rfl hcrc1,
      chunk_length typeIEND [] iendCrc rfl hcrc2, List.length_nil]
  rw [hlenD]
  have hstep := extractLoop_skip signature (idatChunks pieces ++ chunk typeIEND [] iendCrc)
    typeIHDR ihdr ihdrCrc []
    (8 + (12 + ihdr.length) + (idatChunks pieces).length + 12) rfl hcrc1 hihdr
    (by decide) (by decide)
  rw [hsig, ← hD] at hstep
  rw [hstep]
  have hrest := extractLoop_idatChunks iendCrc hcrc2 pieces
    (signature ++ chunk typeIHDR ihdr ihdrCrc) [] []
    (8 + (12 + ihdr.length) + (idatChunks pieces).length + 12) hpieces
    (by have := idatChunks_length pieces; omega)
  rw [List.length_append, hsig, chunk_length typeIHDR ihdr ihdrCrc rfl hcrc1,
    List.append_nil, List.nil_append] at hrest
  exact hrest

end PNGDecoder

namespace PNGDecoder

/-- C4 fails as stated: an IHDR with width 2^29, height 0 and colour type 6
has an empty source buffer, the single stored block is empty, and `decode`
fails while building `prevRow` instead of returning a 2^29 × 0 image. -/
theorem png_decode_counterexample :
    ([] : List Nat).length = 0 * 2 ^ 29 * bytesPerPixelOf 6 ∧
    Deflate.StoredBlock.payload [⟨1, 0xFF, 0xFF, []⟩]
      = plainScanlines [] (2 ^ 29 * bytesPerPixelOf 6) 0 ∧
    decode (pngFile (ihdrBody (2 ^ 29) 0 8 6 0 0 0) [1, 2, 3, 4]
      [(Deflate.storedStream 0x78 0x01 [⟨1, 0xFF, 0xFF, []⟩] [0, 0, 0, 0], [5, 5, 5, 5])]
      [0, 0, 0, 0]) = .error Err.lengthError := by
  refine ⟨by decide, by decide, by rfl⟩

/-- C4 (amended). For every supported colour type t in {0,2,4,6}, every
W×H with W·bytesPerPixel below 2^31 and H·W·bytesPerPixel below 2^32 and
every source buffer of H·W·bytesPerPixel bytes, the PNG made of the
signature, an IHDR chunk (W, H, depth 8, colour type t, interlace 0), IDAT
chunks (each below 2^31 bytes) carrying a zlib stream of stored blocks whose
payload is the rows each prefixed by filter byte 0, and an IEND chunk decodes
to an image of size W×H whose pixel (x,y) has R,G,B equal to the first three
bytes of source pixel (x,y) for t in {2,6} and R=G=B equal to its first byte
for t in {0,4}. -/
theorem png_decode_exact (src : List Nat) (W H t cm fm : Nat) (ihdrCrc iendCrc : List Nat)
    (pieces : List (List Nat × List Nat)) (h0 h1 : Nat)
    (blocks : List Deflate.StoredBlock) (trailer : List Nat)
    (ht : t = 0 ∨ t = 2 ∨ t = 4 ∨ t = 6)
    (hW : W * bytesPerPixelOf t < 2 ^ 31) (hH : H < 2 ^ 32)
    (hsize : H * W * bytesPerPixelOf t < 2 ^ 32)
    (hsrc : src.length = H * W * bytesPerPixelOf t) (hbytes : ∀ v ∈ src, v < 256)
    (hcrc1 : ihdrCrc.length = 4) (hcrc2 : iendCrc.length = 4)
    (hpieces : ∀ p ∈ pieces, p.1.length < 2 ^ 31 ∧ p.2.length = 4)
    (hstream : (pieces.map (fun p => p.1)).flatten = Deflate.storedStream h0 h1 blocks trailer)
    (htrailer : trailer.length = 4) (hwf : Deflate.StoredBlock.WellFormed blocks)
    (hpayload : Deflate.StoredBlock.payload blocks
      = plainScanlines src (W * bytesPerPixelOf t) H) :
    ∃ img, decode (pngFile (ihdrBody W H 8 t cm fm 0) ihdrCrc pieces iendCrc) = .ok img ∧
      img.width_ = W ∧ img.height_ = H ∧ img.pixels_.length = W * H ∧
      ∀ x y, x < W → y < H →
        img.at x y = .ok (expectedPixel src t ((y * W + x) * bytesPerPixelOf t)) := by
  have hb1 : 1 ≤ bytesPerPixelOf t := by
    rcases ht with rfl | rfl | rfl | rfl <;> decide
  have hWlt : W < 2 ^ 32 := by
    have : W ≤ W * bytesPerPixelOf t := Nat.le_mul_of_pos_right _ (by omega)
    omega
  have hWH : W * H ≤ H * W * bytesPerPixelOf t := by
    rw [Nat.mul_comm W H]
    exact Nat.le_mul_of_pos_right _ (by omega)
  refine ⟨⟨W, H, (List.range (W * H)).map
    (fun k => expectedPixel src t (k * bytesPerPixelOf t))⟩, ?_, rfl, rfl, by simp, ?_⟩
  · have hsig : verifySignature (pngFile (ihdrBody W H 8 t cm fm 0) ihdrCrc pieces iendCrc)
        = true := by
      unfold verifySignature pngFile
      have : signature.length = 8 := rfl
      rw [if_neg (by simp only [List.length_append]; omega)]
      simp only [List.append_assoc]
      rw [List.take_append_of_le_length (by omega), ← this, List.take_length]
      simp
    have hihdr : parseIHDR (pngFile (ihdrBody W H 8 t cm fm 0) ihdrCrc pieces iendCrc) 16
        = .ok ⟨W, H, 8, t, cm, fm, 0⟩ := by
      unfold pngFile
      rw [List.append_assoc]
      exact parseIHDR_pngFile W H 8 t cm fm 0 ihdrCrc _ hWlt hH
    have hext := extractIDATData_pngFile (ihdrBody W H 8 t cm fm 0) ihdrCrc iendCrc pieces
      (by simp [ihdrBody, be32]) hcrc1 hcrc2
      (fun p hp => ⟨by have := (hpieces p hp).1; omega, (hpieces p hp).2⟩)
    have hdec := Deflate.decompress_storedStream h0 h1 blocks trailer htrailer hwf
    have hplain := plainScanlines_eq_forwardFilter src (W * bytesPerPixelOf t)
      (bytesPerPixelOf t) H (by rw [hsrc, Nat.mul_assoc]) hbytes
    have hunf := unfilterScanlines_forwardFilter src (List.replicate H 0) W H
      (bytesPerPixelOf t) (by omega) hW hsize hsrc hbytes (by simp)
      (by intro f hf; rw [List.eq_of_mem_replicate hf]; omega)
    have hproj := projectRows_spec src t (bytesPerPixelOf t) W H ht rfl hsrc hsize H 0
      (by omega)
    simp only [Nat.zero_mul, List.range_zero, List.map_nil, List.nil_append,
      Nat.sub_zero] at hproj
    have hbppsel : (if t = 0 then (Except.ok 1 : Except Err Nat)
        else if t = 2 then .ok 3 else if t = 4 then .ok 2
        else if t = 6 then .ok 4 else .error Err.colorType)
        = .ok (bytesPerPixelOf t) := by
      rcases ht with rfl | rfl | rfl | rfl <;> rfl
    have hnew : Image.new W H = ⟨W, H, List.replicate (W * H) ⟨0, 0, 0⟩⟩ := by
      unfold Image.new
      rw [Nat.mod_eq_of_lt (by omega)]
    unfold decode
    rw [hsig, hihdr]
    simp only [Bool.not_eq_true, Bool.true_eq_false, not_false_eq_true, if_false, ne_eq,
      not_true_eq_false, hbppsel, hext, hstream, hdec, hpayload, hplain, hunf, hnew, hproj]
  · intro x y hx hy
    have hk : y * W + x < W * H := by
      have : (y + 1) * W ≤ H * W := Nat.mul_le_mul_right _ (by omega)
      rw [Nat.succ_mul] at this
      rw [Nat.mul_comm W H]
      omega
    unfold Image.at
    simp only
    rw [if_neg (by omega), Nat.mod_eq_of_lt (by omega), List.getElem?_map,
      List.getElem?_range hk]
    rfl

/-- Witness for the amended C4: a 2×2 RGB image, its zlib stream of two
stored blocks split over two IDAT chunks. -/
theorem png_decode_exact_witness :
    ∃ img, decode (pngFile (ihdrBody 2 2 8 2 0 0 0) [1, 2, 3, 4]
        [([0x78, 0x01, 0x00, 7, 0], [9, 9, 9, 9]),
         ([0xF8, 0xFF, 0, 1, 2, 3, 4, 5, 6, 0x01, 7, 0, 0xF8, 0xFF, 0, 7, 8, 9, 10, 11, 12,
           0, 0, 0, 0], [5, 5, 5, 5])] [0, 0, 0, 0]) = .ok img ∧
      img.width_ = 2 ∧ img.height_ = 2 ∧ img.pixels_.length = 2 * 2 ∧
      ∀ x y, x < 2 → y < 2 →
        img.at x y = .ok (expectedPixel [1, 2, 3, 4, 5, 6, 7, 8, 9, 10, 11, 12] 2
          ((y * 2 + x) * bytesPerPixelOf 2)) :=
  png_decode_exact [1, 2, 3, 4, 5, 6, 7, 8, 9, 10, 11, 12] 2 2 2 0 0 [1, 2, 3, 4] [0, 0, 0, 0]
    [([0x78, 0x01, 0x00, 7, 0], [9, 9, 9, 9]),
     ([0xF8, 0xFF, 0, 1, 2, 3, 4, 5, 6, 0x01, 7, 0, 0xF8, 0xFF, 0, 7, 8, 9, 10, 11, 12,
       0, 0, 0, 0], [5, 5, 5, 5])] 0x78 0x01
    [⟨0x00, 0xF8, 0xFF, [0, 1, 2, 3, 4, 5, 6]⟩, ⟨0x01, 0xF8, 0xFF, [0, 7, 8, 9, 10, 11, 12]⟩]
    [0, 0, 0, 0] (by decide) (by decide) (by decide) (by decide) (by decide) (by decide)
    (by decide) (by decide) (by decide) (by decide) (by decide)
    (by simp [Deflate.StoredBlock.WellFormed]) (by decide)

end PNGDecoder

namespace JPEGEncoder

theorem parseSegment_segment (m : Nat) (payload rest : List Nat)
    (hlen : payload.length + 2 < 65536) :
    parseSegment (segment m payload ++ rest) = some (m, payload, rest) := by
  have h1 : (payload.length + 2) / 256 * 256 + (payload.length + 2) % 256
      = payload.length + 2 := by omega
  simp only [segment, List.cons_append, List.nil_append, parseSegment, h1]
  rw [if_pos ⟨by omega, by simp⟩]
  simp

theorem encodeHeader_segments (W H : Nat) (Q : Int) :
    encodeHeader W H Q
      = [0xFF, 0xD8]
        ++ segment 0xE0 [74, 70, 73, 70, 0x00, 0x01, 0x01, 0x00, 0x00, 0x01, 0x00, 0x01, 0x00, 0x00]
        ++ segment 0xDB (0 :: (List.range 64).map
            (fun i => (((scaledLumQuant Q).getD i 0) % 256).toNat))
        ++ segment 0xDB (1 :: (List.range 64).map
            (fun i => (((scaledChromQuant Q).getD i 0) % 256).toNat))
        ++ segment 0xC0 [0x08, (H >>> 8) % 256, H % 256, (W >>> 8) % 256, W % 256,
            0x03, 0x01, 0x11, 0x00, 0x02, 0x11, 0x01, 0x03, 0x11, 0x01]
        ++ segment 0xC4 (0x00 :: ((List.range 16).map (fun i => dcLuminanceBits.getD i 0)
            ++ (List.range 12).map (fun i => dcLuminanceValues.getD i 0)))
        ++ segment 0xC4 (0x10 :: ((List.range 16).map (fun i => acLuminanceBits.getD i 0)
            ++ (List.range 162).map (fun i => acLuminanceValues.getD i 0)))
        ++ segment 0xC4 (0x01 :: ((List.range 16).map (fun i => dcChrominanceBits.getD i 0)
            ++ (List.range 12).map (fun i => dcChrominanceValues.getD i 0)))
        ++ segment 0xC4 (0x11 :: ((List.range 16).map (fun i => acChrominanceBits.getD i 0)
            ++ (List.range 162).map (fun i => acChrominanceValues.getD i 0)))
        ++ segment 0xDA [0x03, 0x01, 0x00, 0x02, 0x11, 0x03, 0x11, 0x00, 0x3F, 0x00] := by
  simp [encodeHeader, writeSOS, writeDHT, writeSOF0, writeDQT, writeAPP0, writeMarker,
    segment, List.append_assoc]

theorem encodeHeader_length (W H : Nat) (Q : Int) : (encodeHeader W H Q).length = 623 := by
  rw [encodeHeader_segments]
  simp [segment]

end JPEGEncoder

namespace JPEGEncoder

theorem writeZRL_stuffed (out0 acCodes acSizes : List Nat) (fuel : Nat) :
    ∀ (w : BitWriter) (z : Nat), (∃ app, w.output = out0 ++ app ∧ Stuffed app) →
      ∃ app, (writeZRL acCodes acSizes fuel w z).1.output = out0 ++ app ∧ Stuffed app := by
  induction fuel with
  | zero => intro w z h; simpa [writeZRL] using h
  | succ f ih =>
    intro w z h
    unfold writeZRL
    by_cases hz : z ≥ 16
    · rw [if_pos hz]
      exact ih _ _ (BitWriter.writeBits_stuffed out0 w _ _ h)
    · rw [if_neg hz]
      exact h

theorem encodeAC_stuffed (out0 acCodes acSizes : List Nat) (rest : List Int) :
    ∀ (w : BitWriter) (z : Nat), (∃ app, w.output = out0 ++ app ∧ Stuffed app) →
      ∃ app, (encodeAC acCodes acSizes rest w z).1.output = out0 ++ app ∧ Stuffed app := by
  induction rest with
  | nil => intro w z h; simpa [encodeAC] using h
  | cons v vs ih =>
    intro w z h
    unfold encodeAC
    by_cases hv : v = 0
    · rw [if_pos hv]
      exact ih _ _ h
    · rw [if_neg hv]
      have h1 := writeZRL_stuffed out0 acCodes acSizes z w z h
      generalize writeZRL acCodes acSizes z w z = p at h1
      obtain ⟨w1, z1⟩ := p
      simp only at h1 ⊢
      apply ih
      apply BitWriter.writeBits_stuffed
      apply BitWriter.writeBits_stuffed
      exact h1

theorem encodeBlock_stuffed (out0 : List Nat) (w : BitWriter) (block : List Int) (prevDC : Int)
    (dcBits dcValues acBits acValues : List Nat)
    (h : ∃ app, w.output = out0 ++ app ∧ Stuffed app) :
    ∃ app, (encodeBlock w block prevDC dcBits dcValues acBits acValues).1.output
      = out0 ++ app ∧ Stuffed app := by
  unfold encodeBlock
  simp only
  have h1 := BitWriter.writeBits_stuffed out0 w
    ((generateHuffmanCodes dcBits dcValues).1.getD (getCategory (block.getD 0 0 - prevDC)) 0)
    ((generateHuffmanCodes dcBits dcValues).2.getD (getCategory (block.getD 0 0 - prevDC)) 0) h
  have h2 : ∃ app, (if getCategory (block.getD 0 0 - prevDC) > 0 then
      (w.writeBits
        ((generateHuffmanCodes dcBits dcValues).1.getD (getCategory (block.getD 0 0 - prevDC)) 0)
        ((generateHuffmanCodes dcBits dcValues).2.getD
          (getCategory (block.getD 0 0 - prevDC)) 0)).writeBits
        (magnitudeBits (block.getD 0 0 - prevDC) (getCategory (block.getD 0 0 - prevDC)))
        (getCategory (block.getD 0 0 - prevDC))
      else w.writeBits
        ((generateHuffmanCodes dcBits dcValues).1.getD (getCategory (block.getD 0 0 - prevDC)) 0)
        ((generateHuffmanCodes dcBits dcValues).2.getD
          (getCategory (block.getD 0 0 - prevDC)) 0)).output = out0 ++ app ∧ Stuffed app := by
    split_ifs
    · exact BitWriter.writeBits_stuffed out0 _ _ _ h1
    · exact h1
  have h3 := encodeAC_stuffed out0 (generateHuffmanCodes acBits acValues).1
    (generateHuffmanCodes acBits acValues).2 ((block.drop 1).take 63) _ 0 h2
  generalize encodeAC (generateHuffmanCodes acBits acValues).1
    (generateHuffmanCodes acBits acValues).2 ((block.drop 1).take 63) _ 0 = p at h3
  obtain ⟨w1, z1⟩ := p
  simp only at h3 ⊢
  split_ifs
  · exact BitWriter.writeBits_stuffed out0 _ _ _ h3
  · exact h3

theorem blockPixelsLoop_ok (image : Image) (blockX blockY : Nat)
    (hinv : image.pixels_.length = image.width_ * image.height_)
    (hW : image.width_ < 2 ^ 32) (hH : image.height_ < 2 ^ 32)
    (hW0 : 0 < image.width_) (hH0 : 0 < image.height_) :
    ∀ (n i : Nat) (acc : List Pixel), ∃ px, blockPixelsLoop image blockX blockY n i acc = .ok px := by
  intro n
  induction n with
  | zero => intro i acc; exact ⟨acc, rfl⟩
  | succ m ih =>
    intro i acc
    unfold blockPixelsLoop
    have hwm : (image.width_ + 2 ^ 32 - 1) % 2 ^ 32 = image.width_ - 1 := by omega
    have hhm : (image.height_ + 2 ^ 32 - 1) % 2 ^ 32 = image.height_ - 1 := by omega
    rw [hwm, hhm]
    generalize hx : min ((blockX + i % 8) % 2 ^ 32) (image.width_ - 1) = x
    generalize hy : min ((blockY + i / 8) % 2 ^ 32) (image.height_ - 1) = y
    have hxlt : x < image.width_ := by omega
    have hylt : y < image.height_ := by omega
    have hidx : y * image.width_ + x < image.pixels_.length := by
      rw [hinv]
      have : (y + 1) * image.width_ ≤ image.height_ * image.width_ :=
        Nat.mul_le_mul_right _ (by omega)
      rw [Nat.succ_mul] at this
      rw [Nat.mul_comm image.width_ image.height_]
      omega
    have hmod : (y * image.width_ + x) % 2 ^ 32 < image.pixels_.length :=
      lt_of_le_of_lt (Nat.mod_le _ _) hidx
    unfold Image.at
    rw [if_neg (by omega), List.getElem?_eq_getElem hmod]
    simp only
    exact ih _ _

end JPEGEncoder

namespace JPEGEncoder

theorem encodeMCU_ok (floatStage : List Pixel → List Int → List Int → QuantizedBlocks)
    (image : Image) (lum chrom : List Int) (out0 : List Nat) (blockX blockY : Nat)
    (hinv : image.pixels_.length = image.width_ * image.height_)
    (hW : image.width_ < 2 ^ 32) (hH : image.height_ < 2 ^ 32)
    (hW0 : 0 < image.width_) (hH0 : 0 < image.height_) (s : EncoderState)
    (h : ∃ app, s.writer.output = out0 ++ app ∧ Stuffed app) :
    ∃ s', encodeMCU floatStage image lum chrom blockX blockY s = .ok s' ∧
      ∃ app, s'.writer.output = out0 ++ app ∧ Stuffed app := by
  obtain ⟨px, hpx⟩ := blockPixelsLoop_ok image blockX blockY hinv hW hH hW0 hH0 64 0 []
  unfold encodeMCU blockPixels
  rw [hpx]
  simp only
  have h1 := encodeBlock_stuffed out0 s.writer (floatStage px lum chrom).y s.prevDCY
    dcLuminanceBits dcLuminanceValues acLuminanceBits acLuminanceValues h
  generalize encodeBlock s.writer (floatStage px lum chrom).y s.prevDCY
    dcLuminanceBits dcLuminanceValues acLuminanceBits acLuminanceValues = p1 at h1
  obtain ⟨w1, d1⟩ := p1
  simp only at h1 ⊢
  have h2 := encodeBlock_stuffed out0 w1 (floatStage px lum chrom).cb s.prevDCCb
    dcChrominanceBits dcChrominanceValues acChrominanceBits acChrominanceValues h1
  generalize encodeBlock w1 (floatStage px lum chrom).cb s.prevDCCb
    dcChrominanceBits dcChrominanceValues acChrominanceBits acChrominanceValues = p2 at h2
  obtain ⟨w2, d2⟩ := p2
  simp only at h2 ⊢
  have h3 := encodeBlock_stuffed out0 w2 (floatStage px lum chrom).cr s.prevDCCr
    dcChrominanceBits dcChrominanceValues acChrominanceBits acChrominanceValues h2
  generalize encodeBlock w2 (floatStage px lum chrom).cr s.prevDCCr
    dcChrominanceBits dcChrominanceValues acChrominanceBits acChrominanceValues = p3 at h3
  obtain ⟨w3, d3⟩ := p3
  simp only at h3 ⊢
  exact ⟨_, rfl, h3⟩

theorem encodeRowOfBlocks_ok (floatStage : List Pixel → List Int → List Int → QuantizedBlocks)
    (image : Image) (lum chrom : List Int) (out0 : List Nat) (blockY : Nat)
    (hinv : image.pixels_.length = image.width_ * image.height_)
    (hW : image.width_ < 2 ^ 32) (hH : image.height_ < 2 ^ 32) :
    ∀ (n blockX : Nat) (s : EncoderState),
      (n = 0 ∨ (0 < image.width_ ∧ 0 < image.height_)) →
      (∃ app, s.writer.output = out0 ++ app ∧ Stuffed app) →
      ∃ s', encodeRowOfBlocks floatStage image lum chrom blockY n blockX s = .ok s' ∧
        ∃ app, s'.writer.output = out0 ++ app ∧ Stuffed app := by
  intro n
  induction n with
  | zero => intro blockX s _ h; exact ⟨s, rfl, h⟩
  | succ m ih =>
    intro blockX s hgood h
    have hg : 0 < image.width_ ∧ 0 < image.height_ := by
      rcases hgood with h0 | h0
      · omega
      · exact h0
    obtain ⟨s1, hs1, hp1⟩ := encodeMCU_ok floatStage image lum chrom out0 blockX blockY
      hinv hW hH hg.1 hg.2 s h
    unfold encodeRowOfBlocks
    rw [hs1]
    exact ih _ _ (Or.inr hg) hp1

theorem encodeBlockRows_ok (floatStage : List Pixel → List Int → List Int → QuantizedBlocks)
    (image : Image) (lum chrom : List Int) (out0 : List Nat) (cols : Nat)
    (hinv : image.pixels_.length = image.width_ * image.height_)
    (hW : image.width_ < 2 ^ 32) (hH : image.height_ < 2 ^ 32)
    (hgood : cols = 0 ∨ (0 < image.width_ ∧ 0 < image.height_)) :
    ∀ (n blockY : Nat) (s : EncoderState),
      (∃ app, s.writer.output = out0 ++ app ∧ Stuffed app) →
      ∃ s', encodeBlockRows floatStage image lum chrom cols n blockY s = .ok s' ∧
        ∃ app, s'.writer.output = out0 ++ app ∧ Stuffed app := by
  intro n
  induction n with
  | zero => intro blockY s h; exact ⟨s, rfl, h⟩
  | succ m ih =>
    intro blockY s h
    obtain ⟨s1, hs1, hp1⟩ := encodeRowOfBlocks_ok floatStage image lum chrom out0 blockY
      hinv hW hH cols 0 s hgood h
    unfold encodeBlockRows
    rw [hs1]
    exact ih _ _ hp1

/-- The byte vector built by `encode` is the 623 header bytes, then the
stuffed bytes of the bit writer, then the EOI marker. -/
theorem encode_shape (floatStage : List Pixel → List Int → List Int → QuantizedBlocks)
    (image : Image) (quality : Int) (hq : quality ≠ 0)
    (hinv : image.pixels_.length = image.width_ * image.height_)
    (hW : image.width_ < 2 ^ 32) (hH : image.height_ < 2 ^ 32) :
    ∃ ecs, encode floatStage image quality
        = .ok (encodeHeader image.width_ image.height_ quality ++ ecs ++ [0xFF, 0xD9]) ∧
      Stuffed ecs := by
  unfold encode
  rw [if_neg hq]
  simp only
  have hstart : ∃ app, (EncoderState.mk
      (BitWriter.new (encodeHeader image.width_ image.height_ quality)) 0 0 0).writer.output
        = encodeHeader image.width_ image.height_ quality ++ app ∧ Stuffed app :=
    ⟨[], by simp [BitWriter.new], Stuffed.nil⟩
  by_cases hrows : (image.height_ + 7) % 2 ^ 32 / 8 * 8 / 8 = 0
  · rw [hrows]
    simp only [encodeBlockRows]
    obtain ⟨app, h1, h2⟩ := BitWriter.flush_stuffed _ _ hstart
    exact ⟨app, by rw [h1]; simp [writeMarker], h2⟩
  · have hgood : (image.width_ + 7) % 2 ^ 32 / 8 * 8 / 8 = 0
        ∨ (0 < image.width_ ∧ 0 < image.height_) := by
      by_cases hw0 : image.width_ = 0
      · left; rw [hw0]; decide
      · right
        refine ⟨by omega, ?_⟩
        by_contra hh0
        have : image.height_ = 0 := by omega
        rw [this] at hrows
        exact hrows (by decide)
    obtain ⟨s', hs', hp'⟩ := encodeBlockRows_ok floatStage image (scaledLumQuant quality)
      (scaledChromQuant quality) (encodeHeader image.width_ image.height_ quality)
      ((image.width_ + 7) % 2 ^ 32 / 8 * 8 / 8) hinv hW hH hgood
      ((image.height_ + 7) % 2 ^ 32 / 8 * 8 / 8) 0 _ hstart
    rw [hs']
    simp only
    obtain ⟨app, h1, h2⟩ := BitWriter.flush_stuffed _ _ hp'
    exact ⟨app, by rw [h1]; simp [writeMarker], h2⟩

end JPEGEncoder

namespace JPEGEncoder

/-- C8. For every image (with `len(pixels) = W·H`, the invariant of the data
model) and every quality in 1..100, the byte vector `encode` builds starts
with FF D8, continues with an APP0 segment ('JFIF\0'), a DQT with id 0, a DQT
with id 1, an SOF0 with three components of sampling factor 0x11 (Y on quant
table 0, Cb and Cr on table 1), four DHT segments with class/id bytes 0x00,
0x10, 0x01, 0x11 and an SOS with selectors 0x00, 0x11, 0x11 and spectral bytes
00 3F 00; every segment's length field is the number of bytes after its
marker (each segment parses and is followed by the next); the entropy-coded
data starts at offset 623 and the vector ends with FF D9. -/
theorem jpeg_segment_framing
    (floatStage : List Pixel → List Int → List Int → QuantizedBlocks)
    (image : Image) (quality : Int) (hq1 : 1 ≤ quality) (hq2 : quality ≤ 100)
    (hinv : image.pixels_.length = image.width_ * image.height_)
    (hW : image.width_ < 2 ^ 32) (hH : image.height_ < 2 ^ 32) :
    ∃ out ecs app0 dqt0 dqt1 sof dht0 dht1 dht2 dht3 sos r1 r2 r3 r4 r5 r6 r7 r8,
      encode floatStage image quality = .ok out ∧
      out.take 2 = [0xFF, 0xD8] ∧
      parseSegment (out.drop 2) = some (0xE0, app0, r1) ∧
      app0.take 5 = [74, 70, 73, 70, 0] ∧
      parseSegment r1 = some (0xDB, dqt0, r2) ∧ dqt0.head? = some 0 ∧ dqt0.length = 65 ∧
      parseSegment r2 = some (0xDB, dqt1, r3) ∧ dqt1.head? = some 1 ∧ dqt1.length = 65 ∧
      parseSegment r3 = some (0xC0, sof, r4) ∧
      sof.drop 5 = [3, 1, 0x11, 0, 2, 0x11, 1, 3, 0x11, 1] ∧
      parseSegment r4 = some (0xC4, dht0, r5) ∧ dht0.head? = some 0x00 ∧
      parseSegment r5 = some (0xC4, dht1, r6) ∧ dht1.head? = some 0x10 ∧
      parseSegment r6 = some (0xC4, dht2, r7) ∧ dht2.head? = some 0x01 ∧
      parseSegment r7 = some (0xC4, dht3, r8) ∧ dht3.head? = some 0x11 ∧
      parseSegment r8 = some (0xDA, sos, ecs ++ [0xFF, 0xD9]) ∧
      sos = [3, 1, 0x00, 2, 0x11, 3, 0x11, 0x00, 0x3F, 0x00] ∧
      out.drop 623 = ecs ++ [0xFF, 0xD9] ∧ Stuffed ecs := by
  have _ := hq2
  obtain ⟨ecs, henc, hst⟩ := encode_shape floatStage image quality (by omega) hinv hW hH
  have hlen := encodeHeader_length image.width_ image.height_ quality
  have hdrop : (encodeHeader image.width_ image.height_ quality ++ ecs ++ [0xFF, 0xD9]).drop 623
      = ecs ++ [0xFF, 0xD9] := by
    rw [List.append_assoc, ← hlen, List.drop_left]
  rw [encodeHeader_segments] at henc hdrop
  simp only [List.append_assoc] at henc hdrop
  generalize hP1 : [74, 70, 73, 70, 0x00, 0x01, 0x01, 0x00, 0x00, 0x01, 0x00, 0x01, 0x00, 0x00]
    = P1 at henc hdrop
  generalize hP2 : (0 :: (List.range 64).map
    (fun i => (((scaledLumQuant quality).getD i 0) % 256).toNat)) = P2 at henc hdrop
  generalize hP3 : (1 :: (List.range 64).map
    (fun i => (((scaledChromQuant quality).getD i 0) % 256).toNat)) = P3 at henc hdrop
  generalize hP4 : [0x08, (image.height_ >>> 8) % 256, image.height_ % 256,
    (image.width_ >>> 8) % 256, image.width_ % 256,
    0x03, 0x01, 0x11, 0x00, 0x02, 0x11, 0x01, 0x03, 0x11, 0x01] = P4 at henc hdrop
  generalize hP5 : (0x00 :: ((List.range 16).map (fun i => dcLuminanceBits.getD i 0)
    ++ (List.range 12).map (fun i => dcLuminanceValues.getD i 0))) = P5 at henc hdrop
  generalize hP6 : (0x10 :: ((List.range 16).map (fun i => acLuminanceBits.getD i 0)
    ++ (List.range 162).map (fun i => acLuminanceValues.getD i 0))) = P6 at henc hdrop
  generalize hP7 : (0x01 :: ((List.range 16).map (fun i => dcChrominanceBits.getD i 0)
    ++ (List.range 12).map (fun i => dcChrominanceValues.getD i 0))) = P7 at henc hdrop
  generalize hP8 : (0x11 :: ((List.range 16).map (fun i => acChrominanceBits.getD i 0)
    ++ (List.range 162).map (fun i => acChrominanceValues.getD i 0))) = P8 at henc hdrop
  generalize hP9 : [0x03, 0x01, 0x00, 0x02, 0x11, 0x03, 0x11, 0x00, 0x3F, 0x00]
    = P9 at henc hdrop
  have l1 : P1.length + 2 < 65536 := by rw [← hP1]; simp
  have l2 : P2.length = 65 := by rw [← hP2]; simp
  have l3 : P3.length = 65 := by rw [← hP3]; simp
  have l4 : P4.length + 2 < 65536 := by rw [← hP4]; simp
  have l5 : P5.length + 2 < 65536 := by rw [← hP5]; simp
  have l6 : P6.length + 2 < 65536 := by rw [← hP6]; simp
  have l7 : P7.length + 2 < 65536 := by rw [← hP7]; simp
  have l8 : P8.length + 2 < 65536 := by rw [← hP8]; simp
  have l9 : P9.length + 2 < 65536 := by rw [← hP9]; simp
  refine ⟨[0xFF, 0xD8] ++ (segment 0xE0 P1 ++ (segment 0xDB P2 ++ (segment 0xDB P3 ++
      (segment 0xC0 P4 ++ (segment 0xC4 P5 ++ (segment 0xC4 P6 ++ (segment 0xC4 P7 ++
      (segment 0xC4 P8 ++ (segment 0xDA P9 ++ (ecs ++ [0xFF, 0xD9])))))))))),
    ecs, P1, P2, P3, P4, P5, P6, P7, P8, P9,
    (segment 0xDB P2 ++ (segment 0xDB P3 ++ (segment 0xC0 P4 ++ (segment 0xC4 P5 ++
      (segment 0xC4 P6 ++ (segment 0xC4 P7 ++ (segment 0xC4 P8 ++ (segment 0xDA P9 ++ (ecs ++
      [0xFF, 0xD9]))))))))),
    (segment 0xDB P3 ++ (segment 0xC0 P4 ++ (segment 0xC4 P5 ++ (segment 0xC4 P6 ++
      (segment 0xC4 P7 ++ (segment 0xC4 P8 ++ (segment 0xDA P9 ++ (ecs ++ [0xFF, 0xD9])))))))),
    (segment 0xC0 P4 ++ (segment 0xC4 P5 ++ (segment 0xC4 P6 ++ (segment 0xC4 P7 ++
      (segment 0xC4 P8 ++ (segment 0xDA P9 ++ (ecs ++ [0xFF, 0xD9]))))))),
    (segment 0xC4 P5 ++ (segment 0xC4 P6 ++ (segment 0xC4 P7 ++ (segment 0xC4 P8 ++
      (segment 0xDA P9 ++ (ecs ++ [0xFF, 0xD9])))))),
    (segment 0xC4 P6 ++ (segment 0xC4 P7 ++ (segment 0xC4 P8 ++ (segment 0xDA P9 ++ (ecs ++
      [0xFF, 0xD9]))))),
    (segment 0xC4 P7 ++ (segment 0xC4 P8 ++ (segment 0xDA P9 ++ (ecs ++ [0xFF, 0xD9])))),
    (segment 0xC4 P8 ++ (segment 0xDA P9 ++ (ecs ++ [0xFF, 0xD9]))),
    (segment 0xDA P9 ++ (ecs ++ [0xFF, 0xD9])),
    henc, rfl, parseSegment_segment 0xE0 P1 _ l1, by rw [← hP1]; rfl,
    parseSegment_segment 0xDB P2 _ (by omega), by rw [← hP2]; rfl, l2,
    parseSegment_segment 0xDB P3 _ (by omega), by rw [← hP3]; rfl, l3,
    parseSegment_segment 0xC0 P4 _ l4, by rw [← hP4]; rfl,
    parseSegment_segment 0xC4 P5 _ l5, by rw [← hP5]; rfl,
    parseSegment_segment 0xC4 P6 _ l6, by rw [← hP6]; rfl,
    parseSegment_segment 0xC4 P7 _ l7, by rw [← hP7]; rfl,
    parseSegment_segment 0xC4 P8 _ l8, by rw [← hP8]; rfl,
    parseSegment_segment 0xDA P9 _ l9, rfl, hdrop, hst⟩

/-- Witness for C8: a 1×1 image at quality 85. -/
theorem jpeg_segment_framing_witness :
    ∃ out ecs,
      encode (fun _ _ _ => ⟨[], [], []⟩) (Image.new 1 1) 85 = .ok out ∧
      out.take 2 = [0xFF, 0xD8] ∧ out.drop 623 = ecs ++ [0xFF, 0xD9] := by
  obtain ⟨out, ecs, _, _, _, _, _, _, _, _, _, _, _, _, _, _, _, _, _, h1, h2, _, _, _, _, _,
    _, _, _, _, _, _, _, _, _, _, _, _, _, _, _, h3, _⟩ :=
    jpeg_segment_framing (fun _ _ _ => ⟨[], [], []⟩) (Image.new 1 1) 85 (by decide)
      (by decide) (by decide) (by decide) (by decide)
  exact ⟨out, ecs, h1, h2, h3⟩

end JPEGEncoder

namespace Image

/-- C18 fails as stated: for W = H = 65536 the `uint32_t` product W·H is 0,
so `Image(W, H)` and `resize(W, H)` hold no pixel at all instead of 2^32. -/
theorem image_size_counterexample :
    (Image.new 65536 65536).pixels_.length = 0 ∧
    ((Image.new 1 1).resize 65536 65536).pixels_.length = 0 ∧
    (Image.new 65536 65536).pixels_.length ≠ 65536 * 65536 := by
  decide

/-- C18 (amended). For all unsigned 32-bit W and H, after `Image(W, H)` and
after `resize(W, H)` the pixel sequence has exactly (W·H) mod 2^32 elements,
which is W·H whenever W·H < 2^32, with width() = W and height() = H. -/
theorem image_size (img : Image) (W H : Nat) (hW : W < 2 ^ 32) (hH : H < 2 ^ 32) :
    (Image.new W H).pixels_.length = (W * H) % 2 ^ 32 ∧
    (Image.new W H).width_ = W ∧ (Image.new W H).height_ = H ∧
    (img.resize W H).pixels_.length = (W * H) % 2 ^ 32 ∧
    (img.resize W H).width_ = W ∧ (img.resize W H).height_ = H ∧
    (W * H < 2 ^ 32 → (Image.new W H).pixels_.length = W * H ∧
      (img.resize W H).pixels_.length = W * H) := by
  have _ := hW
  have _ := hH
  have h1 : (Image.new W H).pixels_.length = (W * H) % 2 ^ 32 := by
    simp [Image.new]
  have h2 : (img.resize W H).pixels_.length = (W * H) % 2 ^ 32 := by
    simp only [Image.resize, Deflate.vectorResize, List.length_append, List.length_take,
      List.length_replicate]
    omega
  refine ⟨h1, rfl, rfl, h2, rfl, rfl, ?_⟩
  intro hlt
  rw [h1, h2, Nat.mod_eq_of_lt hlt]
  exact ⟨rfl, rfl⟩

/-- Witness for the amended C18: a 3×2 image, and a resize of it to 5×4. -/
theorem image_size_witness :
    (Image.new 3 2).pixels_.length = (3 * 2) % 2 ^ 32 ∧
    ((Image.new 3 2).resize 5 4).pixels_.length = (5 * 4) % 2 ^ 32 :=
  ⟨(image_size (Image.new 3 2) 3 2 (by decide) (by decide)).1,
   (image_size (Image.new 3 2) 5 4 (by decide) (by decide)).2.2.2.1⟩

/-- C19. For every image of size W×H (its pixel sequence has W·H elements)
with W·H < 2^32 and every x, y, `at(x, y)` fails with the out-of-range error
if and only if x ≥ W or y ≥ H; otherwise y·W + x is a valid index of the pixel
sequence and `at` returns the element at that index. -/
theorem at_bounds_checked (img : Image) (x y : Nat)
    (hinv : img.pixels_.length = img.width_ * img.height_)
    (hsmall : img.width_ * img.height_ < 2 ^ 32) :
    (img.at x y = .error Err.outOfRange ↔ (x ≥ img.width_ ∨ y ≥ img.height_)) ∧
    (x < img.width_ → y < img.height_ →
      ∃ h : y * img.width_ + x < img.pixels_.length,
        img.at x y = .ok (img.pixels_.get ⟨y * img.width_ + x, h⟩)) := by
  have hidx : x < img.width_ → y < img.height_ →
      y * img.width_ + x < img.pixels_.length := by
    intro hx hy
    rw [hinv]
    have : (y + 1) * img.width_ ≤ img.height_ * img.width_ :=
      Nat.mul_le_mul_right _ (by omega)
    rw [Nat.succ_mul] at this
    rw [Nat.mul_comm img.width_ img.height_]
    omega
  constructor
  · constructor
    · intro h
      by_contra hcon
      have hx : x < img.width_ := by omega
      have hy : y < img.height_ := by omega
      have hi := hidx hx hy
      unfold Image.at at h
      rw [if_neg hcon, Nat.mod_eq_of_lt (by omega), List.getElem?_eq_getElem hi] at h
      simp at h
    · intro h
      unfold Image.at
      rw [if_pos h]
  · intro hx hy
    have hi := hidx hx hy
    refine ⟨hi, ?_⟩
    unfold Image.at
    rw [if_neg (by omega), Nat.mod_eq_of_lt (by omega), List.getElem?_eq_getElem hi]
    rfl

/-- Witness for C19 on a 3×2 image at (x, y) = (2, 1) and at (3, 0). -/
theorem at_bounds_checked_witness :
    ((Image.new 3 2).at 3 0 = .error Err.outOfRange ↔
      (3 ≥ (Image.new 3 2).width_ ∨ 0 ≥ (Image.new 3 2).height_)) ∧
    ((Image.new 3 2).at 2 1 = .error Err.outOfRange ↔
      (2 ≥ (Image.new 3 2).width_ ∨ 1 ≥ (Image.new 3 2).height_)) :=
  ⟨(at_bounds_checked (Image.new 3 2) 3 0 (by decide) (by decide)).1,
   (at_bounds_checked (Image.new 3 2) 2 1 (by decide) (by decide)).1⟩

end Image

namespace PNGDecoder

/-- Embedding of `decode` is `headerCheck` followed by `decodeBody`. -/
theorem decode_eq_headerCheck (data : List Nat) :
    decode data =
      match headerCheck data with
      | .error e => .error e
      | .ok (header, bytesPerPixel) => decodeBody data header bytesPerPixel := by
  unfold decode headerCheck decodeBody
  by_cases hs : (¬ verifySignature data = true)
  · rw [if_pos hs, if_pos hs]
  · rw [if_neg hs, if_neg hs]
    cases parseIHDR data 16 with
    | error e => rfl
    | ok header =>
      dsimp only
      by_cases h1 : header.interlace ≠ 0
      · rw [if_pos h1, if_pos h1]
      · rw [if_neg h1, if_neg h1]
        by_cases h2 : header.bitDepth ≠ 8
        · rw [if_pos h2, if_pos h2]
        · rw [if_neg h2, if_neg h2]
          by_cases c0 : header.colorType = 0
          · rw [if_pos c0, if_pos c0]
          · rw [if_neg c0, if_neg c0]
            by_cases c2 : header.colorType = 2
            · rw [if_pos c2, if_pos c2]
            · rw [if_neg c2, if_neg c2]
              by_cases c4 : header.colorType = 4
              · rw [if_pos c4, if_pos c4]
              · rw [if_neg c4, if_neg c4]
                by_cases c6 : header.colorType = 6
                · rw [if_pos c6, if_pos c6]
                · rw [if_neg c6, if_neg c6]

/-- The header fields `decode` looks at, for a file of at least 29 bytes. -/
theorem parseIHDR_fields (data : List Nat) (hlen : 29 ≤ data.length) :
    ∃ header, parseIHDR data 16 = .ok header ∧
      header.interlace = data.getD 28 0 ∧ header.bitDepth = data.getD 24 0 ∧
      header.colorType = data.getD 25 0 := by
  unfold parseIHDR
  rw [if_neg (by omega)]
  exact ⟨_, rfl, rfl, rfl, rfl⟩

/-- C11. For every input of at least 29 bytes with a valid PNG signature the
header check of `decode` fails with the interlace error if the byte at offset
28 is not 0, else with the depth error if the byte at offset 24 is not 8, else
with the colour-type error if the byte at offset 25 is not 0, 2, 4 or 6; it
passes exactly when interlace = 0, depth = 8 and the colour type is one of
0, 2, 4, 6.  `decode` returns the error of a failed header check as it is,
whatever the rest of the file holds: IDAT extraction and decompression run
only after the check has passed. -/
theorem ihdr_rejection_order (data : List Nat) (hlen : 29 ≤ data.length)
    (hsig : verifySignature data = true) :
    (data.getD 28 0 ≠ 0 →
      headerCheck data = .error Err.interlaced ∧ decode data = .error Err.interlaced) ∧
    (data.getD 28 0 = 0 → data.getD 24 0 ≠ 8 →
      headerCheck data = .error Err.bitDepth ∧ decode data = .error Err.bitDepth) ∧
    (data.getD 28 0 = 0 → data.getD 24 0 = 8 →
      ¬ (data.getD 25 0 = 0 ∨ data.getD 25 0 = 2 ∨ data.getD 25 0 = 4 ∨ data.getD 25 0 = 6) →
      headerCheck data = .error Err.colorType ∧ decode data = .error Err.colorType) ∧
    ((∃ header bytesPerPixel, headerCheck data = .ok (header, bytesPerPixel) ∧
        decode data = decodeBody data header bytesPerPixel) ↔
      (data.getD 28 0 = 0 ∧ data.getD 24 0 = 8 ∧
        (data.getD 25 0 = 0 ∨ data.getD 25 0 = 2 ∨ data.getD 25 0 = 4 ∨
          data.getD 25 0 = 6))) := by
  obtain ⟨header, hp, hi, hd, hc⟩ := parseIHDR_fields data hlen
  have hdec := decode_eq_headerCheck data
  have hhc : headerCheck data =
      if header.interlace ≠ 0 then .error Err.interlaced
      else if header.bitDepth ≠ 8 then .error Err.bitDepth
      else if header.colorType = 0 then .ok (header, 1)
      else if header.colorType = 2 then .ok (header, 3)
      else if header.colorType = 4 then .ok (header, 2)
      else if header.colorType = 6 then .ok (header, 4)
      else .error Err.colorType := by
    unfold headerCheck
    rw [if_neg (by simp [hsig]), hp]
  rw [hi, hd, hc] at hhc
  refine ⟨?_, ?_, ?_, ?_⟩
  · intro h1
    have e : headerCheck data = .error Err.interlaced := by rw [hhc, if_pos h1]
    exact ⟨e, by rw [hdec, e]⟩
  · intro h1 h2
    have e : headerCheck data = .error Err.bitDepth := by
      rw [hhc, if_neg (not_not.mpr h1), if_pos h2]
    exact ⟨e, by rw [hdec, e]⟩
  · intro h1 h2 h3
    have e : headerCheck data = .error Err.colorType := by
      rw [hhc, if_neg (not_not.mpr h1), if_neg (not_not.mpr h2), if_neg (fun h => h3 (Or.inl h)),
        if_neg (fun h => h3 (Or.inr (Or.inl h))),
        if_neg (fun h => h3 (Or.inr (Or.inr (Or.inl h)))),
        if_neg (fun h => h3 (Or.inr (Or.inr (Or.inr h))))]
    exact ⟨e, by rw [hdec, e]⟩
  · constructor
    · rintro ⟨hd2, bpp, e, -⟩
      rw [hhc] at e
      by_cases h1 : data.getD 28 0 ≠ 0
      · rw [if_pos h1] at e
        cases e
      · rw [if_neg h1] at e
        by_cases h2 : data.getD 24 0 ≠ 8
        · rw [if_pos h2] at e
          cases e
        · rw [if_neg h2] at e
          refine ⟨by omega, by omega, ?_⟩
          by_contra h3
          rw [if_neg (fun h => h3 (Or.inl h)),
            if_neg (fun h => h3 (Or.inr (Or.inl h))),
            if_neg (fun h => h3 (Or.inr (Or.inr (Or.inl h)))),
            if_neg (fun h => h3 (Or.inr (Or.inr (Or.inr h))))] at e
          cases e
    · rintro ⟨h1, h2, h3⟩
      rw [if_neg (not_not.mpr h1), if_neg (not_not.mpr h2)] at hhc
      by_cases c0 : data.getD 25 0 = 0
      · rw [if_pos c0] at hhc
        exact ⟨header, 1, hhc, by rw [hdec, hhc]⟩
      · rw [if_neg c0] at hhc
        by_cases c2 : data.getD 25 0 = 2
        · rw [if_pos c2] at hhc
          exact ⟨header, 3, hhc, by rw [hdec, hhc]⟩
        · rw [if_neg c2] at hhc
          by_cases c4 : data.getD 25 0 = 4
          · rw [if_pos c4] at hhc
            exact ⟨header, 2, hhc, by rw [hdec, hhc]⟩
          · rw [if_neg c4] at hhc
            have c6 : data.getD 25 0 = 6 := by
              rcases h3 with h | h | h | h
              · exact absurd h c0
              · exact absurd h c2
              · exact absurd h c4
              · exact h
            rw [if_pos c6] at hhc
            exact ⟨header, 4, hhc, by rw [hdec, hhc]⟩

/-- Witness for C11: a 29-byte input with a valid signature, 16-bit depth and
the interlace byte set; the interlace error wins. -/
theorem ihdr_rejection_order_witness :
    decode ([137, 80, 78, 71, 13, 10, 26, 10, 0, 0, 0, 13, 73, 72, 68, 82,
      0, 0, 0, 1, 0, 0, 0, 1, 16, 3, 0, 0, 1]) = .error Err.interlaced :=
  ((ihdr_rejection_order ([137, 80, 78, 71, 13, 10, 26, 10, 0, 0, 0, 13, 73, 72, 68, 82,
      0, 0, 0, 1, 0, 0, 0, 1, 16, 3, 0, 0, 1]) (by decide) (by decide)).1 (by decide)).2

end PNGDecoder

namespace Deflate

theorem bitOffset_advance (r : BitReader) (n : Nat) :
    (r.advance n).bitOffset = r.bitOffset + n := by
  simp only [BitReader.advance, BitReader.bitOffset]
  omega

theorem advance_zero (r : BitReader) (hb : r.bit_pos < 8) : r.advance 0 = r := by
  cases r with
  | mk d bp bt =>
    simp only [BitReader.advance, BitReader.bitOffset, Nat.add_zero] at hb ⊢
    congr 1 <;> omega

theorem streamBit_eq (data : List Nat) (bp bt : Nat) (hb : bt < 8) :
    ((data.getD bp 0) >>> bt) &&& 1 = streamBit data (8 * bp + bt) := by
  unfold streamBit
  rw [Nat.and_one_is_mod, Nat.shiftRight_eq_div_pow]
  have h1 : (8 * bp + bt) / 8 = bp := by omega
  have h2 : (8 * bp + bt) % 8 = bt := by omega
  rw [h1, h2]

theorem streamBit_lt (data : List Nat) (j : Nat) : streamBit data j < 2 := by
  unfold streamBit
  omega

/-- One step of the loop of `readBits`: the reader after one bit. -/
theorem readBitsLoop_succ (m i res : Nat) (r : BitReader) (hb : r.bit_pos < 8)
    (hlt : r.byte_pos < r.data.length) :
    BitReader.readBitsLoop (m + 1) i res r =
      BitReader.readBitsLoop m (i + 1)
        ((res ||| (streamBit r.data r.bitOffset <<< i)) % 2 ^ 32) (r.advance 1) := by
  have hadv : r.advance 1 =
      if r.bit_pos + 1 = 8 then ⟨r.data, r.byte_pos + 1, 0⟩
      else ⟨r.data, r.byte_pos, r.bit_pos + 1⟩ := by
    simp only [BitReader.advance, BitReader.bitOffset]
    by_cases h8 : r.bit_pos + 1 = 8
    · rw [if_pos h8]
      congr 1 <;> omega
    · rw [if_neg h8]
      congr 1 <;> omega
  rw [BitReader.readBitsLoop, if_neg (by omega), hadv, streamBit_eq r.data _ _ hb]
  simp only [BitReader.bitOffset]
  by_cases h8 : r.bit_pos + 1 = 8
  · rw [if_pos h8, if_pos h8]
  · rw [if_neg h8, if_neg h8]

/-- With `m` bits left in the data the loop of `readBits` returns, the reader
is `m` bits further on, and the value is the accumulator plus the next `m`
stream bits as long as no more than 32 bits are gathered. -/
theorem readBitsLoop_ok : ∀ (m i res : Nat) (r : BitReader), r.bit_pos < 8 →
    m + r.bitOffset ≤ 8 * r.data.length →
    ∃ v, BitReader.readBitsLoop m i res r = .ok (v, r.advance m) ∧
      (res < 2 ^ i → i + m ≤ 32 →
        v = res + ∑ k ∈ Finset.range m, streamBit r.data (r.bitOffset + k) * 2 ^ (i + k)) := by
  intro m
  induction m with
  | zero =>
    intro i res r hb _
    refine ⟨res, ?_, ?_⟩
    · rw [BitReader.readBitsLoop, advance_zero r hb]
    · intro _ _
      simp
  | succ m ih =>
    intro i res r hb hle
    have hlt : r.byte_pos < r.data.length := by
      simp only [BitReader.bitOffset] at hle
      omega
    have hb1 : (r.advance 1).bit_pos < 8 := by
      simp only [BitReader.advance]
      omega
    have hoff := bitOffset_advance r 1
    have hle1 : m + (r.advance 1).bitOffset ≤ 8 * (r.advance 1).data.length := by
      rw [hoff]
      show m + (r.bitOffset + 1) ≤ 8 * r.data.length
      omega
    obtain ⟨v, hv, hval⟩ := ih (i + 1)
      ((res ||| (streamBit r.data r.bitOffset <<< i)) % 2 ^ 32) (r.advance 1) hb1 hle1
    have hadv : (r.advance 1).advance m = r.advance (m + 1) := by
      simp only [BitReader.advance, BitReader.bitOffset]
      congr 1 <;> omega
    refine ⟨v, ?_, ?_⟩
    · rw [readBitsLoop_succ m i res r hb hlt, hv, hadv]
    · intro hres him
      have hbit := streamBit_lt r.data r.bitOffset
      have hor : res ||| (streamBit r.data r.bitOffset <<< i)
          = res + streamBit r.data r.bitOffset * 2 ^ i := by
        rw [Nat.lor_comm, PNGDecoder.or_shift_add _ _ i hres]
        omega
      have hpow : (2 : Nat) ^ (i + 1) = 2 * 2 ^ i := by rw [pow_succ]; omega
      have hbound : res + streamBit r.data r.bitOffset * 2 ^ i < 2 ^ (i + 1) := by
        rw [hpow]
        have : streamBit r.data r.bitOffset * 2 ^ i ≤ 1 * 2 ^ i :=
          Nat.mul_le_mul_right _ (by omega)
        omega
      have h32 : (2 : Nat) ^ (i + 1) ≤ 2 ^ 32 := Nat.pow_le_pow_right (by omega) (by omega)
      have hmod : (res ||| (streamBit r.data r.bitOffset <<< i)) % 2 ^ 32
          = res + streamBit r.data r.bitOffset * 2 ^ i := by
        rw [hor]
        exact Nat.mod_eq_of_lt (by omega)
      have h := hval (by rw [hmod]; exact hbound) (by omega)
      rw [h, hmod, Finset.sum_range_succ', hoff]
      have hdata : (r.advance 1).data = r.data := rfl
      rw [hdata]
      have e : ∀ k, streamBit r.data (r.bitOffset + 1 + k) * 2 ^ (i + 1 + k)
          = streamBit r.data (r.bitOffset + (k + 1)) * 2 ^ (i + (k + 1)) := by
        intro k
        have e1 : r.bitOffset + 1 + k = r.bitOffset + (k + 1) := by omega
        have e2 : i + 1 + k = i + (k + 1) := by omega
        rw [e1, e2]
      simp only [e, Nat.add_zero]
      omega

/-- With fewer than `m` bits left in the data the loop of `readBits` throws
"Unexpected end of data". -/
theorem readBitsLoop_fail : ∀ (m i res : Nat) (r : BitReader), r.bit_pos < 8 →
    8 * r.data.length - r.bitOffset < m →
    BitReader.readBitsLoop m i res r = .error Err.unexpectedEnd := by
  intro m
  induction m with
  | zero => intro i res r _ h; omega
  | succ m ih =>
    intro i res r hb hlt
    by_cases hend : r.byte_pos ≥ r.data.length
    · rw [BitReader.readBitsLoop, if_pos hend]
    · have hlt2 : r.byte_pos < r.data.length := by omega
      have hb1 : (r.advance 1).bit_pos < 8 := by
        simp only [BitReader.advance]
        omega
      rw [readBitsLoop_succ m i res r hb hlt2]
      apply ih _ _ _ hb1
      rw [bitOffset_advance]
      show 8 * r.data.length - (r.bitOffset + 1) < m
      simp only [BitReader.bitOffset] at hlt ⊢
      omega

/-- C20. For every byte sequence, every reader position with bit_pos < 8 and
every n in 0..31: if at least n bits remain, `readBits(n)` returns the sum over
k < n of s[k]·2^k, where s[k] is the k-th stream bit from the current position
(stream bit j is bit j mod 8 of byte j div 8), the position advances by
exactly n bits and bit_pos stays below 8; if fewer than n bits remain it fails
with the end-of-data error. -/
theorem readBits_lsb_first (r : BitReader) (n : Nat) (hb : r.bit_pos < 8) (hn : n ≤ 31) :
    (n ≤ 8 * r.data.length - r.bitOffset →
      ∃ r1, r.readBits n =
          .ok (∑ k ∈ Finset.range n, streamBit r.data (r.bitOffset + k) * 2 ^ k, r1) ∧
        r1.data = r.data ∧ r1.bitOffset = r.bitOffset + n ∧ r1.bit_pos < 8) ∧
    (8 * r.data.length - r.bitOffset < n → r.readBits n = .error Err.unexpectedEnd) := by
  constructor
  · intro hrem
    by_cases hn0 : n = 0
    · subst hn0
      exact ⟨r, by simp [BitReader.readBits, BitReader.readBitsLoop], rfl, rfl, hb⟩
    · obtain ⟨v, hv, hval⟩ := readBitsLoop_ok n 0 0 r hb (by omega)
      have h := hval (by simp) (by omega)
      simp only [Nat.zero_add] at h
      refine ⟨r.advance n, ?_, rfl, bitOffset_advance r n, ?_⟩
      · unfold BitReader.readBits
        rw [hv, h]
      · simp only [BitReader.advance]
        omega
  · intro hrem
    exact readBitsLoop_fail n 0 0 r hb hrem

/-- Witness for C20: five bits from bit 6 of the first of two bytes, and six
bits where only two bits remain. -/
theorem readBits_lsb_first_witness :
    (∃ r1, BitReader.readBits ⟨[0xC5, 0x1B], 0, 6⟩ 5 =
        .ok (∑ k ∈ Finset.range 5, streamBit [0xC5, 0x1B] (6 + k) * 2 ^ k, r1) ∧
      r1.data = [0xC5, 0x1B] ∧ r1.bitOffset = 6 + 5 ∧ r1.bit_pos < 8) ∧
    BitReader.readBits ⟨[0xC5, 0x1B], 1, 6⟩ 6 = .error Err.unexpectedEnd :=
  ⟨(readBits_lsb_first ⟨[0xC5, 0x1B], 0, 6⟩ 5 (by decide) (by decide)).1 (by decide),
   (readBits_lsb_first ⟨[0xC5, 0x1B], 1, 6⟩ 6 (by decide) (by decide)).2 (by decide)⟩

end Deflate

namespace Deflate

/-- The block loop of `decompress` in terms of one iteration. -/
theorem blockLoop_eq_blockStep (D : List Nat) (fuel : Nat) (r : BitReader) (output : List Nat) :
    blockLoop D (fuel + 1) r output =
      match blockStep D fuel r output with
      | .error e => .error e
      | .ok (fin, r1, out1) => if fin then .ok out1 else blockLoop D fuel r1 out1 := by
  rw [blockLoop]
  unfold blockStep
  cases r.readBits 1 with
  | error e => rfl
  | ok p =>
    obtain ⟨bfinal, ra⟩ := p
    dsimp only
    cases ra.readBits 2 with
    | error e => rfl
    | ok q =>
      obtain ⟨blockType, rb⟩ := q
      show (match blockBody D fuel blockType rb output with
        | .error e => Except.error e
        | .ok (r, output) =>
          if bfinal ≠ 0 then Except.ok output else blockLoop D fuel r output) = _
      dsimp only
      cases blockBody D fuel blockType rb output with
      | error e => rfl
      | ok s =>
        obtain ⟨rc, out1⟩ := s
        dsimp only
        by_cases hb : bfinal ≠ 0
        · rw [if_pos hb, if_pos (decide_eq_true hb)]
        · rw [if_neg hb, decide_eq_false hb]
          rfl

theorem blockLoop_of_blockStep_error (D : List Nat) (fuel : Nat) (r : BitReader)
    (output : List Nat) (e : Err) (h : blockStep D fuel r output = .error e) :
    blockLoop D (fuel + 1) r output = .error e := by
  rw [blockLoop_eq_blockStep, h]

/-- After `k` complete non-final blocks the block loop goes on from the state
`runBlocks` gives. -/
theorem blockLoop_runBlocks (D : List Nat) : ∀ (k fuel : Nat) (r : BitReader) (output : List Nat)
    (f1 : Nat) (r1 : BitReader) (out1 : List Nat),
    runBlocks D k fuel r output = some (f1, r1, out1) →
    blockLoop D fuel r output = blockLoop D f1 r1 out1 := by
  intro k
  induction k with
  | zero =>
    intro fuel r output f1 r1 out1 h
    simp only [runBlocks, Option.some.injEq, Prod.mk.injEq] at h
    obtain ⟨rfl, rfl, rfl⟩ := h
    rfl
  | succ k ih =>
    intro fuel r output f1 r1 out1 h
    cases fuel with
    | zero => simp [runBlocks] at h
    | succ fuel =>
      rw [runBlocks] at h
      rw [blockLoop_eq_blockStep]
      cases hs : blockStep D fuel r output with
      | error e => rw [hs] at h; simp at h
      | ok p =>
        obtain ⟨fin, ra, outa⟩ := p
        rw [hs] at h
        cases fin with
        | true => simp at h
        | false =>
          simp only at h
          simp only [Bool.false_eq_true, if_false]
          exact ih fuel ra outa f1 r1 out1 h

/-- A header with `BTYPE = 3` makes the iteration throw "Invalid block type". -/
theorem blockStep_reserved (D : List Nat) (fuel : Nat) (r ra rb : BitReader) (output : List Nat)
    (b : Nat) (h1 : r.readBits 1 = .ok (b, ra)) (h2 : ra.readBits 2 = .ok (3, rb)) :
    blockStep D fuel r output = .error Err.invalidBlockType := by
  unfold blockStep
  rw [h1]
  dsimp only
  rw [h2]
  rfl

/-- A successful `readBits(n)` leaves a valid reader `n` bits further on. -/
theorem readBits_valid (D : List Nat) (r r1 : BitReader) (n v : Nat) (hv : r.Valid D)
    (h : r.readBits n = .ok (v, r1)) :
    r1.Valid D ∧ r1.bitOffset = r.bitOffset + n := by
  obtain ⟨hd, hb, hoff⟩ := hv
  subst hd
  by_cases hrem : n + r.bitOffset ≤ 8 * r.data.length
  · obtain ⟨v1, hv1, -⟩ := readBitsLoop_ok n 0 0 r hb hrem
    unfold BitReader.readBits at h
    rw [hv1] at h
    simp only [Except.ok.injEq, Prod.mk.injEq] at h
    obtain ⟨-, rfl⟩ := h
    refine ⟨⟨rfl, ?_, ?_⟩, bitOffset_advance r n⟩
    · simp only [BitReader.advance]
      omega
    · rw [bitOffset_advance]
      omega
  · have := readBitsLoop_fail n 0 0 r hb (by omega)
    unfold BitReader.readBits at h
    rw [this] at h
    cases h

theorem decodeLoop_valid (D : List Nat) (t : HuffmanTree) : ∀ (n len code first : Nat)
    (r r1 : BitReader) (s : Nat), r.Valid D →
    t.decodeLoop n len code first r = .ok (s, r1) →
    r1.Valid D ∧ r.bitOffset ≤ r1.bitOffset := by
  intro n
  induction n with
  | zero => intro len code first r r1 s _ h; simp [HuffmanTree.decodeLoop] at h
  | succ n ih =>
    intro len code first r r1 s hv h
    rw [HuffmanTree.decodeLoop] at h
    cases h1 : r.readBits 1 with
    | error e => rw [h1] at h; cases h
    | ok p =>
      obtain ⟨bit, ra⟩ := p
      rw [h1] at h
      obtain ⟨hva, hoa⟩ := readBits_valid D r ra 1 bit hv h1
      dsimp only at h
      split at h
      · simp only [Except.ok.injEq, Prod.mk.injEq] at h
        obtain ⟨-, rfl⟩ := h
        exact ⟨hva, by omega⟩
      · obtain ⟨hv1, ho1⟩ := ih _ _ _ ra r1 s hva h
        exact ⟨hv1, by omega⟩

theorem decode_valid (D : List Nat) (t : HuffmanTree) (r r1 : BitReader) (s : Nat)
    (hv : r.Valid D) (h : t.decode r = .ok (s, r1)) :
    r1.Valid D ∧ r.bitOffset ≤ r1.bitOffset :=
  decodeLoop_valid D t _ _ _ _ r r1 s hv h

theorem decodeBlock_zero (r : BitReader) (l d : HuffmanTree) (o : List Nat) :
    decodeBlock 0 r l d o = .error Err.outOfFuel := rfl

theorem decodeBlock_succ (fuel : Nat) (r : BitReader) (litLen dist : HuffmanTree)
    (output : List Nat) :
    decodeBlock (fuel + 1) r litLen dist output =
    match litLen.decode r with
    | .error e => .error e
    | .ok (symbol, r) =>
      if symbol < 256 then decodeBlock fuel r litLen dist (output ++ [symbol % 256])
      else if symbol = 256 then .ok (r, output)
      else
        let symbol := symbol - 257
        match lengthBase[symbol]?, lengthExtra[symbol]? with
        | some lb, some le =>
          match r.readBits le with
          | .error e => .error e
          | .ok (extra, r) =>
            let length := lb + extra
            match dist.decode r with
            | .error e => .error e
            | .ok (distSymbol, r) =>
              match distBase[distSymbol]?, distExtra[distSymbol]? with
              | some db, some de =>
                match r.readBits de with
                | .error e => .error e
                | .ok (dextra, r) =>
                  let distance := db + dextra
                  if distance > output.length then .error Err.undefinedBehaviour
                  else
                    match copyMatch (output.length - distance) length 0 output with
                    | .error e => .error e
                    | .ok output => decodeBlock fuel r litLen dist output
              | _, _ => .error Err.undefinedBehaviour
        | _, _ => .error Err.undefinedBehaviour := rfl

theorem decodeBlock_valid (D : List Nat) (litLen dist : HuffmanTree) : ∀ (fuel : Nat)
    (r r1 : BitReader) (output out1 : List Nat), r.Valid D →
    decodeBlock fuel r litLen dist output = .ok (r1, out1) →
    r1.Valid D ∧ r.bitOffset ≤ r1.bitOffset := by
  intro fuel
  induction fuel with
  | zero => intro r r1 output out1 _ h; rw [decodeBlock_zero] at h; cases h
  | succ fuel ih =>
    intro r r1 output out1 hv h
    rw [decodeBlock_succ] at h
    cases h1 : litLen.decode r with
    | error e => rw [h1] at h; cases h
    | ok p =>
      obtain ⟨symbol, ra⟩ := p
      rw [h1] at h
      obtain ⟨hva, hoa⟩ := decode_valid D litLen r ra symbol hv h1
      dsimp only at h
      split_ifs at h with c1 c2
      · obtain ⟨hv1, ho1⟩ := ih ra r1 _ out1 hva h
        exact ⟨hv1, by omega⟩
      · simp only [Except.ok.injEq, Prod.mk.injEq] at h
        obtain ⟨rfl, -⟩ := h
        exact ⟨hva, hoa⟩
      · split at h
        · rename_i lb le _ _
          cases h2 : ra.readBits le with
          | error e => rw [h2] at h; cases h
          | ok q =>
            obtain ⟨extra, rb⟩ := q
            rw [h2] at h
            obtain ⟨hvb, hob⟩ := readBits_valid D ra rb le extra hva h2
            dsimp only at h
            cases h3 : dist.decode rb with
            | error e => rw [h3] at h; cases h
            | ok q3 =>
              obtain ⟨distSymbol, rc⟩ := q3
              rw [h3] at h
              obtain ⟨hvc, hoc⟩ := decode_valid D dist rb rc distSymbol hvb h3
              dsimp only at h
              split at h
              · rename_i db de _ _
                cases h4 : rc.readBits de with
                | error e => rw [h4] at h; cases h
                | ok q4 =>
                  obtain ⟨dextra, rd⟩ := q4
                  rw [h4] at h
                  obtain ⟨hvd, hod⟩ := readBits_valid D rc rd de dextra hvc h4
                  dsimp only at h
                  split_ifs at h with c3
                  cases h5 : copyMatch (output.length - (db + dextra)) (lb + extra) 0 output with
                  | error e => rw [h5] at h; cases h
                  | ok out5 =>
                    rw [h5] at h
                    obtain ⟨hv1, ho1⟩ := ih rd r1 _ out1 hvd h
                    exact ⟨hv1, by omega⟩
              · cases h
        · cases h

theorem readCodeLengthLengths_valid (D : List Nat) : ∀ (n i : Nat) (r r1 : BitReader)
    (cll cll1 : List Nat), r.Valid D →
    readCodeLengthLengths n i r cll = .ok (r1, cll1) →
    r1.Valid D ∧ r.bitOffset ≤ r1.bitOffset := by
  intro n
  induction n with
  | zero =>
    intro i r r1 cll cll1 hv h
    simp only [readCodeLengthLengths, Except.ok.injEq, Prod.mk.injEq] at h
    obtain ⟨rfl, -⟩ := h
    exact ⟨hv, le_refl _⟩
  | succ n ih =>
    intro i r r1 cll cll1 hv h
    rw [readCodeLengthLengths] at h
    cases h1 : r.readBits 3 with
    | error e => rw [h1] at h; cases h
    | ok p =>
      obtain ⟨v, ra⟩ := p
      rw [h1] at h
      obtain ⟨hva, hoa⟩ := readBits_valid D r ra 3 v hv h1
      dsimp only at h
      cases h2 : codeLengthOrder[i]? with
      | none => rw [h2] at h; cases h
      | some k =>
        rw [h2] at h
        obtain ⟨hv1, ho1⟩ := ih _ ra r1 _ cll1 hva h
        exact ⟨hv1, by omega⟩

theorem readAllLengths_valid (D : List Nat) (tree : HuffmanTree) (target : Nat) :
    ∀ (fuel : Nat) (r r1 : BitReader) (al al1 : List Nat), r.Valid D →
    readAllLengths tree target fuel r al = .ok (r1, al1) →
    r1.Valid D ∧ r.bitOffset ≤ r1.bitOffset := by
  intro fuel
  induction fuel with
  | zero =>
    intro r r1 al al1 hv h
    rw [readAllLengths] at h
    split_ifs at h
    simp only [Except.ok.injEq, Prod.mk.injEq] at h
    obtain ⟨rfl, -⟩ := h
    exact ⟨hv, le_refl _⟩
  | succ fuel ih =>
    intro r r1 al al1 hv h
    rw [readAllLengths] at h
    split_ifs at h with c0
    · cases h1 : tree.decode r with
      | error e => rw [h1] at h; cases h
      | ok p =>
        obtain ⟨symbol, ra⟩ := p
        rw [h1] at h
        obtain ⟨hva, hoa⟩ := decode_valid D tree r ra symbol hv h1
        dsimp only at h
        split_ifs at h with c1 c2 c3 c4
        · obtain ⟨hv1, ho1⟩ := ih ra r1 _ al1 hva h
          exact ⟨hv1, by omega⟩
        · cases h2 : ra.readBits 2 with
          | error e => rw [h2] at h; cases h
          | ok q =>
            obtain ⟨v, rb⟩ := q
            rw [h2] at h
            obtain ⟨hvb, hob⟩ := readBits_valid D ra rb 2 v hva h2
            dsimp only at h
            cases h3 : al.getLast? with
            | none => rw [h3] at h; cases h
            | some value =>
              rw [h3] at h
              obtain ⟨hv1, ho1⟩ := ih rb r1 _ al1 hvb h
              exact ⟨hv1, by omega⟩
        · cases h2 : ra.readBits 3 with
          | error e => rw [h2] at h; cases h
          | ok q =>
            obtain ⟨v, rb⟩ := q
            rw [h2] at h
            obtain ⟨hvb, hob⟩ := readBits_valid D ra rb 3 v hva h2
            obtain ⟨hv1, ho1⟩ := ih rb r1 _ al1 hvb h
            exact ⟨hv1, by omega⟩
        · cases h2 : ra.readBits 7 with
          | error e => rw [h2] at h; cases h
          | ok q =>
            obtain ⟨v, rb⟩ := q
            rw [h2] at h
            obtain ⟨hvb, hob⟩ := readBits_valid D ra rb 7 v hva h2
            obtain ⟨hv1, ho1⟩ := ih rb r1 _ al1 hvb h
            exact ⟨hv1, by omega⟩
        · obtain ⟨hv1, ho1⟩ := ih ra r1 _ al1 hva h
          exact ⟨hv1, by omega⟩
    · simp only [Except.ok.injEq, Prod.mk.injEq] at h
      obtain ⟨rfl, -⟩ := h
      exact ⟨hv, le_refl _⟩

end Deflate

namespace Deflate

theorem copyStored_pos (D : List Nat) : ∀ (n p : Nat) (output : List Nat) (p1 : Nat)
    (out1 : List Nat), copyStored D n p output = .ok (p1, out1) → p ≤ D.length →
    p ≤ p1 ∧ p1 ≤ D.length := by
  intro n
  induction n with
  | zero =>
    intro p output p1 out1 h hp
    simp only [copyStored, Except.ok.injEq, Prod.mk.injEq] at h
    obtain ⟨rfl, -⟩ := h
    exact ⟨le_refl _, hp⟩
  | succ n ih =>
    intro p output p1 out1 h hp
    rw [copyStored] at h
    cases hg : D[p]? with
    | none => rw [hg] at h; cases h
    | some b =>
      rw [hg] at h
      have hlt : p < D.length := by
        by_contra hc
        rw [List.getElem?_eq_none (by omega)] at hg
        cases hg
      obtain ⟨h1, h2⟩ := ih (p + 1) _ p1 out1 h (by omega)
      exact ⟨by omega, h2⟩

theorem alignToByte_valid (D : List Nat) (r : BitReader) (hv : r.Valid D) :
    r.alignToByte.Valid D ∧ r.bitOffset ≤ r.alignToByte.bitOffset ∧
      r.alignToByte.bit_pos = 0 := by
  obtain ⟨hd, hb, hoff⟩ := hv
  unfold BitReader.alignToByte
  by_cases h0 : r.bit_pos ≠ 0
  · rw [if_pos h0]
    simp only [BitReader.Valid, BitReader.bitOffset] at hoff ⊢
    exact ⟨⟨hd, by omega, by omega⟩, by omega, trivial⟩
  · rw [if_neg h0]
    exact ⟨⟨hd, hb, hoff⟩, le_refl _, by omega⟩

theorem blockBody_valid (D : List Nat) (fuel blockType : Nat) (r r1 : BitReader)
    (output out1 : List Nat) (hv : r.Valid D)
    (h : blockBody D fuel blockType r output = .ok (r1, out1)) :
    r1.Valid D ∧ r.bitOffset ≤ r1.bitOffset := by
  unfold blockBody at h
  split_ifs at h with c0 c1 c2
  · obtain ⟨hva, hoa, hba⟩ := alignToByte_valid D r hv
    dsimp only at h
    split_ifs at h with c3
    generalize hlen : (D.getD r.alignToByte.byte_pos 0
      ||| D.getD (r.alignToByte.byte_pos + 1) 0 <<< 8) % 2 ^ 16 = len at h
    cases hc : copyStored D len (r.alignToByte.byte_pos + 4) output with
    | error e => rw [hc] at h; cases h
    | ok p =>
      obtain ⟨bp, outc⟩ := p
      rw [hc] at h
      simp only [Except.ok.injEq, Prod.mk.injEq] at h
      obtain ⟨rfl, -⟩ := h
      obtain ⟨hp1, hp2⟩ := copyStored_pos D len _ output bp outc hc (by omega)
      obtain ⟨hda, -, -⟩ := hva
      simp only [BitReader.Valid, BitReader.bitOffset] at hoa ⊢
      rw [hba] at hoa ⊢
      exact ⟨⟨hda, by omega, by omega⟩, by omega⟩
  · exact decodeBlock_valid D _ _ _ r r1 output out1 hv h
  · cases h1 : r.readBits 5 with
    | error e => rw [h1] at h; cases h
    | ok p1 =>
      obtain ⟨vlit, ra⟩ := p1
      rw [h1] at h
      obtain ⟨hva, hoa⟩ := readBits_valid D r ra 5 vlit hv h1
      dsimp only at h
      cases h2 : ra.readBits 5 with
      | error e => rw [h2] at h; cases h
      | ok p2 =>
        obtain ⟨vdist, rb⟩ := p2
        rw [h2] at h
        obtain ⟨hvb, hob⟩ := readBits_valid D ra rb 5 vdist hva h2
        dsimp only at h
        cases h3 : rb.readBits 4 with
        | error e => rw [h3] at h; cases h
        | ok p3 =>
          obtain ⟨vclen, rc⟩ := p3
          rw [h3] at h
          obtain ⟨hvc, hoc⟩ := readBits_valid D rb rc 4 vclen hvb h3
          dsimp only at h
          cases h4 : readCodeLengthLengths (vclen + 4) 0 rc (List.replicate 19 0) with
          | error e => rw [h4] at h; cases h
          | ok p4 =>
            obtain ⟨rd, cll⟩ := p4
            rw [h4] at h
            obtain ⟨hvd, hod⟩ := readCodeLengthLengths_valid D _ _ rc rd _ cll hvc h4
            dsimp only at h
            cases h5 : readAllLengths (HuffmanTree.empty.build cll) (vlit + 257 + (vdist + 1))
                (fuel + 1 + (vlit + 257) + (vdist + 1)) rd [] with
            | error e => rw [h5] at h; cases h
            | ok p5 =>
              obtain ⟨re, al⟩ := p5
              rw [h5] at h
              obtain ⟨hve, hoe⟩ := readAllLengths_valid D _ _ _ rd re _ al hvd h5
              dsimp only at h
              obtain ⟨hv1, ho1⟩ := decodeBlock_valid D _ _ _ re r1 output out1 hve h
              exact ⟨hv1, by omega⟩

/-- A complete block leaves a valid reader at least three bits further on. -/
theorem blockStep_valid (D : List Nat) (fuel : Nat) (r r1 : BitReader) (output out1 : List Nat)
    (fin : Bool) (hv : r.Valid D) (h : blockStep D fuel r output = .ok (fin, r1, out1)) :
    r1.Valid D ∧ r.bitOffset + 3 ≤ r1.bitOffset := by
  unfold blockStep at h
  cases h1 : r.readBits 1 with
  | error e => rw [h1] at h; cases h
  | ok p1 =>
    obtain ⟨bfinal, ra⟩ := p1
    rw [h1] at h
    obtain ⟨hva, hoa⟩ := readBits_valid D r ra 1 bfinal hv h1
    dsimp only at h
    cases h2 : ra.readBits 2 with
    | error e => rw [h2] at h; cases h
    | ok p2 =>
      obtain ⟨blockType, rb⟩ := p2
      rw [h2] at h
      obtain ⟨hvb, hob⟩ := readBits_valid D ra rb 2 blockType hva h2
      dsimp only at h
      cases h3 : blockBody D fuel blockType rb output with
      | error e => rw [h3] at h; cases h
      | ok p3 =>
        obtain ⟨rc, outc⟩ := p3
        rw [h3] at h
        simp only [Except.ok.injEq, Prod.mk.injEq] at h
        obtain ⟨-, rfl, -⟩ := h
        obtain ⟨hv1, ho1⟩ := blockBody_valid D fuel blockType rb rc output outc hvb h3
        exact ⟨hv1, by omega⟩

/-- After `k` complete blocks `k` iterations have been used and at least
`3 * k` bits read. -/
theorem runBlocks_valid (D : List Nat) : ∀ (k fuel : Nat) (r : BitReader) (output : List Nat)
    (f1 : Nat) (r1 : BitReader) (out1 : List Nat), r.Valid D →
    runBlocks D k fuel r output = some (f1, r1, out1) →
    r1.Valid D ∧ f1 + k = fuel ∧ r.bitOffset + 3 * k ≤ r1.bitOffset := by
  intro k
  induction k with
  | zero =>
    intro fuel r output f1 r1 out1 hv h
    simp only [runBlocks, Option.some.injEq, Prod.mk.injEq] at h
    obtain ⟨rfl, rfl, rfl⟩ := h
    exact ⟨hv, rfl, le_refl _⟩
  | succ k ih =>
    intro fuel r output f1 r1 out1 hv h
    cases fuel with
    | zero => simp [runBlocks] at h
    | succ fuel =>
      rw [runBlocks] at h
      cases hs : blockStep D fuel r output with
      | error e => rw [hs] at h; simp at h
      | ok p =>
        obtain ⟨fin, ra, outa⟩ := p
        rw [hs] at h
        cases fin with
        | true => simp at h
        | false =>
          simp only at h
          obtain ⟨hva, hoa⟩ := blockStep_valid D fuel r ra output outa false hv hs
          obtain ⟨hv1, hf, ho1⟩ := ih fuel ra outa f1 r1 out1 hva h
          exact ⟨hv1, by omega, by omega⟩

/-- From the start of the payload the block loop of `decompress` never runs
out of iterations in front of a block header. -/
theorem runBlocks_fuel (D : List Nat) (k f1 : Nat) (r1 : BitReader) (out1 : List Nat)
    (h : runBlocks D k (8 * D.length + 1) ⟨D, 0, 0⟩ [] = some (f1, r1, out1)) :
    r1.Valid D ∧ ∃ f, f1 = f + 1 := by
  have hv0 : BitReader.Valid D ⟨D, 0, 0⟩ := ⟨rfl, Nat.zero_lt_succ 7, by simp [BitReader.bitOffset]⟩
  obtain ⟨hv1, hf, ho⟩ := runBlocks_valid D k _ _ _ f1 r1 out1 hv0 h
  have hle := hv1.2.2
  have h0 : BitReader.bitOffset ⟨D, 0, 0⟩ = 0 := rfl
  rw [h0] at ho
  exact ⟨hv1, f1 - 1, by omega⟩

theorem decompress_eq_blockLoop (data : List Nat) (hlen : 6 ≤ data.length) :
    decompress data =
      blockLoop (payload data) (8 * (payload data).length + 1) ⟨payload data, 0, 0⟩ [] := by
  unfold decompress
  rw [if_neg (by omega), if_neg (by omega)]
  rfl

end Deflate

namespace Deflate

theorem payload_head (data : List Nat) (hlen : 7 ≤ data.length) :
    (payload data)[0]? = some (data.getD 2 0) := by
  unfold payload
  rw [List.getElem?_take_of_lt (by omega), List.getElem?_drop]
  have h2 : 2 < data.length := by omega
  simp [List.getD, List.getElem?_eq_getElem h2]

theorem readBits_two_reserved (data : List Nat) (bp hdr : Nat) (hget : data[bp]? = some hdr)
    (hb : (hdr / 2) % 4 = 3) :
    BitReader.readBits ⟨data, bp, 1⟩ 2 = .ok (3, ⟨data, bp, 3⟩) := by
  have hlt : bp < data.length := by
    by_contra h
    rw [List.getElem?_eq_none (by omega)] at hget
    exact absurd hget (by simp)
  have h1 : hdr / 2 % 2 = 1 := by omega
  have h2 : hdr / 4 % 2 = 1 := by omega
  simp [BitReader.readBits, BitReader.readBitsLoop, hget, Nat.not_le.mpr hlt,
    Nat.and_one_is_mod, Nat.shiftRight_eq_div_pow, h1, h2]

/-- C14. For every input in which `decompress` reaches, after any number of
complete non-final blocks, a block header whose two-bit BTYPE is 11,
`decompress` fails with the invalid-block error and returns no output; in
particular so does every input of at least 7 bytes whose third byte has bits 1
and 2 both set. -/
theorem reserved_block_type (data : List Nat) :
    (∀ (k f1 : Nat) (r1 ra rb : BitReader) (out1 : List Nat) (bfinal : Nat),
      6 ≤ data.length →
      runBlocks (payload data) k (8 * (payload data).length + 1) ⟨payload data, 0, 0⟩ []
        = some (f1, r1, out1) →
      r1.readBits 1 = .ok (bfinal, ra) → ra.readBits 2 = .ok (3, rb) →
      decompress data = .error Err.invalidBlockType) ∧
    (7 ≤ data.length → (data.getD 2 0 / 2) % 4 = 3 →
      decompress data = .error Err.invalidBlockType) := by
  constructor
  · intro k f1 r1 ra rb out1 bfinal hlen hrun h1 h2
    obtain ⟨-, f, rfl⟩ := runBlocks_fuel (payload data) k f1 r1 out1 hrun
    rw [decompress_eq_blockLoop data hlen, blockLoop_runBlocks _ k _ _ _ _ r1 out1 hrun]
    exact blockLoop_of_blockStep_error _ _ _ _ _
      (blockStep_reserved _ f r1 ra rb out1 bfinal h1 h2)
  · intro hlen hbits
    have hget := payload_head data hlen
    rw [decompress_eq_blockLoop data (by omega)]
    exact blockLoop_of_blockStep_error _ _ _ _ _
      (blockStep_reserved _ _ _ _ _ [] _
        (readBits_one_aligned (payload data) 0 _ hget)
        (readBits_two_reserved (payload data) 0 _ hget hbits))

/-- Witness for C14: seven bytes whose third byte is 6 (BFINAL = 0,
BTYPE = 11), and a stream whose reserved header follows a stored block. -/
theorem reserved_block_type_witness :
    decompress [0x78, 0x01, 0x06, 0, 0, 0, 0] = .error Err.invalidBlockType ∧
    decompress [0x78, 0x01, 0x00, 0x01, 0x00, 0xFE, 0xFF, 0x41, 0x07, 0, 0, 0, 0]
      = .error Err.invalidBlockType :=
  ⟨(reserved_block_type [0x78, 0x01, 0x06, 0, 0, 0, 0]).2 (by decide) (by decide),
   (reserved_block_type
      [0x78, 0x01, 0x00, 0x01, 0x00, 0xFE, 0xFF, 0x41, 0x07, 0, 0, 0, 0]).1 1 56
      ⟨[0x00, 0x01, 0x00, 0xFE, 0xFF, 0x41, 0x07], 6, 0⟩
      ⟨[0x00, 0x01, 0x00, 0xFE, 0xFF, 0x41, 0x07], 6, 1⟩
      ⟨[0x00, 0x01, 0x00, 0xFE, 0xFF, 0x41, 0x07], 6, 3⟩ [0x41] 1
      (by decide) rfl rfl rfl⟩

end Deflate

namespace Deflate

theorem findSymbol_none (len : Nat) (target : Int) : ∀ (ls : List Nat) (i : Nat) (j : Int),
    ls.count len = 0 → HuffmanTree.findSymbol len target ls i j = none := by
  intro ls
  induction ls with
  | nil => intro i j _; rfl
  | cons l rest ih =>
    intro i j hc
    have hne : l ≠ len := by
      intro he
      subst he
      simp at hc
    have hrest : rest.count len = 0 := by
      rw [List.count_cons] at hc
      omega
    rw [HuffmanTree.findSymbol, if_neg hne]
    exact ih _ _ hrest

/-- With fewer bits left than the shortest code of the tree is long, `decode`
throws "Unexpected end of data". -/
theorem decodeLoop_short (t : HuffmanTree) (s : Nat) (hs : ∀ l, l < s → t.lengths.count l = 0) :
    ∀ (n len code first : Nat) (r : BitReader), r.bit_pos < 8 →
    8 * r.data.length - r.bitOffset < n → len + (8 * r.data.length - r.bitOffset) ≤ s →
    t.decodeLoop n len code first r = .error Err.unexpectedEnd := by
  intro n
  induction n with
  | zero => intro len code first r _ h; omega
  | succ n ih =>
    intro len code first r hb hn hlen
    rw [HuffmanTree.decodeLoop]
    by_cases hm : 8 * r.data.length - r.bitOffset < 1
    · have hf : r.readBits 1 = .error Err.unexpectedEnd := readBitsLoop_fail 1 0 0 r hb hm
      rw [hf]
    · obtain ⟨v, hv, -⟩ := readBitsLoop_ok 1 0 0 r hb (by omega)
      have hr : r.readBits 1 = .ok (v, r.advance 1) := hv
      rw [hr]
      dsimp only
      have hcount : t.lengths.count len = 0 := hs len (by omega)
      have hnone : (if ((v ||| code : Nat) : Int) - (first : Int) < (t.lengths.count len : Int)
          then HuffmanTree.findSymbol len (((v ||| code : Nat) : Int) - (first : Int)) t.lengths 0 0
          else none) = none := by
        split_ifs
        · exact findSymbol_none _ _ _ _ _ hcount
        · rfl
      have hoff := bitOffset_advance r 1
      have hd : (r.advance 1).data = r.data := rfl
      have hb1 : (r.advance 1).bit_pos < 8 := by
        simp only [BitReader.advance]
        omega
      rw [Nat.lor_comm code v, hnone]
      dsimp only
      apply ih _ _ _ _ hb1
      · rw [hoff, hd]; omega
      · rw [hoff, hd]; omega

theorem fixed_tree_shape :
    buildFixedTrees.1.maxBits = 9 ∧ ∀ l, l < 7 → buildFixedTrees.1.lengths.count l = 0 := by
  set_option maxRecDepth 100000 in decide

/-- In front of a block header with fewer than eight bits left in the payload
the iteration of the block loop fails: with "Unexpected end of data" when
fewer than three bits are left, and else according to the bits of the header
read from the rest of the last byte. -/
theorem blockStep_exhausted (D : List Nat) (fuel : Nat) (r : BitReader) (output : List Nat)
    (hv : r.Valid D) (hrem : 8 * D.length - r.bitOffset < 8) :
    (blockStep D fuel r output = .error Err.unexpectedEnd ∨
      blockStep D fuel r output = .error Err.invalidStoredBlock ∨
      blockStep D fuel r output = .error Err.invalidBlockType) ∧
    (8 * D.length - r.bitOffset < 3 → blockStep D fuel r output = .error Err.unexpectedEnd) := by
  have hd := hv.1
  have hb := hv.2.1
  have hle := hv.2.2
  unfold blockStep
  by_cases hm1 : 8 * r.data.length - r.bitOffset < 1
  · have hf : r.readBits 1 = .error Err.unexpectedEnd := readBitsLoop_fail 1 0 0 r hb hm1
    rw [hf]
    exact ⟨Or.inl rfl, fun _ => rfl⟩
  · obtain ⟨bfinal, h1⟩ := readBitsLoop_ok 1 0 0 r hb (by omega)
    have h1 : r.readBits 1 = .ok (bfinal, r.advance 1) := h1.1
    obtain ⟨hva, hoa⟩ := readBits_valid D r _ 1 bfinal hv h1
    rw [h1]
    dsimp only
    have hda := hva.1
    by_cases hm2 : 8 * (r.advance 1).data.length - (r.advance 1).bitOffset < 2
    · have hf : (r.advance 1).readBits 2 = .error Err.unexpectedEnd :=
        readBitsLoop_fail 2 0 0 _ hva.2.1 hm2
      rw [hf]
      exact ⟨Or.inl rfl, fun _ => rfl⟩
    · obtain ⟨blockType, h2⟩ := readBitsLoop_ok 2 0 0 (r.advance 1) hva.2.1 (by omega)
      have h2 : (r.advance 1).readBits 2 = .ok (blockType, (r.advance 1).advance 2) := h2.1
      obtain ⟨hvb, hob⟩ := readBits_valid D _ _ 2 blockType hva h2
      rw [h2]
      dsimp only
      generalize (r.advance 1).advance 2 = rb at hvb hob
      have hdb := hvb.1
      have hrb : 8 * rb.data.length - rb.bitOffset ≤ 4 := by
        rw [hdb, hob, hoa]
        rw [hd] at hm1
        omega
      have hlt3 : ¬ 8 * D.length - r.bitOffset < 3 := by
        rw [hda, hoa] at hm2
        omega
      have hbody : blockBody D fuel blockType rb output = .error Err.unexpectedEnd ∨
          blockBody D fuel blockType rb output = .error Err.invalidStoredBlock ∨
          blockBody D fuel blockType rb output = .error Err.invalidBlockType := by
        unfold blockBody
        split_ifs with c0 c1 c2
        · obtain ⟨hvc, hoc, hbc⟩ := alignToByte_valid D rb hvb
          dsimp only
          have hpos : rb.alignToByte.byte_pos + 4 > D.length := by
            simp only [BitReader.bitOffset] at hoc hrb
            rw [hbc] at hoc
            rw [hdb] at hrb
            omega
          rw [if_pos hpos]
          exact Or.inr (Or.inl rfl)
        · left
          rw [decodeBlock_succ]
          have hdec : buildFixedTrees.1.decode rb = .error Err.unexpectedEnd := by
            unfold HuffmanTree.decode
            rw [fixed_tree_shape.1]
            exact decodeLoop_short _ 7 fixed_tree_shape.2 9 1 0 0 rb hvb.2.1 (by omega) (by omega)
          rw [hdec]
        · left
          have hf : rb.readBits 5 = .error Err.unexpectedEnd :=
            readBitsLoop_fail 5 0 0 rb hvb.2.1 (by omega)
          rw [hf]
        · exact Or.inr (Or.inr rfl)
      refine ⟨?_, fun h => absurd h hlt3⟩
      rcases hbody with h | h | h
      · rw [h]; exact Or.inl rfl
      · rw [h]; exact Or.inr (Or.inl rfl)
      · rw [h]; exact Or.inr (Or.inr rfl)

end Deflate

namespace Deflate

/-- C13 fails as stated: the payload [0x02, 0x00] is one complete fixed-Huffman
block with BFINAL = 0 (three header bits and the seven-bit end-of-block code)
and nothing else; the six padding bits of its last byte are read as the header
of a stored block, and `decompress` fails with "Invalid stored block", not with
the end-of-data error. -/
theorem truncated_stream_counterexample :
    runBlocks [0x02, 0x00] 1 17 ⟨[0x02, 0x00], 0, 0⟩ [] = some (16, ⟨[0x02, 0x00], 1, 2⟩, []) ∧
    decompress [0x78, 0x01, 0x02, 0x00, 0, 0, 0, 0] = .error Err.invalidStoredBlock ∧
    decompress [0x78, 0x01, 0x02, 0x00, 0, 0, 0, 0] ≠ .error Err.unexpectedEnd := by
  have h : decompress [0x78, 0x01, 0x02, 0x00, 0, 0, 0, 0] = .error Err.invalidStoredBlock := by
    set_option maxRecDepth 100000 in rfl
  refine ⟨?_, h, ?_⟩
  · set_option maxRecDepth 100000 in rfl
  rw [h]
  simp

/-- C13 (amended). For every zlib-wrapped input whose DEFLATE payload consists
only of complete blocks with BFINAL = 0, so that fewer than eight bits follow
the last of them, `decompress` fails and never returns the bytes decoded so
far: with the end-of-data error when fewer than three bits follow the last
block (as after a stored block, which ends on a byte boundary), and otherwise
with the end-of-data, invalid-stored-block or invalid-block-type error that the
rest of the last byte, read as a block header, leads to. -/
theorem truncated_stream_fails (data : List Nat) (k f1 : Nat) (r1 : BitReader)
    (out1 : List Nat) (hlen : 6 ≤ data.length)
    (hrun : runBlocks (payload data) k (8 * (payload data).length + 1) ⟨payload data, 0, 0⟩ []
      = some (f1, r1, out1))
    (hrem : 8 * (payload data).length - r1.bitOffset < 8) :
    (decompress data = .error Err.unexpectedEnd ∨
      decompress data = .error Err.invalidStoredBlock ∨
      decompress data = .error Err.invalidBlockType) ∧
    (8 * (payload data).length - r1.bitOffset < 3 →
      decompress data = .error Err.unexpectedEnd) := by
  obtain ⟨hv1, f, rfl⟩ := runBlocks_fuel (payload data) k f1 r1 out1 hrun
  rw [decompress_eq_blockLoop data hlen, blockLoop_runBlocks _ k _ _ _ _ r1 out1 hrun]
  obtain ⟨hcases, hend⟩ := blockStep_exhausted (payload data) f r1 out1 hv1 hrem
  refine ⟨?_, fun h => blockLoop_of_blockStep_error _ _ _ _ _ (hend h)⟩
  rcases hcases with h | h | h
  · exact Or.inl (blockLoop_of_blockStep_error _ _ _ _ _ h)
  · exact Or.inr (Or.inl (blockLoop_of_blockStep_error _ _ _ _ _ h))
  · exact Or.inr (Or.inr (blockLoop_of_blockStep_error _ _ _ _ _ h))

/-- Witness for the amended C13: one stored block with BFINAL = 0 and the
chunk [0x41], and nothing after it. -/
theorem truncated_stream_fails_witness :
    decompress [0x78, 0x01, 0x00, 0x01, 0x00, 0xFE, 0xFF, 0x41, 0, 0, 0, 0]
      = .error Err.unexpectedEnd :=
  (truncated_stream_fails [0x78, 0x01, 0x00, 0x01, 0x00, 0xFE, 0xFF, 0x41, 0, 0, 0, 0] 1 48
    ⟨[0x00, 0x01, 0x00, 0xFE, 0xFF, 0x41], 6, 0⟩ [0x41] (by decide) rfl (by decide)).2
    (by decide)

/-- C15 does not hold of the code: on the dynamic-Huffman block of the stream
below (HLIT = HDIST = HCLEN = 0, code lengths 1 for the code-length symbols 16
and 0) the first code-length symbol decoded is 16 while no length has been
decoded yet; the code reads the two repeat bits and then takes
`allLengths.back()` of the empty vector, which is undefined behaviour: no
exception is thrown. -/
theorem repeat_without_predecessor :
    decompress [0x78, 0x01, 5, 0, 2, 36, 0, 0, 0, 0] = .error Err.undefinedBehaviour ∧
    decompress [0x78, 0x01, 5, 0, 2, 36, 0, 0, 0, 0] ≠ .error Err.invalidBlockType := by
  have h : decompress [0x78, 0x01, 5, 0, 2, 36, 0, 0, 0, 0] = .error Err.undefinedBehaviour := by
    rfl
  rw [h]
  simp

end Deflate

namespace PNGDecoder

theorem chunkBytes_cons (c : Chunk) (cs : List Chunk) :
    chunkBytes (c :: cs) = chunk c.type c.body c.crc ++ chunkBytes cs := by
  simp [chunkBytes]

theorem chunkBytes_length_ge : ∀ (cs : List Chunk),
    (∀ c ∈ cs, c.type.length = 4 ∧ c.crc.length = 4 ∧ c.body.length < 2 ^ 32 - 12) →
    12 * cs.length ≤ (chunkBytes cs).length := by
  intro cs
  induction cs with
  | nil => intro _; simp
  | cons c cs ih =>
    intro h
    obtain ⟨h1, h2, -⟩ := h c (by simp)
    have := ih (fun q hq => h q (by simp [hq]))
    rw [chunkBytes_cons, List.length_append, chunk_length _ _ _ h1 h2, List.length_cons]
    omega

/-- The walk of `extractIDATData` over complete chunks up to the first IEND. -/
theorem extractLoop_chunks : ∀ (cs : List Chunk) (pre acc : List Nat) (fuel : Nat),
    (∀ c ∈ cs, c.type.length = 4 ∧ c.crc.length = 4 ∧ c.body.length < 2 ^ 32 - 12) →
    (∃ c ∈ cs, c.type = typeIEND) → cs.length ≤ fuel →
    extractLoop (pre ++ chunkBytes cs) fuel pre.length acc = .ok (acc ++ idatPayload cs) := by
  intro cs
  induction cs with
  | nil =>
    intro pre acc fuel _ hex _
    obtain ⟨c, hc, -⟩ := hex
    simp at hc
  | cons c cs ih =>
    intro pre acc fuel hwf hex hfuel
    obtain ⟨f, rfl⟩ : ∃ f, fuel = f + 1 := ⟨fuel - 1, by simp at hfuel; omega⟩
    obtain ⟨ht, hcrc, hlen⟩ := hwf c (by simp)
    have hD : pre ++ chunkBytes (c :: cs) = pre ++ chunk c.type c.body c.crc ++ chunkBytes cs := by
      rw [chunkBytes_cons, List.append_assoc]
    have hpre : (pre ++ chunk c.type c.body c.crc).length = pre.length + (12 + c.body.length) := by
      rw [List.length_append, chunk_length _ _ _ ht hcrc]
    rw [hD, idatPayload]
    by_cases hiend : c.type = typeIEND
    · rw [if_pos hiend, hiend, extractLoop_iend pre _ c.body c.crc acc f hcrc (by omega)]
      simp
    · rw [if_neg hiend]
      have hex2 : ∃ c2 ∈ cs, c2.type = typeIEND := by
        obtain ⟨c2, hc2, ht2⟩ := hex
        rcases List.mem_cons.mp hc2 with h | h
        · subst h
          exact absurd ht2 hiend
        · exact ⟨c2, h, ht2⟩
      have hrec := ih (pre ++ chunk c.type c.body c.crc)
      rw [hpre] at hrec
      by_cases hidat : c.type = typeIDAT
      · rw [if_pos hidat]
        have hstep := extractLoop_idat pre (chunkBytes cs) c.body c.crc acc f hcrc hlen
        rw [← hidat] at hstep
        rw [hstep, hrec (acc ++ c.body) f (fun q hq => hwf q (by simp [hq])) hex2
          (by simp at hfuel; omega), List.append_assoc]
      · rw [if_neg hidat,
          extractLoop_skip pre (chunkBytes cs) c.type c.body c.crc acc f ht hcrc hlen hidat hiend,
          hrec acc f (fun q hq => hwf q (by simp [hq])) hex2 (by simp at hfuel; omega)]

/-- A chunk other than IDAT and IEND that declares 2^32 − 12 data bytes does
not move the walk: `12 + length` is 0 in `uint32_t`, and no number of
iterations ends the loop. -/
theorem extractLoop_stuck (pre post type body crc acc : List Nat)
    (htype : type.length = 4) (hcrc : crc.length = 4) (hlen : body.length = 2 ^ 32 - 12)
    (hne1 : type ≠ typeIDAT) (hne2 : type ≠ typeIEND) : ∀ (fuel : Nat),
    extractLoop (pre ++ chunk type body crc ++ post) fuel pre.length acc
      = .error Err.outOfFuel := by
  intro fuel
  induction fuel with
  | zero => rfl
  | succ f ih =>
    obtain ⟨h1, h2, h3, _⟩ := chunk_fields pre post type body crc htype hcrc (by omega)
    rw [extractLoop, if_pos (by rw [h1]; omega)]
    simp only [h2, h3]
    have hz : (12 + body.length) % 2 ^ 32 = 0 := by
      rw [hlen]
      rfl
    rw [if_neg hne1, if_neg hne2, hz, Nat.add_zero]
    exact ih

/-- C12 fails as stated: after the signature, a well-formed chunk of type
"tEXt" with 2^32 − 12 data bytes followed by an IEND chunk; `12 + length`
wraps to 0 in `uint32_t`, the walk never leaves the first chunk and
`extractIDATData` never returns (the model runs out of iterations, whatever
their number). -/
theorem idat_concatenation_counterexample :
    extractIDATData (signature ++ chunk [116, 69, 88, 116] (List.replicate (2 ^ 32 - 12) 0)
        [0, 0, 0, 0] ++ chunk typeIEND [] [0, 0, 0, 0]) = .error Err.outOfFuel :=
  extractLoop_stuck signature (chunk typeIEND [] [0, 0, 0, 0]) [116, 69, 88, 116]
    (List.replicate (2 ^ 32 - 12) 0) [0, 0, 0, 0] [] rfl rfl (List.length_replicate _ _)
    (by decide) (by decide) _

/-- C12 (amended). For every input made of eight signature bytes followed by
well-formed chunks (4-byte big-endian length, 4-byte type, length data bytes,
4 CRC bytes), each with fewer than 2^32 − 12 data bytes, that contains an IEND
chunk, `extractIDATData` returns the concatenation, in file order, of the data
of exactly the chunks of type IDAT that precede the first IEND; chunks of any
other type and all CRC bytes do not show in the result. -/
theorem idat_concatenation (sig : List Nat) (cs : List Chunk) (hsig : sig.length = 8)
    (hwf : ∀ c ∈ cs, c.type.length = 4 ∧ c.crc.length = 4 ∧ c.body.length < 2 ^ 32 - 12)
    (hiend : ∃ c ∈ cs, c.type = typeIEND) :
    extractIDATData (sig ++ chunkBytes cs) = .ok (idatPayload cs) := by
  unfold extractIDATData
  have h := extractLoop_chunks cs sig [] ((sig ++ chunkBytes cs).length + 1) hwf hiend
    (by
      have := chunkBytes_length_ge cs hwf
      rw [List.length_append]
      omega)
  rw [hsig] at h
  rw [h, List.nil_append]

/-- Witness for the amended C12: a "tEXt" chunk, two IDAT chunks, IEND, and
an IDAT chunk after IEND. -/
theorem idat_concatenation_witness :
    extractIDATData (signature ++ chunkBytes
      [⟨[116, 69, 88, 116], [9, 9], [1, 2, 3, 4]⟩, ⟨typeIDAT, [10, 20], [5, 6, 7, 8]⟩,
       ⟨typeIDAT, [30], [0, 0, 0, 0]⟩, ⟨typeIEND, [], [0, 0, 0, 0]⟩,
       ⟨typeIDAT, [40], [0, 0, 0, 0]⟩]) = .ok [10, 20, 30] :=
  idat_concatenation signature
    [⟨[116, 69, 88, 116], [9, 9], [1, 2, 3, 4]⟩, ⟨typeIDAT, [10, 20], [5, 6, 7, 8]⟩,
     ⟨typeIDAT, [30], [0, 0, 0, 0]⟩, ⟨typeIEND, [], [0, 0, 0, 0]⟩,
     ⟨typeIDAT, [40], [0, 0, 0, 0]⟩] rfl (by decide) (by decide)

end PNGDecoder

namespace PNGDecoder

/-- The walk of `extractIDATData` over complete chunks none of which is IEND:
it arrives behind them with their IDAT data collected. -/
theorem extractLoop_walk : ∀ (cs : List Chunk) (pre post acc : List Nat) (fuel : Nat),
    (∀ c ∈ cs, c.type.length = 4 ∧ c.crc.length = 4 ∧ c.body.length < 2 ^ 32 - 12 ∧
      c.type ≠ typeIEND) →
    extractLoop (pre ++ chunkBytes cs ++ post) (fuel + cs.length) pre.length acc
      = extractLoop (pre ++ chunkBytes cs ++ post) fuel (pre.length + (chunkBytes cs).length)
          (acc ++ idatPayload cs) := by
  intro cs
  induction cs with
  | nil =>
    intro pre post acc fuel _
    simp [chunkBytes, idatPayload]
  | cons c cs ih =>
    intro pre post acc fuel hwf
    obtain ⟨ht, hcrc, hlen, hiend⟩ := hwf c (by simp)
    have hD : pre ++ chunkBytes (c :: cs) ++ post
        = pre ++ chunk c.type c.body c.crc ++ (chunkBytes cs ++ post) := by
      rw [chunkBytes_cons]
      simp only [List.append_assoc]
    have hD2 : pre ++ chunk c.type c.body c.crc ++ (chunkBytes cs ++ post)
        = pre ++ chunk c.type c.body c.crc ++ chunkBytes cs ++ post := by
      simp only [List.append_assoc]
    have hpre : (pre ++ chunk c.type c.body c.crc).length = pre.length + (12 + c.body.length) := by
      rw [List.length_append, chunk_length _ _ _ ht hcrc]
    have hlenc : (chunkBytes (c :: cs)).length = (12 + c.body.length) + (chunkBytes cs).length := by
      rw [chunkBytes_cons, List.length_append, chunk_length _ _ _ ht hcrc]
    have hfuel : fuel + (c :: cs).length = (fuel + cs.length) + 1 := by
      rw [List.length_cons]
      omega
    have hrec := ih (pre ++ chunk c.type c.body c.crc) post
    rw [hpre] at hrec
    rw [hlenc, hfuel, hD, idatPayload, if_neg hiend]
    by_cases hidat : c.type = typeIDAT
    · rw [if_pos hidat]
      have hstep := extractLoop_idat pre (chunkBytes cs ++ post) c.body c.crc acc
        (fuel + cs.length) hcrc hlen
      rw [← hidat] at hstep
      rw [hstep, hD2, hrec (acc ++ c.body) fuel (fun q hq => hwf q (by simp [hq]))]
      simp only [List.append_assoc, Nat.add_assoc]
    · rw [if_neg hidat,
        extractLoop_skip pre (chunkBytes cs ++ post) c.type c.body c.crc acc (fuel + cs.length)
          ht hcrc hlen hidat hiend,
        hD2, hrec acc fuel (fun q hq => hwf q (by simp [hq])), Nat.add_assoc]

/-- A chunk header of a type other than IDAT whose declared data or CRC would
extend past the end of the input ends the walk without an error. -/
theorem extractLoop_truncated (pre type tail acc : List Nat) (L fuel : Nat)
    (htype : type.length = 4) (hL : L < 2 ^ 32 - 12) (hne : type ≠ typeIDAT)
    (hreach : 4 ≤ tail.length) (hpast : tail.length < L + 4) :
    extractLoop (pre ++ (be32 L ++ type) ++ tail) (fuel + 2) pre.length acc = .ok acc := by
  have hH : (be32 L ++ type).length = 8 := by simp [be32, htype]
  have hlenD : (pre ++ (be32 L ++ type) ++ tail).length = pre.length + 8 + tail.length := by
    simp only [List.length_append, hH, be32, List.length_cons, List.length_nil]
    omega
  have hg : ∀ k, k < 4 →
      (pre ++ (be32 L ++ type) ++ tail).getD (pre.length + k) 0 = (be32 L).getD k 0 := by
    intro k hk
    rw [append3_getD pre _ tail k (by omega), List.getD_eq_getElem?_getD,
      List.getElem?_append_left (by simp [be32]; omega), ← List.getD_eq_getElem?_getD]
  have g0 := hg 0 (by omega)
  rw [Nat.add_zero] at g0
  have hlenf : readBigEndian32 ((pre ++ (be32 L ++ type) ++ tail).getD pre.length 0)
      ((pre ++ (be32 L ++ type) ++ tail).getD (pre.length + 1) 0)
      ((pre ++ (be32 L ++ type) ++ tail).getD (pre.length + 2) 0)
      ((pre ++ (be32 L ++ type) ++ tail).getD (pre.length + 3) 0) = L := by
    rw [g0, hg 1 (by omega), hg 2 (by omega), hg 3 (by omega)]
    exact readBigEndian32_be32 L (by omega)
  have htypef : ((pre ++ (be32 L ++ type) ++ tail).drop (pre.length + 4)).take 4 = type := by
    rw [append3_drop pre _ tail 4 (by omega)]
    have : (be32 L ++ type).drop 4 = type := by simp [be32]
    rw [this, List.take_append_of_le_length (by omega), ← htype, List.take_length]
  rw [extractLoop, if_pos (by rw [hlenD]; omega)]
  simp only [hlenf, htypef]
  rw [if_neg hne]
  by_cases hiend : type = typeIEND
  · rw [if_pos hiend]
  · rw [if_neg hiend, Nat.mod_eq_of_lt (by omega), extractLoop,
      if_neg (by rw [hlenD]; omega)]

/-- C16 fails as stated: after the signature, a chunk header of type "tEXt"
that declares five data bytes with only four bytes left in the input; the
chunk's data and CRC extend past the end, and `extractIDATData` returns the
(empty) data collected so far instead of failing. -/
theorem chunk_truncation_counterexample :
    extractIDATData (signature ++ [0, 0, 0, 5] ++ [116, 69, 88, 116] ++ [1, 2, 3, 4])
      = .ok [] := by
  rfl

/-- C16 (amended). For every input of eight signature bytes and complete chunks
(fewer than 2^32 − 12 data bytes each, none of type IEND) followed by a chunk
header of a type other than IDAT that declares a length below 2^32 − 12 such
that the chunk's data or CRC would extend past the end of the input,
`extractIDATData` does not fail: the walk ends at that chunk and the IDAT data
collected so far is returned. -/
theorem chunk_truncation_returns (sig : List Nat) (cs : List Chunk) (type tail : List Nat)
    (L : Nat) (hsig : sig.length = 8)
    (hwf : ∀ c ∈ cs, c.type.length = 4 ∧ c.crc.length = 4 ∧ c.body.length < 2 ^ 32 - 12 ∧
      c.type ≠ typeIEND)
    (htype : type.length = 4) (hne : type ≠ typeIDAT) (hL : L < 2 ^ 32 - 12)
    (hreach : 4 ≤ tail.length) (hpast : tail.length < L + 4) :
    extractIDATData (sig ++ chunkBytes cs ++ (be32 L ++ type ++ tail)) = .ok (idatPayload cs) := by
  unfold extractIDATData
  have hge := chunkBytes_length_ge cs (fun c hc => ⟨(hwf c hc).1, (hwf c hc).2.1, (hwf c hc).2.2.1⟩)
  have hlen : (sig ++ chunkBytes cs ++ (be32 L ++ type ++ tail)).length
      = 8 + (chunkBytes cs).length + (8 + tail.length) := by
    simp only [List.length_append, hsig, htype, be32, List.length_cons, List.length_nil]
  obtain ⟨f, hf⟩ : ∃ f, (sig ++ chunkBytes cs ++ (be32 L ++ type ++ tail)).length + 1
      = (f + 2) + cs.length := ⟨8 + (chunkBytes cs).length + (8 + tail.length) + 1 - 2 - cs.length,
        by rw [hlen]; omega⟩
  rw [hf]
  have hw := extractLoop_walk cs sig (be32 L ++ type ++ tail) [] (f + 2) hwf
  rw [hsig] at hw
  rw [hw, List.nil_append]
  have ht := extractLoop_truncated (sig ++ chunkBytes cs) type tail (idatPayload cs) L f
    htype hL hne hreach hpast
  rw [List.length_append, hsig] at ht
  have hD : sig ++ chunkBytes cs ++ (be32 L ++ type ++ tail)
      = sig ++ chunkBytes cs ++ (be32 L ++ type) ++ tail := by
    simp only [List.append_assoc]
  rw [hD, ht]

/-- Witness for the amended C16: an IDAT chunk, then a "tEXt" header that
declares five data bytes with four bytes left. -/
theorem chunk_truncation_returns_witness :
    extractIDATData (signature ++ chunkBytes [⟨typeIDAT, [10, 20], [5, 6, 7, 8]⟩]
      ++ (be32 5 ++ [116, 69, 88, 116] ++ [1, 2, 3, 4])) = .ok [10, 20] :=
  chunk_truncation_returns signature [⟨typeIDAT, [10, 20], [5, 6, 7, 8]⟩]
    [116, 69, 88, 116] [1, 2, 3, 4] 5 rfl (by decide) rfl (by decide) (by decide)
    (by decide) (by decide)

/-- The missed case of the walk: an IDAT header that declares more data than
the input holds makes `extractIDATData` copy a range past the end of the
input (undefined behaviour), with no exception thrown. -/
theorem idat_overrun_undefined :
    extractIDATData (signature ++ [0, 0, 0, 5] ++ typeIDAT ++ [1, 2, 3, 4])
      = .error Err.undefinedBehaviour := by
  rfl

end PNGDecoder

namespace PNGDecoder

/-- The `switch (filterType)` of `unfilterScanlines` throws exactly for a
filter type above 4. -/
theorem filter_switch (ft raw a b c : Nat) :
    (ft ≤ 4 → ∃ v : Nat, ((match ft with
        | 0 => .ok raw
        | 1 => .ok ((raw + a) % 256)
        | 2 => .ok ((raw + b) % 256)
        | 3 => .ok ((raw + (a + b) / 2) % 256)
        | 4 => .ok ((raw + paethPredictor a b c) % 256)
        | _ => .error Err.unknownFilter) : Except Err Nat) = .ok v) ∧
    (4 < ft → ((match ft with
        | 0 => .ok raw
        | 1 => .ok ((raw + a) % 256)
        | 2 => .ok ((raw + b) % 256)
        | 3 => .ok ((raw + (a + b) / 2) % 256)
        | 4 => .ok ((raw + paethPredictor a b c) % 256)
        | _ => .error Err.unknownFilter) : Except Err Nat) = .error Err.unknownFilter) := by
  constructor
  · intro h
    interval_cases ft <;> exact ⟨_, rfl⟩
  · intro h
    obtain ⟨k, rfl⟩ : ∃ k, ft = k + 5 := ⟨ft - 5, by omega⟩
    rfl

/-- One row of `unfilterScanlines` inside the buffers: with a filter type in
0..4 the row is written and the source position is behind it; with any other
filter type and a row of at least one byte the loop throws "Unknown filter
type". -/
theorem unfilterRow_total (rawData : List Nat) (stride bpp y ft N : Nat) (prevRow : List Nat)
    (hN : y * stride + stride ≤ N) (hsmall : N < 2 ^ 32) (hprev : prevRow.length = stride) :
    ∀ (n x srcPos : Nat) (unf : List Nat), x + n = stride → srcPos + n ≤ rawData.length →
      unf.length = N →
      (ft ≤ 4 → ∃ unf1, unfilterRow rawData stride bpp y ft n x srcPos unf prevRow
          = .ok (srcPos + n, unf1) ∧ unf1.length = N) ∧
      (4 < ft → 0 < n → unfilterRow rawData stride bpp y ft n x srcPos unf prevRow
          = .error Err.unknownFilter) := by
  intro n
  induction n with
  | zero =>
    intro x srcPos unf _ _ hlen
    exact ⟨fun _ => ⟨unf, rfl, hlen⟩, fun _ h => absurd h (by omega)⟩
  | succ m ih =>
    intro x srcPos unf hx hsrc hlen
    have hraw : rawData[srcPos]? = some (rawData.getD srcPos 0) := by
      rw [List.getD_eq_getElem?_getD, List.getElem?_eq_getElem (by omega)]
      rfl
    obtain ⟨a, ha⟩ : ∃ a, (if x ≥ bpp then unf[(y * stride + x - bpp) % 2 ^ 32]? else some 0)
        = some a := by
      by_cases hxb : x ≥ bpp
      · rw [if_pos hxb, Nat.mod_eq_of_lt (by omega), List.getElem?_eq_getElem (by omega)]
        exact ⟨_, rfl⟩
      · rw [if_neg hxb]
        exact ⟨_, rfl⟩
    obtain ⟨b, hb⟩ : ∃ b, prevRow[x]? = some b := by
      rw [List.getElem?_eq_getElem (by omega)]
      exact ⟨_, rfl⟩
    obtain ⟨c, hc⟩ : ∃ c, (if x ≥ bpp then prevRow[x - bpp]? else some 0) = some c := by
      by_cases hxb : x ≥ bpp
      · rw [if_pos hxb, List.getElem?_eq_getElem (by omega)]
        exact ⟨_, rfl⟩
      · rw [if_neg hxb]
        exact ⟨_, rfl⟩
    obtain ⟨hsw1, hsw2⟩ := filter_switch ft (rawData.getD srcPos 0) a b c
    rw [unfilterRow, hraw]
    simp only
    rw [ha, hb, hc]
    simp only
    constructor
    · intro hft
      obtain ⟨v, hv⟩ := hsw1 hft
      rw [hv]
      simp only
      rw [if_pos (by rw [Nat.mod_eq_of_lt (by omega)]; omega)]
      obtain ⟨unf1, h1, h2⟩ := (ih (x + 1) (srcPos + 1)
        (unf.set ((y * stride + x) % 2 ^ 32) v) (by omega) (by omega)
        (by rw [List.length_set]; exact hlen)).1 hft
      refine ⟨unf1, ?_, h2⟩
      rw [h1]
      congr 2
      omega
    · intro hft _
      rw [hsw2 hft]

end PNGDecoder

namespace PNGDecoder

/-- The row loop of `unfilterScanlines` inside the buffers throws "Unknown
filter type" exactly when one of the remaining rows has a filter byte above
4. -/
theorem unfilterRows_unknownFilter (rawData : List Nat) (stride bpp H : Nat)
    (hstride : 0 < stride) (hsmall : H * stride < 2 ^ 32)
    (hraw : rawData.length = H * (1 + stride)) :
    ∀ (n y : Nat) (unf prevRow : List Nat), y + n = H → unf.length = H * stride →
      prevRow.length = stride →
      (unfilterRows rawData stride bpp n y (y * (1 + stride)) unf prevRow
          = .error Err.unknownFilter ↔
        ∃ y1, y ≤ y1 ∧ y1 < H ∧ 4 < rawData.getD (y1 * (1 + stride)) 0) := by
  intro n
  induction n with
  | zero =>
    intro y unf prevRow hy _ _
    rw [unfilterRows]
    constructor
    · intro h
      cases h
    · rintro ⟨y1, h1, h2, -⟩
      omega
  | succ m ih =>
    intro y unf prevRow hy hlen hprev
    have hyH : y + 1 ≤ H := by omega
    have hmul1 : (y + 1) * stride ≤ H * stride := Nat.mul_le_mul_right _ hyH
    have hmul2 : (y + 1) * (1 + stride) ≤ H * (1 + stride) := Nat.mul_le_mul_right _ hyH
    have e1 : (y + 1) * stride = y * stride + stride := Nat.succ_mul _ _
    have e2 : (y + 1) * (1 + stride) = y * (1 + stride) + (1 + stride) := Nat.succ_mul _ _
    have hsrc : y * (1 + stride) < rawData.length := by omega
    have hget : rawData[y * (1 + stride)]? = some (rawData.getD (y * (1 + stride)) 0) := by
      rw [List.getD_eq_getElem?_getD, List.getElem?_eq_getElem hsrc]
      rfl
    obtain ⟨hok, hbad⟩ := unfilterRow_total rawData stride bpp y
      (rawData.getD (y * (1 + stride)) 0) (H * stride) prevRow (by omega) hsmall hprev
      stride 0 (y * (1 + stride) + 1) unf (by omega) (by omega) hlen
    rw [unfilterRows, hget]
    simp only
    by_cases hft : 4 < rawData.getD (y * (1 + stride)) 0
    · rw [hbad hft hstride]
      exact ⟨fun _ => ⟨y, le_refl _, by omega, hft⟩, fun _ => rfl⟩
    · obtain ⟨unf1, h1, h2⟩ := hok (by omega)
      rw [h1]
      simp only
      have hlo : (y * stride) % 2 ^ 32 = y * stride := Nat.mod_eq_of_lt (by omega)
      have hhi : ((y + 1) * stride) % 2 ^ 32 = (y + 1) * stride := Nat.mod_eq_of_lt (by omega)
      rw [hlo, hhi, if_pos ⟨by omega, by omega, by omega⟩]
      have hpos : y * (1 + stride) + 1 + stride = (y + 1) * (1 + stride) := by omega
      have hplen : ((unf1.drop (y * stride)).take ((y + 1) * stride - y * stride)
          ++ prevRow.drop ((y + 1) * stride - y * stride)).length = stride := by
        rw [List.length_append, List.length_take, List.length_drop, List.length_drop]
        omega
      rw [hpos, ih (y + 1) unf1 _ (by omega) h2 hplen]
      constructor
      · rintro ⟨y1, h3, h4, h5⟩
        exact ⟨y1, by omega, h4, h5⟩
      · rintro ⟨y1, h3, h4, h5⟩
        refine ⟨y1, ?_, h4, h5⟩
        by_contra hc
        have : y1 = y := by omega
        subst this
        exact hft h5

/-- C17 fails as stated: for width 0, height 1 and one byte per pixel the raw
buffer is the single filter byte of the only row; with the filter byte 7 the
row has no byte to unfilter, the `switch` is never reached and
`unfilterScanlines` returns. -/
theorem invalid_filter_counterexample :
    ([7] : List Nat).length = 1 * (1 + 0 * 1) ∧
    ¬ (([7] : List Nat).getD (0 * (1 + 0 * 1)) 0 ≤ 4) ∧
    unfilterScanlines [7] 0 1 1 = .ok [] := by
  refine ⟨by decide, by decide, by rfl⟩

/-- C17 (amended). For every width ≥ 1, height, bytesPerPixel in {1, 2, 3, 4}
with width·bytesPerPixel < 2^31 and height·width·bytesPerPixel < 2^32, and
every raw buffer of height·(1 + width·bytesPerPixel) bytes, `unfilterScanlines`
fails with the invalid-filter error if and only if some row's leading
filter-type byte is outside 0..4. -/
theorem invalid_filter_byte (rawData : List Nat) (width height bpp : Nat)
    (hbpp : bpp = 1 ∨ bpp = 2 ∨ bpp = 3 ∨ bpp = 4) (hwidth : 1 ≤ width)
    (hstride : width * bpp < 2 ^ 31) (hsize : height * width * bpp < 2 ^ 32)
    (hraw : rawData.length = height * (1 + width * bpp)) :
    unfilterScanlines rawData width height bpp = .error Err.unknownFilter ↔
      ∃ y, y < height ∧ ¬ (rawData.getD (y * (1 + width * bpp)) 0 ≤ 4) := by
  have hs1 : (width * bpp) % 2 ^ 32 = width * bpp := Nat.mod_eq_of_lt (by omega)
  have hsz : height * (width * bpp) < 2 ^ 32 := by rw [← Nat.mul_assoc]; exact hsize
  have hs2 : (height * (width * bpp)) % 2 ^ 32 = height * (width * bpp) :=
    Nat.mod_eq_of_lt hsz
  have hpos : 0 < width * bpp := Nat.mul_pos (by omega) (by omega)
  unfold unfilterScanlines
  simp only [hs1, hs2]
  rw [if_neg (by omega)]
  have h := unfilterRows_unknownFilter rawData (width * bpp) bpp height hpos hsz hraw height 0
    (List.replicate (height * (width * bpp)) 0) (List.replicate (width * bpp) 0)
    (by omega) (List.length_replicate _ _) (List.length_replicate _ _)
  rw [Nat.zero_mul] at h
  rw [h]
  constructor
  · rintro ⟨y, -, h2, h3⟩
    exact ⟨y, h2, by omega⟩
  · rintro ⟨y, h2, h3⟩
    exact ⟨y, Nat.zero_le _, h2, by omega⟩

/-- Witness for the amended C17: a 2×3 greyscale image whose third row has the
filter byte 9. -/
theorem invalid_filter_byte_witness :
    unfilterScanlines [0, 10, 20, 1, 5, 5, 9, 1, 1] 2 3 1 = .error Err.unknownFilter :=
  (invalid_filter_byte [0, 10, 20, 1, 5, 5, 9, 1, 1] 2 3 1 (by decide) (by decide)
    (by decide) (by decide) (by decide)).2 ⟨2, by decide, by decide⟩

end PNGDecoder

namespace JPEGEncoder

/-- The scale factor of `encode` does not grow with the quality. -/
theorem qualityScale_antitone (Q1 Q2 : Int) (h1 : 1 ≤ Q1) (h12 : Q1 ≤ Q2) (h2 : Q2 ≤ 100) :
    0 ≤ qualityScale Q2 ∧ qualityScale Q2 ≤ qualityScale Q1 := by
  obtain ⟨e1, -⟩ := qualityScale_eq_scaleSpec Q1 h1 (by omega)
  obtain ⟨e2, n2⟩ := qualityScale_eq_scaleSpec Q2 (by omega) h2
  rw [e1, e2]
  refine ⟨n2, ?_⟩
  unfold scaleSpec
  by_cases c2 : Q2 < 50
  · have c1 : Q1 < 50 := by omega
    rw [if_pos c2, if_pos c1]
    apply Int.le_ediv_of_mul_le (by omega)
    have hx : 5000 / Q2 * Q2 ≤ 5000 := Int.ediv_mul_le 5000 (by omega)
    have hnn : 0 ≤ 5000 / Q2 := Int.ediv_nonneg (by decide) (by omega)
    have : 5000 / Q2 * Q1 ≤ 5000 / Q2 * Q2 := Int.mul_le_mul_of_nonneg_left h12 hnn
    omega
  · rw [if_neg c2]
    by_cases c1 : Q1 < 50
    · rw [if_pos c1]
      apply Int.le_ediv_of_mul_le (by omega)
      have : (200 - 2 * Q2) * Q1 ≤ 100 * Q1 :=
        Int.mul_le_mul_of_nonneg_right (by omega) (by omega)
      omega
    · rw [if_neg c1]
      omega

/-- A table entry scaled by a smaller factor is not larger. -/
theorem scaleEntry_mono (q s1 s2 : Int) (hq : 0 ≤ q) (hs1 : 0 ≤ s1) (hs : s1 ≤ s2) :
    scaleEntry q s1 ≤ scaleEntry q s2 := by
  have h1 : 0 ≤ q * s1 := mul_nonneg hq hs1
  have h12 : q * s1 ≤ q * s2 := Int.mul_le_mul_of_nonneg_left hs hq
  unfold scaleEntry
  rw [Int.tdiv_eq_ediv (by omega) (by decide), Int.tdiv_eq_ediv (by omega) (by decide)]
  have hd : (q * s1 + 50) / 100 ≤ (q * s2 + 50) / 100 :=
    Int.ediv_le_ediv (by decide) (by omega)
  omega

theorem scaled_getD (table : List Int) (s : Int) (i : Nat) :
    (table.map (fun q => scaleEntry q s)).getD i 0
      = if i < table.length then scaleEntry (table.getD i 0) s else 0 := by
  by_cases hi : i < table.length
  · rw [if_pos hi, List.getD_eq_getElem?_getD, List.getD_eq_getElem?_getD, List.getElem?_map,
      List.getElem?_eq_getElem hi]
    rfl
  · rw [if_neg hi, List.getD_eq_getElem?_getD, List.getElem?_eq_none (by simpa using hi)]
    rfl

/-- C30. For all qualities 1 ≤ Q1 ≤ Q2 ≤ 100 and every index i the scaled
luminance and chrominance table entries computed in `encode` at Q2 are less
than or equal to those at Q1; at Q = 50 the scaled tables are the standard
tables, and at Q = 100 every entry is 1. -/
theorem quality_monotone (Q1 Q2 : Int) (i : Nat) (h1 : 1 ≤ Q1) (h12 : Q1 ≤ Q2)
    (h2 : Q2 ≤ 100) :
    (scaledLumQuant Q2).getD i 0 ≤ (scaledLumQuant Q1).getD i 0 ∧
    (scaledChromQuant Q2).getD i 0 ≤ (scaledChromQuant Q1).getD i 0 ∧
    scaledLumQuant 50 = luminanceQuantTable ∧ scaledChromQuant 50 = chrominanceQuantTable ∧
    scaledLumQuant 100 = List.replicate 64 1 ∧ scaledChromQuant 100 = List.replicate 64 1 := by
  obtain ⟨hs0, hs⟩ := qualityScale_antitone Q1 Q2 h1 h12 h2
  refine ⟨?_, ?_, by decide, by decide, by decide, by decide⟩
  · unfold scaledLumQuant
    rw [scaled_getD, scaled_getD]
    by_cases hi : i < luminanceQuantTable.length
    · rw [if_pos hi, if_pos hi]
      have hq : luminanceQuantTable.getD i 0 = luminanceQuantTable[i] := by
        rw [List.getD_eq_getElem?_getD, List.getElem?_eq_getElem hi]
        rfl
      have hr := luminanceQuantTable_range _ (List.getElem_mem hi)
      rw [hq]
      exact scaleEntry_mono _ _ _ (by omega) hs0 hs
    · rw [if_neg hi, if_neg hi]
  · unfold scaledChromQuant
    rw [scaled_getD, scaled_getD]
    by_cases hi : i < chrominanceQuantTable.length
    · rw [if_pos hi, if_pos hi]
      have hq : chrominanceQuantTable.getD i 0 = chrominanceQuantTable[i] := by
        rw [List.getD_eq_getElem?_getD, List.getElem?_eq_getElem hi]
        rfl
      have hr := chrominanceQuantTable_range _ (List.getElem_mem hi)
      rw [hq]
      exact scaleEntry_mono _ _ _ (by omega) hs0 hs
    · rw [if_neg hi, if_neg hi]

/-- Witness for C30 at the qualities 10 and 85, index 5. -/
theorem quality_monotone_witness :
    (scaledLumQuant 85).getD 5 0 ≤ (scaledLumQuant 10).getD 5 0 ∧
    (scaledChromQuant 85).getD 5 0 ≤ (scaledChromQuant 10).getD 5 0 :=
  ⟨(quality_monotone 10 85 5 (by decide) (by decide) (by decide)).1,
   (quality_monotone 10 85 5 (by decide) (by decide) (by decide)).2.1⟩

/-- C27 fails as stated: for a height of 65537 and a width of 65536 the two
height bytes of the SOF0 segment read 1 and the two width bytes read 0. -/
theorem declared_dimensions_counterexample :
    (writeSOF0 [] 65536 65537).getD 5 0 * 256 + (writeSOF0 [] 65536 65537).getD 6 0 = 1 ∧
    (writeSOF0 [] 65536 65537).getD 7 0 * 256 + (writeSOF0 [] 65536 65537).getD 8 0 = 0 := by
  decide

/-- C27 (amended). For every image of width W and height H, the two height
bytes and the two width bytes of the SOF0 segment written by `writeSOF0`, read
as 16-bit big-endian numbers, are H mod 2^16 and W mod 2^16; they equal H and W
exactly when H and W are below 2^16 (for the 9×9 image of scenario S3, 9 and
9). -/
theorem declared_dimensions (out : List Nat) (W H : Nat) :
    ((writeSOF0 out W H).drop out.length).take 5 = [0xFF, 0xC0, 0x00, 0x11, 0x08] ∧
    (writeSOF0 out W H).getD (out.length + 5) 0 * 256
      + (writeSOF0 out W H).getD (out.length + 6) 0 = H % 2 ^ 16 ∧
    (writeSOF0 out W H).getD (out.length + 7) 0 * 256
      + (writeSOF0 out W H).getD (out.length + 8) 0 = W % 2 ^ 16 ∧
    (H % 2 ^ 16 = H ↔ H < 2 ^ 16) ∧ (W % 2 ^ 16 = W ↔ W < 2 ^ 16) ∧
    (writeSOF0 [] 9 9).getD 5 0 * 256 + (writeSOF0 [] 9 9).getD 6 0 = 9 ∧
    (writeSOF0 [] 9 9).getD 7 0 * 256 + (writeSOF0 [] 9 9).getD 8 0 = 9 := by
  have hform : writeSOF0 out W H = out ++ [0xFF, 0xC0, 0x00, 0x11, 0x08,
      (H >>> 8) % 256, H % 256, (W >>> 8) % 256, W % 256,
      0x03, 0x01, 0x11, 0x00, 0x02, 0x11, 0x01, 0x03, 0x11, 0x01] := by
    simp [writeSOF0, writeMarker]
  have hget : ∀ k, (writeSOF0 out W H).getD (out.length + k) 0
      = ([0xFF, 0xC0, 0x00, 0x11, 0x08,
      (H >>> 8) % 256, H % 256, (W >>> 8) % 256, W % 256,
      0x03, 0x01, 0x11, 0x00, 0x02, 0x11, 0x01, 0x03, 0x11, 0x01] : List Nat).getD k 0 := by
    intro k
    rw [hform, List.getD_eq_getElem?_getD, List.getD_eq_getElem?_getD,
      List.getElem?_append_right (by omega), Nat.add_sub_cancel_left]
  have hH : (H >>> 8) % 256 * 256 + H % 256 = H % 2 ^ 16 := by
    rw [Nat.shiftRight_eq_div_pow]
    omega
  have hW : (W >>> 8) % 256 * 256 + W % 256 = W % 2 ^ 16 := by
    rw [Nat.shiftRight_eq_div_pow]
    omega
  refine ⟨?_, ?_, ?_, ?_, ?_, by decide, by decide⟩
  · rw [hform, List.drop_left]
    rfl
  · rw [hget 5, hget 6]
    exact hH
  · rw [hget 7, hget 8]
    exact hW
  · constructor
    · intro h
      omega
    · intro h
      exact Nat.mod_eq_of_lt h
  · constructor
    · intro h
      omega
    · intro h
      exact Nat.mod_eq_of_lt h

/-- C26 does not hold of the code: `writeDQT` pushes `table[i]` for i = 0..63,
the table in natural order.  For the standard luminance table the byte at scan
position 2 is `table[2]` = 10, while the divisor `quantize` uses for
`output[2]` is `table[ZIGZAG[2]]` = `table[8]` = 12. -/
theorem dqt_natural_order :
    (∀ (out : List Nat) (table : List Int) (tableId : Int) (i : Nat), i < 64 →
      (writeDQT out table tableId).getD (out.length + 5 + i) 0
        = ((table.getD i 0) % 256).toNat) ∧
    (writeDQT [] luminanceQuantTable 0).getD (5 + 2) 0 = 10 ∧
    ZIGZAG.getD 2 0 = 8 ∧ luminanceQuantTable.getD (ZIGZAG.getD 2 0) 0 = 12 := by
  refine ⟨?_, by decide, by decide, by decide⟩
  intro out table tableId i hi
  have hform : writeDQT out table tableId
      = (out ++ [0xFF, 0xDB, 0x00, 0x43, (tableId % 256).toNat])
        ++ (List.range 64).map (fun i => ((table.getD i 0) % 256).toNat) := by
    simp [writeDQT, writeMarker]
  rw [hform, List.getD_eq_getElem?_getD, List.getElem?_append_right (by simp)]
  have hidx : out.length + 5 + i - (out ++ [0xFF, 0xDB, 0x00, 0x43, (tableId % 256).toNat]).length
      = i := by
    simp
  rw [hidx, List.getElem?_map, List.getElem?_range hi]
  rfl

end JPEGEncoder

namespace JPEGEncoder

/-- The category of a nonzero value that fits in 16 bits is its bit length. -/
theorem getCategory_bounds (v : Int) (hv : v ≠ 0) (hlo : -32767 ≤ v) (hhi : v ≤ 32767) :
    1 ≤ getCategory v ∧ getCategory v ≤ 15 ∧
    2 ^ (getCategory v - 1) ≤ v.natAbs ∧ v.natAbs < 2 ^ getCategory v := by
  have hcat : getCategory v = categoryLoop 32 v.natAbs 0 := by
    unfold getCategory
    rw [if_neg hv]
  obtain ⟨-, h2, h3⟩ := categoryLoop_spec 32 v.natAbs 0 (by omega)
  rw [← hcat, Nat.sub_zero] at h2
  rw [← hcat] at h3
  have h15 : getCategory v ≤ 15 := by
    have := h3 15 (by omega)
    omega
  have h1 : 1 ≤ getCategory v := by
    by_contra hc
    have h0 : getCategory v = 0 := by omega
    rw [h0] at h2
    omega
  refine ⟨h1, h15, ?_, h2⟩
  by_contra hc
  have := h3 (getCategory v - 1) (by omega)
  omega

end JPEGEncoder

namespace JPEGEncoder

/-- C25. For every nonzero v in [−32767, 32767] with cat = getCategory(v), the
magnitude bits `encodeBlock` passes to `writeBits` are v when v > 0 and
(v − 1) masked to cat bits when v < 0, and the latter is the one's complement
of |v| in cat bits, 2^cat − 1 − |v|; in both cases the value is below 2^cat
and its top (cat-th) bit is 1 exactly when v > 0. -/
theorem magnitude_bits (v : Int) (hv : v ≠ 0) (hlo : -32767 ≤ v) (hhi : v ≤ 32767) :
    (0 < v → (magnitudeBits v (getCategory v) : Int) = v) ∧
    (v < 0 →
      (magnitudeBits v (getCategory v) : Int) = (v - 1) % 2 ^ getCategory v ∧
      magnitudeBits v (getCategory v) + v.natAbs + 1 = 2 ^ getCategory v) ∧
    magnitudeBits v (getCategory v) < 2 ^ getCategory v ∧
    ((magnitudeBits v (getCategory v) / 2 ^ (getCategory v - 1)) % 2 = 1 ↔ 0 < v) := by
  obtain ⟨h1, h15, hlow, hup⟩ := getCategory_bounds v hv hlo hhi
  generalize getCategory v = cat at h1 h15 hlow hup ⊢
  unfold magnitudeBits
  interval_cases cat <;> simp only [Nat.reducePow, Nat.reduceSub, Int.reducePow] at hlow hup ⊢ <;>
    (by_cases hneg : v < 0
     · rw [if_pos hneg]
       refine ⟨fun h => by omega, fun _ => ⟨by omega, by omega⟩, by omega, ?_⟩
       constructor <;> intro h <;> omega
     · rw [if_neg hneg]
       refine ⟨fun _ => by omega, fun h => absurd h hneg, by omega, ?_⟩
       constructor <;> intro h <;> omega)

/-- Witness for C25 at v = −5 (category 3, magnitude bits 010) and v = 5
(magnitude bits 101). -/
theorem magnitude_bits_witness :
    magnitudeBits (-5) (getCategory (-5)) + (-5 : Int).natAbs + 1 = 2 ^ getCategory (-5) ∧
    (magnitudeBits 5 (getCategory 5) : Int) = 5 :=
  ⟨((magnitude_bits (-5) (by decide) (by decide) (by decide)).2.1 (by decide)).2,
   (magnitude_bits 5 (by decide) (by decide) (by decide)).1 (by decide)⟩

end JPEGEncoder

namespace Deflate

/-- The copy loop of a back-reference: after `j` bytes have been copied, the
remaining `n` iterations append the periodic continuation. -/
theorem copyMatch_periodic (out : List Nat) (d : Nat) (hd1 : 1 ≤ d) (hd2 : d ≤ out.length) :
    ∀ (n j : Nat) (ext : List Nat), ext.length = j →
      (∀ i, i < j → ext[i]? = out[out.length - d + i % d]?) →
      ∃ ext1, copyMatch (out.length - d) n j (out ++ ext) = .ok (out ++ ext1) ∧
        ext1.length = j + n ∧
        ∀ i, i < j + n → ext1[i]? = out[out.length - d + i % d]? := by
  intro n
  induction n with
  | zero =>
    intro j ext hlen hext
    exact ⟨ext, rfl, hlen, hext⟩
  | succ n ih =>
    intro j ext hlen hext
    have hread : (out ++ ext)[out.length - d + j]? = out[out.length - d + j % d]? := by
      by_cases hj : j < d
      · rw [List.getElem?_append_left (by omega), Nat.mod_eq_of_lt hj]
      · have hjd : (j - d) % d = j % d := by
          have : j = (j - d) + d := by omega
          conv_rhs => rw [this, Nat.add_mod_right]
        rw [List.getElem?_append_right (by omega)]
        have hidx : out.length - d + j - out.length = j - d := by omega
        rw [hidx, hext (j - d) (by omega), hjd]
    have hsome : out[out.length - d + j % d]? = some (out.getD (out.length - d + j % d) 0) := by
      have hlt : j % d < d := Nat.mod_lt _ (by omega)
      rw [List.getD_eq_getElem?_getD, List.getElem?_eq_getElem (by omega)]
      rfl
    rw [copyMatch, hread, hsome]
    simp only
    rw [List.append_assoc]
    obtain ⟨ext1, h1, h2, h3⟩ := ih (j + 1) (ext ++ [out.getD (out.length - d + j % d) 0])
      (by rw [List.length_append, hlen]; rfl)
      (by
        intro i hi
        by_cases hij : i < j
        · rw [List.getElem?_append_left (by omega)]
          exact hext i hij
        · have : i = j := by omega
          subst this
          rw [List.getElem?_append_right (by omega), hlen, Nat.sub_self, hsome]
          rfl)
    exact ⟨ext1, h1, by omega, fun i hi => h3 i (by omega)⟩

/-- C22. In `decodeBlock`, when the symbol decoded is a length symbol and the
decoded pair (length, distance) has 1 ≤ distance ≤ |out|, the loop goes on
with the output out ++ ext, where |ext| = length and
ext[i] = out[|out| − distance + (i mod distance)] for every i < length: a copy
whose length exceeds its distance repeats the last distance bytes
periodically. -/
theorem back_reference_expansion (fuel : Nat) (r r1 r2 r3 r4 : BitReader)
    (litLen dist : HuffmanTree) (out : List Nat)
    (symbol lb le extra distSymbol db de dextra : Nat)
    (hsym : litLen.decode r = .ok (symbol, r1)) (h256 : 256 < symbol)
    (hlb : lengthBase[symbol - 257]? = some lb) (hle : lengthExtra[symbol - 257]? = some le)
    (hextra : r1.readBits le = .ok (extra, r2))
    (hdsym : dist.decode r2 = .ok (distSymbol, r3))
    (hdb : distBase[distSymbol]? = some db) (hde : distExtra[distSymbol]? = some de)
    (hdextra : r3.readBits de = .ok (dextra, r4))
    (hd1 : 1 ≤ db + dextra) (hd2 : db + dextra ≤ out.length) :
    ∃ ext, decodeBlock (fuel + 1) r litLen dist out = decodeBlock fuel r4 litLen dist (out ++ ext) ∧
      copyMatch (out.length - (db + dextra)) (lb + extra) 0 out = .ok (out ++ ext) ∧
      ext.length = lb + extra ∧
      ∀ i, i < lb + extra →
        ext[i]? = some (out.getD (out.length - (db + dextra) + i % (db + dextra)) 0) := by
  obtain ⟨ext, h1, h2, h3⟩ := copyMatch_periodic out (db + dextra) hd1 hd2 (lb + extra) 0 []
    rfl (fun i hi => absurd hi (by omega))
  rw [List.append_nil] at h1
  rw [Nat.zero_add] at h2 h3
  refine ⟨ext, ?_, h1, h2, ?_⟩
  · rw [decodeBlock_succ, hsym]
    dsimp only
    rw [if_neg (by omega), if_neg (by omega), hlb, hle]
    dsimp only
    rw [hextra]
    dsimp only
    rw [hdsym]
    dsimp only
    rw [hdb, hde]
    dsimp only
    rw [hdextra]
    dsimp only
    rw [if_neg (by omega), h1]
  · intro i hi
    rw [h3 i hi]
    have hlt : i % (db + dextra) < db + dextra := Nat.mod_lt _ (by omega)
    rw [List.getD_eq_getElem?_getD, List.getElem?_eq_getElem (by omega)]
    rfl

end Deflate

namespace Deflate

/-- Witness for C22: in a fixed-Huffman block the length symbol 257 (length 3)
with distance symbol 0 (distance 1) on the output [7, 9] appends 9, 9, 9. -/
theorem back_reference_expansion_witness :
    ∃ ext, decodeBlock 1 ⟨[0x40, 0x00], 0, 0⟩ buildFixedTrees.1 buildFixedTrees.2 [7, 9]
        = decodeBlock 0 ⟨[0x40, 0x00], 1, 4⟩ buildFixedTrees.1 buildFixedTrees.2 ([7, 9] ++ ext) ∧
      copyMatch (([7, 9] : List Nat).length - (1 + 0)) (3 + 0) 0 [7, 9] = .ok ([7, 9] ++ ext) ∧
      ext.length = 3 + 0 ∧
      ∀ i, i < 3 + 0 →
        ext[i]? = some (([7, 9] : List Nat).getD
          (([7, 9] : List Nat).length - (1 + 0) + i % (1 + 0)) 0) :=
  back_reference_expansion 0 ⟨[0x40, 0x00], 0, 0⟩ ⟨[0x40, 0x00], 0, 7⟩ ⟨[0x40, 0x00], 0, 7⟩
    ⟨[0x40, 0x00], 1, 4⟩ ⟨[0x40, 0x00], 1, 4⟩ buildFixedTrees.1 buildFixedTrees.2 [7, 9]
    257 3 0 0 0 1 0 0
    (by set_option maxRecDepth 100000 in rfl) (by decide) (by decide) (by decide) (by rfl)
    (by set_option maxRecDepth 100000 in rfl) (by decide) (by decide) (by rfl)
    (by decide) (by decide)

end Deflate

namespace Deflate

/-- The dynamic-Huffman branch of the block body is the header followed by
`decodeBlock` with the trees built from the two vectors of the header. -/
theorem blockBody_dynamic (D : List Nat) (fuel : Nat) (r : BitReader) (output : List Nat) :
    blockBody D fuel 2 r output =
      match dynamicHeader fuel r with
      | .error e => .error e
      | .ok (r1, _, _, litLenLengths, distLengths) =>
        decodeBlock (fuel + 1) r1 (HuffmanTree.empty.build litLenLengths)
          (HuffmanTree.empty.build distLengths) output := by
  unfold blockBody dynamicHeader
  rw [if_neg (by decide), if_neg (by decide), if_pos rfl]
  cases r.readBits 5 with
  | error e => rfl
  | ok p1 =>
    obtain ⟨vlit, ra⟩ := p1
    dsimp only
    cases ra.readBits 5 with
    | error e => rfl
    | ok p2 =>
      obtain ⟨vdist, rb⟩ := p2
      dsimp only
      cases rb.readBits 4 with
      | error e => rfl
      | ok p3 =>
        obtain ⟨vclen, rc⟩ := p3
        dsimp only
        cases readCodeLengthLengths (vclen + 4) 0 rc (List.replicate 19 0) with
        | error e => rfl
        | ok p4 =>
          obtain ⟨rd, cll⟩ := p4
          dsimp only
          cases readAllLengths (HuffmanTree.empty.build cll) (vlit + 257 + (vdist + 1))
              (fuel + 1 + (vlit + 257) + (vdist + 1)) rd [] with
          | error e => rfl
          | ok p5 => rfl

/-- The code-length loop of the dynamic header ends with at least the
requested number of lengths. -/
theorem readAllLengths_length (tree : HuffmanTree) (target : Nat) : ∀ (fuel : Nat)
    (r r1 : BitReader) (al al1 : List Nat),
    readAllLengths tree target fuel r al = .ok (r1, al1) → target ≤ al1.length := by
  intro fuel
  induction fuel with
  | zero =>
    intro r r1 al al1 h
    rw [readAllLengths] at h
    split_ifs at h with c0
    simp only [Except.ok.injEq, Prod.mk.injEq] at h
    obtain ⟨-, rfl⟩ := h
    omega
  | succ fuel ih =>
    intro r r1 al al1 h
    rw [readAllLengths] at h
    split_ifs at h with c0
    · cases h1 : tree.decode r with
      | error e => rw [h1] at h; cases h
      | ok p =>
        obtain ⟨symbol, ra⟩ := p
        rw [h1] at h
        dsimp only at h
        split_ifs at h with c1 c2 c3 c4
        · exact ih _ _ _ _ h
        · cases h2 : ra.readBits 2 with
          | error e => rw [h2] at h; cases h
          | ok q =>
            obtain ⟨v, rb⟩ := q
            rw [h2] at h
            dsimp only at h
            cases h3 : al.getLast? with
            | none => rw [h3] at h; cases h
            | some value =>
              rw [h3] at h
              exact ih _ _ _ _ h
        · cases h2 : ra.readBits 3 with
          | error e => rw [h2] at h; cases h
          | ok q =>
            obtain ⟨v, rb⟩ := q
            rw [h2] at h
            exact ih _ _ _ _ h
        · cases h2 : ra.readBits 7 with
          | error e => rw [h2] at h; cases h
          | ok q =>
            obtain ⟨v, rb⟩ := q
            rw [h2] at h
            exact ih _ _ _ _ h
        · exact ih _ _ _ _ h
    · simp only [Except.ok.injEq, Prod.mk.injEq] at h
      obtain ⟨-, rfl⟩ := h
      omega

/-- What the code guarantees of the two vectors: the literal/length vector
has exactly `hlit` entries, the distance vector at least `hdist`. -/
theorem dynamicHeader_lengths (fuel : Nat) (r r1 : BitReader) (hlit hdist : Nat)
    (litLenLengths distLengths : List Nat)
    (h : dynamicHeader fuel r = .ok (r1, hlit, hdist, litLenLengths, distLengths)) :
    litLenLengths.length = hlit ∧ hdist ≤ distLengths.length := by
  unfold dynamicHeader at h
  cases h1 : r.readBits 5 with
  | error e => rw [h1] at h; cases h
  | ok p1 =>
    obtain ⟨vlit, ra⟩ := p1
    rw [h1] at h
    dsimp only at h
    cases h2 : ra.readBits 5 with
    | error e => rw [h2] at h; cases h
    | ok p2 =>
      obtain ⟨vdist, rb⟩ := p2
      rw [h2] at h
      dsimp only at h
      cases h3 : rb.readBits 4 with
      | error e => rw [h3] at h; cases h
      | ok p3 =>
        obtain ⟨vclen, rc⟩ := p3
        rw [h3] at h
        dsimp only at h
        cases h4 : readCodeLengthLengths (vclen + 4) 0 rc (List.replicate 19 0) with
        | error e => rw [h4] at h; cases h
        | ok p4 =>
          obtain ⟨rd, cll⟩ := p4
          rw [h4] at h
          dsimp only at h
          cases h5 : readAllLengths (HuffmanTree.empty.build cll) (vlit + 257 + (vdist + 1))
              (fuel + 1 + (vlit + 257) + (vdist + 1)) rd [] with
          | error e => rw [h5] at h; cases h
          | ok p5 =>
            obtain ⟨re, al⟩ := p5
            rw [h5] at h
            simp only [Except.ok.injEq, Prod.mk.injEq] at h
            obtain ⟨-, rfl, rfl, rfl, rfl⟩ := h
            have hlen := readAllLengths_length _ _ _ _ _ _ _ h5
            rw [List.length_take, List.length_drop]
            omega

/-- C23 does not hold of the code: in the dynamic-Huffman block of the stream
below HLIT = 257 and HDIST = 1; the code lengths are 256 zeros, a 1, and a
repeat symbol 16 that repeats the 1 three times, two lengths more than the 258
requested.  The literal/length vector gets its 257 lengths, the distance
vector gets all the rest, [1, 1, 1], three lengths instead of HDIST = 1, and
`decompress` returns. -/
theorem dynamic_split_overshoot :
    dynamicHeader 97 ⟨[5, 192, 133, 0, 0, 0, 0, 0, 32, 127, 235, 6], 0, 3⟩
      = .ok (⟨[5, 192, 133, 0, 0, 0, 0, 0, 32, 127, 235, 6], 11, 5⟩, 257, 1,
          List.replicate 256 0 ++ [1], [1, 1, 1]) ∧
    decompress [0x78, 0x01, 5, 192, 133, 0, 0, 0, 0, 0, 32, 127, 235, 6, 0, 0, 0, 0]
      = .ok [] := by
  constructor
  · set_option maxRecDepth 100000 in rfl
  · set_option maxRecDepth 100000 in rfl

end Deflate

namespace JPEGEncoder

theorem destuff_stuff (bs : List Nat) : destuff (stuff bs) = bs := by
  unfold destuff
  induction bs with
  | nil => rfl
  | cons b rest ih =>
    have hcons : stuff (b :: rest) = (if b = 0xFF then [0xFF, 0x00] else [b]) ++ stuff rest := by
      simp [stuff]
    rw [hcons]
    by_cases hb : b = 0xFF
    · rw [if_pos hb, hb]
      show destuffFrom false (0xFF :: 0x00 :: stuff rest) = 0xFF :: rest
      rw [destuffFrom, if_neg (by simp), destuffFrom, if_pos ⟨by simp, rfl⟩, ih]
    · rw [if_neg hb]
      show destuffFrom false (b :: stuff rest) = b :: rest
      rw [destuffFrom, if_neg (by simp), decide_eq_false hb, ih]

theorem stuff_snoc (bs : List Nat) (b : Nat) :
    stuff (bs ++ [b]) = stuff bs ++ (if b = 0xFF then [0xFF, 0x00] else [b]) := by
  simp [stuff]

theorem bytesBits_snoc (bs : List Nat) (b : Nat) :
    bytesBits (bs ++ [b]) = bytesBits bs ++ bitString b 8 := by
  simp [bytesBits]

/-- A bit string only depends on the bits it shows. -/
theorem bitString_congr (x y : Nat) : ∀ (n : Nat), (∀ j, j < n → x.testBit j = y.testBit j) →
    bitString x n = bitString y n := by
  intro n
  induction n with
  | zero => intro _; rfl
  | succ n ih =>
    intro h
    rw [bitString, bitString, h n (by omega), ih (fun j hj => h j (by omega))]

/-- The top `m` bits of an `(m + n)`-bit string are the bit string of the
value shifted right by `n`. -/
theorem bitString_split (x n : Nat) : ∀ (m : Nat),
    bitString x (m + n) = bitString (x >>> n) m ++ bitString x n := by
  intro m
  induction m with
  | zero => rw [Nat.zero_add]; rfl
  | succ m ih =>
    have e : m + 1 + n = (m + n) + 1 := by omega
    rw [e, bitString, bitString, ih, Nat.testBit_shiftRight, Nat.add_comm n m]
    rfl

theorem testBit_false_of_lt (x i j : Nat) (hx : x < 2 ^ i) (hij : i ≤ j) :
    x.testBit j = false :=
  Nat.testBit_lt_two_pow (lt_of_lt_of_le hx (Nat.pow_le_pow_right (by decide) hij))

/-- The accumulator after `buffer = (buffer << count) | bits`: its low
`bitCount + count` bits are the old buffered bits followed by the new ones. -/
theorem bitString_push (buffer bc bits count : Nat) (hbc : bc + count ≤ 32)
    (hcount : count ≤ 16) (hbits : bits < 2 ^ count) :
    bitString (((buffer <<< count) % 2 ^ 32) ||| (bits % 2 ^ 16)) (bc + count)
      = bitString buffer bc ++ bitString bits count := by
  rw [bitString_split]
  congr 1
  · apply bitString_congr
    intro j hj
    rw [Nat.testBit_shiftRight, Nat.testBit_or, Nat.testBit_mod_two_pow,
      Nat.testBit_mod_two_pow, Nat.testBit_shiftLeft,
      testBit_false_of_lt bits count (count + j) hbits (by omega)]
    have h1 : decide (count + j < 32) = true := decide_eq_true (by omega)
    have h2 : decide (count + j ≥ count) = true := decide_eq_true (by omega)
    rw [h1, h2, Nat.add_sub_cancel_left]
    simp
  · apply bitString_congr
    intro j hj
    rw [Nat.testBit_or, Nat.testBit_mod_two_pow, Nat.testBit_mod_two_pow,
      Nat.testBit_shiftLeft]
    have h1 : decide (j ≥ count) = false := decide_eq_false (by omega)
    have h2 : decide (j < 16) = true := decide_eq_true (by omega)
    rw [h1, h2]
    simp

/-- The drain loop of `writeBits` moves whole bytes from the accumulator to
the output, stuffed, and keeps the bit string written so far. -/
theorem BitWriter.drain_bits (out : List Nat) (S : List Bool) (fuel : Nat) :
    ∀ (w : BitWriter),
      (∃ B, w.output = out ++ stuff B ∧ bytesBits B ++ bitString w.buffer w.bitCount = S) →
      ∃ B, (BitWriter.drain fuel w).output = out ++ stuff B ∧
        bytesBits B ++ bitString (BitWriter.drain fuel w).buffer
          (BitWriter.drain fuel w).bitCount = S := by
  induction fuel with
  | zero => intro w h; exact h
  | succ f ih =>
    intro w h
    obtain ⟨B, hout, hS⟩ := h
    unfold BitWriter.drain
    by_cases h8 : w.bitCount ≥ 8
    · rw [if_pos h8]
      apply ih
      refine ⟨B ++ [(w.buffer >>> (w.bitCount - 8)) % 256], ?_, ?_⟩
      · simp only
        rw [stuff_snoc, hout]
        by_cases hb : (w.buffer >>> (w.bitCount - 8)) % 256 = 0xFF
        · rw [if_pos hb, if_pos hb, hb]
          simp
        · rw [if_neg hb, if_neg hb]
          simp
      · simp only
        rw [bytesBits_snoc, ← hS]
        have hsplit := bitString_split w.buffer (w.bitCount - 8) 8
        have e : 8 + (w.bitCount - 8) = w.bitCount := by omega
        rw [e] at hsplit
        have hbyte : bitString ((w.buffer >>> (w.bitCount - 8)) % 256) 8
            = bitString (w.buffer >>> (w.bitCount - 8)) 8 := by
          apply bitString_congr
          intro j hj
          have e8 : (256 : Nat) = 2 ^ 8 := by decide
          rw [e8, Nat.testBit_mod_two_pow, decide_eq_true hj]
          simp
        rw [hsplit, hbyte, List.append_assoc]
    · rw [if_neg h8]
      exact ⟨B, hout, hS⟩

theorem BitWriter.writeBits_bits (out : List Nat) (S : List Bool) (w : BitWriter)
    (bits count : Nat) (hbc : w.bitCount < 8) (hcount : count ≤ 16) (hbits : bits < 2 ^ count)
    (h : ∃ B, w.output = out ++ stuff B ∧ bytesBits B ++ bitString w.buffer w.bitCount = S) :
    ∃ B, (w.writeBits bits count).output = out ++ stuff B ∧
      bytesBits B ++ bitString (w.writeBits bits count).buffer (w.writeBits bits count).bitCount
        = S ++ bitString bits count := by
  obtain ⟨B, hout, hS⟩ := h
  unfold BitWriter.writeBits
  apply BitWriter.drain_bits
  refine ⟨B, hout, ?_⟩
  simp only
  rw [bitString_push w.buffer w.bitCount bits count (by omega) hcount hbits, ← hS,
    List.append_assoc]

theorem BitWriter.writeAll_bits (out : List Nat) (calls : List (Nat × Nat)) :
    ∀ (w : BitWriter) (S : List Bool), (∀ c ∈ calls, c.2 ≤ 16 ∧ c.1 < 2 ^ c.2) →
      w.bitCount < 8 →
      (∃ B, w.output = out ++ stuff B ∧ bytesBits B ++ bitString w.buffer w.bitCount = S) →
      ∃ B, (w.writeAll calls).output = out ++ stuff B ∧
        bytesBits B ++ bitString (w.writeAll calls).buffer (w.writeAll calls).bitCount
          = S ++ (calls.map (fun c => bitString c.1 c.2)).flatten := by
  induction calls with
  | nil =>
    intro w S _ _ h
    simpa [BitWriter.writeAll] using h
  | cons c cs ih =>
    intro w S hc hbc h
    obtain ⟨h1, h2⟩ := hc c (by simp)
    have hstep := BitWriter.writeBits_bits out S w c.1 c.2 hbc h1 h2 h
    have hbc1 : (w.writeBits c.1 c.2).bitCount < 8 := by
      unfold BitWriter.writeBits
      exact BitWriter.drain_bitCount _ _ (le_refl _)
    have := ih (w.writeBits c.1 c.2) (S ++ bitString c.1 c.2)
      (fun q hq => hc q (by simp [hq])) hbc1 hstep
    simpa [BitWriter.writeAll, List.append_assoc] using this

/-- C21. For every sequence of `writeBits(bits, count)` calls with count in
0..16 and bits < 2^count on a fresh writer, after each call (that is, after
the first k calls, for every k) bitCount is below 8, and the bytes appended so
far with every 0x00 that follows a 0xFF removed, followed by the low bitCount
bits of the accumulator, are exactly the concatenation of the written values,
each taken as a count-bit string most significant bit first. -/
theorem msb_first_writer (out : List Nat) (calls : List (Nat × Nat)) (k : Nat)
    (hcalls : ∀ c ∈ calls, c.2 ≤ 16 ∧ c.1 < 2 ^ c.2) :
    ((BitWriter.new out).writeAll (calls.take k)).bitCount < 8 ∧
    ∃ appended, ((BitWriter.new out).writeAll (calls.take k)).output = out ++ appended ∧
      bytesBits (destuff appended)
          ++ bitString ((BitWriter.new out).writeAll (calls.take k)).buffer
              ((BitWriter.new out).writeAll (calls.take k)).bitCount
        = ((calls.take k).map (fun c => bitString c.1 c.2)).flatten := by
  have hk : ∀ c ∈ calls.take k, c.2 ≤ 16 ∧ c.1 < 2 ^ c.2 :=
    fun c hc => hcalls c (List.mem_of_mem_take hc)
  refine ⟨BitWriter.writeAll_bitCount _ _ (Nat.zero_lt_succ 7), ?_⟩
  obtain ⟨B, h1, h2⟩ := BitWriter.writeAll_bits out (calls.take k) (BitWriter.new out) [] hk
    (Nat.zero_lt_succ 7) ⟨[], by simp [BitWriter.new, stuff], rfl⟩
  refine ⟨stuff B, h1, ?_⟩
  rw [destuff_stuff, h2, List.nil_append]

/-- Witness for C21: the calls (0xFFFF, 16), (5, 3), (0, 7) after the SOS
marker bytes; the first call produces two stuffed 0xFF bytes. -/
theorem msb_first_writer_witness :
    ((BitWriter.new [0xFF, 0xDA]).writeAll ([(0xFFFF, 16), (5, 3), (0, 7)].take 2)).bitCount < 8 ∧
    ∃ appended, ((BitWriter.new [0xFF, 0xDA]).writeAll
        ([(0xFFFF, 16), (5, 3), (0, 7)].take 2)).output = [0xFF, 0xDA] ++ appended ∧
      bytesBits (destuff appended)
          ++ bitString ((BitWriter.new [0xFF, 0xDA]).writeAll
                ([(0xFFFF, 16), (5, 3), (0, 7)].take 2)).buffer
              ((BitWriter.new [0xFF, 0xDA]).writeAll
                ([(0xFFFF, 16), (5, 3), (0, 7)].take 2)).bitCount
        = (([(0xFFFF, 16), (5, 3), (0, 7)].take 2).map (fun c => bitString c.1 c.2)).flatten :=
  msb_first_writer [0xFF, 0xDA] [(0xFFFF, 16), (5, 3), (0, 7)] 2 (by decide)

end JPEGEncoder

namespace JPEGEncoder

/-- The `while (zeroCount >= 16)` loop writes `z / 16` codes of the symbol
0xF0 and leaves `z mod 16`. -/
theorem writeZRL_spec (acCodes acSizes : List Nat) : ∀ (fuel : Nat) (w : BitWriter) (z : Nat),
    z / 16 ≤ fuel →
    writeZRL acCodes acSizes fuel w z
      = (w.writeAll (emitCalls acCodes acSizes (List.replicate (z / 16) (Emit.symbol 0xF0))),
          z % 16) := by
  intro fuel
  induction fuel with
  | zero =>
    intro w z hz
    have h0 : z / 16 = 0 := by omega
    have hlt : z < 16 := by omega
    rw [writeZRL, h0, Nat.mod_eq_of_lt hlt]
    rfl
  | succ f ih =>
    intro w z hz
    rw [writeZRL]
    by_cases h16 : z ≥ 16
    · rw [if_pos h16, ih _ _ (by omega)]
      have e1 : z / 16 = (z - 16) / 16 + 1 := by omega
      have e2 : (z - 16) % 16 = z % 16 := by omega
      rw [e1, e2, List.replicate_succ]
      rfl
    · rw [if_neg h16]
      have h0 : z / 16 = 0 := by omega
      have hlt : z < 16 := by omega
      rw [h0, Nat.mod_eq_of_lt hlt]
      rfl

theorem writeAll_append (w : BitWriter) (a b : List (Nat × Nat)) :
    w.writeAll (a ++ b) = (w.writeAll a).writeAll b := by
  simp [BitWriter.writeAll, List.foldl_append]

theorem emitCalls_append (codes sizes : List Nat) (a b : List Emit) :
    emitCalls codes sizes (a ++ b) = emitCalls codes sizes a ++ emitCalls codes sizes b := by
  simp [emitCalls]

/-- The value of `zeroCount` after the coefficient loop of `encodeBlock`. -/
theorem encodeAC_spec (acCodes acSizes : List Nat) : ∀ (coeffs : List Int) (w : BitWriter)
    (z : Nat),
    (encodeAC acCodes acSizes coeffs w z).1
        = w.writeAll (emitCalls acCodes acSizes (acBody coeffs z)) ∧
    ((encodeAC acCodes acSizes coeffs w z).2 > 0 ↔
        (coeffs = [] ∧ z > 0) ∨ coeffs.getLast? = some 0) := by
  intro coeffs
  induction coeffs with
  | nil =>
    intro w z
    rw [encodeAC, acBody]
    exact ⟨rfl, by simp⟩
  | cons v rest ih =>
    intro w z
    have hlast : ∀ z2 : Nat, ((rest = [] ∧ z2 > 0) ∨ rest.getLast? = some 0) ↔
        ((rest = [] ∧ z2 > 0) ∨ (rest ≠ [] ∧ (v :: rest).getLast? = some 0)) := by
      intro z2
      cases rest with
      | nil => simp
      | cons a as => simp [List.getLast?_cons_cons]
    rw [encodeAC, acBody]
    by_cases hv : v = 0
    · rw [if_pos hv, if_pos hv]
      obtain ⟨h1, h2⟩ := ih w (z + 1)
      refine ⟨h1, ?_⟩
      rw [h2, hlast]
      constructor
      · rintro (⟨hr, -⟩ | ⟨-, hl⟩)
        · right
          rw [hr, hv]
          rfl
        · exact Or.inr hl
      · rintro (⟨hc, -⟩ | hl)
        · cases hc
        · by_cases hr : rest = []
          · exact Or.inl ⟨hr, by omega⟩
          · exact Or.inr ⟨hr, hl⟩
    · rw [if_neg hv, if_neg hv, writeZRL_spec acCodes acSizes z w z (Nat.div_le_self _ _)]
      dsimp only
      obtain ⟨h1, h2⟩ := ih
        (((w.writeAll (emitCalls acCodes acSizes (List.replicate (z / 16) (Emit.symbol 0xF0)))).writeBits
          (acCodes.getD (((z % 16) <<< 4) ||| getCategory v) 0)
          (acSizes.getD (((z % 16) <<< 4) ||| getCategory v) 0)).writeBits
          (magnitudeBits v (getCategory v)) (getCategory v)) 0
      refine ⟨?_, ?_⟩
      · rw [h1, emitCalls_append, emitCalls_append, writeAll_append, writeAll_append]
        rfl
      · rw [h2, hlast]
        constructor
        · rintro (⟨-, hc⟩ | ⟨-, hl⟩)
          · omega
          · exact Or.inr hl
        · rintro (⟨hc, -⟩ | hl)
          · cases hc
          · by_cases hr : rest = []
            · rw [hr] at hl
              simp at hl
              exact absurd hl hv
            · exact Or.inr ⟨hr, hl⟩

/-- The `writeBits` calls of `encodeBlock` are the calls of the DC and AC
emissions, and the new predictor is the DC coefficient. -/
theorem encodeBlock_calls (w : BitWriter) (block : List Int) (prevDC : Int)
    (dcBits dcValues acBits acValues : List Nat) (hlen : block.length = 64) :
    encodeBlock w block prevDC dcBits dcValues acBits acValues
      = (w.writeAll (blockCalls block prevDC dcBits dcValues acBits acValues),
          block.getD 0 0) := by
  have hne : (block.drop 1).take 63 ≠ [] := by
    intro h
    have := congrArg List.length h
    rw [List.length_take, List.length_drop, hlen] at this
    simp at this
  unfold encodeBlock blockCalls
  dsimp only
  generalize hdc : generateHuffmanCodes dcBits dcValues = dc
  generalize hac : generateHuffmanCodes acBits acValues = ac
  generalize hw1 : (if getCategory (block.getD 0 0 - prevDC) > 0 then
      (w.writeBits (dc.1.getD (getCategory (block.getD 0 0 - prevDC)) 0)
        (dc.2.getD (getCategory (block.getD 0 0 - prevDC)) 0)).writeBits
        (magnitudeBits (block.getD 0 0 - prevDC) (getCategory (block.getD 0 0 - prevDC)))
        (getCategory (block.getD 0 0 - prevDC))
    else w.writeBits (dc.1.getD (getCategory (block.getD 0 0 - prevDC)) 0)
        (dc.2.getD (getCategory (block.getD 0 0 - prevDC)) 0)) = w1
  have hw1s : w1 = w.writeAll (emitCalls dc.1 dc.2 (dcEmits (block.getD 0 0 - prevDC))) := by
    rw [← hw1]
    unfold dcEmits
    by_cases hc : getCategory (block.getD 0 0 - prevDC) > 0
    · rw [if_pos hc, if_pos hc]
      rfl
    · rw [if_neg hc, if_neg hc]
      rfl
  obtain ⟨h1, h2⟩ := encodeAC_spec ac.1 ac.2 ((block.drop 1).take 63) w1 0
  have hpair : encodeAC ac.1 ac.2 ((block.drop 1).take 63) w1 0
      = ((encodeAC ac.1 ac.2 ((block.drop 1).take 63) w1 0).1,
         (encodeAC ac.1 ac.2 ((block.drop 1).take 63) w1 0).2) := rfl
  rw [hpair]
  dsimp only
  rw [writeAll_append, ← hw1s, h1]
  unfold acSymbols
  rw [emitCalls_append, writeAll_append]
  by_cases hz : (encodeAC ac.1 ac.2 ((block.drop 1).take 63) w1 0).2 > 0
  · have hl : ((block.drop 1).take 63).getLast? = some 0 := by
      rcases h2.mp hz with ⟨hc, -⟩ | hl
      · exact absurd hc hne
      · exact hl
    rw [if_pos hz, if_pos hl]
    rfl
  · have hl : ¬ ((block.drop 1).take 63).getLast? = some 0 := fun hl => hz (h2.mpr (Or.inr hl))
    rw [if_neg hz, if_neg hl]
    rfl

end JPEGEncoder

namespace JPEGEncoder

theorem ac_last (block : List Int) (hlen : block.length = 64) :
    ((block.drop 1).take 63).getLast? = some (block.getD 63 0) := by
  have h63 : 63 < block.length := by omega
  have htake : (block.drop 1).take 63 = block.drop 1 := by
    apply List.take_of_length_le
    rw [List.length_drop]
    omega
  rw [htake, List.getLast?_eq_getElem?, List.length_drop, hlen, List.getElem?_drop,
    List.getD_eq_getElem?_getD, List.getElem?_eq_getElem h63]
  rfl

/-- The symbols of the run emissions index the 256-entry code table as long
as the categories stay below 16. -/
theorem acBody_symbols (coeffs : List Int) :
    (∀ v ∈ coeffs, v ≠ 0 → getCategory v ≤ 10) →
    ∀ (z s : Nat), Emit.symbol s ∈ acBody coeffs z → s < 256 := by
  induction coeffs with
  | nil =>
    intro _ z s h
    simp [acBody] at h
  | cons v rest ih =>
    intro hcat z s h
    rw [acBody] at h
    by_cases hv : v = 0
    · rw [if_pos hv] at h
      exact ih (fun q hq => hcat q (by simp [hq])) _ _ h
    · rw [if_neg hv] at h
      have hc := hcat v (by simp) hv
      rcases List.mem_append.mp h with h1 | h1
      · rcases List.mem_append.mp h1 with h2 | h2
        · have := List.eq_of_mem_replicate h2
          cases this
          decide
        · rcases List.mem_cons.mp h2 with h3 | h3
          · have hz : z % 16 < 16 := Nat.mod_lt _ (by decide)
            have hor : ((z % 16) <<< 4) ||| getCategory v = (z % 16) * 2 ^ 4 + getCategory v :=
              PNGDecoder.or_shift_add _ _ 4 (by omega)
            have hs : s = ((z % 16) <<< 4) ||| getCategory v := Emit.symbol.inj h3
            rw [hs, hor]
            omega
          · rcases List.mem_cons.mp h3 with h4 | h4
            · cases h4
            · cases h4
      · exact ih (fun q hq => hcat q (by simp [hq])) _ _ h1

/-- C24. For every block of 64 integers whose nonzero AC coefficients have
category 1..10, the writes of `encodeBlock` after those of the DC coefficient
are those of the AC symbol sequence of the specification for positions 1..63:
for each nonzero coefficient v preceded by z consecutive zeros, ⌊z/16⌋ symbols
0xF0, the symbol ((z mod 16) << 4) | getCategory(v) and getCategory(v)
magnitude bits; after the last nonzero coefficient exactly one symbol 0x00
(EOB) if block[63] = 0 and none if block[63] ≠ 0.  Every symbol is below 256,
an index of the code table. -/
theorem ac_run_length_symbols (w : BitWriter) (block : List Int) (prevDC : Int)
    (dcBits dcValues acBits acValues : List Nat) (hlen : block.length = 64)
    (hcat : ∀ v ∈ (block.drop 1).take 63, v ≠ 0 → 1 ≤ getCategory v ∧ getCategory v ≤ 10) :
    (encodeBlock w block prevDC dcBits dcValues acBits acValues).1
      = (w.writeAll (emitCalls (generateHuffmanCodes dcBits dcValues).1
            (generateHuffmanCodes dcBits dcValues).2 (dcEmits (block.getD 0 0 - prevDC)))).writeAll
          (emitCalls (generateHuffmanCodes acBits acValues).1
            (generateHuffmanCodes acBits acValues).2 (acSymbols ((block.drop 1).take 63))) ∧
    (block.getD 63 0 = 0 →
      acSymbols ((block.drop 1).take 63)
        = acBody ((block.drop 1).take 63) 0 ++ [Emit.symbol 0x00]) ∧
    (block.getD 63 0 ≠ 0 →
      acSymbols ((block.drop 1).take 63) = acBody ((block.drop 1).take 63) 0) ∧
    (∀ s, Emit.symbol s ∈ acSymbols ((block.drop 1).take 63) → s < 256) := by
  have hlast := ac_last block hlen
  refine ⟨?_, ?_, ?_, ?_⟩
  · rw [encodeBlock_calls w block prevDC dcBits dcValues acBits acValues hlen]
    unfold blockCalls
    rw [writeAll_append]
  · intro h0
    unfold acSymbols
    rw [hlast, h0, if_pos rfl]
  · intro h0
    unfold acSymbols
    rw [hlast, if_neg (by simpa using h0), List.append_nil]
  · intro s hs
    unfold acSymbols at hs
    rcases List.mem_append.mp hs with h1 | h1
    · exact acBody_symbols _ (fun v hv hne => (hcat v hv hne).2) 0 s h1
    · split_ifs at h1
      · simp only [List.mem_singleton, Emit.symbol.injEq] at h1
        omega
      · simp at h1

/-- Witness for C24: a block whose AC coefficients are 17 zeros, a 3, and 45
zeros: one ZRL, the symbol 0x12 with the magnitude bits 11, and EOB. -/
theorem ac_run_length_symbols_witness :
    acSymbols (((5 : Int) :: (List.replicate 17 0 ++ [3] ++ List.replicate 45 0)).drop 1 |>.take 63)
      = [Emit.symbol 0xF0, Emit.symbol 0x12, Emit.bits 3 2, Emit.symbol 0x00] ∧
    (∀ s, Emit.symbol s ∈ acSymbols
        (((5 : Int) :: (List.replicate 17 0 ++ [3] ++ List.replicate 45 0)).drop 1 |>.take 63) →
      s < 256) :=
  ⟨by decide,
   (ac_run_length_symbols (BitWriter.new []) ((5 : Int) :: (List.replicate 17 0 ++ [3]
      ++ List.replicate 45 0)) 0 dcLuminanceBits dcLuminanceValues acLuminanceBits
      acLuminanceValues (by decide) (by decide)).2.2.2⟩

end JPEGEncoder

namespace JPEGEncoder

theorem dcLuminance_checked : TableChecked dcLuminanceBits dcLuminanceValues 12 := by
  unfold TableChecked
  set_option maxRecDepth 1000000 in decide

theorem dcChrominance_checked : TableChecked dcChrominanceBits dcChrominanceValues 12 := by
  unfold TableChecked
  set_option maxRecDepth 1000000 in decide

theorem acLuminance_checked : TableChecked acLuminanceBits acLuminanceValues 162 := by
  unfold TableChecked
  set_option maxRecDepth 1000000 in decide

theorem acChrominance_checked : TableChecked acChrominanceBits acChrominanceValues 162 := by
  unfold TableChecked
  set_option maxRecDepth 1000000 in decide

theorem tables_shape :
    dcLuminanceBits.sum = 12 ∧ dcLuminanceValues.length = 12 ∧ dcLuminanceValues.Nodup ∧
    dcChrominanceBits.sum = 12 ∧ dcChrominanceValues.length = 12 ∧ dcChrominanceValues.Nodup ∧
    acLuminanceBits.sum = 162 ∧ acLuminanceValues.length = 162 ∧ acLuminanceValues.Nodup ∧
    acChrominanceBits.sum = 162 ∧ acChrominanceValues.length = 162 ∧
    acChrominanceValues.Nodup := by
  set_option maxRecDepth 1000000 in decide

end JPEGEncoder

namespace JPEGEncoder

/-- The decoding procedure only looks at the bits it consumes. -/
theorem huffDecode_append (values : List Nat) (r : List Bool) : ∀ (counts : List Nat)
    (code first index : Nat) (p p1 : List Bool) (v : Nat),
    huffDecode counts values code first index p = some (v, p1) →
    huffDecode counts values code first index (p ++ r) = some (v, p1 ++ r) := by
  intro counts
  induction counts with
  | nil =>
    intro code first index p p1 v h
    simp [huffDecode] at h
  | cons count counts ih =>
    intro code first index p p1 v h
    cases p with
    | nil => simp [huffDecode] at h
    | cons b rest =>
      rw [List.cons_append, huffDecode]
      rw [huffDecode] at h
      by_cases hc : code + b.toNat < first + count
      · simp only [hc, if_true] at h ⊢
        cases hv : values[index + (code + b.toNat - first)]? with
        | none => rw [hv] at h; cases h
        | some x =>
          rw [hv] at h
          simp only [Option.some.injEq, Prod.mk.injEq] at h
          obtain ⟨rfl, rfl⟩ := h
          rfl
      · simp only [hc, if_false] at h ⊢
        exact ih _ _ _ _ _ _ h

/-- A checked table decodes the code of each of its values, whatever bits
follow. -/
theorem checked_decodes (bits values : List Nat) (n : Nat) (h : TableChecked bits values n)
    (k : Nat) (hk : k < n) (rest : List Bool) :
    huffDecode bits values 0 0 0
      (bitString ((generateHuffmanCodes bits values).1.getD (values.getD k 0) 0)
        ((generateHuffmanCodes bits values).2.getD (values.getD k 0) 0) ++ rest)
      = some (values.getD k 0, rest) := by
  have := huffDecode_append values rest bits 0 0 0 _ _ _ (h k hk).2.2.2.2
  rw [List.nil_append] at this
  exact this

/-- A checked table with pairwise distinct values is a prefix code table. -/
theorem checked_prefix_free (bits values : List Nat) (n : Nat) (hsum : bits.sum = n)
    (hlen : values.length = n) (hnd : values.Nodup) (h : TableChecked bits values n) :
    PrefixCodeTable bits values n := by
  refine ⟨hsum, hlen, hnd, ?_, ?_⟩
  · intro k hk
    obtain ⟨h1, -, -, h4, -⟩ := h k hk
    rw [h1] at h4
    exact ⟨h1, h4⟩
  · intro j k hj hk hjk hpre
    obtain ⟨t, ht⟩ := hpre
    have hdj := checked_decodes bits values n h j hj t
    rw [ht, (h k hk).2.2.2.2] at hdj
    simp only [Option.some.injEq, Prod.mk.injEq] at hdj
    have hvals : values.getD k 0 = values.getD j 0 := hdj.1
    have hjl : j < values.length := by omega
    have hkl : k < values.length := by omega
    rw [List.getD_eq_getElem?_getD, List.getD_eq_getElem?_getD, List.getElem?_eq_getElem hjl,
      List.getElem?_eq_getElem hkl] at hvals
    have hinj : values[k] = values[j] := hvals
    exact hjk ((List.Nodup.getElem_inj_iff hnd).mp hinj).symm

/-- C29. For each of the four built-in (bits, values) tables (DC luminance, DC
chrominance, AC luminance, AC chrominance) the bits entries sum to the number
of values (12, 12, 162, 162), the values are pairwise distinct,
`generateHuffmanCodes` assigns the k-th value a code of the length whose bits
bucket it falls in, with code < 2^length, and no assigned code is a prefix of
another assigned code. -/
theorem standard_tables_prefix_codes :
    PrefixCodeTable dcLuminanceBits dcLuminanceValues 12 ∧
    PrefixCodeTable dcChrominanceBits dcChrominanceValues 12 ∧
    PrefixCodeTable acLuminanceBits acLuminanceValues 162 ∧
    PrefixCodeTable acChrominanceBits acChrominanceValues 162 := by
  obtain ⟨a1, a2, a3, b1, b2, b3, c1, c2, c3, d1, d2, d3⟩ := tables_shape
  exact ⟨checked_prefix_free _ _ _ a1 a2 a3 dcLuminance_checked,
    checked_prefix_free _ _ _ b1 b2 b3 dcChrominance_checked,
    checked_prefix_free _ _ _ c1 c2 c3 acLuminance_checked,
    checked_prefix_free _ _ _ d1 d2 d3 acChrominance_checked⟩

/-- RECEIVE reads a bit string back as the number it shows. -/
theorem receive_bitString (m : Nat) (rest : List Bool) : ∀ (n : Nat),
    receive n (bitString m n ++ rest) = some (m % 2 ^ n, rest) := by
  intro n
  induction n with
  | zero => simp [receive, bitString, Nat.mod_one]
  | succ n ih =>
    rw [bitString, List.cons_append, receive, ih]
    rw [Nat.toNat_testBit]
    have h : m % 2 ^ (n + 1) = m % 2 ^ n + 2 ^ n * (m / 2 ^ n % 2) := Nat.mod_pow_succ
    rw [h, Nat.mul_comm, Nat.add_comm]

/-- EXTEND gives back the coefficient from its magnitude bits. -/
theorem extend_magnitudeBits (v : Int) (hv : v ≠ 0) (hlo : -32767 ≤ v) (hhi : v ≤ 32767) :
    extend (magnitudeBits v (getCategory v) % 2 ^ getCategory v) (getCategory v) = v := by
  obtain ⟨h1, h15, hlow, hup⟩ := getCategory_bounds v hv hlo hhi
  generalize getCategory v = cat at h1 h15 hlow hup ⊢
  unfold magnitudeBits extend
  interval_cases cat <;> simp only [Nat.reducePow, Nat.reduceSub, Int.reducePow] at hlow hup ⊢ <;>
    (by_cases hneg : v < 0
     · rw [if_pos hneg, if_neg (by decide)]
       split_ifs <;> omega
     · rw [if_neg hneg, if_neg (by decide)]
       split_ifs <;> omega)

end JPEGEncoder

namespace JPEGEncoder

theorem callBits_append (a b : List (Nat × Nat)) : callBits (a ++ b) = callBits a ++ callBits b := by
  simp [callBits]

theorem callBits_cons (c : Nat × Nat) (cs : List (Nat × Nat)) :
    callBits (c :: cs) = bitString c.1 c.2 ++ callBits cs := by
  simp [callBits]

theorem emitCalls_cons (codes sizes : List Nat) (e : Emit) (es : List Emit) :
    emitCalls codes sizes (e :: es) = emitCalls codes sizes [e] ++ emitCalls codes sizes es := by
  simp [emitCalls]

theorem category_ac (v : Int) (hv : v ≠ 0) (hlo : -1023 ≤ v) (hhi : v ≤ 1023) :
    1 ≤ getCategory v ∧ getCategory v ≤ 10 := by
  obtain ⟨h1, -, hlow, -⟩ := getCategory_bounds v hv (by omega) (by omega)
  refine ⟨h1, ?_⟩
  by_contra hc
  have : 2 ^ 10 ≤ 2 ^ (getCategory v - 1) := Nat.pow_le_pow_right (by decide) (by omega)
  omega

theorem category_dc (v : Int) (hlo : -2047 ≤ v) (hhi : v ≤ 2047) : getCategory v ≤ 11 := by
  by_cases hv : v = 0
  · rw [hv]
    decide
  · obtain ⟨-, -, hlow, -⟩ := getCategory_bounds v hv (by omega) (by omega)
    by_contra hc
    have : 2 ^ 11 ≤ 2 ^ (getCategory v - 1) := Nat.pow_le_pow_right (by decide) (by omega)
    omega

/-- The symbol of a run of `z mod 16` zeros before a coefficient of category
`c`: its two nibbles. -/
theorem run_size_symbol (z c : Nat) (hc : c < 16) :
    ((z % 16) <<< 4) ||| c = (z % 16) * 16 + c ∧
    ((z % 16) * 16 + c) / 16 = z % 16 ∧ ((z % 16) * 16 + c) % 16 = c := by
  have hor : ((z % 16) <<< 4) ||| c = (z % 16) * 2 ^ 4 + c :=
    PNGDecoder.or_shift_add _ _ 4 (by omega)
  refine ⟨by rw [hor]; norm_num, by omega, by omega⟩

/-- The decoder reads `m` ZRL symbols as `16 * m` zeros. -/
theorem decodeAC_zrl (acBits acValues codes sizes : List Nat)
    (hzrl : ∀ rest, huffDecode acBits acValues 0 0 0
      (bitString (codes.getD 0xF0 0) (sizes.getD 0xF0 0) ++ rest) = some (0xF0, rest)) :
    ∀ (m fuel : Nat) (acc : List Int) (stream : List Bool), acc.length + 16 * m < 63 →
      decodeAC acBits acValues (fuel + m) acc
          (callBits (emitCalls codes sizes (List.replicate m (Emit.symbol 0xF0))) ++ stream)
        = decodeAC acBits acValues fuel (acc ++ List.replicate (16 * m) 0) stream := by
  intro m
  induction m with
  | zero =>
    intro fuel acc stream _
    simp [emitCalls, callBits]
  | succ m ih =>
    intro fuel acc stream hlen
    have e : fuel + (m + 1) = (fuel + m) + 1 := by omega
    rw [e, decodeAC, if_neg (by omega), if_neg (by omega), List.replicate_succ, emitCalls_cons,
      callBits_append, List.append_assoc]
    have h1 : callBits (emitCalls codes sizes [Emit.symbol 0xF0])
        = bitString (codes.getD 0xF0 0) (sizes.getD 0xF0 0) := by
      simp [emitCalls, callBits]
    rw [h1, hzrl]
    dsimp only
    rw [if_pos (by decide), if_pos (by decide), ih fuel _ stream
      (by rw [List.length_append, List.length_replicate]; omega), List.append_assoc,
      ← List.replicate_add]
    congr 3
    omega

theorem endsInZero_cons_zero (rest : List Int) (z : Nat) :
    EndsInZero (0 :: rest) z ↔ EndsInZero rest (z + 1) := by
  unfold EndsInZero
  cases rest with
  | nil => simp
  | cons a as => simp [List.getLast?_cons_cons]

theorem endsInZero_cons_nonzero (v : Int) (rest : List Int) (z : Nat) (hv : v ≠ 0) :
    EndsInZero (v :: rest) z ↔ EndsInZero rest 0 := by
  unfold EndsInZero
  cases rest with
  | nil => simp [hv]
  | cons a as => simp [List.getLast?_cons_cons]

end JPEGEncoder

namespace JPEGEncoder

/-- The AC part of the round trip: the decoder reads the emissions of
`encodeBlock` for the coefficients `coeffs`, entered with `z` pending zeros
and `acc` decoded so far, back as these coefficients. -/
theorem decodeAC_acBody (acBits acValues codes sizes : List Nat)
    (hsym : ∀ s, NeededAC s → ∀ rest, huffDecode acBits acValues 0 0 0
      (bitString (codes.getD s 0) (sizes.getD s 0) ++ rest) = some (s, rest))
    (rest : List Bool) :
    ∀ (coeffs : List Int) (z : Nat) (acc : List Int) (fuel : Nat) (tail : List Emit),
      acc.length + z + coeffs.length = 63 → 63 - acc.length < fuel →
      (∀ v ∈ coeffs, -1023 ≤ v ∧ v ≤ 1023) →
      (EndsInZero coeffs z → tail = [Emit.symbol 0x00]) → (¬ EndsInZero coeffs z → tail = []) →
      decodeAC acBits acValues fuel acc
          (callBits (emitCalls codes sizes (acBody coeffs z ++ tail)) ++ rest)
        = some (acc ++ List.replicate z 0 ++ coeffs, rest) := by
  intro coeffs
  induction coeffs with
  | nil =>
    intro z acc fuel tail hlen hfuel _ ht1 ht2
    obtain ⟨f, rfl⟩ : ∃ f, fuel = f + 1 := ⟨fuel - 1, by omega⟩
    rw [acBody, List.nil_append, List.append_nil]
    by_cases hz : z > 0
    · have hE : EndsInZero [] z := Or.inl ⟨rfl, hz⟩
      rw [ht1 hE, decodeAC, if_neg (by simp at hlen; omega), if_neg (by simp at hlen; omega)]
      have h1 : callBits (emitCalls codes sizes [Emit.symbol 0x00])
          = bitString (codes.getD 0x00 0) (sizes.getD 0x00 0) := by
        simp [emitCalls, callBits]
      rw [h1, hsym 0x00 (Or.inl rfl)]
      dsimp only
      rw [if_pos (by decide), if_neg (by decide)]
      have e : 63 - acc.length = z := by simp at hlen; omega
      rw [e]
    · have hE : ¬ EndsInZero [] z := by
        rintro (⟨-, h⟩ | h)
        · exact hz h
        · simp at h
      have hz0 : z = 0 := by omega
      rw [ht2 hE, decodeAC, if_pos (by simp at hlen; omega), hz0]
      simp [emitCalls, callBits]
  | cons v cs ih =>
    intro z acc fuel tail hlen hfuel hrange ht1 ht2
    rw [List.length_cons] at hlen
    rw [acBody]
    by_cases hv : v = 0
    · rw [if_pos hv]
      have hE := endsInZero_cons_zero cs z
      rw [hv] at ht1 ht2
      have := ih (z + 1) acc fuel tail (by omega) hfuel (fun q hq => hrange q (by simp [hq]))
        (fun h => ht1 (hE.mpr h)) (fun h => ht2 (fun h2 => h (hE.mp h2)))
      rw [this, hv, List.replicate_succ']
      simp
    · rw [if_neg hv]
      have hE := endsInZero_cons_nonzero v cs z hv
      obtain ⟨hlo, hhi⟩ := hrange v (by simp)
      obtain ⟨hc1, hc10⟩ := category_ac v hv hlo hhi
      obtain ⟨hs1, hs2, hs3⟩ := run_size_symbol z (getCategory v) (by omega)
      obtain ⟨f, rfl⟩ : ∃ f, fuel = (f + 1) + z / 16 :=
        ⟨fuel - 1 - z / 16, by omega⟩
      have hneed : NeededAC ((z % 16) * 16 + getCategory v) :=
        Or.inr (Or.inr ⟨z % 16, getCategory v, Nat.mod_lt _ (by decide), hc1, hc10, rfl⟩)
      simp only [emitCalls_append, callBits_append, List.append_assoc]
      rw [decodeAC_zrl acBits acValues codes sizes (hsym 0xF0 (Or.inr (Or.inl rfl))) (z / 16)
          (f + 1) acc _ (by omega),
        decodeAC,
        if_neg (by rw [List.length_append, List.length_replicate]; omega),
        if_neg (by rw [List.length_append, List.length_replicate]; omega)]
      have h1 : callBits (emitCalls codes sizes
            [Emit.symbol (((z % 16) <<< 4) ||| getCategory v),
             Emit.bits (magnitudeBits v (getCategory v)) (getCategory v)])
          = bitString (codes.getD ((z % 16) * 16 + getCategory v) 0)
              (sizes.getD ((z % 16) * 16 + getCategory v) 0)
            ++ bitString (magnitudeBits v (getCategory v)) (getCategory v) := by
        rw [hs1]
        simp [emitCalls, callBits]
      rw [h1, List.append_assoc, hsym _ hneed]
      dsimp only
      rw [hs2, hs3, if_neg (by omega), receive_bitString]
      dsimp only
      rw [extend_magnitudeBits v hv (by omega) (by omega)]
      have hacc : acc ++ List.replicate (16 * (z / 16)) 0 ++ List.replicate (z % 16) 0 ++ [v]
          = acc ++ List.replicate z 0 ++ [v] := by
        rw [List.append_assoc acc, ← List.replicate_add]
        congr 3
        omega
      rw [hacc]
      have := ih 0 (acc ++ List.replicate z 0 ++ [v]) f tail
        (by simp only [List.length_append, List.length_replicate, List.length_singleton]; omega)
        (by simp only [List.length_append, List.length_replicate, List.length_singleton]; omega)
        (fun q hq => hrange q (by simp [hq]))
        (fun h => ht1 (hE.mpr h)) (fun h => ht2 (fun h2 => h (hE.mp h2)))
      simp only [emitCalls_append, callBits_append, List.append_assoc] at this
      simp only [List.append_assoc]
      rw [this]
      simp

/-- The DC part of the round trip. -/
theorem decodeDC_dcEmits (dcBits dcValues codes sizes : List Nat)
    (hsym : ∀ c, c ≤ 11 → ∀ rest, huffDecode dcBits dcValues 0 0 0
      (bitString (codes.getD c 0) (sizes.getD c 0) ++ rest) = some (c, rest))
    (diff : Int) (hlo : -2047 ≤ diff) (hhi : diff ≤ 2047) (rest : List Bool) :
    decodeDC dcBits dcValues (callBits (emitCalls codes sizes (dcEmits diff)) ++ rest)
      = some (diff, rest) := by
  have hc := category_dc diff hlo hhi
  unfold decodeDC dcEmits
  by_cases h0 : diff = 0
  · have hcat : getCategory diff = 0 := by rw [h0]; decide
    rw [hcat, if_neg (by decide)]
    have h1 : callBits (emitCalls codes sizes [Emit.symbol 0])
        = bitString (codes.getD 0 0) (sizes.getD 0 0) := by
      simp [emitCalls, callBits]
    rw [h1, hsym 0 (by omega)]
    dsimp only
    rw [receive]
    dsimp only
    rw [h0]
    rfl
  · obtain ⟨hc1, -, -, -⟩ := getCategory_bounds diff h0 (by omega) (by omega)
    rw [if_pos (by omega)]
    have h1 : callBits (emitCalls codes sizes
          [Emit.symbol (getCategory diff),
           Emit.bits (magnitudeBits diff (getCategory diff)) (getCategory diff)])
        = bitString (codes.getD (getCategory diff) 0) (sizes.getD (getCategory diff) 0)
          ++ bitString (magnitudeBits diff (getCategory diff)) (getCategory diff) := by
      simp [emitCalls, callBits]
    rw [h1, List.append_assoc, hsym _ hc]
    dsimp only
    rw [receive_bitString]
    dsimp only
    rw [extend_magnitudeBits diff h0 (by omega) (by omega)]

end JPEGEncoder

namespace JPEGEncoder

theorem magnitudeBits_lt (v : Int) (cat : Nat) : magnitudeBits v cat < 2 ^ cat := by
  unfold magnitudeBits
  have hpos : (0 : Int) < 2 ^ cat := by positivity
  have h1 := Int.emod_lt_of_pos (if v < 0 then v - 1 else v) hpos
  have h0 := Int.emod_nonneg (if v < 0 then v - 1 else v) (ne_of_gt hpos)
  have hcast : ((2 ^ cat : Nat) : Int) = (2 : Int) ^ cat := by push_cast; rfl
  have h2 : ((if v < 0 then v - 1 else v) % 2 ^ cat).toNat < 2 ^ cat := by
    rw [Int.toNat_lt h0, hcast]
    exact h1
  exact lt_of_le_of_lt (Nat.mod_le _ _) h2

/-- The emissions of the AC coefficients of a block in range: needed symbols
and magnitude bits of nonzero coefficients. -/
theorem acBody_members : ∀ (coeffs : List Int) (z : Nat),
    (∀ v ∈ coeffs, -1023 ≤ v ∧ v ≤ 1023) →
    ∀ e ∈ acBody coeffs z,
      (∃ s, e = Emit.symbol s ∧ NeededAC s) ∨
      (∃ v, e = Emit.bits (magnitudeBits v (getCategory v)) (getCategory v) ∧
        getCategory v ≤ 10) := by
  intro coeffs
  induction coeffs with
  | nil =>
    intro z _ e he
    simp [acBody] at he
  | cons v rest ih =>
    intro z hrange e he
    rw [acBody] at he
    by_cases hv : v = 0
    · rw [if_pos hv] at he
      exact ih _ (fun q hq => hrange q (by simp [hq])) e he
    · rw [if_neg hv] at he
      obtain ⟨hlo, hhi⟩ := hrange v (by simp)
      obtain ⟨hc1, hc10⟩ := category_ac v hv hlo hhi
      obtain ⟨hs1, -, -⟩ := run_size_symbol z (getCategory v) (by omega)
      rcases List.mem_append.mp he with h1 | h1
      · rcases List.mem_append.mp h1 with h2 | h2
        · exact Or.inl ⟨0xF0, List.eq_of_mem_replicate h2, Or.inr (Or.inl rfl)⟩
        · rcases List.mem_cons.mp h2 with h3 | h3
          · refine Or.inl ⟨_, h3, ?_⟩
            rw [hs1]
            exact Or.inr (Or.inr ⟨z % 16, getCategory v, Nat.mod_lt _ (by decide), hc1, hc10, rfl⟩)
          · rcases List.mem_cons.mp h3 with h4 | h4
            · exact Or.inr ⟨v, h4, hc10⟩
            · cases h4
      · exact ih _ (fun q hq => hrange q (by simp [hq])) e h1

/-- The round trip of a block for a pair of checked tables that hold the
symbols needed. -/
theorem block_round_trip (dcBits dcValues acBits acValues : List Nat) (ndc nac : Nat)
    (hdcT : TableChecked dcBits dcValues ndc) (hacT : TableChecked acBits acValues nac)
    (hdcmem : ∀ c, c ≤ 11 → ∃ k, k < ndc ∧ dcValues.getD k 0 = c)
    (hacmem : ∀ s, NeededAC s → ∃ k, k < nac ∧ acValues.getD k 0 = s)
    (block : List Int) (prevDC : Int) (hlen : block.length = 64)
    (hlo : -2047 ≤ block.getD 0 0 - prevDC) (hhi : block.getD 0 0 - prevDC ≤ 2047)
    (hac : ∀ v ∈ (block.drop 1).take 63, -1023 ≤ v ∧ v ≤ 1023) :
    BlockDecodable dcBits dcValues acBits acValues block prevDC := by
  have hdcsym : ∀ c, c ≤ 11 →
      1 ≤ (generateHuffmanCodes dcBits dcValues).2.getD c 0 ∧
      (generateHuffmanCodes dcBits dcValues).2.getD c 0 ≤ 16 ∧
      (generateHuffmanCodes dcBits dcValues).1.getD c 0
        < 2 ^ (generateHuffmanCodes dcBits dcValues).2.getD c 0 ∧
      ∀ rest, huffDecode dcBits dcValues 0 0 0
        (bitString ((generateHuffmanCodes dcBits dcValues).1.getD c 0)
          ((generateHuffmanCodes dcBits dcValues).2.getD c 0) ++ rest) = some (c, rest) := by
    intro c hc
    obtain ⟨k, hk, hkc⟩ := hdcmem c hc
    obtain ⟨-, h2, h3, h4, -⟩ := hdcT k hk
    have h5 := checked_decodes dcBits dcValues ndc hdcT k hk
    rw [hkc] at h2 h3 h4 h5
    exact ⟨h2, h3, h4, h5⟩
  have hacsym : ∀ s, NeededAC s →
      1 ≤ (generateHuffmanCodes acBits acValues).2.getD s 0 ∧
      (generateHuffmanCodes acBits acValues).2.getD s 0 ≤ 16 ∧
      (generateHuffmanCodes acBits acValues).1.getD s 0
        < 2 ^ (generateHuffmanCodes acBits acValues).2.getD s 0 ∧
      ∀ rest, huffDecode acBits acValues 0 0 0
        (bitString ((generateHuffmanCodes acBits acValues).1.getD s 0)
          ((generateHuffmanCodes acBits acValues).2.getD s 0) ++ rest) = some (s, rest) := by
    intro s hs
    obtain ⟨k, hk, hks⟩ := hacmem s hs
    obtain ⟨-, h2, h3, h4, -⟩ := hacT k hk
    have h5 := checked_decodes acBits acValues nac hacT k hk
    rw [hks] at h2 h3 h4 h5
    exact ⟨h2, h3, h4, h5⟩
  have hdccat := category_dc _ hlo hhi
  have hlast : EndsInZero ((block.drop 1).take 63) 0 ↔
      ((block.drop 1).take 63).getLast? = some 0 := by
    unfold EndsInZero
    constructor
    · rintro (⟨-, h⟩ | h)
      · omega
      · exact h
    · exact fun h => Or.inr h
  have hacmembers : ∀ e ∈ acSymbols ((block.drop 1).take 63),
      (∃ s, e = Emit.symbol s ∧ NeededAC s) ∨
      (∃ v, e = Emit.bits (magnitudeBits v (getCategory v)) (getCategory v) ∧
        getCategory v ≤ 10) := by
    intro e he
    unfold acSymbols at he
    rcases List.mem_append.mp he with h1 | h1
    · exact acBody_members _ 0 hac e h1
    · split_ifs at h1
      · exact Or.inl ⟨0, List.mem_singleton.mp h1, Or.inl rfl⟩
      · simp at h1
  have hdcmembers : ∀ e ∈ dcEmits (block.getD 0 0 - prevDC),
      e = Emit.symbol (getCategory (block.getD 0 0 - prevDC)) ∨
      e = Emit.bits (magnitudeBits (block.getD 0 0 - prevDC)
        (getCategory (block.getD 0 0 - prevDC))) (getCategory (block.getD 0 0 - prevDC)) := by
    intro e he
    unfold dcEmits at he
    rcases List.mem_cons.mp he with h1 | h1
    · exact Or.inl h1
    · split_ifs at h1
      · exact Or.inr (List.mem_singleton.mp h1)
      · simp at h1
  refine ⟨fun w => encodeBlock_calls w block prevDC dcBits dcValues acBits acValues hlen,
    ?_, ?_, ?_, ?_⟩
  · intro c hc
    unfold blockCalls at hc
    rcases List.mem_append.mp hc with h1 | h1
    · obtain ⟨e, he, rfl⟩ := List.mem_map.mp h1
      rcases hdcmembers e he with h2 | h2
      · rw [h2]
        obtain ⟨-, a2, a3, -⟩ := hdcsym _ hdccat
        exact ⟨a2, a3⟩
      · rw [h2]
        exact ⟨by dsimp only; omega, magnitudeBits_lt _ _⟩
    · obtain ⟨e, he, rfl⟩ := List.mem_map.mp h1
      rcases hacmembers e he with ⟨s, h2, hs⟩ | ⟨v, h2, hv⟩
      · rw [h2]
        obtain ⟨-, a2, a3, -⟩ := hacsym s hs
        exact ⟨a2, a3⟩
      · rw [h2]
        exact ⟨by dsimp only; omega, magnitudeBits_lt _ _⟩
  · intro rest
    unfold decodeBlockSpec blockCalls
    rw [callBits_append, List.append_assoc,
      decodeDC_dcEmits dcBits dcValues _ _ (fun c hc => (hdcsym c hc).2.2.2) _ hlo hhi]
    dsimp only
    have hlen63 : ((block.drop 1).take 63).length = 63 := by
      rw [List.length_take, List.length_drop, hlen]
      rfl
    have hAC := decodeAC_acBody acBits acValues (generateHuffmanCodes acBits acValues).1
      (generateHuffmanCodes acBits acValues).2 (fun s hs => (hacsym s hs).2.2.2) rest
      ((block.drop 1).take 63) 0 [] 64
      (if ((block.drop 1).take 63).getLast? = some 0 then [Emit.symbol 0x00] else [])
      (by rw [hlen63]; rfl) (by decide) hac
      (fun h => by rw [if_pos (hlast.mp h)])
      (fun h => by rw [if_neg (fun h2 => h (hlast.mpr h2))])
    unfold acSymbols
    rw [hAC]
    simp
  · intro s hs
    rcases hdcmembers _ hs with h2 | h2
    · rw [Emit.symbol.inj h2]
      exact (hdcsym _ hdccat).1
    · cases h2
  · intro s hs
    rcases hacmembers _ hs with ⟨s2, h2, hs2⟩ | ⟨v, h2, -⟩
    · rw [Emit.symbol.inj h2]
      exact (hacsym s2 hs2).1
    · cases h2

end JPEGEncoder

namespace JPEGEncoder

theorem index_of_mem (values : List Nat) (n s : Nat) (hlen : values.length = n)
    (hs : s ∈ values) : ∃ k, k < n ∧ values.getD k 0 = s := by
  obtain ⟨k, hk, hks⟩ := List.getElem_of_mem hs
  refine ⟨k, by omega, ?_⟩
  rw [List.getD_eq_getElem?_getD, List.getElem?_eq_getElem hk, ← hks]
  rfl

theorem dc_tables_hold_categories :
    (∀ c, c ≤ 11 → dcLuminanceValues.getD c 0 = c) ∧
    (∀ c, c ≤ 11 → dcChrominanceValues.getD c 0 = c) := by
  decide

theorem ac_tables_hold_needed :
    (∀ r, r < 16 → ∀ c, c < 10 → r * 16 + (c + 1) ∈ acLuminanceValues) ∧
    0x00 ∈ acLuminanceValues ∧ 0xF0 ∈ acLuminanceValues ∧
    (∀ r, r < 16 → ∀ c, c < 10 → r * 16 + (c + 1) ∈ acChrominanceValues) ∧
    0x00 ∈ acChrominanceValues ∧ 0xF0 ∈ acChrominanceValues := by
  set_option maxRecDepth 1000000 in decide

/-- C28. For every previous DC value and every block of 64 integers with
block[0] − prevDC in [−2047, 2047] and every AC coefficient in [−1023, 1023],
and for both the luminance and the chrominance table pair, the bit string
`encodeBlock` writes, read by the baseline JPEG block decoding procedure with
the same tables (the DC category, its magnitude bits sign-extended, then
(run, size) symbols with ZRL and EOB until 63 AC coefficients are filled),
yields exactly the same DC difference and the same 63 AC coefficients and
consumes exactly the bits written; every symbol looked up has a nonzero code
length. -/
theorem entropy_block_decodable (block : List Int) (prevDC : Int) (hlen : block.length = 64)
    (hlo : -2047 ≤ block.getD 0 0 - prevDC) (hhi : block.getD 0 0 - prevDC ≤ 2047)
    (hac : ∀ v ∈ (block.drop 1).take 63, -1023 ≤ v ∧ v ≤ 1023) :
    BlockDecodable dcLuminanceBits dcLuminanceValues acLuminanceBits acLuminanceValues
      block prevDC ∧
    BlockDecodable dcChrominanceBits dcChrominanceValues acChrominanceBits acChrominanceValues
      block prevDC := by
  obtain ⟨d1, d2⟩ := dc_tables_hold_categories
  obtain ⟨a1, a2, a3, b1, b2, b3⟩ := ac_tables_hold_needed
  have hl1 : acLuminanceValues.length = 162 := tables_shape.2.2.2.2.2.2.2.1
  have hl2 : acChrominanceValues.length = 162 := tables_shape.2.2.2.2.2.2.2.2.2.2.1
  have hneed : ∀ (values : List Nat),
      (∀ r, r < 16 → ∀ c, c < 10 → r * 16 + (c + 1) ∈ values) → 0x00 ∈ values →
      0xF0 ∈ values → values.length = 162 →
      ∀ s, NeededAC s → ∃ k, k < 162 ∧ values.getD k 0 = s := by
    intro values h1 h2 h3 hl s hs
    apply index_of_mem values 162 s hl
    rcases hs with h | h | ⟨r, c, hr, hc1, hc2, h⟩
    · rw [h]; exact h2
    · rw [h]; exact h3
    · obtain ⟨c1, rfl⟩ : ∃ c1, c = c1 + 1 := ⟨c - 1, by omega⟩
      rw [h]
      exact h1 r hr c1 (by omega)
  constructor
  · exact block_round_trip _ _ _ _ 12 162 dcLuminance_checked acLuminance_checked
      (fun c hc => ⟨c, by omega, d1 c hc⟩) (hneed _ a1 a2 a3 hl1)
      block prevDC hlen hlo hhi hac
  · exact block_round_trip _ _ _ _ 12 162 dcChrominance_checked acChrominance_checked
      (fun c hc => ⟨c, by omega, d2 c hc⟩) (hneed _ b1 b2 b3 hl2)
      block prevDC hlen hlo hhi hac

/-- Witness for C28: a block with DC coefficient 5 after the predictor 2 and
the AC coefficients 17 zeros, −3, 44 zeros and a final 1. -/
theorem entropy_block_decodable_witness :
    BlockDecodable dcLuminanceBits dcLuminanceValues acLuminanceBits acLuminanceValues
      ((5 : Int) :: (List.replicate 17 0 ++ [-3] ++ List.replicate 44 0 ++ [1])) 2 ∧
    BlockDecodable dcChrominanceBits dcChrominanceValues acChrominanceBits acChrominanceValues
      ((5 : Int) :: (List.replicate 17 0 ++ [-3] ++ List.replicate 44 0 ++ [1])) 2 :=
  entropy_block_decodable ((5 : Int) :: (List.replicate 17 0 ++ [-3] ++ List.replicate 44 0 ++ [1]))
    2 (by decide) (by decide) (by decide) (by decide)

end JPEGEncoder

namespace Deflate

/-- The loop of `decodeBlock` in terms of one iteration. -/
theorem decodeBlock_step (fuel : Nat) (r : BitReader) (litLen dist : HuffmanTree)
    (output : List Nat) :
    decodeBlock (fuel + 1) r litLen dist output =
      match decodeStep r litLen dist output with
      | .error e => .error e
      | .ok (fin, r1, out1) =>
        if fin then .ok (r1, out1) else decodeBlock fuel r1 litLen dist out1 := by
  rw [decodeBlock_succ]
  unfold decodeStep
  cases litLen.decode r with
  | error e => rfl
  | ok p =>
    obtain ⟨symbol, ra⟩ := p
    dsimp only
    split_ifs with c1 c2
    · rfl
    · rfl
    · split
      · rename_i lb le _ _
        cases ra.readBits le with
        | error e => rfl
        | ok q =>
          obtain ⟨extra, rb⟩ := q
          dsimp only
          cases dist.decode rb with
          | error e => rfl
          | ok q3 =>
            obtain ⟨distSymbol, rc⟩ := q3
            dsimp only
            split
            · rename_i db de _ _
              cases rc.readBits de with
              | error e => rfl
              | ok q4 =>
                obtain ⟨dextra, rd⟩ := q4
                dsimp only
                split_ifs with c3
                · rfl
                · cases copyMatch (output.length - (db + dextra)) (lb + extra) 0 output with
                  | error e => rfl
                  | ok out5 => rfl
            · rfl
      · rfl

/-- The code-length loop of the dynamic header in terms of one iteration. -/
theorem readAllLengths_step (tree : HuffmanTree) (target fuel : Nat) (r : BitReader)
    (al : List Nat) :
    readAllLengths tree target (fuel + 1) r al =
      if al.length < target then
        match lengthStep tree r al with
        | .error e => .error e
        | .ok (r1, al1) => readAllLengths tree target fuel r1 al1
      else .ok (r, al) := by
  rw [readAllLengths]
  unfold lengthStep
  split_ifs with c0
  · cases tree.decode r with
    | error e => rfl
    | ok p =>
      obtain ⟨symbol, ra⟩ := p
      dsimp only
      split_ifs with c1 c2 c3 c4
      · rfl
      · cases ra.readBits 2 with
        | error e => rfl
        | ok q =>
          obtain ⟨v, rb⟩ := q
          dsimp only
          cases al.getLast? with
          | none => rfl
          | some value => rfl
      · cases ra.readBits 3 with
        | error e => rfl
        | ok q => rfl
      · cases ra.readBits 7 with
        | error e => rfl
        | ok q => rfl
      · rfl
  · rfl

/-- The dynamic-Huffman header is its fixed fields followed by the code-length
loop. -/
theorem dynamicHeader_fields (fuel : Nat) (r : BitReader) :
    dynamicHeader fuel r =
      match dynamicFields r with
      | .error e => .error e
      | .ok (r1, hlit, hdist, cll) =>
        match readAllLengths (HuffmanTree.empty.build cll) (hlit + hdist)
            (fuel + 1 + hlit + hdist) r1 [] with
        | .error e => .error e
        | .ok (r2, al) => .ok (r2, hlit, hdist, al.take hlit, al.drop hlit) := by
  unfold dynamicHeader dynamicFields
  cases r.readBits 5 with
  | error e => rfl
  | ok p1 =>
    obtain ⟨vlit, ra⟩ := p1
    dsimp only
    cases ra.readBits 5 with
    | error e => rfl
    | ok p2 =>
      obtain ⟨vdist, rb⟩ := p2
      dsimp only
      cases rb.readBits 4 with
      | error e => rfl
      | ok p3 =>
        obtain ⟨vclen, rc⟩ := p3
        dsimp only
        cases readCodeLengthLengths (vclen + 4) 0 rc (List.replicate 19 0) with
        | error e => rfl
        | ok p4 => rfl

end Deflate

namespace Deflate

theorem readBitsLoop_fuel : ∀ (n i res : Nat) (r : BitReader),
    BitReader.readBitsLoop n i res r ≠ .error Err.outOfFuel := by
  intro n
  induction n with
  | zero => intro i res r h; simp [BitReader.readBitsLoop] at h
  | succ n ih =>
    intro i res r h
    rw [BitReader.readBitsLoop] at h
    dsimp only at h
    split_ifs at h with c1 c2
    · cases h
    · exact ih _ _ _ h
    · exact ih _ _ _ h

theorem readBits_fuel (r : BitReader) (n : Nat) : r.readBits n ≠ .error Err.outOfFuel :=
  readBitsLoop_fuel n 0 0 r

theorem decodeLoop_fuel (t : HuffmanTree) : ∀ (n len code first : Nat) (r : BitReader),
    t.decodeLoop n len code first r ≠ .error Err.outOfFuel := by
  intro n
  induction n with
  | zero => intro len code first r h; simp [HuffmanTree.decodeLoop] at h
  | succ n ih =>
    intro len code first r h
    rw [HuffmanTree.decodeLoop] at h
    cases h1 : r.readBits 1 with
    | error e =>
      rw [h1] at h
      simp only [Except.error.injEq] at h
      rw [h] at h1
      exact readBits_fuel r 1 h1
    | ok p =>
      obtain ⟨bit, ra⟩ := p
      rw [h1] at h
      dsimp only at h
      split at h
      · cases h
      · exact ih _ _ _ ra h

theorem decode_fuel (t : HuffmanTree) (r : BitReader) : t.decode r ≠ .error Err.outOfFuel :=
  decodeLoop_fuel t _ _ _ _ r

theorem copyMatch_fuel (start : Nat) : ∀ (n i : Nat) (output : List Nat),
    copyMatch start n i output ≠ .error Err.outOfFuel := by
  intro n
  induction n with
  | zero => intro i output h; simp [copyMatch] at h
  | succ n ih =>
    intro i output h
    rw [copyMatch] at h
    split at h
    · cases h
    · exact ih _ _ h

theorem copyStored_fuel (D : List Nat) : ∀ (n p : Nat) (output : List Nat),
    copyStored D n p output ≠ .error Err.outOfFuel := by
  intro n
  induction n with
  | zero => intro p output h; simp [copyStored] at h
  | succ n ih =>
    intro p output h
    rw [copyStored] at h
    split at h
    · cases h
    · exact ih _ _ h

theorem readCodeLengthLengths_fuel : ∀ (n i : Nat) (r : BitReader) (cll : List Nat),
    readCodeLengthLengths n i r cll ≠ .error Err.outOfFuel := by
  intro n
  induction n with
  | zero => intro i r cll h; simp [readCodeLengthLengths] at h
  | succ n ih =>
    intro i r cll h
    rw [readCodeLengthLengths] at h
    cases h1 : r.readBits 3 with
    | error e =>
      rw [h1] at h
      simp only [Except.error.injEq] at h
      rw [h] at h1
      exact readBits_fuel r 3 h1
    | ok p =>
      obtain ⟨v, ra⟩ := p
      rw [h1] at h
      dsimp only at h
      split at h
      · cases h
      · exact ih _ ra _ h

/-- A successful `decode` reads at least one bit. -/
theorem decode_progress (D : List Nat) (t : HuffmanTree) (r r1 : BitReader) (s : Nat)
    (hv : r.Valid D) (h : t.decode r = .ok (s, r1)) :
    r1.Valid D ∧ r.bitOffset + 1 ≤ r1.bitOffset := by
  unfold HuffmanTree.decode at h
  cases hm : t.maxBits with
  | zero => rw [hm] at h; simp [HuffmanTree.decodeLoop] at h
  | succ n =>
    rw [hm, HuffmanTree.decodeLoop] at h
    cases h1 : r.readBits 1 with
    | error e => rw [h1] at h; cases h
    | ok p =>
      obtain ⟨bit, ra⟩ := p
      rw [h1] at h
      obtain ⟨hva, hoa⟩ := readBits_valid D r ra 1 bit hv h1
      dsimp only at h
      split at h
      · simp only [Except.ok.injEq, Prod.mk.injEq] at h
        obtain ⟨-, rfl⟩ := h
        exact ⟨hva, by omega⟩
      · obtain ⟨hv1, ho1⟩ := decodeLoop_valid D t _ _ _ _ ra r1 s hva h
        exact ⟨hv1, by omega⟩

/-- An iteration of the loop of `decodeBlock` never stops for lack of
iterations: it has no loop that the model bounds. -/
theorem decodeStep_fuel (r : BitReader) (litLen dist : HuffmanTree) (output : List Nat) :
    decodeStep r litLen dist output ≠ .error Err.outOfFuel := by
  intro h
  unfold decodeStep at h
  cases h1 : litLen.decode r with
  | error e =>
    rw [h1] at h
    simp only [Except.error.injEq] at h
    rw [h] at h1
    exact decode_fuel litLen r h1
  | ok p =>
    obtain ⟨symbol, ra⟩ := p
    rw [h1] at h
    dsimp only at h
    split_ifs at h with c1 c2
    split at h
    · rename_i lb le _ _
      cases h2 : ra.readBits le with
      | error e =>
        rw [h2] at h
        simp only [Except.error.injEq] at h
        rw [h] at h2
        exact readBits_fuel ra le h2
      | ok q =>
        obtain ⟨extra, rb⟩ := q
        rw [h2] at h
        dsimp only at h
        cases h3 : dist.decode rb with
        | error e =>
          rw [h3] at h
          simp only [Except.error.injEq] at h
          rw [h] at h3
          exact decode_fuel dist rb h3
        | ok q3 =>
          obtain ⟨distSymbol, rc⟩ := q3
          rw [h3] at h
          dsimp only at h
          split at h
          · rename_i db de _ _
            cases h4 : rc.readBits de with
            | error e =>
              rw [h4] at h
              simp only [Except.error.injEq] at h
              rw [h] at h4
              exact readBits_fuel rc de h4
            | ok q4 =>
              obtain ⟨dextra, rd⟩ := q4
              rw [h4] at h
              dsimp only at h
              split_ifs at h with c3
              · cases h
              · cases h5 : copyMatch (output.length - (db + dextra)) (lb + extra) 0 output with
                | error e =>
                  rw [h5] at h
                  simp only [Except.error.injEq] at h
                  rw [h] at h5
                  exact copyMatch_fuel _ _ _ _ h5
                | ok out5 => rw [h5] at h; cases h
          · cases h
    · cases h

/-- A successful iteration of the loop of `decodeBlock` reads at least one
bit and leaves the reader inside the data. -/
theorem decodeStep_valid (D : List Nat) (r r1 : BitReader) (litLen dist : HuffmanTree)
    (output out1 : List Nat) (fin : Bool) (hv : r.Valid D)
    (h : decodeStep r litLen dist output = .ok (fin, r1, out1)) :
    r1.Valid D ∧ r.bitOffset + 1 ≤ r1.bitOffset := by
  unfold decodeStep at h
  cases h1 : litLen.decode r with
  | error e => rw [h1] at h; cases h
  | ok p =>
    obtain ⟨symbol, ra⟩ := p
    rw [h1] at h
    obtain ⟨hva, hoa⟩ := decode_progress D litLen r ra symbol hv h1
    dsimp only at h
    split_ifs at h with c1 c2
    · simp only [Except.ok.injEq, Prod.mk.injEq] at h
      obtain ⟨-, rfl, -⟩ := h
      exact ⟨hva, hoa⟩
    · simp only [Except.ok.injEq, Prod.mk.injEq] at h
      obtain ⟨-, rfl, -⟩ := h
      exact ⟨hva, hoa⟩
    · split at h
      · rename_i lb le _ _
        cases h2 : ra.readBits le with
        | error e => rw [h2] at h; cases h
        | ok q =>
          obtain ⟨extra, rb⟩ := q
          rw [h2] at h
          obtain ⟨hvb, hob⟩ := readBits_valid D ra rb le extra hva h2
          dsimp only at h
          cases h3 : dist.decode rb with
          | error e => rw [h3] at h; cases h
          | ok q3 =>
            obtain ⟨distSymbol, rc⟩ := q3
            rw [h3] at h
            obtain ⟨hvc, hoc⟩ := decode_valid D dist rb rc distSymbol hvb h3
            dsimp only at h
            split at h
            · rename_i db de _ _
              cases h4 : rc.readBits de with
              | error e => rw [h4] at h; cases h
              | ok q4 =>
                obtain ⟨dextra, rd⟩ := q4
                rw [h4] at h
                obtain ⟨hvd, hod⟩ := readBits_valid D rc rd de dextra hvc h4
                dsimp only at h
                split_ifs at h with c3
                cases h5 : copyMatch (output.length - (db + dextra)) (lb + extra) 0 output with
                | error e => rw [h5] at h; cases h
                | ok out5 =>
                  rw [h5] at h
                  simp only [Except.ok.injEq, Prod.mk.injEq] at h
                  obtain ⟨-, rfl, -⟩ := h
                  exact ⟨hvd, by omega⟩
            · cases h
      · cases h

end Deflate

namespace Deflate

theorem lengthStep_fuel (tree : HuffmanTree) (r : BitReader) (al : List Nat) :
    lengthStep tree r al ≠ .error Err.outOfFuel := by
  intro h
  unfold lengthStep at h
  cases h1 : tree.decode r with
  | error e =>
    rw [h1] at h
    simp only [Except.error.injEq] at h
    rw [h] at h1
    exact decode_fuel tree r h1
  | ok p =>
    obtain ⟨symbol, ra⟩ := p
    rw [h1] at h
    dsimp only at h
    split_ifs at h with c1 c2 c3 c4
    · cases h2 : ra.readBits 2 with
      | error e =>
        rw [h2] at h
        simp only [Except.error.injEq] at h
        rw [h] at h2
        exact readBits_fuel ra 2 h2
      | ok q =>
        obtain ⟨v, rb⟩ := q
        rw [h2] at h
        dsimp only at h
        split at h
        · cases h
        · cases h
    · cases h2 : ra.readBits 3 with
      | error e =>
        rw [h2] at h
        simp only [Except.error.injEq] at h
        rw [h] at h2
        exact readBits_fuel ra 3 h2
      | ok q => rw [h2] at h; cases h
    · cases h2 : ra.readBits 7 with
      | error e =>
        rw [h2] at h
        simp only [Except.error.injEq] at h
        rw [h] at h2
        exact readBits_fuel ra 7 h2
      | ok q => rw [h2] at h; cases h

theorem findSymbol_lt (len : Nat) (target : Int) : ∀ (ls : List Nat) (i : Nat) (j : Int)
    (s : Nat), HuffmanTree.findSymbol len target ls i j = some s → s < i + ls.length := by
  intro ls
  induction ls with
  | nil => intro i j s h; simp [HuffmanTree.findSymbol] at h
  | cons l rest ih =>
    intro i j s h
    rw [HuffmanTree.findSymbol] at h
    rw [List.length_cons]
    split_ifs at h with c1 c2
    · simp only [Option.some.injEq] at h
      omega
    · have := ih _ _ _ h
      omega
    · have := ih _ _ _ h
      omega

theorem decodeLoop_lt (t : HuffmanTree) : ∀ (n len code first : Nat) (r r1 : BitReader)
    (s : Nat), t.decodeLoop n len code first r = .ok (s, r1) → s < t.lengths.length := by
  intro n
  induction n with
  | zero => intro len code first r r1 s h; simp [HuffmanTree.decodeLoop] at h
  | succ n ih =>
    intro len code first r r1 s h
    rw [HuffmanTree.decodeLoop] at h
    cases h1 : r.readBits 1 with
    | error e => rw [h1] at h; cases h
    | ok p =>
      obtain ⟨bit, ra⟩ := p
      rw [h1] at h
      dsimp only at h
      split at h
      · rename_i i hfound
        simp only [Except.ok.injEq, Prod.mk.injEq] at h
        obtain ⟨rfl, -⟩ := h
        split_ifs at hfound with c
        have := findSymbol_lt _ _ _ _ _ _ hfound
        omega
      · exact ih _ _ _ ra r1 s h

/-- A decoded symbol is an index of the length vector of the tree. -/
theorem decode_lt (t : HuffmanTree) (r r1 : BitReader) (s : Nat)
    (h : t.decode r = .ok (s, r1)) : s < t.lengths.length :=
  decodeLoop_lt t _ _ _ _ r r1 s h

/-- A successful iteration of the code-length loop reads at least one bit,
leaves the reader inside the data and, for a tree over at most 19 symbols (the
code-length alphabet), appends at least one code length. -/
theorem lengthStep_valid (D : List Nat) (tree : HuffmanTree) (r r1 : BitReader)
    (al al1 : List Nat) (hv : r.Valid D) (h : lengthStep tree r al = .ok (r1, al1)) :
    r1.Valid D ∧ r.bitOffset + 1 ≤ r1.bitOffset ∧
      (tree.lengths.length ≤ 19 → al.length + 1 ≤ al1.length) := by
  unfold lengthStep at h
  cases h1 : tree.decode r with
  | error e => rw [h1] at h; cases h
  | ok p =>
    obtain ⟨symbol, ra⟩ := p
    rw [h1] at h
    obtain ⟨hva, hoa⟩ := decode_progress D tree r ra symbol hv h1
    have hlt := decode_lt tree r ra symbol h1
    dsimp only at h
    split_ifs at h with c1 c2 c3 c4
    · simp only [Except.ok.injEq, Prod.mk.injEq] at h
      obtain ⟨rfl, rfl⟩ := h
      refine ⟨hva, hoa, fun _ => ?_⟩
      simp
    · cases h2 : ra.readBits 2 with
      | error e => rw [h2] at h; cases h
      | ok q =>
        obtain ⟨v, rb⟩ := q
        rw [h2] at h
        obtain ⟨hvb, hob⟩ := readBits_valid D ra rb 2 v hva h2
        dsimp only at h
        cases h3 : al.getLast? with
        | none => rw [h3] at h; cases h
        | some value =>
          rw [h3] at h
          simp only [Except.ok.injEq, Prod.mk.injEq] at h
          obtain ⟨rfl, rfl⟩ := h
          refine ⟨hvb, by omega, fun _ => ?_⟩
          simp only [List.length_append, List.length_replicate]
          omega
    · cases h2 : ra.readBits 3 with
      | error e => rw [h2] at h; cases h
      | ok q =>
        obtain ⟨v, rb⟩ := q
        rw [h2] at h
        obtain ⟨hvb, hob⟩ := readBits_valid D ra rb 3 v hva h2
        simp only [Except.ok.injEq, Prod.mk.injEq] at h
        obtain ⟨rfl, rfl⟩ := h
        refine ⟨hvb, by omega, fun _ => ?_⟩
        simp only [List.length_append, List.length_replicate]
        omega
    · cases h2 : ra.readBits 7 with
      | error e => rw [h2] at h; cases h
      | ok q =>
        obtain ⟨v, rb⟩ := q
        rw [h2] at h
        obtain ⟨hvb, hob⟩ := readBits_valid D ra rb 7 v hva h2
        simp only [Except.ok.injEq, Prod.mk.injEq] at h
        obtain ⟨rfl, rfl⟩ := h
        refine ⟨hvb, by omega, fun _ => ?_⟩
        simp only [List.length_append, List.length_replicate]
        omega
    · simp only [Except.ok.injEq, Prod.mk.injEq] at h
      obtain ⟨rfl, rfl⟩ := h
      refine ⟨hva, hoa, fun h19 => ?_⟩
      omega

theorem dynamicFields_fuel (r : BitReader) : dynamicFields r ≠ .error Err.outOfFuel := by
  intro h
  unfold dynamicFields at h
  cases h1 : r.readBits 5 with
  | error e =>
    rw [h1] at h
    simp only [Except.error.injEq] at h
    rw [h] at h1
    exact readBits_fuel r 5 h1
  | ok p1 =>
    obtain ⟨vlit, ra⟩ := p1
    rw [h1] at h
    dsimp only at h
    cases h2 : ra.readBits 5 with
    | error e =>
      rw [h2] at h
      simp only [Except.error.injEq] at h
      rw [h] at h2
      exact readBits_fuel ra 5 h2
    | ok p2 =>
      obtain ⟨vdist, rb⟩ := p2
      rw [h2] at h
      dsimp only at h
      cases h3 : rb.readBits 4 with
      | error e =>
        rw [h3] at h
        simp only [Except.error.injEq] at h
        rw [h] at h3
        exact readBits_fuel rb 4 h3
      | ok p3 =>
        obtain ⟨vclen, rc⟩ := p3
        rw [h3] at h
        dsimp only at h
        cases h4 : readCodeLengthLengths (vclen + 4) 0 rc (List.replicate 19 0) with
        | error e =>
          rw [h4] at h
          simp only [Except.error.injEq] at h
          rw [h] at h4
          exact readCodeLengthLengths_fuel _ _ _ _ h4
        | ok p4 => rw [h4] at h; cases h

theorem dynamicFields_valid (D : List Nat) (r r1 : BitReader) (hlit hdist : Nat)
    (cll : List Nat) (hv : r.Valid D) (h : dynamicFields r = .ok (r1, hlit, hdist, cll)) :
    r1.Valid D ∧ r.bitOffset + 14 ≤ r1.bitOffset := by
  unfold dynamicFields at h
  cases h1 : r.readBits 5 with
  | error e => rw [h1] at h; cases h
  | ok p1 =>
    obtain ⟨vlit, ra⟩ := p1
    rw [h1] at h
    obtain ⟨hva, hoa⟩ := readBits_valid D r ra 5 vlit hv h1
    dsimp only at h
    cases h2 : ra.readBits 5 with
    | error e => rw [h2] at h; cases h
    | ok p2 =>
      obtain ⟨vdist, rb⟩ := p2
      rw [h2] at h
      obtain ⟨hvb, hob⟩ := readBits_valid D ra rb 5 vdist hva h2
      dsimp only at h
      cases h3 : rb.readBits 4 with
      | error e => rw [h3] at h; cases h
      | ok p3 =>
        obtain ⟨vclen, rc⟩ := p3
        rw [h3] at h
        obtain ⟨hvc, hoc⟩ := readBits_valid D rb rc 4 vclen hvb h3
        dsimp only at h
        cases h4 : readCodeLengthLengths (vclen + 4) 0 rc (List.replicate 19 0) with
        | error e => rw [h4] at h; cases h
        | ok p4 =>
          obtain ⟨rd, cll4⟩ := p4
          rw [h4] at h
          obtain ⟨hvd, hod⟩ := readCodeLengthLengths_valid D _ _ rc rd _ cll4 hvc h4
          simp only [Except.ok.injEq, Prod.mk.injEq] at h
          obtain ⟨rfl, -⟩ := h
          exact ⟨hvd, by omega⟩

end Deflate

namespace Deflate

/-- With more iterations allowed than bits are left in the data, the loop of
`decodeBlock` ends by itself. -/
theorem decodeBlock_enough (D : List Nat) (litLen dist : HuffmanTree) : ∀ (fuel : Nat)
    (r : BitReader) (output : List Nat), r.Valid D → 8 * D.length < r.bitOffset + fuel →
    decodeBlock fuel r litLen dist output ≠ .error Err.outOfFuel := by
  intro fuel
  induction fuel with
  | zero =>
    intro r output hv hf
    have := hv.2.2
    omega
  | succ fuel ih =>
    intro r output hv hf h
    rw [decodeBlock_step] at h
    cases hs : decodeStep r litLen dist output with
    | error e =>
      rw [hs] at h
      simp only [Except.error.injEq] at h
      rw [h] at hs
      exact decodeStep_fuel r litLen dist output hs
    | ok p =>
      obtain ⟨fin, r1, out1⟩ := p
      rw [hs] at h
      obtain ⟨hv1, ho1⟩ := decodeStep_valid D r r1 litLen dist output out1 fin hv hs
      cases fin with
      | true => cases h
      | false =>
        simp only [Bool.false_eq_true, if_false] at h
        exact ih r1 out1 hv1 (by omega) h

/-- A run of the loop of `decodeBlock` that ends by itself is the same under
every larger bound. -/
theorem decodeBlock_mono (litLen dist : HuffmanTree) : ∀ (fuel : Nat) (r : BitReader)
    (output : List Nat), decodeBlock fuel r litLen dist output ≠ .error Err.outOfFuel →
    ∀ f, fuel ≤ f →
      decodeBlock f r litLen dist output = decodeBlock fuel r litLen dist output := by
  intro fuel
  induction fuel with
  | zero => intro r output hne; exact absurd (decodeBlock_zero r litLen dist output) hne
  | succ fuel ih =>
    intro r output hne f hle
    obtain ⟨g, rfl⟩ : ∃ g, f = g + 1 := ⟨f - 1, by omega⟩
    rw [decodeBlock_step] at hne
    rw [decodeBlock_step g, decodeBlock_step fuel]
    cases hs : decodeStep r litLen dist output with
    | error e => rfl
    | ok p =>
      obtain ⟨fin, r1, out1⟩ := p
      rw [hs] at hne
      cases fin with
      | true => rfl
      | false =>
        simp only [Bool.false_eq_true, if_false] at hne ⊢
        exact ih r1 out1 hne g (by omega)

/-- With more iterations allowed than bits are left in the data, the
code-length loop ends by itself. -/
theorem readAllLengths_enough (D : List Nat) (tree : HuffmanTree) (target : Nat) :
    ∀ (fuel : Nat) (r : BitReader) (al : List Nat), r.Valid D →
    8 * D.length < r.bitOffset + fuel →
    readAllLengths tree target fuel r al ≠ .error Err.outOfFuel := by
  intro fuel
  induction fuel with
  | zero =>
    intro r al hv hf
    have := hv.2.2
    omega
  | succ fuel ih =>
    intro r al hv hf h
    rw [readAllLengths_step] at h
    split_ifs at h with c0
    cases hs : lengthStep tree r al with
    | error e =>
      rw [hs] at h
      simp only [Except.error.injEq] at h
      rw [h] at hs
      exact lengthStep_fuel tree r al hs
    | ok p =>
      obtain ⟨r1, al1⟩ := p
      rw [hs] at h
      obtain ⟨hv1, ho1, -⟩ := lengthStep_valid D tree r r1 al al1 hv hs
      exact ih r1 al1 hv1 (by omega) h

/-- A run of the code-length loop that ends by itself is the same under every
larger bound. -/
theorem readAllLengths_mono (tree : HuffmanTree) (target : Nat) : ∀ (fuel : Nat)
    (r : BitReader) (al : List Nat),
    readAllLengths tree target fuel r al ≠ .error Err.outOfFuel →
    ∀ f, fuel ≤ f →
      readAllLengths tree target f r al = readAllLengths tree target fuel r al := by
  intro fuel
  induction fuel with
  | zero =>
    intro r al hne f _
    rw [readAllLengths] at hne ⊢
    by_cases c0 : al.length < target
    · rw [if_pos c0] at hne
      exact absurd rfl hne
    · rw [if_neg c0]
      cases f with
      | zero => rw [readAllLengths, if_neg c0]
      | succ g => rw [readAllLengths_step, if_neg c0]
  | succ fuel ih =>
    intro r al hne f hle
    obtain ⟨g, rfl⟩ : ∃ g, f = g + 1 := ⟨f - 1, by omega⟩
    rw [readAllLengths_step] at hne
    rw [readAllLengths_step tree target g, readAllLengths_step tree target fuel]
    by_cases c0 : al.length < target
    · rw [if_pos c0] at hne ⊢
      rw [if_pos c0]
      cases hs : lengthStep tree r al with
      | error e => rfl
      | ok p =>
        obtain ⟨r1, al1⟩ := p
        rw [hs] at hne
        exact ih r1 al1 hne g (by omega)
    · rw [if_neg c0, if_neg c0]

theorem dynamicHeader_enough (D : List Nat) (fuel : Nat) (r : BitReader) (hv : r.Valid D)
    (hf : 8 * D.length < r.bitOffset + fuel + 1) :
    dynamicHeader fuel r ≠ .error Err.outOfFuel := by
  intro h
  rw [dynamicHeader_fields] at h
  cases hp : dynamicFields r with
  | error e =>
    rw [hp] at h
    simp only [Except.error.injEq] at h
    rw [h] at hp
    exact dynamicFields_fuel r hp
  | ok p =>
    obtain ⟨r1, hlit, hdist, cll⟩ := p
    rw [hp] at h
    obtain ⟨hv1, ho1⟩ := dynamicFields_valid D r r1 hlit hdist cll hv hp
    dsimp only at h
    cases ha : readAllLengths (HuffmanTree.empty.build cll) (hlit + hdist)
        (fuel + 1 + hlit + hdist) r1 [] with
    | error e =>
      rw [ha] at h
      simp only [Except.error.injEq] at h
      rw [h] at ha
      exact readAllLengths_enough D _ _ _ r1 [] hv1 (by omega) ha
    | ok q => rw [ha] at h; cases h

theorem dynamicHeader_valid (D : List Nat) (fuel : Nat) (r r1 : BitReader) (hlit hdist : Nat)
    (ll dl : List Nat) (hv : r.Valid D)
    (h : dynamicHeader fuel r = .ok (r1, hlit, hdist, ll, dl)) :
    r1.Valid D ∧ r.bitOffset + 14 ≤ r1.bitOffset := by
  rw [dynamicHeader_fields] at h
  cases hp : dynamicFields r with
  | error e => rw [hp] at h; cases h
  | ok p =>
    obtain ⟨ra, hl, hd, cll⟩ := p
    rw [hp] at h
    obtain ⟨hva, hoa⟩ := dynamicFields_valid D r ra hl hd cll hv hp
    dsimp only at h
    cases ha : readAllLengths (HuffmanTree.empty.build cll) (hl + hd)
        (fuel + 1 + hl + hd) ra [] with
    | error e => rw [ha] at h; cases h
    | ok q =>
      obtain ⟨rb, al⟩ := q
      rw [ha] at h
      obtain ⟨hvb, hob⟩ := readAllLengths_valid D _ _ _ ra rb _ al hva ha
      simp only [Except.ok.injEq, Prod.mk.injEq] at h
      obtain ⟨rfl, -⟩ := h
      exact ⟨hvb, by omega⟩

theorem dynamicHeader_mono (fuel f : Nat) (r : BitReader)
    (hne : dynamicHeader fuel r ≠ .error Err.outOfFuel) (hle : fuel ≤ f) :
    dynamicHeader f r = dynamicHeader fuel r := by
  rw [dynamicHeader_fields] at hne
  rw [dynamicHeader_fields f, dynamicHeader_fields fuel]
  cases hp : dynamicFields r with
  | error e => rfl
  | ok p =>
    obtain ⟨r1, hlit, hdist, cll⟩ := p
    rw [hp] at hne
    dsimp only at hne ⊢
    have hra : readAllLengths (HuffmanTree.empty.build cll) (hlit + hdist)
        (fuel + 1 + hlit + hdist) r1 [] ≠ .error Err.outOfFuel := by
      intro hc
      rw [hc] at hne
      exact hne rfl
    rw [readAllLengths_mono _ _ _ r1 [] hra (f + 1 + hlit + hdist) (by omega)]

end Deflate

namespace Deflate

theorem blockBody_enough (D : List Nat) (fuel blockType : Nat) (r : BitReader)
    (output : List Nat) (hv : r.Valid D) (hf : 8 * D.length < r.bitOffset + fuel + 1) :
    blockBody D fuel blockType r output ≠ .error Err.outOfFuel := by
  by_cases c0 : blockType = 0
  · subst c0
    intro h
    unfold blockBody at h
    rw [if_pos rfl] at h
    dsimp only at h
    split_ifs at h with c3
    · cases h
    · generalize (D.getD r.alignToByte.byte_pos 0
        ||| D.getD (r.alignToByte.byte_pos + 1) 0 <<< 8) % 2 ^ 16 = len at h
      cases hc : copyStored D len (r.alignToByte.byte_pos + 4) output with
      | error e =>
        rw [hc] at h
        simp only [Except.error.injEq] at h
        rw [h] at hc
        exact copyStored_fuel D _ _ _ hc
      | ok p => rw [hc] at h; cases h
  · by_cases c1 : blockType = 1
    · subst c1
      unfold blockBody
      rw [if_neg c0, if_pos rfl]
      exact decodeBlock_enough D _ _ _ r output hv (by omega)
    · by_cases c2 : blockType = 2
      · subst c2
        rw [blockBody_dynamic]
        intro h
        cases hd : dynamicHeader fuel r with
        | error e =>
          rw [hd] at h
          simp only [Except.error.injEq] at h
          rw [h] at hd
          exact dynamicHeader_enough D fuel r hv hf hd
        | ok p =>
          obtain ⟨r1, hlit, hdist, ll, dl⟩ := p
          rw [hd] at h
          obtain ⟨hv1, ho1⟩ := dynamicHeader_valid D fuel r r1 hlit hdist ll dl hv hd
          exact decodeBlock_enough D _ _ _ r1 output hv1 (by omega) h
      · unfold blockBody
        rw [if_neg c0, if_neg c1, if_neg c2]
        intro h
        cases h

theorem blockBody_mono (D : List Nat) (fuel f blockType : Nat) (r : BitReader)
    (output : List Nat) (hne : blockBody D fuel blockType r output ≠ .error Err.outOfFuel)
    (hle : fuel ≤ f) :
    blockBody D f blockType r output = blockBody D fuel blockType r output := by
  by_cases c0 : blockType = 0
  · subst c0
    unfold blockBody
    rw [if_pos rfl, if_pos rfl]
  · by_cases c1 : blockType = 1
    · subst c1
      unfold blockBody at hne ⊢
      rw [if_neg c0, if_pos rfl] at hne ⊢
      rw [if_neg c0, if_pos rfl]
      exact decodeBlock_mono _ _ _ r output hne (f + 1) (by omega)
    · by_cases c2 : blockType = 2
      · subst c2
        rw [blockBody_dynamic] at hne
        rw [blockBody_dynamic D f, blockBody_dynamic D fuel]
        have hd : dynamicHeader fuel r ≠ .error Err.outOfFuel := by
          intro hc
          rw [hc] at hne
          exact hne rfl
        rw [dynamicHeader_mono fuel f r hd hle]
        cases hh : dynamicHeader fuel r with
        | error e => rfl
        | ok p =>
          obtain ⟨r1, hlit, hdist, ll, dl⟩ := p
          rw [hh] at hne
          exact decodeBlock_mono _ _ _ r1 output hne (f + 1) (by omega)
      · unfold blockBody
        rw [if_neg c0, if_neg c1, if_neg c2, if_neg c0, if_neg c1, if_neg c2]

theorem blockStep_enough (D : List Nat) (fuel : Nat) (r : BitReader) (output : List Nat)
    (hv : r.Valid D) (hf : 8 * D.length < r.bitOffset + fuel + 1) :
    blockStep D fuel r output ≠ .error Err.outOfFuel := by
  intro h
  unfold blockStep at h
  cases h1 : r.readBits 1 with
  | error e =>
    rw [h1] at h
    simp only [Except.error.injEq] at h
    rw [h] at h1
    exact readBits_fuel r 1 h1
  | ok p1 =>
    obtain ⟨bfinal, ra⟩ := p1
    rw [h1] at h
    obtain ⟨hva, hoa⟩ := readBits_valid D r ra 1 bfinal hv h1
    dsimp only at h
    cases h2 : ra.readBits 2 with
    | error e =>
      rw [h2] at h
      simp only [Except.error.injEq] at h
      rw [h] at h2
      exact readBits_fuel ra 2 h2
    | ok p2 =>
      obtain ⟨blockType, rb⟩ := p2
      rw [h2] at h
      obtain ⟨hvb, hob⟩ := readBits_valid D ra rb 2 blockType hva h2
      dsimp only at h
      cases h3 : blockBody D fuel blockType rb output with
      | error e =>
        rw [h3] at h
        simp only [Except.error.injEq] at h
        rw [h] at h3
        exact blockBody_enough D fuel blockType rb output hvb (by omega) h3
      | ok p3 => rw [h3] at h; cases h

theorem blockStep_mono (D : List Nat) (fuel f : Nat) (r : BitReader) (output : List Nat)
    (hne : blockStep D fuel r output ≠ .error Err.outOfFuel) (hle : fuel ≤ f) :
    blockStep D f r output = blockStep D fuel r output := by
  unfold blockStep at hne ⊢
  cases h1 : r.readBits 1 with
  | error e => rfl
  | ok p1 =>
    obtain ⟨bfinal, ra⟩ := p1
    rw [h1] at hne
    dsimp only at hne ⊢
    cases h2 : ra.readBits 2 with
    | error e => rfl
    | ok p2 =>
      obtain ⟨blockType, rb⟩ := p2
      rw [h2] at hne
      dsimp only at hne ⊢
      have hb : blockBody D fuel blockType rb output ≠ .error Err.outOfFuel := by
        intro hc
        rw [hc] at hne
        exact hne rfl
      rw [blockBody_mono D fuel f blockType rb output hb hle]

/-- With more iterations allowed than bits are left in the data, the block
loop of `decompress` ends by itself, and so do the loops inside each block. -/
theorem blockLoop_enough (D : List Nat) : ∀ (fuel : Nat) (r : BitReader) (output : List Nat),
    r.Valid D → 8 * D.length < r.bitOffset + fuel →
    blockLoop D fuel r output ≠ .error Err.outOfFuel := by
  intro fuel
  induction fuel with
  | zero =>
    intro r output hv hf
    have := hv.2.2
    omega
  | succ fuel ih =>
    intro r output hv hf h
    rw [blockLoop_eq_blockStep] at h
    cases hs : blockStep D fuel r output with
    | error e =>
      rw [hs] at h
      simp only [Except.error.injEq] at h
      rw [h] at hs
      exact blockStep_enough D fuel r output hv (by omega) hs
    | ok p =>
      obtain ⟨fin, r1, out1⟩ := p
      rw [hs] at h
      obtain ⟨hv1, ho1⟩ := blockStep_valid D fuel r r1 output out1 fin hv hs
      cases fin with
      | true => cases h
      | false =>
        simp only [Bool.false_eq_true, if_false] at h
        exact ih r1 out1 hv1 (by omega) h

/-- A run of the block loop that ends by itself is the same under every
larger bound. -/
theorem blockLoop_mono (D : List Nat) : ∀ (fuel : Nat) (r : BitReader) (output : List Nat),
    blockLoop D fuel r output ≠ .error Err.outOfFuel →
    ∀ f, fuel ≤ f → blockLoop D f r output = blockLoop D fuel r output := by
  intro fuel
  induction fuel with
  | zero =>
    intro r output hne
    exact absurd (by rw [blockLoop]) hne
  | succ fuel ih =>
    intro r output hne f hle
    obtain ⟨g, rfl⟩ : ∃ g, f = g + 1 := ⟨f - 1, by omega⟩
    rw [blockLoop_eq_blockStep] at hne
    rw [blockLoop_eq_blockStep D g, blockLoop_eq_blockStep D fuel]
    have hb : blockStep D fuel r output ≠ .error Err.outOfFuel := by
      intro hc
      rw [hc] at hne
      exact hne rfl
    rw [blockStep_mono D fuel g r output hb (by omega)]
    cases hs : blockStep D fuel r output with
    | error e => rfl
    | ok p =>
      obtain ⟨fin, r1, out1⟩ := p
      rw [hs] at hne
      cases fin with
      | true => rfl
      | false =>
        simp only [Bool.false_eq_true, if_false] at hne ⊢
        exact ih r1 out1 hne g (by omega)

theorem payload_start_valid (D : List Nat) : BitReader.Valid D ⟨D, 0, 0⟩ :=
  ⟨rfl, Nat.zero_lt_succ 7, by simp [BitReader.bitOffset]⟩

end Deflate

namespace Deflate

theorem decompress_fuel (data : List Nat) : decompress data ≠ .error Err.outOfFuel := by
  by_cases h6 : 6 ≤ data.length
  · rw [decompress_eq_blockLoop data h6]
    refine blockLoop_enough (payload data) _ _ _ (payload_start_valid _) ?_
    show 8 * (payload data).length < 8 * 0 + 0 + (8 * (payload data).length + 1)
    omega
  · unfold decompress
    intro h
    split_ifs at h with c1 c2
    · cases h
    · cases h
    · omega

/-- C31. For every input byte sequence `decompress` ends: its result is an
output or an error of the program, never the exhaustion of the iteration bound
of the model, and the block loop gives this same result under every larger
bound (the bound is also the one handed to the loops inside a block).  The
reason is the progress of the three unbounded loops: every iteration of the
block loop that does not fail reads at least three bits, every iteration of
the literal/length loop of `decodeBlock` that does not fail reads at least one
bit, and every iteration of the code-length loop of the dynamic header that
does not fail reads at least one bit and, the code-length tree having at most
19 symbols, appends at least one code length; after each of them the reader is
still inside the data. -/
theorem decompress_terminates (data : List Nat) :
    ((∃ out, decompress data = .ok out) ∨
      (∃ e, decompress data = .error e ∧ e ≠ Err.outOfFuel)) ∧
    (6 ≤ data.length → ∀ fuel, 8 * (payload data).length + 1 ≤ fuel →
      blockLoop (payload data) fuel ⟨payload data, 0, 0⟩ [] = decompress data) ∧
    (∀ (fuel : Nat) (r r1 : BitReader) (output out1 : List Nat) (fin : Bool),
      r.Valid (payload data) →
      blockStep (payload data) fuel r output = .ok (fin, r1, out1) →
      r1.Valid (payload data) ∧ r.bitOffset + 3 ≤ r1.bitOffset) ∧
    (∀ (litLen dist : HuffmanTree) (r r1 : BitReader) (output out1 : List Nat) (fin : Bool),
      r.Valid (payload data) →
      decodeStep r litLen dist output = .ok (fin, r1, out1) →
      r1.Valid (payload data) ∧ r.bitOffset + 1 ≤ r1.bitOffset) ∧
    (∀ (tree : HuffmanTree) (r r1 : BitReader) (al al1 : List Nat),
      r.Valid (payload data) →
      lengthStep tree r al = .ok (r1, al1) →
      r1.Valid (payload data) ∧ r.bitOffset + 1 ≤ r1.bitOffset ∧
        (tree.lengths.length ≤ 19 → al.length + 1 ≤ al1.length)) := by
  refine ⟨?_, ?_, ?_, ?_, ?_⟩
  · have hne := decompress_fuel data
    cases h : decompress data with
    | ok out => exact Or.inl ⟨out, rfl⟩
    | error e =>
      refine Or.inr ⟨e, rfl, ?_⟩
      intro he
      rw [he] at h
      exact hne h
  · intro h6 fuel hle
    have hne := decompress_fuel data
    rw [decompress_eq_blockLoop data h6] at hne ⊢
    exact blockLoop_mono (payload data) _ _ _ hne fuel hle
  · intro fuel r r1 output out1 fin hv h
    exact blockStep_valid (payload data) fuel r r1 output out1 fin hv h
  · intro litLen dist r r1 output out1 fin hv h
    exact decodeStep_valid (payload data) r r1 litLen dist output out1 fin hv h
  · intro tree r r1 al al1 hv h
    exact lengthStep_valid (payload data) tree r r1 al al1 hv h

/-- Witness for C31: the zlib stream 78 01 03 00 with a four-byte trailer
(one fixed-Huffman block that holds only the end-of-block code): the result is
an output or an error of the program, and the block loop gives it under the
bound 100 as well. -/
theorem decompress_terminates_witness :
    ((∃ out, decompress [0x78, 0x01, 0x03, 0x00, 0, 0, 0, 0] = .ok out) ∨
      (∃ e, decompress [0x78, 0x01, 0x03, 0x00, 0, 0, 0, 0] = .error e ∧
        e ≠ Err.outOfFuel)) ∧
    blockLoop (payload [0x78, 0x01, 0x03, 0x00, 0, 0, 0, 0]) 100
        ⟨payload [0x78, 0x01, 0x03, 0x00, 0, 0, 0, 0], 0, 0⟩ []
      = decompress [0x78, 0x01, 0x03, 0x00, 0, 0, 0, 0] :=
  ⟨(decompress_terminates [0x78, 0x01, 0x03, 0x00, 0, 0, 0, 0]).1,
    (decompress_terminates [0x78, 0x01, 0x03, 0x00, 0, 0, 0, 0]).2.1 (by decide) 100
      (by decide)⟩

end Deflate
